import Mathlib

/-!
# Xacto server: transaction manager and versioned object store

A shallow embedding of `src/src/transaction.c`, `src/src/data.c` and
`src/src/store.c`.

## Memory model

* Transactions and blobs live in two heaps, `State.trans` and `State.blobs`.
  A pointer is an index into the heap; `Malloc` appends a cell, so addresses
  are never reused.  `Free` sets the ghost field `freed` of the cell and keeps
  its last contents, so that a specification can still speak about the final
  status of a released transaction.  Every access the C code makes through a
  pointer to a released cell is a `Fault.useAfterFree`; an access through a
  pointer outside the heap is a `Fault.wildPointer`.
* A version list (`MAP_ENTRY.versions`, linked through `VERSION.next`) is a
  `List VERSION`, in link order.  A `VERSION *` into the list is an index.  A
  node that was passed to `Free` while still linked stays in the list with
  `freed := true`; a node that was unlinked is dropped from the list.
* The code runs as one thread: the mutexes are no-ops, `V` increments the
  semaphore field and `P` on a semaphore whose value is zero is the outcome
  `Fault.blocked` (the caller would never return).
* C `int` fields are `Int`.  The hash and the id counter `trans_ID` are
  reduced to the range of a 32-bit `int` after every step (`wrap32`); the
  reference counts and the wait counts are not reduced.
* The `debug` macro of `debug.h` (not among the sources) is taken to expand to
  nothing, so its arguments are not evaluated.
-/

namespace Xacto

/-! ## Outcomes -/

/-- Ways in which a call does not return normally. -/
inductive Fault where
  /-- A read or write through a pointer to released storage. -/
  | useAfterFree
  /-- A read or write through a pointer that was never allocated. -/
  | wildPointer
  /-- A read or write through `NULL`. -/
  | nullDeref
  /-- A read of a local pointer variable that was never assigned. -/
  | uninitialised
  /-- The process called `abort()`. -/
  | processAbort
  /-- The thread waits in `P` on a semaphore nobody will post. -/
  | blocked
  /-- The recursion bound of the model was exhausted. -/
  | fuel
  deriving DecidableEq, Repr

/-- Result of running a C function of the model. -/
inductive Res (α : Type) where
  | ok (a : α)
  | fault (f : Fault)
  deriving DecidableEq, Repr

/-- Sequencing of results: the first fault wins. -/
def Res.bind {α β : Type} (x : Res α) (f : α → Res β) : Res β :=
  match x with
  | .ok a => f a
  | .fault e => .fault e

instance : Monad Res where
  pure := Res.ok
  bind := Res.bind

/-! ## Data model -/

/-- The enum `TRANS_STATUS` of `transaction.h`. -/
inductive TRANS_STATUS where
  | TRANS_PENDING
  | TRANS_COMMITTED
  | TRANS_ABORTED
  deriving DecidableEq, Repr

export TRANS_STATUS (TRANS_PENDING TRANS_COMMITTED TRANS_ABORTED)

/-- The struct `TRANSACTION`.  The field `depends` is the linked list of
`DEPENDENCY` nodes, head first; `sem` is the value of the semaphore; `freed`
is the ghost flag set by `Free`.  The list links `next`/`prev` are kept in
`State.trans_list`. -/
structure TRANSACTION where
  id : Int
  refcnt : Int
  status : TRANS_STATUS
  depends : List Nat
  waitcnt : Int
  sem : Nat
  freed : Bool
  deriving DecidableEq, Repr

/-- A byte of blob content. -/
abbrev Byte := Fin 256

/-- The struct `BLOB`: reference count, size and content, with the ghost flag
`freed`. -/
structure BLOB where
  refcnt : Int
  size : Nat
  content : List Byte
  freed : Bool
  deriving DecidableEq, Repr

/-- The struct `KEY`: the cached hash and the blob pointer (`none` is `NULL`). -/
structure KEY where
  hash : Int
  blob : Option Nat
  deriving DecidableEq, Repr

/-- The struct `VERSION`: creator pointer, blob pointer (`none` is `NULL`) and
the ghost flag `freed`.  The `next` link is the position in the list. -/
structure VERSION where
  creator : Nat
  blob : Option Nat
  freed : Bool
  deriving DecidableEq, Repr

/-- The struct `MAP_ENTRY`: its key and its version list; the `next` link is
the position in the bucket chain. -/
structure MAP_ENTRY where
  key : KEY
  versions : List VERSION
  deriving DecidableEq, Repr

/-- Modelled from the spec: the constant `NUM_BUCKETS` of `store.h`, which is
not among the sources; the spec fixes it at 8, and `findMapEntry` reduces the
hash modulo the literal 8. -/
def NUM_BUCKETS : Nat := 8

/-- The whole program state: both heaps, the bucket array `store.table`, the
global transaction list (pointers, in list order, without the sentinel) and the
id counter `trans_ID`. -/
structure State where
  trans : List TRANSACTION
  blobs : List BLOB
  table : List (List MAP_ENTRY)
  trans_list : List Nat
  trans_ID : Int
  deriving DecidableEq, Repr

/-- The state after `trans_init` and `store_init`. -/
def State.init : State :=
  { trans := [], blobs := [], table := List.replicate NUM_BUCKETS [],
    trans_list := [], trans_ID := 0 }

/-! ## Heap access -/

/-- Read through a `TRANSACTION *`. -/
def derefT (s : State) (tp : Nat) : Res TRANSACTION :=
  match s.trans[tp]? with
  | none => .fault .wildPointer
  | some t => if t.freed then .fault .useAfterFree else .ok t

/-- Write a transaction cell. -/
def writeT (s : State) (tp : Nat) (t : TRANSACTION) : State :=
  { s with trans := s.trans.set tp t }

/-- Read through a `BLOB *`. -/
def derefB (s : State) (bp : Nat) : Res BLOB :=
  match s.blobs[bp]? with
  | none => .fault .wildPointer
  | some b => if b.freed then .fault .useAfterFree else .ok b

/-- Write a blob cell. -/
def writeB (s : State) (bp : Nat) (b : BLOB) : State :=
  { s with blobs := s.blobs.set bp b }

/-- Read through a `VERSION *` that points at position `i` of the list. -/
def readV (vs : List VERSION) (i : Nat) : Res VERSION :=
  match vs[i]? with
  | none => .fault .wildPointer
  | some v => if v.freed then .fault .useAfterFree else .ok v

/-- The value of `p->next` for the node at position `i`. -/
def nextV (vs : List VERSION) (i : Nat) : Option Nat :=
  if i + 1 < vs.length then some (i + 1) else none

/-- Mark the node at position `i` as released (`Free(vp)` on a linked node). -/
def freeV (vs : List VERSION) (i : Nat) : List VERSION :=
  match vs[i]? with
  | none => vs
  | some v => vs.set i { v with freed := true }

/-! ## transaction.c -/

/-- Reduce an integer to the range of a 32-bit two's complement `int`. -/
def wrap32 (x : Int) : Int := (x + 2147483648) % 4294967296 - 2147483648

/-- `trans_get_status`: read `tp->status`. -/
def trans_get_status (s : State) (tp : Nat) : Res TRANS_STATUS := do
  let t ← derefT s tp
  pure t.status

/-- `trans_ref`: increment `tp->refcnt`. -/
def trans_ref (s : State) (tp : Nat) : Res State := do
  let t ← derefT s tp
  pure (writeT s tp { t with refcnt := t.refcnt + 1 })

/-- The walk of `trans_unref` over the global list that unlinks `tp`: every
node before `tp` is read for its `next` field, and the neighbours of `tp` are
written (the predecessor was just read; the successor, if it is not the
sentinel, is written through `next->prev`). -/
def unlinkTrans (s : State) (tp : Nat) : List Nat → Res (List Nat)
  | [] => pure []
  | c :: rest =>
    if c = tp then
      match rest with
      | [] => pure []
      | n :: _ => do
        let _ ← derefT s n
        pure rest
    else do
      let _ ← derefT s c
      let r ← unlinkTrans s tp rest
      pure (c :: r)

/-- `trans_unref` with a bound on the depth of the recursion through the
dependency lists: decrement `tp->refcnt`; when it reaches zero, release every
dependency, unlink `tp` from the global list and free it. -/
def trans_unrefAux : Nat → State → Nat → Res State
  | 0, _, _ => .fault .fuel
  | n + 1, s, tp => do
    let t ← derefT s tp
    let s1 := writeT s tp { t with refcnt := t.refcnt - 1 }
    if t.refcnt - 1 = 0 then do
      let s2 ← t.depends.foldlM (fun acc d => trans_unrefAux n acc d) s1
      let t2 ← derefT s2 tp
      let l ← unlinkTrans s2 tp s2.trans_list
      pure { writeT s2 tp { t2 with freed := true } with trans_list := l }
    else
      pure s1

/-- `trans_unref`.  Each level of the recursion takes one cell from reference
count 1 to 0, so the number of cells bounds the depth. -/
def trans_unref (s : State) (tp : Nat) : Res State :=
  trans_unrefAux (s.trans.length + 1) s tp

/-- The write `last->next = tp` of `trans_create`: the last node of the global
list, when there is one, is written. -/
def linkLast (s : State) : Res Unit :=
  match s.trans_list.getLast? with
  | none => pure ()
  | some last => do
    let _ ← derefT s last
    pure ()

/-- `trans_create`: allocate a transaction with the next id, status pending,
no dependencies, wait count 0 and semaphore 0, append it to the global list
and take the first reference.  The counter is the global `int trans_ID`, and
`trans_ID++` at the greatest `int` continues at the least one, as on the build
target. -/
def trans_create (s : State) : Res (Nat × State) := do
  let _ ← linkLast s
  let s2 ← trans_ref
    { s with trans := s.trans ++ [{ id := s.trans_ID, refcnt := 0, status := TRANS_PENDING,
                                    depends := [], waitcnt := 0, sem := 0, freed := false }],
             trans_ID := wrap32 (s.trans_ID + 1),
             trans_list := s.trans_list ++ [s.trans.length] } s.trans.length
  pure (s.trans.length, s2)

/-- `trans_add_dependency`: push `dtp` on the front of `tp->depends` and take a
reference on `dtp`.  Both branches of the C function build the same list. -/
def trans_add_dependency (s : State) (tp dtp : Nat) : Res State := do
  let t ← derefT s tp
  let s1 := writeT s tp { t with depends := dtp :: t.depends }
  trans_ref s1 dtp

/-- `V` called `cnt` times on `tp->sem`. -/
def postAll (s : State) (tp : Nat) : Res State := do
  let t ← derefT s tp
  pure (writeT s tp { t with sem := t.sem + t.waitcnt.toNat })

/-- `trans_abort`. -/
def trans_abort (s : State) (tp : Nat) : Res (TRANS_STATUS × State) := do
  let st ← trans_get_status s tp
  if st = TRANS_COMMITTED then
    .fault .processAbort
  else if st = TRANS_ABORTED then do
    let s1 ← postAll s tp
    let s2 ← trans_unref s1 tp
    pure (TRANS_ABORTED, s2)
  else do
    let t ← derefT s tp
    let s0 := writeT s tp { t with status := TRANS_ABORTED }
    let s1 ← postAll s0 tp
    let s2 ← trans_unref s1 tp
    pure (TRANS_ABORTED, s2)

/-- The first loop of `trans_commit`: for every dependency that is still
pending, increment its wait count and wait on its semaphore. -/
def commitWait (s : State) : List Nat → Res State
  | [] => pure s
  | d :: rest => do
    let st ← trans_get_status s d
    if st ≠ TRANS_PENDING then
      commitWait s rest
    else do
      let t ← derefT s d
      if t.sem = 0 then
        .fault .blocked
      else
        commitWait (writeT s d { t with waitcnt := t.waitcnt + 1, sem := t.sem - 1 }) rest

/-- The second loop of `trans_commit`: is some dependency aborted?  The scan
stops at the first aborted dependency. -/
def commitCheck (s : State) : List Nat → Res Bool
  | [] => pure false
  | d :: rest => do
    let st ← trans_get_status s d
    if st = TRANS_ABORTED then pure true else commitCheck s rest

/-- `trans_commit`. -/
def trans_commit (s : State) (tp : Nat) : Res (TRANS_STATUS × State) := do
  let t ← derefT s tp
  let s1 ← commitWait s t.depends
  let t1 ← derefT s1 tp
  let ab ← commitCheck s1 t1.depends
  if ab then
    trans_abort s1 tp
  else do
    let t2 ← derefT s1 tp
    let s2 := writeT s1 tp { t2 with status := TRANS_COMMITTED }
    let s3 ← postAll s2 tp
    let s4 ← trans_unref s3 tp
    pure (TRANS_COMMITTED, s4)

/-! ## data.c -/

/-- `blob_ref`: increment the reference count; `NULL` is returned unchanged. -/
def blob_ref (s : State) (bp : Option Nat) : Res State :=
  match bp with
  | none => pure s
  | some p => do
    let b ← derefB s p
    pure (writeB s p { b with refcnt := b.refcnt + 1 })

/-- `blob_unref`: decrement the reference count and free the blob when it
reaches zero; `NULL` is ignored. -/
def blob_unref (s : State) (bp : Option Nat) : Res State :=
  match bp with
  | none => pure s
  | some p => do
    let b ← derefB s p
    if b.refcnt - 1 = 0 then
      pure (writeB s p { b with refcnt := b.refcnt - 1, freed := true })
    else
      pure (writeB s p { b with refcnt := b.refcnt - 1 })

/-- `blob_create`: `NULL` content gives `NULL`; otherwise a new blob holding
the first `size` bytes of the buffer, with reference count 1.  A buffer shorter
than `size` is read past its end. -/
def blob_create (s : State) (content : Option (List Byte)) (size : Nat) :
    Res (Option Nat × State) :=
  match content with
  | none => pure (none, s)
  | some bytes =>
    if bytes.length < size then
      .fault .wildPointer
    else do
      let bp := s.blobs.length
      let b : BLOB := { refcnt := 0, size := size, content := bytes.take size, freed := false }
      let s1 ← blob_ref { s with blobs := s.blobs ++ [b] } (some bp)
      pure (some bp, s1)

/-- The result of `memcmp` on two buffers of equal length: zero when they agree,
otherwise the difference of the first pair of bytes that differ. -/
def memcmpBytes : List Byte → List Byte → Int
  | a :: as, b :: bs => if a = b then memcmpBytes as bs else (a.val : Int) - (b.val : Int)
  | _, _ => 0

/-- `blob_compare`: `memcmp` over the content when the sizes agree, else 1. -/
def blob_compare (s : State) (bp1 bp2 : Option Nat) : Res Int :=
  match bp1, bp2 with
  | some p1, some p2 => do
    let b1 ← derefB s p1
    let b2 ← derefB s p2
    if b1.size = b2.size then
      pure (memcmpBytes (b1.content.take b1.size) (b2.content.take b1.size))
    else
      pure 1
  | _, _ => .fault .nullDeref

/-- The value of a byte read through `char *` (a signed type on the build
target). -/
def charVal (b : Byte) : Int := if b.val < 128 then (b.val : Int) else (b.val : Int) - 256

/-- The loop of `blob_hash` over the NUL-terminated copy made by `strndup`. -/
def hashLoop (h : Int) : List Byte → Int
  | [] => h
  | b :: rest =>
    if b.val = 0 then h
    else hashLoop (wrap32 (wrap32 (h + wrap32 (h * 32)) + charVal b)) rest

/-- `blob_hash`: -1 for `NULL`, else the hash of the bytes before the first zero
byte among the first `size` bytes. -/
def blob_hash (s : State) (bp : Option Nat) : Res Int :=
  match bp with
  | none => pure (-1)
  | some p => do
    let b ← derefB s p
    pure (hashLoop 6823 (b.content.take b.size))

/-- `key_create`: the key caches the hash and inherits the blob reference. -/
def key_create (s : State) (bp : Option Nat) : Res KEY := do
  let h ← blob_hash s bp
  pure { hash := h, blob := bp }

/-- `key_dispose`: release the blob reference held by the key. -/
def key_dispose (s : State) (kp : KEY) : Res State :=
  blob_unref s kp.blob

/-- `key_compare`: `blob_compare` when the cached hashes agree, else 1. -/
def key_compare (s : State) (kp1 kp2 : KEY) : Res Int :=
  if kp1.hash = kp2.hash then blob_compare s kp1.blob kp2.blob else pure 1

/-- `version_create` for a non-null transaction: take a reference on the
creator; the version inherits the blob reference. -/
def version_create (s : State) (tp : Nat) (bp : Option Nat) : Res (VERSION × State) := do
  let s1 ← trans_ref s tp
  pure ({ creator := tp, blob := bp, freed := false }, s1)

/-- `version_dispose`, up to the final `Free(vp)`, which the caller records in
the list: release the creator reference, then the blob reference. -/
def version_dispose (s : State) (v : VERSION) : Res State := do
  let s1 ← trans_unref s v.creator
  blob_unref s1 v.blob

/-! ## store.c -/

/-- A `MAP_ENTRY *`: bucket number and position in the bucket chain. -/
abbrev Loc := Nat × Nat

/-- The map entry a pointer designates. -/
def entryAt (s : State) (loc : Loc) : Option MAP_ENTRY :=
  match s.table[loc.1]? with
  | none => none
  | some chain => chain[loc.2]?

/-- The version list of the entry at `loc` (empty when there is no entry). -/
def versionsAt (s : State) (loc : Loc) : List VERSION :=
  match entryAt s loc with
  | none => []
  | some e => e.versions

/-- Store `vs` as the version list of the entry at `loc`. -/
def setVersions (s : State) (loc : Loc) (vs : List VERSION) : State :=
  match s.table[loc.1]? with
  | none => s
  | some chain =>
    match chain[loc.2]? with
    | none => s
    | some e => { s with table := s.table.set loc.1 (chain.set loc.2 { e with versions := vs }) }

/-- The inner loop of the search in `findMapEntry`: the position in the chain
of the first entry whose key compares equal to `key`. -/
def findInChain (s : State) (key : KEY) : List MAP_ENTRY → Nat → Res (Option Nat)
  | [], _ => pure none
  | e :: rest, j => do
    let c ← key_compare s key e.key
    if c = 0 then pure (some j) else findInChain s key rest (j + 1)

/-- The outer loop of the search in `findMapEntry`, over the buckets from `i`
on, in order. -/
def findInTable (s : State) (key : KEY) : List (List MAP_ENTRY) → Nat → Res (Option Loc)
  | [], _ => pure none
  | chain :: rest, i => do
    let r ← findInChain s key chain 0
    match r with
    | some j => pure (some (i, j))
    | none => findInTable s key rest (i + 1)

/-- The bucket of a key: `unsigned long bucket = key->hash; bucket %= 8`.  The
conversion is modulo a power of two that 8 divides, so the result is the
non-negative remainder of the hash. -/
def bucketOf (key : KEY) : Nat := (key.hash % 8).toNat

/-- `findMapEntry`: the entry whose key equals `key`, disposing `key`; or a new
entry with no versions at the end of the chain of the key's bucket. -/
def findMapEntry (s : State) (key : KEY) : Res (Loc × State) := do
  let r ← findInTable s key (s.table.take NUM_BUCKETS) 0
  match r with
  | some loc => do
    let s1 ← key_dispose s key
    pure (loc, s1)
  | none =>
    let b := bucketOf key
    match s.table[b]? with
    | none => .fault .wildPointer
    | some chain =>
      pure ((b, chain.length),
        { s with table := s.table.set b (chain ++ [{ key := key, versions := [] }]) })

/-- The value of a local `VERSION *` variable of `garbageCollect`: never
assigned, pointing at a node of the list, or pointing at a node that has been
unlinked and released. -/
inductive VPtr where
  | uninit
  | node (i : Nat)
  | released
  deriving DecidableEq, Repr

/-- Does `memcmp(p, q, sizeof(VERSION))` return non-zero?  Both nodes are read.
Two distinct live nodes of one list differ in their `next` field, so the
contents agree exactly when the pointers do. -/
def memcmpV (vs : List VERSION) (p : Option Nat) (q : VPtr) : Res Bool :=
  match p with
  | none => .fault .nullDeref
  | some i => do
    let _ ← readV vs i
    match q with
    | .uninit => .fault .uninitialised
    | .released => .fault .useAfterFree
    | .node j => do
      let _ ← readV vs j
      pure (i != j)

/-- The first loop of `garbageCollect`, from position `i` on: the last version
whose creator is committed and the first whose creator is aborted. -/
def gcScan (s : State) : List VERSION → Nat → VPtr → VPtr → Bool → Res (VPtr × VPtr)
  | [], _, latestCommit, earliestAbort, _ => pure (latestCommit, earliestAbort)
  | v :: rest, i, latestCommit, earliestAbort, flag =>
    if v.freed then .fault .useAfterFree
    else do
      let status ← trans_get_status s v.creator
      if status = TRANS_COMMITTED then gcScan s rest (i + 1) (.node i) earliestAbort flag
      else if status = TRANS_ABORTED ∧ flag = true then
        gcScan s rest (i + 1) latestCommit (.node i) false
      else gcScan s rest (i + 1) latestCommit earliestAbort flag

/-- The step `prev = cur; if(cur != NULL) cur = cur->next;`. -/
def advance (vs : List VERSION) (cur : Option Nat) : Res (Option Nat × Option Nat) :=
  match cur with
  | none => pure (none, none)
  | some c => do
    let _ ← readV vs c
    pure (some c, nextV vs c)

/-- The second loop of `garbageCollect` (`while(prev != NULL)`), returning the
state, the list and the final `prev`, `cur` and `flag`. -/
def gcLoop2 : Nat → State → List VERSION → Option Nat → Option Nat → VPtr → Bool →
    Res (State × List VERSION × Option Nat × Option Nat × Bool)
  | 0, _, _, _, _, _, _ => .fault .fuel
  | _ + 1, s, vs, none, cur, _, flag => pure (s, vs, none, cur, flag)
  | n + 1, s, vs, some p, cur, latestCommit, flag => do
    let vp ← readV vs p
    let status ← trans_get_status s vp.creator
    if cur = none ∧ status = TRANS_COMMITTED ∧ flag = true then do
      let (prev1, cur1) ← advance vs cur
      gcLoop2 n s vs prev1 cur1 latestCommit false
    else if status = TRANS_COMMITTED then do
      let differs ← memcmpV vs (some p) latestCommit
      if differs = false then do
        let s1 ← version_dispose s vp
        let vs1 := freeV vs p
        let (prev1, cur1) ← advance vs1 cur
        gcLoop2 n s1 vs1 prev1 cur1 latestCommit flag
      else do
        let differs2 ← memcmpV vs cur latestCommit
        if differs2 = true then
          pure (s, vs, some p, cur, false)
        else do
          let (prev1, cur1) ← advance vs cur
          gcLoop2 n s vs prev1 cur1 latestCommit flag
    else do
      let (prev1, cur1) ← advance vs cur
      gcLoop2 n s vs prev1 cur1 latestCommit flag

/-- The value of a local pointer after the node at position `c` was unlinked
and released. -/
def VPtr.afterUnlink (c : Nat) : VPtr → VPtr
  | .uninit => .uninit
  | .released => .released
  | .node j => if j = c then .released else if c < j then .node (j - 1) else .node j

/-- The step `prev = prev->next; cur = prev->next;`. -/
def advance2 (vs : List VERSION) (prev : Option Nat) : Res (Option Nat × Option Nat) :=
  match prev with
  | none => .fault .nullDeref
  | some p => do
    let _ ← readV vs p
    match nextV vs p with
    | none => .fault .nullDeref
    | some q => do
      let _ ← readV vs q
      pure (some q, nextV vs q)

/-- The loop of `garbageCollect` that runs when `flag` was cleared
(`while(cur != NULL)`), returning the state, the list and `earliestAbort`. -/
def gcLoop2b : Nat → State → List VERSION → Option Nat → Option Nat → VPtr → VPtr →
    Res (State × List VERSION × VPtr)
  | 0, _, _, _, _, _, _ => .fault .fuel
  | _ + 1, s, vs, _, none, _, earliestAbort => pure (s, vs, earliestAbort)
  | n + 1, s, vs, prev, some c, latestCommit, earliestAbort => do
    let vc ← readV vs c
    let status ← trans_get_status s vc.creator
    if status = TRANS_COMMITTED then do
      let differs ← memcmpV vs (some c) latestCommit
      if differs = false then
        match prev with
        | none => .fault .nullDeref
        | some p => do
          let _ ← readV vs p
          let vs1 := vs.take (p + 1) ++ vs.drop (c + 1)
          let s1 ← version_dispose s vc
          let (prev1, cur1) ← advance2 vs1 prev
          gcLoop2b n s1 vs1 prev1 cur1 (latestCommit.afterUnlink c) (earliestAbort.afterUnlink c)
      else
        pure (s, vs, earliestAbort)
    else do
      let (prev1, cur1) ← advance2 vs prev
      gcLoop2b n s vs prev1 cur1 latestCommit earliestAbort

/-- The inner loop of the last part of `garbageCollect`: abort the creator of
every version from `prev` on and dispose the version, leaving it linked. -/
def gcCascade : Nat → State → List VERSION → Option Nat → Option Nat →
    Res (State × List VERSION)
  | 0, _, _, _, _ => .fault .fuel
  | _ + 1, s, vs, none, _ => pure (s, vs)
  | n + 1, s, vs, some p, cur => do
    let vp ← readV vs p
    let (_, s1) ← trans_abort s vp.creator
    let s2 ← version_dispose s1 vp
    let vs1 := freeV vs p
    let (prev1, cur1) ← advance vs1 cur
    gcCascade n s2 vs1 prev1 cur1

/-- The last loop of `garbageCollect` (`while(prev != NULL)`). -/
def gcLoop3 : Nat → State → List VERSION → Option Nat → Option Nat → VPtr →
    Res (State × List VERSION)
  | 0, _, _, _, _, _ => .fault .fuel
  | _ + 1, s, vs, none, _, _ => pure (s, vs)
  | n + 1, s, vs, some p, cur, earliestAbort => do
    let vp ← readV vs p
    let status ← trans_get_status s vp.creator
    if status = TRANS_ABORTED then do
      let differs ← memcmpV vs (some p) earliestAbort
      if differs = true then
        gcCascade (vs.length + 1) s vs (some p) cur
      else do
        let (prev1, cur1) ← advance vs cur
        gcLoop3 n s vs prev1 cur1 earliestAbort
    else do
      let (prev1, cur1) ← advance vs cur
      gcLoop3 n s vs prev1 cur1 earliestAbort

/-- The statement `if(!flag) while(cur != NULL) ...` of `garbageCollect`. -/
def gcUnlink (s : State) (vs : List VERSION) (prev cur : Option Nat)
    (latestCommit earliestAbort : VPtr) (flag : Bool) : Res (State × List VERSION × VPtr) :=
  if flag = false then
    gcLoop2b (vs.length + 1) s vs prev cur latestCommit earliestAbort
  else
    pure (s, vs, earliestAbort)

/-- `garbageCollect` on a version list.  Every loop advances by one node per
iteration, so the length of the list bounds the number of iterations. -/
def garbageCollectList (s : State) (vs : List VERSION) : Res (State × List VERSION) :=
  match vs with
  | [] => pure (s, vs)
  | _ :: _ => do
    let (latestCommit, earliestAbort) ← gcScan s vs 0 .uninit .uninit true
    let _ ← readV vs 0
    let (s1, vs1, prev1, cur1, flag1) ←
      gcLoop2 (vs.length + 1) s vs (some 0) (nextV vs 0) latestCommit true
    let (s2, vs2, earliestAbort2) ←
      gcUnlink s1 vs1 prev1 cur1 latestCommit earliestAbort flag1
    let _ ← readV vs2 0
    gcLoop3 (vs2.length + 1) s2 vs2 (some 0) (nextV vs2 0) earliestAbort2

/-- `garbageCollect` on the entry at `loc`. -/
def garbageCollect (s : State) (loc : Loc) : Res State :=
  match entryAt s loc with
  | none => .fault .wildPointer
  | some e => do
    let (s1, vs1) ← garbageCollectList s e.versions
    pure (setVersions s1 loc vs1)

/-- The first loop of `addVersion`: does some version have a creator whose id
is greater than the id of `tp`? -/
def avScan (s : State) (tp : Nat) : List VERSION → Res Bool
  | [] => pure false
  | v :: rest =>
    if v.freed then .fault .useAfterFree
    else do
      let c ← derefT s v.creator
      let t ← derefT s tp
      if c.id > t.id then pure true else avScan s tp rest

/-- The walk of `addVersion` from position `i` on
(`while(temp != NULL && temp->creator->id != tp->id)`): add a dependency on
every pending creator passed; the result is the final `temp`. -/
def avWalk (s : State) (tp : Nat) : List VERSION → Nat → Res (State × Option Nat)
  | [], _ => pure (s, none)
  | v :: rest, i =>
    if v.freed then .fault .useAfterFree
    else do
      let c ← derefT s v.creator
      let t ← derefT s tp
      if c.id = t.id then pure (s, some i)
      else do
        let status ← trans_get_status s v.creator
        if status = TRANS_PENDING then do
          let s1 ← trans_add_dependency s tp v.creator
          avWalk s1 tp rest (i + 1)
        else
          avWalk s tp rest (i + 1)

/-- `addVersion` on a version list, for a non-null `tp`. -/
def addVersionList (s : State) (vs : List VERSION) (tp : Nat) (bp : Option Nat) :
    Res (State × List VERSION) := do
  let anachronistic ← avScan s tp vs
  if anachronistic = true then do
    let s1 ← trans_ref s tp
    let (_, s2) ← trans_abort s1 tp
    let s3 ← blob_unref s2 bp
    pure (s3, vs)
  else do
    let (version, s1) ← version_create s tp bp
    match vs with
    | [] => pure (s1, [version])
    | head :: _ => do
      let _ ← readV vs 0
      let c ← derefT s1 head.creator
      let t ← derefT s1 tp
      if c.id = t.id then do
        let s2 ← version_dispose s1 head
        pure (s2, [version])
      else do
        let (s2, temp) ← avWalk s1 tp vs 0
        match temp with
        | none => pure (s2, vs ++ [version])
        | some j => do
          let prev ← readV vs (j - 1)
          let vs1 := vs.take j ++ vs.drop (j + 1)
          let s3 ← version_dispose s2 prev
          pure (s3, freeV vs1 (j - 1))

/-- `addVersion` on the entry at `loc`. -/
def addVersion (s : State) (loc : Loc) (tp : Nat) (bp : Option Nat) : Res State :=
  match entryAt s loc with
  | none => .fault .wildPointer
  | some e => do
    let (s1, vs1) ← addVersionList s e.versions tp bp
    pure (setVersions s1 loc vs1)

/-- `store_put`. -/
def store_put (s : State) (tp : Nat) (key : KEY) (value : Option Nat) :
    Res (TRANS_STATUS × State) := do
  let (loc, s1) ← findMapEntry s key
  let s2 ← garbageCollect s1 loc
  let s3 ← addVersion s2 loc tp value
  let status ← trans_get_status s3 tp
  pure (status, s3)

/-- The walk of `store_get` to the last version (`while(cur->next != NULL)`):
every node on the way is read; the result is the blob pointer of the last. -/
def tailBlob : List VERSION → Res (Option Nat)
  | [] => pure none
  | [v] => if v.freed then .fault .useAfterFree else pure v.blob
  | v :: w :: rest => if v.freed then .fault .useAfterFree else tailBlob (w :: rest)

/-- `store_get`; the second component of the result is the pointer written to
`*valuep`. -/
def store_get (s : State) (tp : Nat) (key : KEY) :
    Res (TRANS_STATUS × Option Nat × State) := do
  let (loc, s1) ← findMapEntry s key
  let s2 ← garbageCollect s1 loc
  let value ← tailBlob (versionsAt s2 loc)
  let s3 ← blob_ref s2 value
  let s4 ← addVersion s3 loc tp value
  let s5 ← blob_ref s4 value
  let status ← trans_get_status s5 tp
  pure (status, value, s5)

/-! ## Specification vocabulary -/

/-- Every transaction cell of `s` is still a cell of `s2`, related by `r`. -/
def Rel (r : TRANSACTION → TRANSACTION → Prop) (s s2 : State) : Prop :=
  ∀ (a : Nat) (t : TRANSACTION), s.trans[a]? = some t →
    ∃ t2 : TRANSACTION, s2.trans[a]? = some t2 ∧ r t t2

/-- The cells agree except for the reference count and the ghost flag. -/
def sameButRef (t t2 : TRANSACTION) : Prop :=
  t2.id = t.id ∧ t2.status = t.status ∧ t2.depends = t.depends ∧
    t2.waitcnt = t.waitcnt ∧ t2.sem = t.sem

/-- A committed cell is still committed. -/
def keepsCommit (t t2 : TRANSACTION) : Prop :=
  t.status = TRANS_COMMITTED → t2.status = TRANS_COMMITTED

/-- Committed transactions of `s` are committed in `s2`. -/
def Stable (s s2 : State) : Prop := Rel keepsCommit s s2

/-- A cell that is pending was pending before, and its semaphore has not grown. -/
def semKeep (t t2 : TRANSACTION) : Prop :=
  t2.status = TRANS_PENDING → t.status = TRANS_PENDING ∧ t2.sem ≤ t.sem

/-- What a cell keeps through every operation: `keepsCommit` and `semKeep`. -/
def steadyCell (t t2 : TRANSACTION) : Prop := keepsCommit t t2 ∧ semKeep t t2

/-- No cell is allocated between `s` and `s2`, and every cell keeps
`steadyCell`. -/
def Steady (s s2 : State) : Prop :=
  s2.trans.length = s.trans.length ∧ Rel steadyCell s s2

/-- A semaphore has a positive value only after its transaction has left the
pending status: `V` is only called after the status has been written. -/
def SemaphoreInv (s : State) : Prop :=
  ∀ (a : Nat) (t : TRANSACTION), s.trans[a]? = some t → t.status = TRANS_PENDING → t.sem = 0

/-- A decidable form of `SemaphoreInv`. -/
def semaphoreInvB (s : State) : Bool :=
  s.trans.all (fun t => decide (t.status = TRANS_PENDING → t.sem = 0))

/-- A transaction cell with no waiters. -/
def cell (id refcnt : Int) (status : TRANS_STATUS) (depends : List Nat) : TRANSACTION :=
  { id := id, refcnt := refcnt, status := status, depends := depends,
    waitcnt := 0, sem := 0, freed := false }

/-- A state with the given transaction cells, an empty store and no blobs. -/
def stateOf (cells : List TRANSACTION) : State :=
  { trans := cells, blobs := [], table := List.replicate NUM_BUCKETS [],
    trans_list := List.range cells.length, trans_ID := cells.length }

/-- The blob pointer is `NULL`, or points at a live blob whose reference count
is not zero. -/
def blobHeld (s : State) (bp : Option Nat) : Prop :=
  ∀ p, bp = some p → ∃ b, s.blobs[p]? = some b ∧ b.freed = false ∧ b.refcnt ≠ 0

instance (s : State) (bp : Option Nat) : Decidable (blobHeld s bp) :=
  match bp with
  | none => isTrue (fun _ h => nomatch h)
  | some p =>
    decidable_of_iff (∃ b, s.blobs[p]? = some b ∧ b.freed = false ∧ b.refcnt ≠ 0)
      ⟨fun h q hq => by cases hq; exact h, fun h => h p rfl⟩

/-- The id of the creator of a version (0 when the pointer is wild). -/
def creatorId (s : State) (v : VERSION) : Int :=
  match s.trans[v.creator]? with
  | some c => c.id
  | none => 0

/-- The version list is strictly ascending by creator id. -/
def AscendingIds (s : State) (vs : List VERSION) : Prop :=
  vs.Pairwise (fun v w => creatorId s v < creatorId s w)

instance (s : State) (vs : List VERSION) : Decidable (AscendingIds s vs) :=
  inferInstanceAs (Decidable (vs.Pairwise (fun v w => creatorId s v < creatorId s w)))

/-- The creators of the versions of `vs` whose id is not `tid` and whose status
in `s` is pending, in list order. -/
def pendingOthers (s : State) (tid : Int) (vs : List VERSION) : List Nat :=
  (vs.filter (fun v =>
    match s.trans[v.creator]? with
    | some c => decide (c.id ≠ tid) && decide (c.status = TRANS_PENDING)
    | none => false)).map (fun v => v.creator)

/-- The dependencies the walk of `addVersion` adds: the pending creators met
before the first version whose creator has id `tid`. -/
def walked (s : State) (tid : Int) : List VERSION → List Nat
  | [] => []
  | v :: rest =>
    match s.trans[v.creator]? with
    | none => []
    | some c =>
      if c.id = tid then []
      else if c.status = TRANS_PENDING then v.creator :: walked s tid rest
      else walked s tid rest

/-- The cells agree on id and status. -/
def sameIdStatus (t t2 : TRANSACTION) : Prop := t2.id = t.id ∧ t2.status = t.status

/-- A committed transaction 0 and a pending transaction 1 that depends on it. -/
def commitReady : State :=
  stateOf [cell 0 2 TRANS_COMMITTED [], cell 1 2 TRANS_PENDING [0]]

/-- The state `commitReady` after transaction 1 has committed. -/
def commitDone : State :=
  stateOf [cell 0 2 TRANS_COMMITTED [], cell 1 1 TRANS_COMMITTED [0]]

/-! ## The requests of the service loop and some concrete runs -/

/-- The value of a result, or `d` for a fault. -/
def Res.getD {α : Type} (d : α) : Res α → α
  | .ok a => a
  | .fault _ => d

/-- The value of `*datap` in `xacto_client_service` after a KEY or VALUE packet
with the payload `k` has been received: `proto_recv_packet` allocates a buffer
only when the size is not zero, so the pointer that `Calloc` zeroed stays
`NULL` for an empty payload. -/
def receivedPayload (k : List Byte) : Option (List Byte) :=
  if k.length = 0 then none else some k

/-- The key the service builds from a received payload
(`xacto_client_service`: `blob_create` then `key_create`). -/
def service_key (s : State) (k : List Byte) : Res (KEY × State) := do
  let (bp, s1) ← blob_create s (receivedPayload k) k.length
  let key ← key_create s1 bp
  pure (key, s1)

/-- A PUT request as `xacto_client_service` serves it: build the key and the
value blob from the two payloads and call `store_put`. -/
def service_put (s : State) (tp : Nat) (k v : List Byte) : Res (TRANS_STATUS × State) := do
  let (key, s1) ← service_key s k
  let (bp, s2) ← blob_create s1 (receivedPayload v) v.length
  store_put s2 tp key bp

/-- A GET request as `xacto_client_service` serves it: build the key from the
payload and call `store_get`. -/
def service_get (s : State) (tp : Nat) (k : List Byte) :
    Res (TRANS_STATUS × Option Nat × State) := do
  let (key, s1) ← service_key s k
  store_get s1 tp key

/-- Two clients connect: transactions 0 and 1 exist, the store is empty. -/
def twoClients : State :=
  Res.getD State.init (do
    let (_, s) ← trans_create State.init
    let (_, s) ← trans_create s
    pure s)

/-- Transaction 0 has put "k" = "a", then transaction 1 has put "k" = "b". -/
def twoWriters : State :=
  Res.getD State.init (do
    let (_, s) ← service_put twoClients 0 [107] [97]
    let (_, s) ← service_put s 1 [107] [98]
    pure s)

/-- Transaction 0 has put "k" = "a" and has then been aborted. -/
def abortedWriter : State :=
  Res.getD State.init (do
    let (_, s) ← service_put twoClients 0 [107] [97]
    let (_, s) ← trans_abort s 0
    pure s)

/-- Transaction 1 has put "k" = "b"; the key and value blobs of a request of
transaction 0 for "k" have been built (blobs 2 and 3). -/
def laterWriter : State :=
  Res.getD State.init (do
    let (_, s) ← service_put twoClients 1 [107] [98]
    let (_, s) ← blob_create s (some [107]) 1
    let (_, s) ← blob_create s (some [97]) 1
    pure s)

/-- The key built for the request in `laterWriter`. -/
def laterKey : KEY := { hash := 225266, blob := some 2 }

/-- Transaction 0 has put "k" = "a"; the key and value blobs of a request of
transaction 1 for "k" have been built (blobs 2 and 3). -/
def earlierWriter : State :=
  Res.getD State.init (do
    let (_, s) ← service_put twoClients 0 [107] [97]
    let (_, s) ← blob_create s (some [107]) 1
    let (_, s) ← blob_create s (some [98]) 1
    pure s)


/-- The state `laterWriter` after `findMapEntry` for `laterKey`. -/
def laterFound : State :=
  (Res.getD ((0, 0), State.init) (findMapEntry laterWriter laterKey)).2

/-- The state `laterFound` after `garbageCollect` on the entry of "k". -/
def laterCollected : State := Res.getD State.init (garbageCollect laterFound (2, 0))

/-- The state `earlierWriter` after `findMapEntry` for `laterKey`. -/
def earlierFound : State :=
  (Res.getD ((0, 0), State.init) (findMapEntry earlierWriter laterKey)).2

/-- The state `earlierFound` after `garbageCollect` on the entry of "k". -/
def earlierCollected : State := Res.getD State.init (garbageCollect earlierFound (2, 0))

/-! ## Measures for the recursion bounds of the model -/

/-- The outcome is not the exhaustion of a recursion bound of the model. -/
def Res.noFuel {α : Type} (x : Res α) : Prop := x ≠ .fault .fuel

/-- The number of live cells whose reference count is at least 1. -/
def heldCount (s : State) : Nat :=
  s.trans.countP (fun t => !t.freed && decide (1 ≤ t.refcnt))

/-- Nodes from `cur` to the end of the list. -/
def remV (vs : List VERSION) (cur : Option Nat) : Nat :=
  match cur with
  | none => 0
  | some c => vs.length - c

/-- Iterations (plus one) left for a loop that advances `prev` to `cur`. -/
def needV (vs : List VERSION) (prev cur : Option Nat) : Nat :=
  match prev with
  | none => 1
  | some _ => remV vs cur + 2

/-- In the loops of `garbageCollect`, `cur` is `prev->next`. -/
def linked (vs : List VERSION) (prev cur : Option Nat) : Prop :=
  match prev with
  | none => cur = none
  | some p => cur = nextV vs p

/-- Iterations (plus one) left for the loop of `garbageCollect` that walks
`cur` to the end. -/
def needC (vs : List VERSION) (cur : Option Nat) : Nat :=
  match cur with
  | none => 1
  | some c => vs.length - c + 1

/-! ## Further specification vocabulary and concrete runs -/

/-- A relation between (state, version list) pairs that the statements of
`garbageCollect` keep: disposing a version in place, disposing and unlinking
the successor of a node, and aborting the creator of a version. -/
structure GcClosed (G : State × List VERSION → State × List VERSION → Prop) : Prop where
  same : ∀ x, G x x
  chain : ∀ x y z, G x y → G y z → G x z
  release : ∀ (s s2 : State) (vs : List VERSION) (p : Nat) (v : VERSION),
    readV vs p = .ok v → version_dispose s v = .ok s2 → G (s, vs) (s2, freeV vs p)
  unlink : ∀ (s s2 : State) (vs : List VERSION) (p : Nat) (v : VERSION),
    readV vs (p + 1) = .ok v → version_dispose s v = .ok s2 →
    G (s, vs) (s2, vs.take (p + 1) ++ vs.drop (p + 2))
  abort : ∀ (s s2 : State) (vs : List VERSION) (p : Nat) (v : VERSION) (st : TRANS_STATUS),
    readV vs p = .ok v → trans_abort s v.creator = .ok (st, s2) → G (s, vs) (s2, vs)

/-- The cells agree on id and dependency list. -/
def sameIdDeps (t t2 : TRANSACTION) : Prop := t2.id = t.id ∧ t2.depends = t.depends

/-- The pointer `d` designates a transaction whose id is less than `i`. -/
def olderThan (s : State) (d : Nat) (i : Int) : Prop :=
  ∃ td, s.trans[d]? = some td ∧ td.id < i

instance (s : State) (d : Nat) (i : Int) : Decidable (olderThan s d i) :=
  match h : s.trans[d]? with
  | none => isFalse (fun ⟨_, h1, _⟩ => by rw [h] at h1; cases h1)
  | some td =>
    decidable_of_iff (td.id < i)
      ⟨fun hlt => ⟨td, h, hlt⟩, fun ⟨_, h1, hlt⟩ => by rw [h] at h1; cases h1; exact hlt⟩

/-- Every dependency of every transaction has a smaller id than the
transaction. -/
def DepsOlder (s : State) : Prop :=
  ∀ t ∈ s.trans, ∀ d ∈ t.depends, olderThan s d t.id

instance (s : State) : Decidable (DepsOlder s) :=
  inferInstanceAs (Decidable (∀ t ∈ s.trans, ∀ d ∈ t.depends, olderThan s d t.id))

/-- The cell keeps its id, and its dependency list is the old one with
transactions of smaller id pushed in front. -/
def growsOlder (s : State) (t t2 : TRANSACTION) : Prop :=
  t2.id = t.id ∧ ∃ added, t2.depends = added ++ t.depends ∧ ∀ d ∈ added, olderThan s d t.id

/-- No cell is allocated between `s` and `s2`, and every cell keeps
`growsOlder`: every dependency added targets an older transaction. -/
def GrowsOlder (s s2 : State) : Prop :=
  s2.trans.length = s.trans.length ∧ Rel (growsOlder s) s s2

/-- Transaction `a` has a dependency edge to transaction `b`. -/
def dependsOn (s : State) (a b : Nat) : Prop :=
  ∃ t, s.trans[a]? = some t ∧ b ∈ t.depends

/-- No chain of dependency edges leads from a transaction back to itself. -/
def Acyclic (s : State) : Prop := ∀ a, ¬ Relation.TransGen (dependsOn s) a a

/-- The id of the transaction cell at address `a` (0 when there is none). -/
def idAt (s : State) (a : Nat) : Int :=
  match s.trans[a]? with
  | some c => c.id
  | none => 0

/-- The ids of all transaction cells, by address. -/
def idsOf (s : State) : List Int := s.trans.map (fun t => t.id)

/-- Every version list of the store is strictly ascending by creator id. -/
def StoreAscending (s : State) : Prop :=
  ∀ chain ∈ s.table, ∀ e ∈ chain, AscendingIds s e.versions

instance (s : State) : Decidable (StoreAscending s) :=
  inferInstanceAs (Decidable (∀ chain ∈ s.table, ∀ e ∈ chain, AscendingIds s e.versions))

/-- No version list of the store holds two versions of the same creator. -/
def OneVersionEach (s : State) : Prop :=
  ∀ chain ∈ s.table, ∀ e ∈ chain, (e.versions.map (fun v => v.creator)).Nodup

/-- What `garbageCollect` keeps of a version list and the state around it:
ids and dependencies (`GrowsOlder`), the table, and the order of the creators
of the versions, of which some may be gone. -/
def Thins (x y : State × List VERSION) : Prop :=
  GrowsOlder x.1 y.1 ∧ y.1.table = x.1.table ∧
    (y.2.map (fun v => v.creator)).Sublist (x.2.map (fun v => v.creator))

/-- The cells agree on id, status and the ghost flag. -/
def keepsLife (t t2 : TRANSACTION) : Prop :=
  t2.id = t.id ∧ t2.status = t.status ∧ t2.freed = t.freed

/-- The state `twoClients` after the key blob "k" of a GET request has been
built (blob 0). -/
def emptyRead : State :=
  (Res.getD (none, State.init) (blob_create twoClients (some [107]) 1)).2

/-- The key built for the request in `emptyRead`. -/
def firstKey : KEY := { hash := 225266, blob := some 0 }

/-- The state `emptyRead` after `findMapEntry` for `firstKey`. -/
def emptyFound : State :=
  (Res.getD ((0, 0), State.init) (findMapEntry emptyRead firstKey)).2

/-- Three clients connect: transactions 0, 1 and 2 exist, the store is empty. -/
def threeClients : State :=
  Res.getD State.init (do
    let (_, s) ← trans_create State.init
    let (_, s) ← trans_create s
    let (_, s) ← trans_create s
    pure s)

/-- The state `twoWriters` after the value blob "c" of a further PUT has been
built (blob 4). -/
def overwriteReady : State :=
  (Res.getD (none, State.init) (blob_create twoWriters (some [99]) 1)).2

/-- Transaction 0 has put "k" = "a" and committed, then transaction 1 has put
"k" = "b" and committed. -/
def twoCommits : State :=
  Res.getD State.init (do
    let (_, s) ← service_put threeClients 0 [107] [97]
    let (_, s) ← trans_commit s 0
    let (_, s) ← service_put s 1 [107] [98]
    let (_, s) ← trans_commit s 1
    pure s)

/-- Transaction 0 has put "k" = "a" and committed, then transaction 1 has put
"k" = "b" and is still pending. -/
def committedThenPending : State :=
  Res.getD State.init (do
    let (_, s) ← service_put threeClients 0 [107] [97]
    let (_, s) ← trans_commit s 0
    let (_, s) ← service_put s 1 [107] [98]
    pure s)

/-- Transaction 0 has put "k" = "a", transaction 1 has put "k" = "b", then
transaction 0 has aborted. -/
def abortedThenPending : State :=
  Res.getD State.init (do
    let (_, s) ← service_put threeClients 0 [107] [97]
    let (_, s) ← service_put s 1 [107] [98]
    let (_, s) ← trans_abort s 0
    pure s)

/-- Transaction 1 has put "k", transaction 2 has put "k" and "j", transaction 1
has aborted, and the commit of transaction 2 has ended in its abort. -/
def cascadeRipe : State :=
  Res.getD State.init (do
    let (_, s) ← service_put threeClients 1 [107] [97]
    let (_, s) ← service_put s 2 [107] [98]
    let (_, s) ← service_put s 2 [106] [99]
    let (_, s) ← trans_abort s 1
    let (_, s) ← trans_commit s 2
    pure s)

/-- The blob of the key is live and holds at least `size` bytes. -/
def KeyLive (s : State) (k : KEY) : Prop :=
  match k.blob with
  | none => False
  | some p =>
    match s.blobs[p]? with
    | none => False
    | some b => b.freed = false ∧ b.size ≤ b.content.length

instance (s : State) (k : KEY) : Decidable (KeyLive s k) := by
  unfold KeyLive
  split
  · exact isFalse (fun h => h)
  · split
    · exact isFalse (fun h => h)
    · exact inferInstance

/-- Equality of keys in the words of the spec: the hashes match and the blobs
compare equal, size then bytes. -/
def KeyEq (s : State) (k1 k2 : KEY) : Prop :=
  k1.hash = k2.hash ∧
    match k1.blob, k2.blob with
    | some p1, some p2 =>
      match s.blobs[p1]?, s.blobs[p2]? with
      | some b1, some b2 =>
        b1.size = b2.size ∧ b1.content.take b1.size = b2.content.take b2.size
      | _, _ => False
    | _, _ => False

instance (s : State) (k1 k2 : KEY) : Decidable (KeyEq s k1 k2) := by
  unfold KeyEq
  refine @instDecidableAnd _ _ _ ?_
  split
  · split
    · exact inferInstance
    · exact isFalse (fun h => h)
  · exact isFalse (fun h => h)

/-- The conversion of an `int` to `unsigned long` (64 bits): the value modulo
2^64. -/
def asUnsignedLong (x : Int) : Nat := (x % 18446744073709551616).toNat

/-- The bytes of a blob: the first `size` bytes of its content. -/
def bytesOf (b : BLOB) : List Byte := b.content.take b.size

/-- The state `earlierWriter` after three more blobs have been built: blob 4
with the one byte 107, blob 5 with the bytes 107, 0, 33 and blob 6 with the one
byte 200. -/
def hashedBlobs : State :=
  Res.getD State.init (do
    let (_, s) ← blob_create earlierWriter (some [107]) 1
    let (_, s) ← blob_create s (some [107, 0, 33]) 3
    let (_, s) ← blob_create s (some [200]) 1
    pure s)

/-- The bytes before the first zero byte. -/
def beforeZero (l : List Byte) : List Byte := l.takeWhile (fun b => decide (b.val ≠ 0))

/-- The recurrence `h <- (h + (h << 5)) + c` over a list of values, in exact
integer arithmetic. -/
def hashFold (h : Int) (cs : List Int) : Int := cs.foldl (fun h c => h + h * 32 + c) h

/-- The hash in the words of the claim: the recurrence from 6823 over all the
bytes, modulo 2^32, read as a signed 32-bit integer. -/
def hashClaimed (bytes : List Byte) : Int :=
  wrap32 (hashFold 6823 (bytes.map (fun b => (b.val : Int))))

/-- The hash as the code computes it, in the same words: the recurrence from
6823 over the bytes before the first zero byte, each read as a signed `char`,
modulo 2^32, read as a signed 32-bit integer. -/
def hashOfString (bytes : List Byte) : Int :=
  wrap32 (hashFold 6823 ((beforeZero bytes).map charVal))

/-- The ids of the cells and the id counter are the same in `s` and `s2`. -/
def IdsKept (s s2 : State) : Prop := idsOf s2 = idsOf s ∧ s2.trans_ID = s.trans_ID

/-- The ids are strictly ascending in the order of creation (the order of the
addresses) and all below the counter `trans_ID`, which is a value of `int`. -/
def IdsOrdered (s : State) : Prop :=
  (idsOf s).Pairwise (fun a b => a < b) ∧ (∀ i ∈ idsOf s, i < s.trans_ID) ∧
    -2147483648 ≤ s.trans_ID ∧ s.trans_ID ≤ 2147483647

instance (s : State) : Decidable (IdsOrdered s) :=
  inferInstanceAs (Decidable ((idsOf s).Pairwise (fun a b => a < b) ∧
    (∀ i ∈ idsOf s, i < s.trans_ID) ∧ -2147483648 ≤ s.trans_ID ∧ s.trans_ID ≤ 2147483647))

/-- The last node of the global transaction list, when there is one, is live:
`trans_create` writes its `next` field. -/
def LastLive (s : State) : Prop :=
  ∀ l ∈ s.trans_list.getLast?, ∃ t, s.trans[l]? = some t ∧ t.freed = false

instance (s : State) : Decidable (LastLive s) :=
  inferInstanceAs (Decidable (∀ l ∈ s.trans_list.getLast?,
    ∃ t, s.trans[l]? = some t ∧ t.freed = false))

/-- The calls of `trans_create` that the server makes for `n` clients in a
row, from the state `s`. -/
def createMany : Nat → State → Res State
  | 0, s => pure s
  | n + 1, s => do
    let s1 ← createMany n s
    let (_, s2) ← trans_create s1
    pure s2

/-- The cell that the `i`-th call of `trans_create` leaves (counting from 0). -/
def createdCell (i : Nat) : TRANSACTION :=
  { id := wrap32 i, refcnt := 1, status := TRANS_PENDING, depends := [], waitcnt := 0,
    sem := 0, freed := false }

/-- The state with the first `n` transactions created and nothing else done. -/
def createdState (n : Nat) : State :=
  { State.init with trans := (List.range n).map createdCell, trans_list := List.range n,
                    trans_ID := wrap32 n }

/-! ## protocol.c -/

/-- Modelled from the spec: the struct `XACTO_PACKET` of `protocol.h`, which is
not among the sources.  The fields are those of the table of the wire framing,
in its order and with its widths: three bytes, one byte of padding, and three
32-bit unsigned integers, 16 bytes in all.  The integers are kept as naturals
below 2^32. -/
structure XACTO_PACKET where
  type : Byte
  status : Byte
  null : Byte
  padding : Byte
  size : Nat
  timestamp_sec : Nat
  timestamp_nsec : Nat
  deriving DecidableEq, Repr

/-- The four bytes of a 32-bit value, most significant first. -/
def be32 (x : Nat) : List Byte :=
  [⟨x / 16777216 % 256, Nat.mod_lt _ (by decide)⟩, ⟨x / 65536 % 256, Nat.mod_lt _ (by decide)⟩,
   ⟨x / 256 % 256, Nat.mod_lt _ (by decide)⟩, ⟨x % 256, Nat.mod_lt _ (by decide)⟩]

/-- The four bytes of a 32-bit value, least significant first. -/
def le32 (x : Nat) : List Byte := (be32 x).reverse

/-- The value of four bytes read most significant first. -/
def ofBe32 (bs : List Byte) : Nat :=
  (bs.getD 0 0).val * 16777216 + (bs.getD 1 0).val * 65536 + (bs.getD 2 0).val * 256 +
    (bs.getD 3 0).val

/-- The value of four bytes read least significant first. -/
def ofLe32 (bs : List Byte) : Nat := ofBe32 (bs.take 4).reverse

/-- The library function `htonl` on a host that is little-endian (`little`) or
big-endian: the value whose bytes in host memory are the big-endian bytes of
`x`. -/
def htonl (little : Bool) (x : Nat) : Nat := if little then ofLe32 (be32 x) else x % 4294967296

/-- The library function `ntohl`: the value of the bytes of `x` in host memory,
read as big-endian. -/
def ntohl (little : Bool) (x : Nat) : Nat := if little then ofBe32 (le32 x) else x % 4294967296

/-- The bytes of a `uint32_t` in host memory. -/
def store32 (little : Bool) (x : Nat) : List Byte := if little then le32 x else be32 x

/-- The `uint32_t` held by four bytes of host memory. -/
def load32 (little : Bool) (bs : List Byte) : Nat := if little then ofLe32 bs else ofBe32 bs

/-- The 16 bytes of a packet header in host memory. -/
def imageOf (little : Bool) (pkt : XACTO_PACKET) : List Byte :=
  [pkt.type, pkt.status, pkt.null, pkt.padding] ++ store32 little pkt.size ++
    store32 little pkt.timestamp_sec ++ store32 little pkt.timestamp_nsec

/-- The packet header held by 16 bytes of host memory. -/
def ofImage (little : Bool) (img : List Byte) : XACTO_PACKET :=
  { type := img.getD 0 0, status := img.getD 1 0, null := img.getD 2 0, padding := img.getD 3 0,
    size := load32 little ((img.drop 4).take 4),
    timestamp_sec := load32 little ((img.drop 8).take 4),
    timestamp_nsec := load32 little ((img.drop 12).take 4) }

/-- `proto_send_packet`: the fields `size`, `timestamp_sec` and
`timestamp_nsec` of the caller's header are converted in place with `htonl`,
the 16 bytes of the header are written, and then, when the converted size is
not zero, `size` bytes of the payload.  The result is the return value, the
header as the call leaves it and the bytes written.  The writes themselves
always succeed here; `write` on a `NULL` buffer fails, so the call returns -1
after the header; a payload buffer of less than `size` bytes is read past its
end. -/
def proto_send_packet (little : Bool) (pkt : XACTO_PACKET) (data : Option (List Byte)) :
    Res (Int × XACTO_PACKET × List Byte) :=
  let size := pkt.size
  let pkt1 := { pkt with size := htonl little pkt.size,
                         timestamp_sec := htonl little pkt.timestamp_sec,
                         timestamp_nsec := htonl little pkt.timestamp_nsec }
  let header := imageOf little pkt1
  if pkt1.size ≠ 0 then
    match data with
    | none => pure (-1, pkt1, header)
    | some bytes =>
      if bytes.length < size then .fault .wildPointer
      else pure (0, pkt1, header ++ bytes.take size)
  else
    pure (0, pkt1, header)

/-- `proto_recv_packet` on the bytes `wire` still to come from the descriptor:
`rio_readn` fills the caller's header with up to 16 bytes (none at end of file:
return -1); the three integers are converted with `ntohl`; when the size is not
zero a buffer is allocated and filled with up to `size` bytes (none: return
-1), otherwise `*datap` is left as it was.  The result is the return value, the
header, `*datap` and the bytes not yet read. -/
def proto_recv_packet (little : Bool) (wire : List Byte) (pkt : XACTO_PACKET)
    (datap : Option (List Byte)) : Int × XACTO_PACKET × Option (List Byte) × List Byte :=
  if wire.length = 0 then (-1, pkt, datap, wire)
  else
    let img := wire.take 16 ++ (imageOf little pkt).drop wire.length
    let pkt1 := ofImage little img
    let pkt2 := { pkt1 with size := ntohl little pkt1.size,
                            timestamp_sec := ntohl little pkt1.timestamp_sec,
                            timestamp_nsec := ntohl little pkt1.timestamp_nsec }
    let rest := wire.drop 16
    if pkt2.size ≠ 0 then
      let got := rest.take pkt2.size
      if got.length = 0 then (-1, pkt2, some [], rest)
      else (0, pkt2, some got, rest.drop pkt2.size)
    else
      (0, pkt2, datap, rest)

/-- A header as `Calloc` returns it: all bytes zero. -/
def zeroPacket : XACTO_PACKET :=
  { type := 0, status := 0, null := 0, padding := 0, size := 0, timestamp_sec := 0,
    timestamp_nsec := 0 }

/-- The blob `xacto_client_service` builds from a KEY or VALUE packet: the
header and `*datap` come zeroed from `Calloc`, the return value of
`proto_recv_packet` is not looked at, and `blob_create` gets `*datap` and the
size of the header.  The last component is the rest of the wire. -/
def service_blob (little : Bool) (s : State) (wire : List Byte) :
    Res (Option Nat × State × List Byte) :=
  let r := proto_recv_packet little wire zeroPacket none
  do
    let (bp, s1) ← blob_create s r.2.2.1 r.2.1.size
    pure (bp, s1, r.2.2.2)

/-- The bytes on the wire of a header followed by its payload, as the wire
framing lays them out. -/
def wireOf (pkt : XACTO_PACKET) (payload : List Byte) : List Byte :=
  [pkt.type, pkt.status, pkt.null, pkt.padding] ++ be32 pkt.size ++ be32 pkt.timestamp_sec ++
    be32 pkt.timestamp_nsec ++ (if pkt.size = 0 then [] else payload)

/-- The state `twoClients` after the PUT of transaction 0 with the key "k" and
an empty value payload. -/
def emptyValuePut : State :=
  (Res.getD (TRANS_PENDING, State.init) (service_put twoClients 0 [107] [])).2

/-! ## The race of a waiter with the end of its dependency -/

/-- Where the thread that runs `trans_commit` stands in one iteration of its
first loop (transaction.c 151-161): before the status test, before the
increment of the wait count, before `P`, or past the iteration. -/
inductive WaiterAt where
  | check
  | register
  | wait
  | passed
  deriving DecidableEq, Repr

/-- Where the thread that ends a transaction stands (transaction.c 172-195 in
`trans_commit`, 235-248 in `trans_abort`): before the write of the status,
before the read of the wait count, in the loop of `V` with the count read and
the loop index, or past the loop. -/
inductive EnderAt where
  | write
  | read
  | post (cnt i : Int)
  | posted
  deriving DecidableEq, Repr

/-- Two threads on one state: one waits for the transaction that the other
ends. -/
structure Race where
  state : State
  waiter : WaiterAt
  ender : EnderAt
  deriving DecidableEq, Repr

/-- One step of the waiting thread for the dependency `d`.  A step is one
region under the mutex of `d` or one semaphore operation: the status test
(`trans_get_status`, line 152), the increment of `waitcnt` (lines 156-158),
and `P` (line 159), which cannot be taken while the semaphore is zero. -/
def waiterStep (d : Nat) (r : Race) : Res Race :=
  match r.waiter with
  | .check => do
    let st ← trans_get_status r.state d
    if st ≠ TRANS_PENDING then pure { r with waiter := .passed }
    else pure { r with waiter := .register }
  | .register => do
    let t ← derefT r.state d
    pure { r with state := writeT r.state d { t with waitcnt := t.waitcnt + 1 }, waiter := .wait }
  | .wait => do
    let t ← derefT r.state d
    if t.sem = 0 then .fault .blocked
    else pure { r with state := writeT r.state d { t with sem := t.sem - 1 }, waiter := .passed }
  | .passed => pure r

/-- One step of the thread that ends the transaction `tp` with the status
`final`: the write of the status under the mutex, the read of `waitcnt` under
the mutex, and one turn of the loop `for(i = 0; i < cnt; i++) V(&tp->sem)`. -/
def enderStep (tp : Nat) (final : TRANS_STATUS) (r : Race) : Res Race :=
  match r.ender with
  | .write => do
    let t ← derefT r.state tp
    pure { r with state := writeT r.state tp { t with status := final }, ender := .read }
  | .read => do
    let t ← derefT r.state tp
    pure { r with ender := .post t.waitcnt 0 }
  | .post cnt i =>
    if i < cnt then do
      let t ← derefT r.state tp
      pure { r with state := writeT r.state tp { t with sem := t.sem + 1 },
                    ender := .post cnt (i + 1) }
    else pure { r with ender := .posted }
  | .posted => pure r

/-- An interleaving of the two threads: `true` is a step of the waiter, `false`
a step of the ender. -/
def runRace (d : Nat) (final : TRANS_STATUS) : List Bool → Race → Res Race
  | [], r => pure r
  | true :: rest, r => do
    let r1 ← waiterStep d r
    runRace d final rest r1
  | false :: rest, r => do
    let r1 ← enderStep d final r
    runRace d final rest r1

/-- Transaction 0 has put "k" = "a" and transaction 1 has read it, so
transaction 1 depends on transaction 0; both are pending. -/
def readerWaits : State :=
  Res.getD State.init (do
    let (_, s) ← service_put twoClients 0 [107] [97]
    let (_, _, s) ← service_get s 1 [107]
    pure s)

/-- The start of the race in `readerWaits`: transaction 1 enters the first
loop of `trans_commit` at its dependency 0 while transaction 0 starts to
commit. -/
def raceStart : Race := { state := readerWaits, waiter := .check, ender := .write }

/-! ## Lists of pending versions -/

/-- Every node of the version list is live and its creator is a live
transaction whose status is `TRANS_PENDING`. -/
def AllPending (s : State) (vs : List VERSION) : Prop :=
  ∀ v ∈ vs, v.freed = false ∧ trans_get_status s v.creator = .ok TRANS_PENDING

instance (s : State) (vs : List VERSION) : Decidable (AllPending s vs) :=
  inferInstanceAs (Decidable (∀ v ∈ vs, _))

/-! ## Sound reference counts -/

/-- The references that the dependency list of a cell holds.  A cell gives up
its dependencies when its reference count reaches zero, just before it is
freed, so only a live cell with a non-zero count holds any. -/
def heldDeps (c : TRANSACTION) : List Nat :=
  if c.freed = false ∧ c.refcnt ≠ 0 then c.depends else []

/-- All references to transactions, with multiplicity: the handles `ext` held
outside the transaction manager (by the callers and by the versions of the
store) and the entries of the dependency lists. -/
def refsOf (s : State) (ext : List Nat) : List Nat :=
  ext ++ s.trans.flatMap heldDeps

/-- The reference counts are sound for the outside handles `ext`: every
referenced transaction is live and its count is at least the number of
references to it; and the global list has no repetition and only live
nodes. -/
def RefsSound (s : State) (ext : List Nat) : Prop :=
  (∀ d ∈ refsOf s ext, ∃ t, s.trans[d]? = some t ∧ t.freed = false ∧
      ((refsOf s ext).count d : Int) ≤ t.refcnt) ∧
  s.trans_list.Nodup ∧ ∀ c ∈ s.trans_list, ∃ t, s.trans[c]? = some t ∧ t.freed = false

instance (s : State) (ext : List Nat) : Decidable (RefsSound s ext) :=
  inferInstanceAs (Decidable ((∀ d ∈ refsOf s ext, ∃ t, s.trans[d]? = some t ∧
      t.freed = false ∧ ((refsOf s ext).count d : Int) ≤ t.refcnt) ∧
    s.trans_list.Nodup ∧ ∀ c ∈ s.trans_list, ∃ t, s.trans[c]? = some t ∧ t.freed = false))

/-- From `s` with the handles `q` to `s2` with the handles `p`: the counts of
`s2` are sound, no transaction has more references than before, and a
transaction without any reference keeps its cell. -/
def Shrinks (s : State) (q : List Nat) (s2 : State) (p : List Nat) : Prop :=
  RefsSound s2 p ∧
  (∀ c, (refsOf s2 p).count c ≤ (refsOf s q).count c) ∧
  (∀ c, (refsOf s q).count c = 0 → s2.trans[c]? = s.trans[c]?)

/-- A transaction with one reference that depends on an aborted transaction,
which has a second reference from outside. -/
def cascadeLast : State :=
  stateOf [cell 0 2 TRANS_ABORTED [], cell 1 1 TRANS_PENDING [0]]

/-- A fresh transaction on which a second reference was taken. -/
def heldTwice : State :=
  Res.getD State.init (do
    let (tp, s) ← trans_create State.init
    trans_ref s tp)

/-! ## Basic facts about results and heap access -/

@[simp] theorem Res.ok_bind {α β : Type} (a : α) (f : α → Res β) :
    (Res.ok a >>= f) = f a := rfl

@[simp] theorem Res.fault_bind {α β : Type} (e : Fault) (f : α → Res β) :
    ((Res.fault e : Res α) >>= f) = Res.fault e := rfl

@[simp] theorem Res.pure_eq {α : Type} (a : α) : (pure a : Res α) = Res.ok a := rfl

theorem Res.bind_eq_ok {α β : Type} {x : Res α} {f : α → Res β} {b : β} :
    (x >>= f) = Res.ok b ↔ ∃ a, x = Res.ok a ∧ f a = Res.ok b := by
  cases x <;> simp

theorem derefT_eq_ok {s : State} {tp : Nat} {t : TRANSACTION} :
    derefT s tp = .ok t ↔ s.trans[tp]? = some t ∧ t.freed = false := by
  unfold derefT
  cases h : s.trans[tp]? with
  | none => simp
  | some t0 =>
    by_cases hf : t0.freed = true
    · simp [hf]
      intro h1; subst h1; simp [hf]
    · simp [hf]
      intro h1; subst h1; simpa using hf

theorem derefT_of_get {s : State} {tp : Nat} {t : TRANSACTION}
    (h : s.trans[tp]? = some t) (hf : t.freed = false) : derefT s tp = .ok t :=
  derefT_eq_ok.mpr ⟨h, hf⟩

theorem writeT_get_same {s : State} {tp : Nat} {t0 t : TRANSACTION}
    (h : s.trans[tp]? = some t0) : (writeT s tp t).trans[tp]? = some t := by
  have hlt : tp < s.trans.length := by
    rcases List.getElem?_eq_some_iff.mp h with ⟨hlt, _⟩
    exact hlt
  simp [writeT, List.getElem?_set, hlt]

theorem writeT_get_ne {s : State} {tp a : Nat} {t : TRANSACTION} (h : tp ≠ a) :
    (writeT s tp t).trans[a]? = s.trans[a]? := by
  simp [writeT, List.getElem?_set, h]

theorem Rel.rel_refl {r : TRANSACTION → TRANSACTION → Prop} (hr : ∀ t, r t t) (s : State) :
    Rel r s s := fun _ t h => ⟨t, h, hr t⟩

theorem Rel.rel_trans {r : TRANSACTION → TRANSACTION → Prop}
    (hr : ∀ a b c, r a b → r b c → r a c) {s1 s2 s3 : State}
    (h12 : Rel r s1 s2) (h23 : Rel r s2 s3) : Rel r s1 s3 := by
  intro a t h
  obtain ⟨t2, h2, r2⟩ := h12 a t h
  obtain ⟨t3, h3, r3⟩ := h23 a t2 h2
  exact ⟨t3, h3, hr _ _ _ r2 r3⟩

theorem Rel.rel_mono {r q : TRANSACTION → TRANSACTION → Prop} (hrq : ∀ a b, r a b → q a b)
    {s1 s2 : State} (h : Rel r s1 s2) : Rel q s1 s2 := by
  intro a t ht
  obtain ⟨t2, h2, r2⟩ := h a t ht
  exact ⟨t2, h2, hrq _ _ r2⟩

theorem Rel.rel_of_trans_eq {r : TRANSACTION → TRANSACTION → Prop} (hr : ∀ t, r t t)
    {s1 s2 : State} (h : s2.trans = s1.trans) : Rel r s1 s2 := by
  intro a t ht
  exact ⟨t, by rw [h]; exact ht, hr t⟩

theorem Rel.rel_writeT {r : TRANSACTION → TRANSACTION → Prop} (hr : ∀ t, r t t)
    {s : State} {tp : Nat} {t0 t : TRANSACTION} (h0 : s.trans[tp]? = some t0)
    (h : r t0 t) : Rel r s (writeT s tp t) := by
  intro a u hu
  by_cases hat : tp = a
  · subst hat
    rw [h0] at hu
    cases hu
    exact ⟨t, writeT_get_same h0, h⟩
  · exact ⟨u, by rw [writeT_get_ne hat]; exact hu, hr u⟩

theorem sameButRef.sbr_refl (t : TRANSACTION) : sameButRef t t := ⟨rfl, rfl, rfl, rfl, rfl⟩

theorem sameButRef.sbr_trans (a b c : TRANSACTION) (h1 : sameButRef a b) (h2 : sameButRef b c) :
    sameButRef a c := by
  obtain ⟨a1, a2, a3, a4, a5⟩ := h1
  obtain ⟨b1, b2, b3, b4, b5⟩ := h2
  exact ⟨b1.trans a1, b2.trans a2, b3.trans a3, b4.trans a4, b5.trans a5⟩

theorem keepsCommit.kc_refl (t : TRANSACTION) : keepsCommit t t := fun h => h

theorem keepsCommit.kc_trans (a b c : TRANSACTION) (h1 : keepsCommit a b) (h2 : keepsCommit b c) :
    keepsCommit a c := fun h => h2 (h1 h)

theorem sameButRef.to_keepsCommit (a b : TRANSACTION) (h : sameButRef a b) : keepsCommit a b :=
  fun hc => h.2.1.trans hc

theorem Stable.stable_refl (s : State) : Stable s s := Rel.rel_refl keepsCommit.kc_refl s

theorem Stable.andThen {s1 s2 s3 : State} (h12 : Stable s1 s2) (h23 : Stable s2 s3) :
    Stable s1 s3 := Rel.rel_trans keepsCommit.kc_trans h12 h23

theorem steadyCell.sc_refl (t : TRANSACTION) : steadyCell t t :=
  ⟨fun h => h, fun h => ⟨h, Nat.le_refl _⟩⟩

theorem steadyCell.sc_trans (a b c : TRANSACTION) (h1 : steadyCell a b) (h2 : steadyCell b c) :
    steadyCell a c :=
  ⟨fun h => h2.1 (h1.1 h),
   fun h => ⟨(h1.2 (h2.2 h).1).1, Nat.le_trans (h2.2 h).2 (h1.2 (h2.2 h).1).2⟩⟩

theorem sameButRef.to_steadyCell (a b : TRANSACTION) (h : sameButRef a b) : steadyCell a b :=
  ⟨fun hc => h.2.1.trans hc, fun hp => ⟨h.2.1.symm.trans hp, Nat.le_of_eq h.2.2.2.2⟩⟩

theorem Steady.steady_refl (s : State) : Steady s s :=
  ⟨rfl, Rel.rel_refl steadyCell.sc_refl s⟩

theorem Steady.next {s1 s2 s3 : State} (h12 : Steady s1 s2) (h23 : Steady s2 s3) :
    Steady s1 s3 :=
  ⟨h23.1.trans h12.1, Rel.rel_trans steadyCell.sc_trans h12.2 h23.2⟩

theorem Steady.steady_of_trans_eq {s s2 : State} (h : s2.trans = s.trans) : Steady s s2 :=
  ⟨by rw [h], Rel.rel_of_trans_eq steadyCell.sc_refl h⟩

theorem Steady.steady_writeT {s : State} {tp : Nat} {t0 t : TRANSACTION}
    (h0 : s.trans[tp]? = some t0) (h : steadyCell t0 t) : Steady s (writeT s tp t) :=
  ⟨by simp [writeT], Rel.rel_writeT steadyCell.sc_refl h0 h⟩

theorem Steady.of_same {s s2 : State} (hl : s2.trans.length = s.trans.length)
    (h : Rel sameButRef s s2) : Steady s s2 :=
  ⟨hl, Rel.rel_mono sameButRef.to_steadyCell h⟩

theorem Steady.toStable {s s2 : State} (h : Steady s s2) : Stable s s2 :=
  Rel.rel_mono (fun _ _ hc => hc.1) h.2

theorem Steady.keepsInv {s s2 : State} (h : Steady s s2) (hinv : SemaphoreInv s) :
    SemaphoreInv s2 := by
  intro a t2 ht2 hp
  have hlt : a < s.trans.length := by
    rw [← h.1]
    exact (List.getElem?_eq_some_iff.mp ht2).1
  obtain ⟨t3, ht3, hrel⟩ := h.2 a (s.trans[a]) (List.getElem?_eq_getElem hlt)
  rw [ht2] at ht3
  cases ht3
  obtain ⟨hp0, hle⟩ := hrel.2 hp
  have := hinv a _ (List.getElem?_eq_getElem hlt) hp0
  omega

/-! ## transaction.c: frame properties -/

theorem trans_ref_rel {s s2 : State} {tp : Nat} (h : trans_ref s tp = .ok s2) :
    Rel sameButRef s s2 := by
  unfold trans_ref at h
  obtain ⟨t, ht, h2⟩ := Res.bind_eq_ok.mp h
  simp at h2
  subst h2
  exact Rel.rel_writeT sameButRef.sbr_refl (derefT_eq_ok.mp ht).1 ⟨rfl, rfl, rfl, rfl, rfl⟩

theorem foldlM_rel {r : TRANSACTION → TRANSACTION → Prop} (hrefl : ∀ t, r t t)
    (htrans : ∀ a b c, r a b → r b c → r a c) (f : State → Nat → Res State)
    (hf : ∀ s d s2, f s d = .ok s2 → Rel r s s2) :
    ∀ (ds : List Nat) (s s2 : State), ds.foldlM f s = .ok s2 → Rel r s s2 := by
  intro ds
  induction ds with
  | nil =>
    intro s s2 h
    simp at h
    subst h
    exact Rel.rel_refl hrefl s
  | cons d rest ih =>
    intro s s2 h
    simp only [List.foldlM_cons] at h
    obtain ⟨s1, h1, h2⟩ := Res.bind_eq_ok.mp h
    exact Rel.rel_trans htrans (hf _ _ _ h1) (ih _ _ h2)

theorem trans_unrefAux_rel : ∀ (n : Nat) (s s2 : State) (tp : Nat),
    trans_unrefAux n s tp = .ok s2 → Rel sameButRef s s2 := by
  intro n
  induction n with
  | zero => intro s s2 tp h; simp [trans_unrefAux] at h
  | succ n ih =>
    intro s s2 tp h
    unfold trans_unrefAux at h
    obtain ⟨t, ht, h⟩ := Res.bind_eq_ok.mp h
    have hw : Rel sameButRef s (writeT s tp { t with refcnt := t.refcnt - 1 }) :=
      Rel.rel_writeT sameButRef.sbr_refl (derefT_eq_ok.mp ht).1 ⟨rfl, rfl, rfl, rfl, rfl⟩
    simp only at h
    split at h
    · obtain ⟨s3, h3, h⟩ := Res.bind_eq_ok.mp h
      obtain ⟨t2, ht2, h⟩ := Res.bind_eq_ok.mp h
      obtain ⟨l, _, h⟩ := Res.bind_eq_ok.mp h
      simp at h
      subst h
      have h13 := foldlM_rel sameButRef.sbr_refl sameButRef.sbr_trans _ (fun a d b => ih a b d) _ _ _ h3
      have h34 : Rel sameButRef s3 (writeT s3 tp { t2 with freed := true }) :=
        Rel.rel_writeT sameButRef.sbr_refl (derefT_eq_ok.mp ht2).1 ⟨rfl, rfl, rfl, rfl, rfl⟩
      have h45 : Rel sameButRef (writeT s3 tp { t2 with freed := true })
          { writeT s3 tp { t2 with freed := true } with trans_list := l } :=
        Rel.rel_of_trans_eq sameButRef.sbr_refl rfl
      exact Rel.rel_trans sameButRef.sbr_trans hw
        (Rel.rel_trans sameButRef.sbr_trans h13 (Rel.rel_trans sameButRef.sbr_trans h34 h45))
    · simp at h
      subst h
      exact hw

theorem trans_unref_rel {s s2 : State} {tp : Nat} (h : trans_unref s tp = .ok s2) :
    Rel sameButRef s s2 := trans_unrefAux_rel _ _ _ _ h

theorem trans_ref_length {s s2 : State} {tp : Nat} (h : trans_ref s tp = .ok s2) :
    s2.trans.length = s.trans.length := by
  unfold trans_ref at h
  obtain ⟨t, _, h2⟩ := Res.bind_eq_ok.mp h
  simp at h2
  subst h2
  simp [writeT]

theorem foldlM_length (f : State → Nat → Res State)
    (hf : ∀ s d s2, f s d = .ok s2 → s2.trans.length = s.trans.length) :
    ∀ (ds : List Nat) (s s2 : State), ds.foldlM f s = .ok s2 →
      s2.trans.length = s.trans.length := by
  intro ds
  induction ds with
  | nil =>
    intro s s2 h
    simp at h
    subst h
    rfl
  | cons d rest ih =>
    intro s s2 h
    simp only [List.foldlM_cons] at h
    obtain ⟨s1, h1, h2⟩ := Res.bind_eq_ok.mp h
    exact (ih _ _ h2).trans (hf _ _ _ h1)

theorem trans_unrefAux_length : ∀ (n : Nat) (s s2 : State) (tp : Nat),
    trans_unrefAux n s tp = .ok s2 → s2.trans.length = s.trans.length := by
  intro n
  induction n with
  | zero => intro s s2 tp h; simp [trans_unrefAux] at h
  | succ n ih =>
    intro s s2 tp h
    unfold trans_unrefAux at h
    obtain ⟨t, ht, h⟩ := Res.bind_eq_ok.mp h
    simp only at h
    split at h
    · obtain ⟨s3, h3, h⟩ := Res.bind_eq_ok.mp h
      obtain ⟨t2, _, h⟩ := Res.bind_eq_ok.mp h
      obtain ⟨l, _, h⟩ := Res.bind_eq_ok.mp h
      simp at h
      subst h
      have h13 := foldlM_length _ (fun a d b => ih a b d) _ _ _ h3
      simp [writeT] at h13 ⊢
      exact h13
    · simp at h
      subst h
      simp [writeT]

theorem trans_unref_length {s s2 : State} {tp : Nat} (h : trans_unref s tp = .ok s2) :
    s2.trans.length = s.trans.length := trans_unrefAux_length _ _ _ _ h

theorem trans_unref_of_ne_one {s : State} {tp : Nat} {t : TRANSACTION}
    (ht : derefT s tp = .ok t) (hne : t.refcnt ≠ 1) :
    trans_unref s tp = .ok (writeT s tp { t with refcnt := t.refcnt - 1 }) := by
  have h0 : ¬ (t.refcnt - 1 = 0) := by omega
  simp [trans_unref, trans_unrefAux, ht, h0]

theorem trans_get_status_eq_ok {s : State} {tp : Nat} {st : TRANS_STATUS} :
    trans_get_status s tp = .ok st ↔ ∃ t, derefT s tp = .ok t ∧ t.status = st := by
  unfold trans_get_status
  constructor
  · intro h
    obtain ⟨t, ht, h2⟩ := Res.bind_eq_ok.mp h
    simp at h2
    exact ⟨t, ht, h2⟩
  · rintro ⟨t, ht, h2⟩
    simp [ht, h2]

theorem postAll_eq_ok {s s2 : State} {tp : Nat} (h : postAll s tp = .ok s2) :
    ∃ t, derefT s tp = .ok t ∧ s2 = writeT s tp { t with sem := t.sem + t.waitcnt.toNat } := by
  unfold postAll at h
  obtain ⟨t, ht, h2⟩ := Res.bind_eq_ok.mp h
  simp at h2
  exact ⟨t, ht, h2.symm⟩

theorem postAll_steady {s s2 : State} {tp : Nat} (h : postAll s tp = .ok s2)
    (hnp : ∀ t, derefT s tp = .ok t → t.status ≠ TRANS_PENDING) : Steady s s2 := by
  obtain ⟨t, ht, rfl⟩ := postAll_eq_ok h
  exact Steady.steady_writeT (derefT_eq_ok.mp ht).1
    ⟨fun hc => hc, fun hp => absurd hp (hnp t ht)⟩

theorem trans_unref_steady {s s2 : State} {tp : Nat} (h : trans_unref s tp = .ok s2) :
    Steady s s2 := Steady.of_same (trans_unref_length h) (trans_unref_rel h)

theorem trans_unref_stable {s s2 : State} {tp : Nat} (h : trans_unref s tp = .ok s2) :
    Stable s s2 := (trans_unref_steady h).toStable

/-- What `trans_abort` does when it returns: the result is `TRANS_ABORTED`, the
cell of `tp` ends with status aborted, and every cell keeps `steadyCell`. -/
theorem trans_abort_ok {s s2 : State} {tp : Nat} {st : TRANS_STATUS}
    (h : trans_abort s tp = .ok (st, s2)) :
    st = TRANS_ABORTED ∧ Steady s s2 ∧
      ∃ t2, s2.trans[tp]? = some t2 ∧ t2.status = TRANS_ABORTED := by
  unfold trans_abort at h
  obtain ⟨st0, hst0, h⟩ := Res.bind_eq_ok.mp h
  obtain ⟨t, ht, hts⟩ := trans_get_status_eq_ok.mp hst0
  split at h
  · simp at h
  · split at h
    · obtain ⟨s1, h1, h⟩ := Res.bind_eq_ok.mp h
      obtain ⟨s3, h3, h⟩ := Res.bind_eq_ok.mp h
      simp at h
      obtain ⟨rfl, rfl⟩ := h
      have hnp : ∀ u, derefT s tp = .ok u → u.status ≠ TRANS_PENDING := by
        intro u hu
        rw [ht] at hu
        cases hu
        intro hp
        have h2 : st0 = TRANS_PENDING := hts.symm.trans hp
        have h3 : st0 = TRANS_ABORTED := by assumption
        rw [h3] at h2
        cases h2
      refine ⟨rfl, (postAll_steady h1 hnp).next (trans_unref_steady h3), ?_⟩
      obtain ⟨t1, ht1, rfl⟩ := postAll_eq_ok h1
      rw [ht] at ht1
      cases ht1
      have hget := writeT_get_same (t := { t with sem := t.sem + t.waitcnt.toNat })
        (derefT_eq_ok.mp ht).1
      obtain ⟨t2, ht2, hr⟩ := trans_unref_rel h3 _ _ hget
      refine ⟨t2, ht2, ?_⟩
      rw [hr.2.1]
      subst hts
      assumption
    · obtain ⟨t0, ht0, h⟩ := Res.bind_eq_ok.mp h
      obtain ⟨s1, h1, h⟩ := Res.bind_eq_ok.mp h
      obtain ⟨s3, h3, h⟩ := Res.bind_eq_ok.mp h
      simp at h
      obtain ⟨rfl, rfl⟩ := h
      rw [ht] at ht0
      cases ht0
      have hw : Steady s (writeT s tp { t with status := TRANS_ABORTED }) :=
        Steady.steady_writeT (derefT_eq_ok.mp ht).1
          ⟨fun hc => absurd (hts.symm.trans hc) (by assumption), fun hp => nomatch hp⟩
      have hnp : ∀ u, derefT (writeT s tp { t with status := TRANS_ABORTED }) tp = .ok u →
          u.status ≠ TRANS_PENDING := by
        intro u hu
        have := (derefT_eq_ok.mp hu).1
        rw [writeT_get_same (derefT_eq_ok.mp ht).1] at this
        cases this
        intro hp
        cases hp
      refine ⟨rfl, hw.next ((postAll_steady h1 hnp).next (trans_unref_steady h3)), ?_⟩
      obtain ⟨t1, ht1, rfl⟩ := postAll_eq_ok h1
      have hget0 := writeT_get_same (t := { t with status := TRANS_ABORTED })
        (derefT_eq_ok.mp ht).1
      have ht1' := (derefT_eq_ok.mp ht1).1
      rw [hget0] at ht1'
      cases ht1'
      have hget := writeT_get_same
        (t := { ({ t with status := TRANS_ABORTED } : TRANSACTION) with
                sem := t.sem + t.waitcnt.toNat }) hget0
      obtain ⟨t2, ht2, hr⟩ := trans_unref_rel h3 _ _ hget
      exact ⟨t2, ht2, hr.2.1⟩

/-- `trans_abort` on a committed transaction calls `abort()`. -/
theorem trans_abort_committed {s : State} {tp : Nat}
    (h : trans_get_status s tp = .ok TRANS_COMMITTED) :
    trans_abort s tp = .fault .processAbort := by
  simp [trans_abort, h]

/-- `trans_abort` on a live transaction that is not committed and whose
reference count is not 1 (so that the object is not released). -/
theorem trans_abort_of_ne_one {s : State} {tp : Nat} {t : TRANSACTION}
    (ht : derefT s tp = .ok t) (hst : t.status ≠ TRANS_COMMITTED) (hne : t.refcnt ≠ 1) :
    trans_abort s tp = .ok (TRANS_ABORTED,
      writeT s tp { t with status := TRANS_ABORTED, sem := t.sem + t.waitcnt.toNat,
                           refcnt := t.refcnt - 1 }) := by
  have hget := (derefT_eq_ok.mp ht).1
  have hfr := (derefT_eq_ok.mp ht).2
  have hs : trans_get_status s tp = .ok t.status := trans_get_status_eq_ok.mpr ⟨t, ht, rfl⟩
  have hlt : tp < s.trans.length := (List.getElem?_eq_some_iff.mp hget).1
  unfold trans_abort
  rw [hs]
  simp only [Res.ok_bind, hst, if_false]
  by_cases hab : t.status = TRANS_ABORTED
  · simp only [hab, if_true]
    have h1 : postAll s tp = .ok (writeT s tp { t with sem := t.sem + t.waitcnt.toNat }) := by
      simp [postAll, ht]
    have hd : derefT (writeT s tp { t with sem := t.sem + t.waitcnt.toNat }) tp
        = .ok { t with sem := t.sem + t.waitcnt.toNat } :=
      derefT_of_get (writeT_get_same hget) hfr
    rw [h1]
    simp only [Res.ok_bind]
    rw [trans_unref_of_ne_one hd hne]
    simp [writeT, hab]
  · simp only [hab, if_false, ht, Res.ok_bind]
    have hd0 : derefT (writeT s tp { t with status := TRANS_ABORTED }) tp
        = .ok { t with status := TRANS_ABORTED } :=
      derefT_of_get (writeT_get_same hget) hfr
    have h1 : postAll (writeT s tp { t with status := TRANS_ABORTED }) tp
        = .ok (writeT (writeT s tp { t with status := TRANS_ABORTED }) tp
            { t with status := TRANS_ABORTED, sem := t.sem + t.waitcnt.toNat }) := by
      simp [postAll, hd0]
    rw [h1]
    simp only [Res.ok_bind]
    have hd : derefT (writeT (writeT s tp { t with status := TRANS_ABORTED }) tp
            { t with status := TRANS_ABORTED, sem := t.sem + t.waitcnt.toNat }) tp
        = .ok { t with status := TRANS_ABORTED, sem := t.sem + t.waitcnt.toNat } :=
      derefT_of_get (writeT_get_same (writeT_get_same hget)) hfr
    rw [trans_unref_of_ne_one hd hne]
    simp [writeT]

/-! ## trans_commit -/

theorem commitWait_terminal {s : State} : ∀ (ds : List Nat),
    (∀ d ∈ ds, ∃ td, derefT s d = .ok td ∧ td.status ≠ TRANS_PENDING) →
    commitWait s ds = .ok s := by
  intro ds
  induction ds with
  | nil => intro _; rfl
  | cons d rest ih =>
    intro h
    obtain ⟨td, htd, hst⟩ := h d (List.mem_cons_self _ _)
    have hs : trans_get_status s d = .ok td.status := trans_get_status_eq_ok.mpr ⟨td, htd, rfl⟩
    unfold commitWait
    rw [hs]
    simp only [Res.ok_bind, ne_eq, hst, not_false_eq_true, if_true]
    exact ih (fun e he => h e (List.mem_cons_of_mem _ he))

theorem commitWait_inv {s : State} (hinv : SemaphoreInv s) : ∀ (ds : List Nat) (s1 : State),
    commitWait s ds = .ok s1 →
    s1 = s ∧ ∀ d ∈ ds, ∃ td, derefT s d = .ok td ∧ td.status ≠ TRANS_PENDING := by
  intro ds
  induction ds with
  | nil =>
    intro s1 h
    simp [commitWait] at h
    exact ⟨h.symm, by simp⟩
  | cons d rest ih =>
    intro s1 h
    unfold commitWait at h
    obtain ⟨st, hst, h⟩ := Res.bind_eq_ok.mp h
    obtain ⟨td, htd, hts⟩ := trans_get_status_eq_ok.mp hst
    split at h
    · obtain ⟨h1, h2⟩ := ih s1 h
      refine ⟨h1, ?_⟩
      intro e he
      rcases List.mem_cons.mp he with rfl | he
      · exact ⟨td, htd, by rw [hts]; assumption⟩
      · exact h2 e he
    · rename_i hp
      have hpend : td.status = TRANS_PENDING := by
        rw [hts]
        by_contra hc
        exact hp hc
      have hsem : td.sem = 0 := hinv d td (derefT_eq_ok.mp htd).1 hpend
      rw [htd] at h
      simp [hsem] at h

theorem commitCheck_false {s : State} : ∀ (ds : List Nat),
    commitCheck s ds = .ok false →
    ∀ d ∈ ds, ∃ td, derefT s d = .ok td ∧ td.status ≠ TRANS_ABORTED := by
  intro ds
  induction ds with
  | nil => intro _ d hd; simp at hd
  | cons d rest ih =>
    intro h
    unfold commitCheck at h
    obtain ⟨st, hst, h⟩ := Res.bind_eq_ok.mp h
    obtain ⟨td, htd, hts⟩ := trans_get_status_eq_ok.mp hst
    split at h
    · simp at h
    · rename_i hna
      intro e he
      rcases List.mem_cons.mp he with rfl | he
      · exact ⟨td, htd, by rw [hts]; exact hna⟩
      · exact ih h e he

theorem commitCheck_true {s : State} : ∀ (ds : List Nat),
    commitCheck s ds = .ok true →
    ∃ d ∈ ds, ∃ td, derefT s d = .ok td ∧ td.status = TRANS_ABORTED := by
  intro ds
  induction ds with
  | nil => intro h; simp [commitCheck] at h
  | cons d rest ih =>
    intro h
    unfold commitCheck at h
    obtain ⟨st, hst, h⟩ := Res.bind_eq_ok.mp h
    obtain ⟨td, htd, hts⟩ := trans_get_status_eq_ok.mp hst
    split at h
    · rename_i ha
      exact ⟨d, List.mem_cons_self _ _, td, htd, hts.trans ha⟩
    · obtain ⟨e, he, r⟩ := ih h
      exact ⟨e, List.mem_cons_of_mem _ he, r⟩

theorem commitCheck_of_live {s : State} : ∀ (ds : List Nat),
    (∀ d ∈ ds, ∃ td, derefT s d = .ok td) → ∃ b, commitCheck s ds = .ok b := by
  intro ds
  induction ds with
  | nil => intro _; exact ⟨false, rfl⟩
  | cons d rest ih =>
    intro h
    obtain ⟨td, htd⟩ := h d (List.mem_cons_self _ _)
    have hs : trans_get_status s d = .ok td.status := trans_get_status_eq_ok.mpr ⟨td, htd, rfl⟩
    obtain ⟨b, hb⟩ := ih (fun e he => h e (List.mem_cons_of_mem _ he))
    unfold commitCheck
    rw [hs]
    by_cases ha : td.status = TRANS_ABORTED
    · exact ⟨true, by simp [ha]⟩
    · exact ⟨b, by simp [ha, hb]⟩

/-- What `trans_commit` does when it returns. -/
theorem trans_commit_ok {s s2 : State} {tp : Nat} {st : TRANS_STATUS}
    (h : trans_commit s tp = .ok (st, s2)) :
    ∃ t s1, derefT s tp = .ok t ∧ commitWait s t.depends = .ok s1 ∧
      ∃ t1, derefT s1 tp = .ok t1 ∧
      ((commitCheck s1 t1.depends = .ok true ∧ trans_abort s1 tp = .ok (st, s2)) ∨
       (commitCheck s1 t1.depends = .ok false ∧ st = TRANS_COMMITTED ∧
          ∃ s3, postAll (writeT s1 tp { t1 with status := TRANS_COMMITTED }) tp = .ok s3 ∧
            trans_unref s3 tp = .ok s2)) := by
  unfold trans_commit at h
  obtain ⟨t, ht, h⟩ := Res.bind_eq_ok.mp h
  obtain ⟨s1, h1, h⟩ := Res.bind_eq_ok.mp h
  obtain ⟨t1, ht1, h⟩ := Res.bind_eq_ok.mp h
  obtain ⟨ab, hab, h⟩ := Res.bind_eq_ok.mp h
  refine ⟨t, s1, ht, h1, t1, ht1, ?_⟩
  cases ab with
  | true => exact Or.inl ⟨hab, by simpa using h⟩
  | false =>
    simp only [Bool.false_eq_true, if_false] at h
    obtain ⟨t2, ht2, h⟩ := Res.bind_eq_ok.mp h
    obtain ⟨s3, h3, h⟩ := Res.bind_eq_ok.mp h
    obtain ⟨s4, h4, h⟩ := Res.bind_eq_ok.mp h
    simp at h
    obtain ⟨rfl, rfl⟩ := h
    rw [ht1] at ht2
    cases ht2
    exact Or.inr ⟨hab, rfl, s3, h3, h4⟩

theorem semaphoreInv_of_check {s : State} (h : semaphoreInvB s = true) : SemaphoreInv s := by
  intro a t ht hp
  have hmem : t ∈ s.trans := by
    obtain ⟨hlt, he⟩ := List.getElem?_eq_some_iff.mp ht
    exact he ▸ List.getElem_mem hlt
  have := List.all_eq_true.mp h t hmem
  exact of_decide_eq_true this hp

/-! ## Claims about the transaction manager -/

/-- C5.  If `trans_commit(T)` returns `TRANS_COMMITTED`, then every transaction
in the dependency list of `T` has status committed in the state it returns.
The semaphore invariant stands for the other threads: in a single-threaded run
a wait on a pending dependency never ends. -/
theorem trans_commit_committed_dependencies (s s2 : State) (tp : Nat) (t : TRANSACTION)
    (hinv : SemaphoreInv s) (ht : s.trans[tp]? = some t)
    (h : trans_commit s tp = .ok (TRANS_COMMITTED, s2)) :
    ∀ d ∈ t.depends, ∃ td, s2.trans[d]? = some td ∧ td.status = TRANS_COMMITTED := by
  obtain ⟨t0, s1, ht0, hw, t1, ht1, hcase⟩ := trans_commit_ok h
  have e0 : t0 = t := by
    have := (derefT_eq_ok.mp ht0).1
    rw [ht] at this
    cases this
    rfl
  subst e0
  obtain ⟨rfl, hterm⟩ := commitWait_inv hinv _ _ hw
  rw [ht0] at ht1
  cases ht1
  rcases hcase with ⟨_, hab⟩ | ⟨hck, _, s3, h3, h4⟩
  · have := (trans_abort_ok hab).1
    cases this
  · have hst : Stable s1 s2 := by
      have hw1 : Stable s1 (writeT s1 tp { t0 with status := TRANS_COMMITTED }) :=
        Rel.rel_writeT keepsCommit.kc_refl ht (fun _ => rfl)
      have hp : Stable (writeT s1 tp { t0 with status := TRANS_COMMITTED }) s3 := by
        obtain ⟨u, hu, rfl⟩ := postAll_eq_ok h3
        exact Rel.rel_writeT keepsCommit.kc_refl (derefT_eq_ok.mp hu).1 (fun hc => hc)
      exact hw1.andThen (hp.andThen (trans_unref_stable h4))
    intro d hd
    obtain ⟨td, htd, hnp⟩ := hterm d hd
    obtain ⟨td2, htd2, hna⟩ := commitCheck_false _ hck d hd
    rw [htd] at htd2
    cases htd2
    have hc : td.status = TRANS_COMMITTED := by
      cases hs : td.status with
      | TRANS_PENDING => exact absurd hs hnp
      | TRANS_COMMITTED => rfl
      | TRANS_ABORTED => exact absurd hs hna
    obtain ⟨t2, ht2, hk⟩ := hst d td (derefT_eq_ok.mp htd).1
    exact ⟨t2, ht2, hk hc⟩

/-- Witness for C5: transaction 1 of `commitReady` commits, and its dependency
is committed afterwards. -/
theorem trans_commit_committed_dependencies_witness :
    trans_commit commitReady 1 = .ok (TRANS_COMMITTED, commitDone) ∧
      ∃ td, commitDone.trans[0]? = some td ∧ td.status = TRANS_COMMITTED :=
  ⟨by decide,
   trans_commit_committed_dependencies commitReady commitDone 1
     (cell 1 2 TRANS_PENDING [0]) (semaphoreInv_of_check (by decide)) (by decide) (by decide)
     0 (by decide)⟩

/-! ## Frame properties of the blob and store operations -/

theorem blob_ref_frame {s s2 : State} {bp : Option Nat} (h : blob_ref s bp = .ok s2) :
    s2.trans = s.trans ∧ s2.table = s.table := by
  unfold blob_ref at h
  cases bp with
  | none => simp at h; subst h; exact ⟨rfl, rfl⟩
  | some p =>
    obtain ⟨b, _, h⟩ := Res.bind_eq_ok.mp h
    simp at h
    subst h
    exact ⟨rfl, rfl⟩

theorem blob_unref_frame {s s2 : State} {bp : Option Nat} (h : blob_unref s bp = .ok s2) :
    s2.trans = s.trans ∧ s2.table = s.table := by
  unfold blob_unref at h
  cases bp with
  | none => simp at h; subst h; exact ⟨rfl, rfl⟩
  | some p =>
    obtain ⟨b, _, h⟩ := Res.bind_eq_ok.mp h
    split at h <;> simp at h <;> subst h <;> exact ⟨rfl, rfl⟩

theorem findMapEntry_trans {s s2 : State} {key : KEY} {loc : Loc}
    (h : findMapEntry s key = .ok (loc, s2)) : s2.trans = s.trans := by
  unfold findMapEntry at h
  obtain ⟨r, _, h⟩ := Res.bind_eq_ok.mp h
  cases r with
  | some l =>
    obtain ⟨s1, h1, h⟩ := Res.bind_eq_ok.mp h
    simp at h
    obtain ⟨_, rfl⟩ := h
    exact (blob_unref_frame h1).1
  | none =>
    simp only at h
    split at h
    · simp at h
    · simp at h
      obtain ⟨_, rfl⟩ := h
      rfl

theorem setVersions_trans (s : State) (loc : Loc) (vs : List VERSION) :
    (setVersions s loc vs).trans = s.trans := by
  unfold setVersions
  split
  · rfl
  · split <;> rfl

theorem version_dispose_rel {s s2 : State} {v : VERSION} (h : version_dispose s v = .ok s2) :
    Rel sameButRef s s2 := by
  unfold version_dispose at h
  obtain ⟨s1, h1, h⟩ := Res.bind_eq_ok.mp h
  have h12 : Rel sameButRef s1 s2 := Rel.rel_of_trans_eq sameButRef.sbr_refl (blob_unref_frame h).1
  exact Rel.rel_trans sameButRef.sbr_trans (trans_unref_rel h1) h12

theorem version_dispose_length {s s2 : State} {v : VERSION}
    (h : version_dispose s v = .ok s2) : s2.trans.length = s.trans.length := by
  unfold version_dispose at h
  obtain ⟨s1, h1, h⟩ := Res.bind_eq_ok.mp h
  rw [(blob_unref_frame h).1]
  exact trans_unref_length h1

theorem version_dispose_steady {s s2 : State} {v : VERSION}
    (h : version_dispose s v = .ok s2) : Steady s s2 :=
  Steady.of_same (version_dispose_length h) (version_dispose_rel h)

theorem trans_ref_steady {s s2 : State} {tp : Nat} (h : trans_ref s tp = .ok s2) :
    Steady s s2 := Steady.of_same (trans_ref_length h) (trans_ref_rel h)

theorem trans_add_dependency_steady {s s2 : State} {tp dtp : Nat}
    (h : trans_add_dependency s tp dtp = .ok s2) : Steady s s2 := by
  unfold trans_add_dependency at h
  obtain ⟨t, ht, h⟩ := Res.bind_eq_ok.mp h
  have hw : Steady s (writeT s tp { t with depends := dtp :: t.depends }) :=
    Steady.steady_writeT (derefT_eq_ok.mp ht).1 ⟨fun hc => hc, fun hp => ⟨hp, Nat.le_refl _⟩⟩
  exact hw.next (trans_ref_steady h)

theorem commitWait_steady : ∀ (ds : List Nat) (s s1 : State),
    commitWait s ds = .ok s1 → Steady s s1 := by
  intro ds
  induction ds with
  | nil =>
    intro s s1 h
    simp [commitWait] at h
    subst h
    exact Steady.steady_refl s
  | cons d rest ih =>
    intro s s1 h
    unfold commitWait at h
    obtain ⟨st, _, h⟩ := Res.bind_eq_ok.mp h
    split at h
    · exact ih _ _ h
    · obtain ⟨t, ht, h⟩ := Res.bind_eq_ok.mp h
      split at h
      · simp at h
      · have hw : Steady s (writeT s d { t with waitcnt := t.waitcnt + 1, sem := t.sem - 1 }) :=
          Steady.steady_writeT (derefT_eq_ok.mp ht).1
            ⟨fun hc => hc, fun hp => ⟨hp, Nat.sub_le _ _⟩⟩
        exact hw.next (ih _ _ h)

theorem trans_commit_steady {s s2 : State} {tp : Nat} {st : TRANS_STATUS}
    (h : trans_commit s tp = .ok (st, s2)) : Steady s s2 := by
  obtain ⟨t, s1, _, hw, t1, ht1, hcase⟩ := trans_commit_ok h
  have h01 := commitWait_steady _ _ _ hw
  rcases hcase with ⟨_, hab⟩ | ⟨_, _, s3, h3, h4⟩
  · exact h01.next (trans_abort_ok hab).2.1
  · have hw1 : Steady s1 (writeT s1 tp { t1 with status := TRANS_COMMITTED }) :=
      Steady.steady_writeT (derefT_eq_ok.mp ht1).1 ⟨fun _ => rfl, fun hp => nomatch hp⟩
    have hnp : ∀ u, derefT (writeT s1 tp { t1 with status := TRANS_COMMITTED }) tp = .ok u →
        u.status ≠ TRANS_PENDING := by
      intro u hu
      have := (derefT_eq_ok.mp hu).1
      rw [writeT_get_same (derefT_eq_ok.mp ht1).1] at this
      cases this
      intro hp
      cases hp
    exact h01.next (hw1.next ((postAll_steady h3 hnp).next (trans_unref_steady h4)))

theorem trans_create_stable {s s2 : State} {tp : Nat}
    (h : trans_create s = .ok (tp, s2)) : Stable s s2 := by
  unfold trans_create at h
  obtain ⟨_, _, h⟩ := Res.bind_eq_ok.mp h
  obtain ⟨s1, h1, h⟩ := Res.bind_eq_ok.mp h
  simp at h
  obtain ⟨_, rfl⟩ := h
  refine Stable.andThen ?_ (trans_ref_steady h1).toStable
  intro a t ht
  refine ⟨t, ?_, fun hc => hc⟩
  have hlt : a < s.trans.length := (List.getElem?_eq_some_iff.mp ht).1
  simp [List.getElem?_append_left hlt, ht]

/-! ## garbageCollect and addVersion keep every cell steady -/

theorem gcLoop2_steady : ∀ (n : Nat) (s : State) (vs : List VERSION) (prev cur : Option Nat)
    (lc : VPtr) (flag : Bool) (r : State × List VERSION × Option Nat × Option Nat × Bool),
    gcLoop2 n s vs prev cur lc flag = .ok r → Steady s r.1 := by
  intro n
  induction n with
  | zero => intro s vs prev cur lc flag r h; simp [gcLoop2] at h
  | succ n ih =>
    intro s vs prev cur lc flag r h
    cases prev with
    | none =>
      simp [gcLoop2] at h
      subst h
      exact Steady.steady_refl s
    | some p =>
      unfold gcLoop2 at h
      obtain ⟨vp, _, h⟩ := Res.bind_eq_ok.mp h
      obtain ⟨status, _, h⟩ := Res.bind_eq_ok.mp h
      split at h
      · obtain ⟨⟨p1, c1⟩, _, h⟩ := Res.bind_eq_ok.mp h
        exact ih _ _ _ _ _ _ _ h
      · split at h
        · obtain ⟨differs, _, h⟩ := Res.bind_eq_ok.mp h
          split at h
          · obtain ⟨s1, h1, h⟩ := Res.bind_eq_ok.mp h
            obtain ⟨⟨p1, c1⟩, _, h⟩ := Res.bind_eq_ok.mp h
            exact (version_dispose_steady h1).next (ih _ _ _ _ _ _ _ h)
          · obtain ⟨differs2, _, h⟩ := Res.bind_eq_ok.mp h
            split at h
            · simp at h
              subst h
              exact Steady.steady_refl s
            · obtain ⟨⟨p1, c1⟩, _, h⟩ := Res.bind_eq_ok.mp h
              exact ih _ _ _ _ _ _ _ h
        · obtain ⟨⟨p1, c1⟩, _, h⟩ := Res.bind_eq_ok.mp h
          exact ih _ _ _ _ _ _ _ h

theorem gcLoop2b_steady : ∀ (n : Nat) (s : State) (vs : List VERSION) (prev cur : Option Nat)
    (lc ea : VPtr) (r : State × List VERSION × VPtr),
    gcLoop2b n s vs prev cur lc ea = .ok r → Steady s r.1 := by
  intro n
  induction n with
  | zero => intro s vs prev cur lc ea r h; simp [gcLoop2b] at h
  | succ n ih =>
    intro s vs prev cur lc ea r h
    cases cur with
    | none =>
      simp [gcLoop2b] at h
      subst h
      exact Steady.steady_refl s
    | some c =>
      unfold gcLoop2b at h
      obtain ⟨vc, _, h⟩ := Res.bind_eq_ok.mp h
      obtain ⟨status, _, h⟩ := Res.bind_eq_ok.mp h
      split at h
      · obtain ⟨differs, _, h⟩ := Res.bind_eq_ok.mp h
        split at h
        · cases prev with
          | none => simp at h
          | some p =>
            simp only at h
            obtain ⟨_, _, h⟩ := Res.bind_eq_ok.mp h
            obtain ⟨s1, h1, h⟩ := Res.bind_eq_ok.mp h
            obtain ⟨⟨p1, c1⟩, _, h⟩ := Res.bind_eq_ok.mp h
            exact (version_dispose_steady h1).next (ih _ _ _ _ _ _ _ h)
        · simp at h
          subst h
          exact Steady.steady_refl s
      · obtain ⟨⟨p1, c1⟩, _, h⟩ := Res.bind_eq_ok.mp h
        exact ih _ _ _ _ _ _ _ h

theorem gcCascade_steady : ∀ (n : Nat) (s : State) (vs : List VERSION) (prev cur : Option Nat)
    (r : State × List VERSION), gcCascade n s vs prev cur = .ok r → Steady s r.1 := by
  intro n
  induction n with
  | zero => intro s vs prev cur r h; simp [gcCascade] at h
  | succ n ih =>
    intro s vs prev cur r h
    cases prev with
    | none =>
      simp [gcCascade] at h
      subst h
      exact Steady.steady_refl s
    | some p =>
      unfold gcCascade at h
      obtain ⟨vp, _, h⟩ := Res.bind_eq_ok.mp h
      obtain ⟨⟨st, s1⟩, h1, h⟩ := Res.bind_eq_ok.mp h
      obtain ⟨s2, h2, h⟩ := Res.bind_eq_ok.mp h
      obtain ⟨⟨p1, c1⟩, _, h⟩ := Res.bind_eq_ok.mp h
      exact (trans_abort_ok h1).2.1.next ((version_dispose_steady h2).next (ih _ _ _ _ _ h))

theorem gcLoop3_steady : ∀ (n : Nat) (s : State) (vs : List VERSION) (prev cur : Option Nat)
    (ea : VPtr) (r : State × List VERSION), gcLoop3 n s vs prev cur ea = .ok r →
    Steady s r.1 := by
  intro n
  induction n with
  | zero => intro s vs prev cur ea r h; simp [gcLoop3] at h
  | succ n ih =>
    intro s vs prev cur ea r h
    cases prev with
    | none =>
      simp [gcLoop3] at h
      subst h
      exact Steady.steady_refl s
    | some p =>
      unfold gcLoop3 at h
      obtain ⟨vp, _, h⟩ := Res.bind_eq_ok.mp h
      obtain ⟨status, _, h⟩ := Res.bind_eq_ok.mp h
      split at h
      · obtain ⟨differs, _, h⟩ := Res.bind_eq_ok.mp h
        split at h
        · exact gcCascade_steady _ _ _ _ _ _ h
        · obtain ⟨⟨p1, c1⟩, _, h⟩ := Res.bind_eq_ok.mp h
          exact ih _ _ _ _ _ _ h
      · obtain ⟨⟨p1, c1⟩, _, h⟩ := Res.bind_eq_ok.mp h
        exact ih _ _ _ _ _ _ h

theorem garbageCollectList_steady {s : State} {vs : List VERSION} {r : State × List VERSION}
    (h : garbageCollectList s vs = .ok r) : Steady s r.1 := by
  unfold garbageCollectList at h
  cases vs with
  | nil =>
    simp at h
    subst h
    exact Steady.steady_refl s
  | cons v rest =>
    simp only at h
    obtain ⟨⟨lc, ea⟩, _, h⟩ := Res.bind_eq_ok.mp h
    obtain ⟨_, _, h⟩ := Res.bind_eq_ok.mp h
    obtain ⟨⟨s1, vs1, prev1, cur1, flag1⟩, h1, h⟩ := Res.bind_eq_ok.mp h
    obtain ⟨⟨s2, vs2, ea2⟩, h2, h⟩ := Res.bind_eq_ok.mp h
    obtain ⟨_, _, h⟩ := Res.bind_eq_ok.mp h
    have h01 : Steady s s1 := gcLoop2_steady _ _ _ _ _ _ _ _ h1
    have h12 : Steady s1 s2 := by
      unfold gcUnlink at h2
      split at h2
      · exact gcLoop2b_steady _ _ _ _ _ _ _ _ h2
      · simp at h2
        obtain ⟨rfl, _, _⟩ := h2
        exact Steady.steady_refl _
    exact h01.next (h12.next (gcLoop3_steady _ _ _ _ _ _ _ h))

theorem garbageCollect_steady {s s2 : State} {loc : Loc}
    (h : garbageCollect s loc = .ok s2) : Steady s s2 := by
  unfold garbageCollect at h
  split at h
  · simp at h
  · obtain ⟨⟨s1, vs1⟩, h1, h⟩ := Res.bind_eq_ok.mp h
    simp at h
    subst h
    exact (garbageCollectList_steady h1).next (Steady.steady_of_trans_eq (setVersions_trans _ _ _))

theorem avWalk_steady {tp : Nat} : ∀ (vs : List VERSION) (i : Nat) (s : State)
    (r : State × Option Nat), avWalk s tp vs i = .ok r → Steady s r.1 := by
  intro vs
  induction vs with
  | nil =>
    intro i s r h
    simp [avWalk] at h
    subst h
    exact Steady.steady_refl s
  | cons v rest ih =>
    intro i s r h
    unfold avWalk at h
    split at h
    · simp at h
    · obtain ⟨c, _, h⟩ := Res.bind_eq_ok.mp h
      obtain ⟨t, _, h⟩ := Res.bind_eq_ok.mp h
      split at h
      · simp at h
        subst h
        exact Steady.steady_refl s
      · obtain ⟨status, _, h⟩ := Res.bind_eq_ok.mp h
        split at h
        · obtain ⟨s1, h1, h⟩ := Res.bind_eq_ok.mp h
          exact (trans_add_dependency_steady h1).next (ih _ _ _ h)
        · exact ih _ _ _ h

theorem addVersionList_steady {s : State} {vs : List VERSION} {tp : Nat} {bp : Option Nat}
    {r : State × List VERSION} (h : addVersionList s vs tp bp = .ok r) : Steady s r.1 := by
  unfold addVersionList at h
  obtain ⟨ana, _, h⟩ := Res.bind_eq_ok.mp h
  split at h
  · obtain ⟨s1, h1, h⟩ := Res.bind_eq_ok.mp h
    obtain ⟨⟨st, s2⟩, h2, h⟩ := Res.bind_eq_ok.mp h
    obtain ⟨s3, h3, h⟩ := Res.bind_eq_ok.mp h
    simp at h
    subst h
    exact (trans_ref_steady h1).next ((trans_abort_ok h2).2.1.next
      (Steady.steady_of_trans_eq (blob_unref_frame h3).1))
  · obtain ⟨⟨version, s1⟩, h1, h⟩ := Res.bind_eq_ok.mp h
    have h01 : Steady s s1 := by
      unfold version_create at h1
      obtain ⟨s0, h0, h1⟩ := Res.bind_eq_ok.mp h1
      simp at h1
      obtain ⟨_, rfl⟩ := h1
      exact trans_ref_steady h0
    cases vs with
    | nil =>
      simp at h
      subst h
      exact h01
    | cons head rest =>
      simp only at h
      obtain ⟨_, _, h⟩ := Res.bind_eq_ok.mp h
      obtain ⟨c, _, h⟩ := Res.bind_eq_ok.mp h
      obtain ⟨t, _, h⟩ := Res.bind_eq_ok.mp h
      split at h
      · obtain ⟨s2, h2, h⟩ := Res.bind_eq_ok.mp h
        simp at h
        subst h
        exact h01.next (version_dispose_steady h2)
      · obtain ⟨⟨s2, temp⟩, h2, h⟩ := Res.bind_eq_ok.mp h
        have h12 : Steady s1 s2 := avWalk_steady _ _ _ _ h2
        cases temp with
        | none =>
          simp at h
          subst h
          exact h01.next h12
        | some j =>
          simp only at h
          obtain ⟨prev, _, h⟩ := Res.bind_eq_ok.mp h
          obtain ⟨s3, h3, h⟩ := Res.bind_eq_ok.mp h
          simp at h
          subst h
          exact h01.next (h12.next (version_dispose_steady h3))

theorem addVersion_steady {s s2 : State} {loc : Loc} {tp : Nat} {bp : Option Nat}
    (h : addVersion s loc tp bp = .ok s2) : Steady s s2 := by
  unfold addVersion at h
  split at h
  · simp at h
  · obtain ⟨⟨s1, vs1⟩, h1, h⟩ := Res.bind_eq_ok.mp h
    simp at h
    subst h
    exact (addVersionList_steady h1).next (Steady.steady_of_trans_eq (setVersions_trans _ _ _))

theorem store_put_steady {s s2 : State} {tp : Nat} {key : KEY} {value : Option Nat}
    {st : TRANS_STATUS} (h : store_put s tp key value = .ok (st, s2)) : Steady s s2 := by
  unfold store_put at h
  obtain ⟨⟨loc, s1⟩, h1, h⟩ := Res.bind_eq_ok.mp h
  obtain ⟨sg, hg, h⟩ := Res.bind_eq_ok.mp h
  obtain ⟨s3, h3, h⟩ := Res.bind_eq_ok.mp h
  obtain ⟨status, _, h⟩ := Res.bind_eq_ok.mp h
  simp at h
  obtain ⟨_, rfl⟩ := h
  exact (Steady.steady_of_trans_eq (findMapEntry_trans h1)).next
    ((garbageCollect_steady hg).next (addVersion_steady h3))

theorem store_get_steady {s s2 : State} {tp : Nat} {key : KEY} {value : Option Nat}
    {st : TRANS_STATUS} (h : store_get s tp key = .ok (st, value, s2)) : Steady s s2 := by
  unfold store_get at h
  obtain ⟨⟨loc, s1⟩, h1, h⟩ := Res.bind_eq_ok.mp h
  obtain ⟨sg, hg, h⟩ := Res.bind_eq_ok.mp h
  obtain ⟨v, _, h⟩ := Res.bind_eq_ok.mp h
  obtain ⟨s3, h3, h⟩ := Res.bind_eq_ok.mp h
  obtain ⟨s4, h4, h⟩ := Res.bind_eq_ok.mp h
  obtain ⟨s5, h5, h⟩ := Res.bind_eq_ok.mp h
  obtain ⟨status, _, h⟩ := Res.bind_eq_ok.mp h
  simp at h
  obtain ⟨_, _, rfl⟩ := h
  exact (Steady.steady_of_trans_eq (findMapEntry_trans h1)).next
    ((garbageCollect_steady hg).next ((Steady.steady_of_trans_eq (blob_ref_frame h3).1).next
      ((addVersion_steady h4).next (Steady.steady_of_trans_eq (blob_ref_frame h5).1))))

/-! ## The semaphore invariant -/

theorem trans_create_inv {s s2 : State} {tp : Nat} (hinv : SemaphoreInv s)
    (h : trans_create s = .ok (tp, s2)) : SemaphoreInv s2 := by
  unfold trans_create at h
  obtain ⟨_, _, h⟩ := Res.bind_eq_ok.mp h
  obtain ⟨s1, h1, h⟩ := Res.bind_eq_ok.mp h
  simp at h
  obtain ⟨_, rfl⟩ := h
  refine (trans_ref_steady h1).keepsInv ?_
  intro a t ht hp
  by_cases hlt : a < s.trans.length
  · simp only [List.getElem?_append_left hlt] at ht
    exact hinv a t ht hp
  · have hge : s.trans.length ≤ a := Nat.le_of_not_lt hlt
    simp only [List.getElem?_append_right hge] at ht
    generalize a - s.trans.length = k at ht
    cases k with
    | zero =>
      simp at ht
      subst ht
      rfl
    | succ k => simp at ht

/-- The semaphore invariant holds initially and is kept by every operation of
the transaction manager and of the store that returns. -/
theorem semaphoreInv_preserved (s : State) (tp : Nat) (hinv : SemaphoreInv s) :
    SemaphoreInv State.init ∧
    (∀ a s2, trans_create s = .ok (a, s2) → SemaphoreInv s2) ∧
    (∀ st s2, trans_abort s tp = .ok (st, s2) → SemaphoreInv s2) ∧
    (∀ st s2, trans_commit s tp = .ok (st, s2) → SemaphoreInv s2) ∧
    (∀ key value st s2, store_put s tp key value = .ok (st, s2) → SemaphoreInv s2) ∧
    (∀ key st value s2, store_get s tp key = .ok (st, value, s2) → SemaphoreInv s2) :=
  ⟨semaphoreInv_of_check (by decide),
   fun _ _ h => trans_create_inv hinv h,
   fun _ _ h => (trans_abort_ok h).2.1.keepsInv hinv,
   fun _ _ h => (trans_commit_steady h).keepsInv hinv,
   fun _ _ _ _ h => (store_put_steady h).keepsInv hinv,
   fun _ _ _ _ h => (store_get_steady h).keepsInv hinv⟩

/-- Witness for the semaphore invariant: it holds in `commitReady` and after
the commit of transaction 1. -/
theorem semaphoreInv_preserved_witness : SemaphoreInv commitDone :=
  (semaphoreInv_preserved commitReady 1 (semaphoreInv_of_check (by decide))).2.2.2.1
    TRANS_COMMITTED commitDone (by decide)

/-! ## Exact results of the blob operations and of the anachronism path -/

theorem list_set_self {α : Type} {l : List α} {i : Nat} {a : α} (h : l[i]? = some a) :
    l.set i a = l := by
  apply List.ext_getElem?
  intro j
  rw [List.getElem?_set]
  by_cases hij : i = j
  · subst hij
    have hlt : i < l.length := (List.getElem?_eq_some_iff.mp h).1
    simp [hlt, h]
  · simp [hij]

theorem setVersions_self {s : State} {loc : Loc} {e : MAP_ENTRY} (h : entryAt s loc = some e) :
    setVersions s loc e.versions = s := by
  unfold entryAt at h
  unfold setVersions
  cases hc : s.table[loc.1]? with
  | none => rfl
  | some chain =>
    rw [hc] at h
    simp only at h
    simp only [h]
    have e1 : chain.set loc.2 { e with versions := e.versions } = chain := list_set_self h
    rw [e1, list_set_self hc]

theorem derefB_eq_ok {s : State} {bp : Nat} {b : BLOB} :
    derefB s bp = .ok b ↔ s.blobs[bp]? = some b ∧ b.freed = false := by
  unfold derefB
  cases h : s.blobs[bp]? with
  | none => simp
  | some b0 =>
    by_cases hf : b0.freed = true
    · simp [hf]
      intro h1; subst h1; simp [hf]
    · simp [hf]
      intro h1; subst h1; simpa using hf

theorem writeB_get_same {s : State} {bp : Nat} {b0 b : BLOB}
    (h : s.blobs[bp]? = some b0) : (writeB s bp b).blobs[bp]? = some b := by
  have hlt : bp < s.blobs.length := (List.getElem?_eq_some_iff.mp h).1
  simp [writeB, List.getElem?_set, hlt]

theorem blob_unref_ok_of_held {s : State} {bp : Option Nat} (h : blobHeld s bp) :
    ∃ s2, blob_unref s bp = .ok s2 := by
  cases bp with
  | none => exact ⟨s, rfl⟩
  | some p =>
    obtain ⟨b, hb, hf, _⟩ := h p rfl
    have hd : derefB s p = .ok b := derefB_eq_ok.mpr ⟨hb, hf⟩
    unfold blob_unref
    simp only [hd, Res.ok_bind]
    split
    · exact ⟨_, rfl⟩
    · exact ⟨_, rfl⟩

/-- Taking a reference and releasing it again leaves a held blob held; every
other field of the state is as the operation in between left it. -/
theorem blob_ref_held {s : State} {bp : Option Nat} (h : blobHeld s bp) :
    ∃ s2, blob_ref s bp = .ok s2 ∧ s2.trans = s.trans ∧ s2.table = s.table ∧
      ∀ p, bp = some p → ∃ b, s2.blobs[p]? = some b ∧ b.freed = false ∧ b.refcnt - 1 ≠ 0 := by
  cases bp with
  | none => exact ⟨s, rfl, rfl, rfl, by simp⟩
  | some p =>
    obtain ⟨b, hb, hf, hr⟩ := h p rfl
    have hd : derefB s p = .ok b := derefB_eq_ok.mpr ⟨hb, hf⟩
    refine ⟨writeB s p { b with refcnt := b.refcnt + 1 }, by simp [blob_ref, hd], rfl, rfl, ?_⟩
    intro q hq
    cases hq
    exact ⟨_, writeB_get_same hb, hf, by simpa using hr⟩

theorem blob_unref_kept {s : State} {bp : Option Nat}
    (h : ∀ p, bp = some p → ∃ b, s.blobs[p]? = some b ∧ b.freed = false ∧ b.refcnt - 1 ≠ 0) :
    ∃ s2, blob_unref s bp = .ok s2 ∧ s2.trans = s.trans ∧ s2.table = s.table ∧
      ∀ p, bp = some p → ∃ b, s2.blobs[p]? = some b ∧ b.freed = false := by
  cases bp with
  | none => exact ⟨s, rfl, rfl, rfl, by simp⟩
  | some p =>
    obtain ⟨b, hb, hf, hr⟩ := h p rfl
    have hd : derefB s p = .ok b := derefB_eq_ok.mpr ⟨hb, hf⟩
    refine ⟨writeB s p { b with refcnt := b.refcnt - 1 }, by simp [blob_unref, hd, hr],
      rfl, rfl, ?_⟩
    intro q hq
    cases hq
    exact ⟨_, writeB_get_same hb, hf⟩

theorem blob_ref_ok_of_live (s : State) (bp : Option Nat)
    (h : ∀ p, bp = some p → ∃ b, s.blobs[p]? = some b ∧ b.freed = false) :
    ∃ s2, blob_ref s bp = .ok s2 ∧ s2.trans = s.trans ∧ s2.table = s.table := by
  cases bp with
  | none => exact ⟨s, rfl, rfl, rfl⟩
  | some p =>
    obtain ⟨b, hb, hf⟩ := h p rfl
    have hd : derefB s p = .ok b := derefB_eq_ok.mpr ⟨hb, hf⟩
    exact ⟨writeB s p { b with refcnt := b.refcnt + 1 }, by simp [blob_ref, hd], rfl, rfl⟩

theorem avScan_found {s : State} {tp : Nat} {t : TRANSACTION} (ht : derefT s tp = .ok t) :
    ∀ (vs : List VERSION),
    (∀ v ∈ vs, v.freed = false ∧ ∃ c, derefT s v.creator = .ok c) →
    (∃ v ∈ vs, ∃ c, derefT s v.creator = .ok c ∧ t.id < c.id) →
    avScan s tp vs = .ok true := by
  intro vs
  induction vs with
  | nil => intro _ h; obtain ⟨v, hv, _⟩ := h; simp at hv
  | cons v rest ih =>
    intro hwf hana
    obtain ⟨hvf, c, hc⟩ := hwf v (List.mem_cons_self _ _)
    unfold avScan
    simp only [hvf, Bool.false_eq_true, if_false, hc, ht, Res.ok_bind]
    by_cases hgt : c.id > t.id
    · simp [hgt]
    · simp only [hgt, if_false]
      apply ih (fun w hw => hwf w (List.mem_cons_of_mem _ hw))
      obtain ⟨w, hw, cw, hcw, hlt⟩ := hana
      rcases List.mem_cons.mp hw with rfl | hw
      · rw [hc] at hcw
        cases hcw
        exact absurd hlt hgt
      · exact ⟨w, hw, cw, hcw, hlt⟩

theorem blob_unref_congr {s sb : State} {bp : Option Nat} (h : blob_unref s bp = .ok sb)
    (x : State) (hx : x.blobs = s.blobs) :
    blob_unref x bp = .ok { x with blobs := sb.blobs } := by
  cases bp with
  | none =>
    simp [blob_unref] at h ⊢
    subst h
    cases x
    simp at hx
    simp [hx]
  | some p =>
    unfold blob_unref at h ⊢
    obtain ⟨b, hb, h⟩ := Res.bind_eq_ok.mp h
    have hbx : derefB x p = .ok b := by
      unfold derefB at hb ⊢
      rw [hx]
      exact hb
    simp only [hbx, Res.ok_bind]
    split at h <;> simp at h <;> subst h <;> simp [writeB, hx, *]

/-- The anachronism path of `addVersion`, for a live transaction that is not
committed and holds a reference, when the blob can be released. -/
theorem addVersionList_anachronistic (vs : List VERSION) {s sb : State} {tp : Nat}
    {bp : Option Nat} {t : TRANSACTION}
    (ht : s.trans[tp]? = some t) (hlive : t.freed = false)
    (hnc : t.status ≠ TRANS_COMMITTED) (href : t.refcnt ≠ 0)
    (hscan : avScan s tp vs = .ok true) (hbp : blob_unref s bp = .ok sb) :
    addVersionList s vs tp bp = .ok
      ({ writeT s tp { t with status := TRANS_ABORTED, sem := t.sem + t.waitcnt.toNat } with
         blobs := sb.blobs }, vs) := by
  have hd : derefT s tp = .ok t := derefT_of_get ht hlive
  have h1 : trans_ref s tp = .ok (writeT s tp { t with refcnt := t.refcnt + 1 }) := by
    simp [trans_ref, hd]
  have hget1 := writeT_get_same (t := { t with refcnt := t.refcnt + 1 }) ht
  have hd1 := derefT_of_get hget1 hlive
  have h2 := trans_abort_of_ne_one hd1 hnc (by simpa using href)
  have h3 := blob_unref_congr hbp
    (writeT (writeT s tp { t with refcnt := t.refcnt + 1 }) tp
      { ({ t with refcnt := t.refcnt + 1 } : TRANSACTION) with
        status := TRANS_ABORTED,
        sem := ({ t with refcnt := t.refcnt + 1 } : TRANSACTION).sem
          + ({ t with refcnt := t.refcnt + 1 } : TRANSACTION).waitcnt.toNat,
        refcnt := ({ t with refcnt := t.refcnt + 1 } : TRANSACTION).refcnt - 1 }) rfl
  unfold addVersionList
  simp only [hscan, Res.ok_bind, if_true, h1, h2, h3, Res.pure_eq]
  simp [writeT]

theorem tailBlob_of_live : ∀ (vs : List VERSION), (∀ v ∈ vs, v.freed = false) →
    ∃ value, tailBlob vs = .ok value ∧
      ∀ p, value = some p → ∃ v ∈ vs, v.blob = some p := by
  intro vs
  induction vs with
  | nil => intro _; exact ⟨none, rfl, by simp⟩
  | cons v rest ih =>
    intro h
    have hv := h v (List.mem_cons_self _ _)
    cases rest with
    | nil =>
      refine ⟨v.blob, by simp [tailBlob, hv], ?_⟩
      intro p hp
      exact ⟨v, List.mem_cons_self _ _, hp⟩
    | cons w rest2 =>
      obtain ⟨value, h1, h2⟩ := ih (fun x hx => h x (List.mem_cons_of_mem _ hx))
      refine ⟨value, by simp [tailBlob, hv, h1], ?_⟩
      intro p hp
      obtain ⟨x, hx, hxb⟩ := h2 p hp
      exact ⟨x, List.mem_cons_of_mem _ hx, hxb⟩

theorem entryAt_of_table {s s2 : State} (h : s2.table = s.table) (loc : Loc) :
    entryAt s2 loc = entryAt s loc := by
  unfold entryAt
  rw [h]

theorem versionsAt_of_entry {s : State} {loc : Loc} {e : MAP_ENTRY} (h : entryAt s loc = some e) :
    versionsAt s loc = e.versions := by
  simp [versionsAt, h]

theorem scan_hyps {s : State} {vs : List VERSION} {t : TRANSACTION}
    (hwf : ∀ v ∈ vs, v.freed = false ∧ ∃ c, s.trans[v.creator]? = some c ∧ c.freed = false)
    (hana : ∃ v ∈ vs, ∃ c, s.trans[v.creator]? = some c ∧ t.id < c.id) :
    (∀ v ∈ vs, v.freed = false ∧ ∃ c, derefT s v.creator = .ok c) ∧
    (∃ v ∈ vs, ∃ c, derefT s v.creator = .ok c ∧ t.id < c.id) := by
  constructor
  · intro v hv
    obtain ⟨h1, c, h2, h3⟩ := hwf v hv
    exact ⟨h1, c, derefT_of_get h2 h3⟩
  · obtain ⟨v, hv, c, hc, hlt⟩ := hana
    obtain ⟨_, c2, h2, h3⟩ := hwf v hv
    rw [hc] at h2
    cases h2
    exact ⟨v, hv, c, derefT_of_get hc h3, hlt⟩

/-! ## Claims about the anachronism check -/

/-- C2.  Let `s2` be the state after `store_put` has found the entry of the key
and collected its garbage, and let the version list of the entry be well
formed (live versions with live creators).  If `tp` is a live pending
transaction holding a reference, some version has a creator whose id is greater
than the id of `tp`, and the value is `NULL` or a live blob, then `store_put`
returns `TRANS_ABORTED`, the table (hence the version list) is as garbage
collection left it, and the status of `tp` is aborted. -/
theorem store_put_anachronistic (s s1 s2 : State) (tp : Nat) (key : KEY) (value : Option Nat)
    (loc : Loc) (e : MAP_ENTRY) (t : TRANSACTION)
    (hfind : findMapEntry s key = .ok (loc, s1))
    (hgc : garbageCollect s1 loc = .ok s2)
    (he : entryAt s2 loc = some e)
    (ht : s2.trans[tp]? = some t) (hlive : t.freed = false)
    (hpend : t.status = TRANS_PENDING) (href : t.refcnt ≠ 0)
    (hwf : ∀ v ∈ e.versions, v.freed = false ∧
      ∃ c, s2.trans[v.creator]? = some c ∧ c.freed = false)
    (hana : ∃ v ∈ e.versions, ∃ c, s2.trans[v.creator]? = some c ∧ t.id < c.id)
    (hval : ∀ p, value = some p → ∃ b, s2.blobs[p]? = some b ∧ b.freed = false) :
    ∃ s3, store_put s tp key value = .ok (TRANS_ABORTED, s3) ∧
      s3.table = s2.table ∧ versionsAt s3 loc = e.versions ∧
      ∃ t3, s3.trans[tp]? = some t3 ∧ t3.status = TRANS_ABORTED := by
  have hd : derefT s2 tp = .ok t := derefT_of_get ht hlive
  obtain ⟨hwf', hana'⟩ := scan_hyps hwf hana
  have hscan := avScan_found hd e.versions hwf' hana'
  have hnc : t.status ≠ TRANS_COMMITTED := by rw [hpend]; decide
  obtain ⟨sb, hsb⟩ : ∃ sb, blob_unref s2 value = .ok sb := by
    cases value with
    | none => exact ⟨s2, rfl⟩
    | some p =>
      obtain ⟨b, hb, hf⟩ := hval p rfl
      have hdb : derefB s2 p = .ok b := derefB_eq_ok.mpr ⟨hb, hf⟩
      unfold blob_unref
      simp only [hdb, Res.ok_bind]
      split
      · exact ⟨_, rfl⟩
      · exact ⟨_, rfl⟩
  have hadd := addVersionList_anachronistic e.versions ht hlive hnc href hscan hsb
  let s3 : State :=
    { writeT s2 tp { t with status := TRANS_ABORTED, sem := t.sem + t.waitcnt.toNat } with
      blobs := sb.blobs }
  have he3 : entryAt s3 loc = some e :=
    (entryAt_of_table (show s3.table = s2.table from rfl) loc).trans he
  have hget3 : s3.trans[tp]? =
      some { t with status := TRANS_ABORTED, sem := t.sem + t.waitcnt.toNat } :=
    writeT_get_same ht
  refine ⟨s3, ?_, rfl, versionsAt_of_entry he3, _, hget3, rfl⟩
  unfold store_put
  simp only [hfind, Res.ok_bind, hgc]
  unfold addVersion
  simp only [he, hadd, Res.ok_bind, Res.pure_eq]
  rw [setVersions_self he3]
  have hst : trans_get_status s3 tp = .ok TRANS_ABORTED :=
    trans_get_status_eq_ok.mpr ⟨_, derefT_of_get hget3 hlive, rfl⟩
  simp [hst]

theorem tailBlob_last : ∀ (vs : List VERSION) (last : VERSION),
    (∀ v ∈ vs, v.freed = false) → vs.getLast? = some last → tailBlob vs = .ok last.blob := by
  intro vs
  induction vs with
  | nil => intro last _ h; simp at h
  | cons v rest ih =>
    intro last hlive hlast
    have hv : v.freed = false := hlive v (List.mem_cons_self _ _)
    cases rest with
    | nil =>
      simp at hlast
      subst hlast
      simp [tailBlob, hv]
    | cons w rest2 =>
      unfold tailBlob
      simp only [hv, Bool.false_eq_true, if_false]
      apply ih last (fun u hu => hlive u (List.mem_cons_of_mem _ hu))
      rw [List.getLast?_cons_cons] at hlast
      exact hlast

/-- C3, as amended.  Under the conditions of C2, with the blob of every version
`NULL` or a live blob whose reference count is not zero, `store_get` aborts the
reader: it returns `TRANS_ABORTED`, the status of `tp` is aborted, the table is
as garbage collection left it, no version is added, and the output `*valuep`
is the blob of the last version of the list. -/
theorem store_get_anachronistic (s s1 s2 : State) (tp : Nat) (key : KEY)
    (loc : Loc) (e : MAP_ENTRY) (t : TRANSACTION)
    (hfind : findMapEntry s key = .ok (loc, s1))
    (hgc : garbageCollect s1 loc = .ok s2)
    (he : entryAt s2 loc = some e)
    (ht : s2.trans[tp]? = some t) (hlive : t.freed = false)
    (hpend : t.status = TRANS_PENDING) (href : t.refcnt ≠ 0)
    (hwf : ∀ v ∈ e.versions, v.freed = false ∧
      ∃ c, s2.trans[v.creator]? = some c ∧ c.freed = false)
    (hana : ∃ v ∈ e.versions, ∃ c, s2.trans[v.creator]? = some c ∧ t.id < c.id)
    (hblob : ∀ v ∈ e.versions, blobHeld s2 v.blob) :
    ∃ last s5, e.versions.getLast? = some last ∧
      store_get s tp key = .ok (TRANS_ABORTED, last.blob, s5) ∧
      s5.table = s2.table ∧ versionsAt s5 loc = e.versions ∧
      ∃ t5, s5.trans[tp]? = some t5 ∧ t5.status = TRANS_ABORTED := by
  obtain ⟨last, hlast⟩ : ∃ last, e.versions.getLast? = some last := by
    obtain ⟨v, hv, _⟩ := hana
    cases hl : e.versions.getLast? with
    | some l => exact ⟨l, rfl⟩
    | none =>
      rw [List.getLast?_eq_none_iff] at hl
      rw [hl] at hv
      simp at hv
  have htail : tailBlob e.versions = .ok last.blob :=
    tailBlob_last _ _ (fun v hv => (hwf v hv).1) hlast
  have hmem : ∀ p, last.blob = some p → ∃ v ∈ e.versions, v.blob = some p :=
    fun p hp => ⟨last, List.mem_of_getLast?_eq_some hlast, hp⟩
  obtain ⟨value, hvalue⟩ : ∃ value, value = last.blob := ⟨_, rfl⟩
  rw [← hvalue] at htail hmem
  have hheld : blobHeld s2 value := by
    intro p hp
    obtain ⟨v, hv, hvb⟩ := hmem p hp
    exact hblob v hv p hvb
  obtain ⟨s3, h3, h3t, h3tab, h3b⟩ := blob_ref_held hheld
  obtain ⟨sb, hsb, _, _, hsbl⟩ := blob_unref_kept h3b
  have ht3 : s3.trans[tp]? = some t := by rw [h3t]; exact ht
  have hd3 : derefT s3 tp = .ok t := derefT_of_get ht3 hlive
  have hwf3 : ∀ v ∈ e.versions, v.freed = false ∧
      ∃ c, s3.trans[v.creator]? = some c ∧ c.freed = false := by
    intro v hv
    rw [h3t]
    exact hwf v hv
  have hana3 : ∃ v ∈ e.versions, ∃ c, s3.trans[v.creator]? = some c ∧ t.id < c.id := by
    rw [h3t]
    exact hana
  obtain ⟨hwf', hana'⟩ := scan_hyps hwf3 hana3
  have hscan := avScan_found hd3 e.versions hwf' hana'
  have hnc : t.status ≠ TRANS_COMMITTED := by rw [hpend]; decide
  have hadd := addVersionList_anachronistic e.versions ht3 hlive hnc href hscan hsb
  let s4 : State :=
    { writeT s3 tp { t with status := TRANS_ABORTED, sem := t.sem + t.waitcnt.toNat } with
      blobs := sb.blobs }
  have he3 : entryAt s3 loc = some e := (entryAt_of_table h3tab loc).trans he
  have he4 : entryAt s4 loc = some e :=
    (entryAt_of_table (show s4.table = s3.table from rfl) loc).trans he3
  have hget4 : s4.trans[tp]? =
      some { t with status := TRANS_ABORTED, sem := t.sem + t.waitcnt.toNat } :=
    writeT_get_same ht3
  obtain ⟨s5, h5, h5t, h5tab⟩ := blob_ref_ok_of_live s4 value hsbl
  have he5 : entryAt s5 loc = some e := (entryAt_of_table h5tab loc).trans he4
  have hget5 : s5.trans[tp]? =
      some { t with status := TRANS_ABORTED, sem := t.sem + t.waitcnt.toNat } := by
    rw [h5t]
    exact hget4
  refine ⟨last, s5, hlast, ?_, ?_, versionsAt_of_entry he5, _, hget5, rfl⟩
  · rw [← hvalue]
    unfold store_get
    simp only [hfind, Res.ok_bind, hgc, versionsAt_of_entry he, htail, h3]
    unfold addVersion
    simp only [he3, hadd, Res.ok_bind, Res.pure_eq]
    rw [setVersions_self he4]
    have hst : trans_get_status s5 tp = .ok TRANS_ABORTED :=
      trans_get_status_eq_ok.mpr ⟨_, derefT_of_get hget5 hlive, rfl⟩
    simp [h5, hst]
  · rw [h5tab]
    exact h3tab

/-! ## Dependencies added by addVersion -/

theorem sameIdStatus.sis_refl (t : TRANSACTION) : sameIdStatus t t := ⟨rfl, rfl⟩

theorem sameIdStatus.sis_trans (a b c : TRANSACTION) (h1 : sameIdStatus a b)
    (h2 : sameIdStatus b c) : sameIdStatus a c :=
  ⟨h2.1.trans h1.1, h2.2.trans h1.2⟩

theorem sameButRef.to_sameIdStatus (a b : TRANSACTION) (h : sameButRef a b) :
    sameIdStatus a b := ⟨h.1, h.2.1⟩

theorem avScan_false {s : State} {tp : Nat} : ∀ (vs : List VERSION),
    avScan s tp vs = .ok false →
    ∀ v ∈ vs, v.freed = false ∧
      ∃ c t, s.trans[v.creator]? = some c ∧ derefT s tp = .ok t ∧ c.id ≤ t.id := by
  intro vs
  induction vs with
  | nil => intro _ v hv; simp at hv
  | cons v rest ih =>
    intro h w hw
    unfold avScan at h
    split at h
    · simp at h
    · rename_i hvf
      obtain ⟨c, hc, h⟩ := Res.bind_eq_ok.mp h
      obtain ⟨t, ht, h⟩ := Res.bind_eq_ok.mp h
      split at h
      · simp at h
      · rename_i hle
        rcases List.mem_cons.mp hw with rfl | hw
        · exact ⟨by simpa using hvf, c, t, (derefT_eq_ok.mp hc).1, ht, by omega⟩
        · exact ih h w hw

theorem avScan_congr {s s2 : State} (h : s2.trans = s.trans) (tp : Nat) :
    ∀ (vs : List VERSION), avScan s2 tp vs = avScan s tp vs := by
  intro vs
  induction vs with
  | nil => rfl
  | cons v rest ih =>
    unfold avScan
    simp only [derefT, h, ih]

theorem trans_add_dependency_spec {s s2 : State} {tp dtp : Nat}
    (h : trans_add_dependency s tp dtp = .ok s2) :
    Rel sameIdStatus s s2 ∧
      ∃ t t2, s.trans[tp]? = some t ∧ s2.trans[tp]? = some t2 ∧
        t2.depends = dtp :: t.depends := by
  unfold trans_add_dependency at h
  obtain ⟨t, ht, h⟩ := Res.bind_eq_ok.mp h
  have hget := (derefT_eq_ok.mp ht).1
  have hw : Rel sameIdStatus s (writeT s tp { t with depends := dtp :: t.depends }) :=
    Rel.rel_writeT sameIdStatus.sis_refl hget ⟨rfl, rfl⟩
  have hr := trans_ref_rel h
  refine ⟨Rel.rel_trans sameIdStatus.sis_trans hw (Rel.rel_mono sameButRef.to_sameIdStatus hr), ?_⟩
  obtain ⟨t2, ht2, hrel⟩ := hr tp _ (writeT_get_same hget)
  exact ⟨t, t2, hget, ht2, hrel.2.2.1⟩

theorem avWalk_spec (s0 : State) (tid : Int) {tp : Nat} :
    ∀ (vs : List VERSION) (i : Nat) (s : State) (r : State × Option Nat),
    Rel sameIdStatus s0 s →
    (∃ t0, s0.trans[tp]? = some t0 ∧ t0.id = tid) →
    (∀ v ∈ vs, ∃ c0, s0.trans[v.creator]? = some c0) →
    avWalk s tp vs i = .ok r →
    ∃ tc tw, s.trans[tp]? = some tc ∧ r.1.trans[tp]? = some tw ∧
      tw.depends = (walked s0 tid vs).reverse ++ tc.depends := by
  intro vs
  induction vs with
  | nil =>
    intro i s r hrel htp _ h
    simp [avWalk] at h
    subst h
    obtain ⟨t0, ht0, _⟩ := htp
    obtain ⟨tc, htc, _⟩ := hrel tp t0 ht0
    exact ⟨tc, tc, htc, htc, by simp [walked]⟩
  | cons v rest ih =>
    intro i s r hrel htp hall h
    obtain ⟨t0, ht0, hid0⟩ := htp
    obtain ⟨tc, htc, hrc⟩ := hrel tp t0 ht0
    obtain ⟨c0, hc0⟩ := hall v (List.mem_cons_self _ _)
    obtain ⟨cs, hcs, hrcs⟩ := hrel v.creator c0 hc0
    unfold avWalk at h
    split at h
    · simp at h
    · obtain ⟨c, hc, h⟩ := Res.bind_eq_ok.mp h
      obtain ⟨t, ht, h⟩ := Res.bind_eq_ok.mp h
      have ec : c = cs := by
        have := (derefT_eq_ok.mp hc).1
        rw [hcs] at this
        cases this
        rfl
      have et : t = tc := by
        have := (derefT_eq_ok.mp ht).1
        rw [htc] at this
        cases this
        rfl
      subst ec et
      have hidc : c.id = c0.id := hrcs.1
      have hidt : t.id = tid := hrc.1.trans hid0
      split at h
      · rename_i heq
        simp at h
        subst h
        refine ⟨t, t, htc, htc, ?_⟩
        have : c0.id = tid := by rw [← hidc, heq, hidt]
        simp [walked, hc0, this]
      · rename_i hne
        have hne0 : ¬ c0.id = tid := by
          rw [← hidc, ← hidt]
          exact hne
        obtain ⟨status, hst, h⟩ := Res.bind_eq_ok.mp h
        obtain ⟨c2, hc2, hst2⟩ := trans_get_status_eq_ok.mp hst
        rw [hc] at hc2
        cases hc2
        have hst0 : c0.status = status := by rw [← hrcs.2]; exact hst2
        split at h
        · rename_i hp
          obtain ⟨s1, h1, h⟩ := Res.bind_eq_ok.mp h
          obtain ⟨hrel1, ta, tb, hta, htb, hdeps⟩ := trans_add_dependency_spec h1
          rw [htc] at hta
          cases hta
          obtain ⟨tc1, tw, htc1, htw, hw⟩ := ih (i + 1) s1 r
            (Rel.rel_trans sameIdStatus.sis_trans hrel hrel1) ⟨t0, ht0, hid0⟩
            (fun w hw => hall w (List.mem_cons_of_mem _ hw)) h
          rw [htb] at htc1
          cases htc1
          refine ⟨t, tw, htc, htw, ?_⟩
          rw [hw, hdeps]
          have : c0.status = TRANS_PENDING := by rw [hst0]; exact hp
          simp [walked, hc0, hne0, this]
        · rename_i hp
          obtain ⟨tc1, tw, htc1, htw, hw⟩ := ih (i + 1) s r hrel ⟨t0, ht0, hid0⟩
            (fun w hw => hall w (List.mem_cons_of_mem _ hw)) h
          rw [htc] at htc1
          cases htc1
          refine ⟨t, tw, htc, htw, ?_⟩
          rw [hw]
          have : ¬ c0.status = TRANS_PENDING := by rw [hst0]; exact hp
          simp [walked, hc0, hne0, this]

theorem pendingOthers_nil_of_le {s : State} {tid : Int} : ∀ (vs : List VERSION),
    (∀ v ∈ vs, ∃ c, s.trans[v.creator]? = some c ∧ c.id ≤ tid) →
    (∀ v ∈ vs, tid < creatorId s v) → vs = [] := by
  intro vs hle hgt
  cases vs with
  | nil => rfl
  | cons v rest =>
    exfalso
    obtain ⟨c, hc, hcle⟩ := hle v (List.mem_cons_self _ _)
    have := hgt v (List.mem_cons_self _ _)
    simp [creatorId, hc] at this
    omega

theorem walked_eq_pendingOthers {s : State} {tid : Int} : ∀ (vs : List VERSION),
    (∀ v ∈ vs, ∃ c, s.trans[v.creator]? = some c ∧ c.id ≤ tid) →
    AscendingIds s vs → walked s tid vs = pendingOthers s tid vs := by
  intro vs
  induction vs with
  | nil => intro _ _; rfl
  | cons v rest ih =>
    intro hle hs
    obtain ⟨c, hc, hcle⟩ := hle v (List.mem_cons_self _ _)
    have hle' : ∀ w ∈ rest, ∃ c, s.trans[w.creator]? = some c ∧ c.id ≤ tid :=
      fun w hw => hle w (List.mem_cons_of_mem _ hw)
    obtain ⟨hhead, htail⟩ := List.pairwise_cons.mp hs
    by_cases heq : c.id = tid
    · have hrest : rest = [] := by
        apply pendingOthers_nil_of_le rest hle'
        intro w hw
        have := hhead w hw
        simp only [creatorId, hc] at this
        rw [← heq]
        exact this
      subst hrest
      simp [walked, pendingOthers, hc, heq]
    · have ih' := ih hle' htail
      by_cases hp : c.status = TRANS_PENDING
      · simp only [walked, hc, heq, hp, if_false, if_true, ih']
        simp [pendingOthers, List.filter_cons, hc, heq, hp]
      · simp only [walked, hc, heq, hp, if_false, ih']
        simp [pendingOthers, List.filter_cons, hc, heq, hp]

/-- The dependencies of `tp` after an `addVersion` that passed the anachronism
check, on a list in ascending order. -/
theorem addVersionList_deps {s : State} {vs : List VERSION} {tp : Nat} {bp : Option Nat}
    {t : TRANSACTION} {r : State × List VERSION}
    (ht : s.trans[tp]? = some t) (hsorted : AscendingIds s vs)
    (hcheck : avScan s tp vs = .ok false)
    (h : addVersionList s vs tp bp = .ok r) :
    ∃ t3, r.1.trans[tp]? = some t3 ∧
      t3.depends = (pendingOthers s t.id vs).reverse ++ t.depends := by
  have hinfo := avScan_false vs hcheck
  have hle : ∀ v ∈ vs, ∃ c, s.trans[v.creator]? = some c ∧ c.id ≤ t.id := by
    intro v hv
    obtain ⟨_, c, t', hc, ht', hcle⟩ := hinfo v hv
    have := (derefT_eq_ok.mp ht').1
    rw [ht] at this
    cases this
    exact ⟨c, hc, hcle⟩
  unfold addVersionList at h
  simp only [hcheck, Res.ok_bind, Bool.false_eq_true, if_false] at h
  obtain ⟨⟨version, s1⟩, h1, h⟩ := Res.bind_eq_ok.mp h
  have hr1 : Rel sameButRef s s1 := by
    unfold version_create at h1
    obtain ⟨s0, h0, h1⟩ := Res.bind_eq_ok.mp h1
    simp at h1
    obtain ⟨_, rfl⟩ := h1
    exact trans_ref_rel h0
  obtain ⟨t1, ht1, hrel1⟩ := hr1 tp t ht
  cases vs with
  | nil =>
    simp at h
    subst h
    exact ⟨t1, ht1, by simp [pendingOthers, hrel1.2.2.1]⟩
  | cons head rest =>
    simp only at h
    obtain ⟨_, _, h⟩ := Res.bind_eq_ok.mp h
    obtain ⟨c, hc, h⟩ := Res.bind_eq_ok.mp h
    obtain ⟨t', ht', h⟩ := Res.bind_eq_ok.mp h
    have et : t' = t1 := by
      have := (derefT_eq_ok.mp ht').1
      rw [ht1] at this
      cases this
      rfl
    subst et
    obtain ⟨c0, hc0, hc0le⟩ := hle head (List.mem_cons_self _ _)
    obtain ⟨c1, hc1, hrelc⟩ := hr1 head.creator c0 hc0
    have ec : c = c1 := by
      have := (derefT_eq_ok.mp hc).1
      rw [hc1] at this
      cases this
      rfl
    subst ec
    have hwalk := walked_eq_pendingOthers (head :: rest) hle hsorted
    split at h
    · rename_i heq
      obtain ⟨s2, h2, h⟩ := Res.bind_eq_ok.mp h
      simp at h
      subst h
      obtain ⟨t2, ht2, hrel2⟩ := version_dispose_rel h2 tp t' ht1
      refine ⟨t2, ht2, ?_⟩
      have hid : c0.id = t.id := by rw [← hrelc.1, heq, hrel1.1]
      rw [← hwalk, hrel2.2.2.1, hrel1.2.2.1]
      simp [walked, hc0, hid]
    · obtain ⟨⟨s2, temp⟩, h2, h⟩ := Res.bind_eq_ok.mp h
      obtain ⟨tc, tw, htc, htw, hw⟩ := avWalk_spec s t.id (head :: rest) 0 s1
        (s2, temp) (Rel.rel_mono sameButRef.to_sameIdStatus hr1) ⟨t, ht, rfl⟩
        (fun v hv => (hle v hv).imp fun _ hh => hh.1) h2
      rw [ht1] at htc
      cases htc
      rw [hrel1.2.2.1, hwalk] at hw
      cases temp with
      | none =>
        simp at h
        subst h
        exact ⟨tw, htw, hw⟩
      | some j =>
        simp only at h
        obtain ⟨prev, _, h⟩ := Res.bind_eq_ok.mp h
        obtain ⟨s3, h3, h⟩ := Res.bind_eq_ok.mp h
        simp at h
        subst h
        obtain ⟨t3, ht3, hrel3⟩ := version_dispose_rel h3 tp tw htw
        exact ⟨t3, ht3, by rw [hrel3.2.2.1, hw]⟩

theorem avScan_passes {s : State} {tp : Nat} {t : TRANSACTION} (ht : derefT s tp = .ok t) :
    ∀ (vs : List VERSION),
    (∀ v ∈ vs, v.freed = false ∧
      ∃ c, s.trans[v.creator]? = some c ∧ c.freed = false ∧ c.id ≤ t.id) →
    avScan s tp vs = .ok false := by
  intro vs
  induction vs with
  | nil => intro _; rfl
  | cons v rest ih =>
    intro h
    obtain ⟨hvf, c, hc, hcf, hle⟩ := h v (List.mem_cons_self _ _)
    have hdc : derefT s v.creator = .ok c := derefT_of_get hc hcf
    have hng : ¬ c.id > t.id := by omega
    unfold avScan
    simp only [hvf, Bool.false_eq_true, if_false, hdc, ht, Res.ok_bind, hng]
    exact ih (fun w hw => h w (List.mem_cons_of_mem _ hw))

/-- C10.  Let `s2` be the state after `store_put` or `store_get` has found the
entry of the key and collected its garbage, with the version list of the entry
ascending by creator id.  If `tp` is live and the list passes the anachronism
check for `tp` (its versions are live, with live creators, none with an id
greater than the id of `tp`), then after the call the dependency list of `tp`
is its old dependency list with the creators of the versions whose creator has
another id than `tp` and is pending pushed in front, in list order; committed
and aborted creators add nothing. -/
theorem store_dependencies (s s1 s2 : State) (tp : Nat) (key : KEY) (loc : Loc)
    (e : MAP_ENTRY) (t : TRANSACTION)
    (hfind : findMapEntry s key = .ok (loc, s1))
    (hgc : garbageCollect s1 loc = .ok s2)
    (he : entryAt s2 loc = some e)
    (ht : s2.trans[tp]? = some t) (hlive : t.freed = false)
    (hsorted : AscendingIds s2 e.versions)
    (hpass : ∀ v ∈ e.versions, v.freed = false ∧
      ∃ c, s2.trans[v.creator]? = some c ∧ c.freed = false ∧ c.id ≤ t.id) :
    (∀ value st s3, store_put s tp key value = .ok (st, s3) →
      ∃ t3, s3.trans[tp]? = some t3 ∧
        t3.depends = (pendingOthers s2 t.id e.versions).reverse ++ t.depends) ∧
    (∀ st value s5, store_get s tp key = .ok (st, value, s5) →
      ∃ t5, s5.trans[tp]? = some t5 ∧
        t5.depends = (pendingOthers s2 t.id e.versions).reverse ++ t.depends) := by
  have hcheck : avScan s2 tp e.versions = .ok false :=
    avScan_passes (derefT_of_get ht hlive) e.versions hpass
  constructor
  · intro value st s3 h
    unfold store_put at h
    simp only [hfind, Res.ok_bind, hgc] at h
    obtain ⟨sa, ha, h⟩ := Res.bind_eq_ok.mp h
    obtain ⟨status, _, h⟩ := Res.bind_eq_ok.mp h
    simp at h
    obtain ⟨_, rfl⟩ := h
    unfold addVersion at ha
    simp only [he] at ha
    obtain ⟨⟨sb, vs1⟩, hb, ha⟩ := Res.bind_eq_ok.mp ha
    simp at ha
    subst ha
    rw [setVersions_trans]
    exact addVersionList_deps ht hsorted hcheck hb
  · intro st value s5 h
    unfold store_get at h
    simp only [hfind, Res.ok_bind, hgc] at h
    obtain ⟨v, _, h⟩ := Res.bind_eq_ok.mp h
    obtain ⟨s3, h3, h⟩ := Res.bind_eq_ok.mp h
    obtain ⟨s4, h4, h⟩ := Res.bind_eq_ok.mp h
    obtain ⟨s5', h5, h⟩ := Res.bind_eq_ok.mp h
    obtain ⟨status, _, h⟩ := Res.bind_eq_ok.mp h
    simp at h
    obtain ⟨_, _, rfl⟩ := h
    have h3t := (blob_ref_frame h3).1
    have h3tab := (blob_ref_frame h3).2
    unfold addVersion at h4
    rw [entryAt_of_table h3tab, he] at h4
    simp only at h4
    obtain ⟨⟨sb, vs1⟩, hb, h4⟩ := Res.bind_eq_ok.mp h4
    simp at h4
    subst h4
    rw [(blob_ref_frame h5).1, setVersions_trans]
    have ht3 : s3.trans[tp]? = some t := by rw [h3t]; exact ht
    have hsorted3 : AscendingIds s3 e.versions := by
      unfold AscendingIds creatorId at hsorted ⊢
      rw [h3t]
      exact hsorted
    have hcheck3 : avScan s3 tp e.versions = .ok false := by
      rw [avScan_congr h3t]
      exact hcheck
    have := addVersionList_deps ht3 hsorted3 hcheck3 hb
    unfold pendingOthers at this ⊢
    rw [h3t] at this
    exact this

/-- C8.  `trans_abort` on a committed transaction ends the process, so it
writes nothing; and whenever `trans_abort`, `trans_commit`, `store_put`,
`store_get`, `trans_create`, `trans_ref`, `trans_unref` or
`trans_add_dependency` returns, every transaction that was committed before the
call is committed after it (`Stable`), hence not aborted. -/
theorem committed_never_aborted (s : State) (tp : Nat) :
    (trans_get_status s tp = .ok TRANS_COMMITTED → trans_abort s tp = .fault .processAbort) ∧
    (∀ st s2, trans_abort s tp = .ok (st, s2) → Stable s s2) ∧
    (∀ st s2, trans_commit s tp = .ok (st, s2) → Stable s s2) ∧
    (∀ key value st s2, store_put s tp key value = .ok (st, s2) → Stable s s2) ∧
    (∀ key st value s2, store_get s tp key = .ok (st, value, s2) → Stable s s2) ∧
    (∀ a s2, trans_create s = .ok (a, s2) → Stable s s2) ∧
    (∀ s2, trans_ref s tp = .ok s2 → Stable s s2) ∧
    (∀ s2, trans_unref s tp = .ok s2 → Stable s s2) ∧
    (∀ dtp s2, trans_add_dependency s tp dtp = .ok s2 → Stable s s2) :=
  ⟨trans_abort_committed,
   fun _ _ h => (trans_abort_ok h).2.1.toStable,
   fun _ _ h => (trans_commit_steady h).toStable,
   fun _ _ _ _ h => (store_put_steady h).toStable,
   fun _ _ _ _ h => (store_get_steady h).toStable,
   fun _ _ h => trans_create_stable h,
   fun _ h => (trans_ref_steady h).toStable,
   fun _ h => trans_unref_stable h,
   fun _ _ h => (trans_add_dependency_steady h).toStable⟩

/-- Witness for C8 on `commitDone`, whose transactions are both committed. -/
theorem committed_never_aborted_witness :
    trans_abort commitDone 1 = .fault .processAbort ∧ Stable commitReady commitDone :=
  ⟨(committed_never_aborted commitDone 1).1 (by decide),
   (committed_never_aborted commitReady 1).2.2.1 TRANS_COMMITTED commitDone (by decide)⟩

/-- Witness for C2: transaction 0 puts "k" after transaction 1 has. -/
theorem store_put_anachronistic_witness :
    ∃ s3, store_put laterWriter 0 laterKey (some 3) = .ok (TRANS_ABORTED, s3) ∧
      s3.table = laterCollected.table ∧
      versionsAt s3 (2, 0) = [{ creator := 1, blob := some 1, freed := false }] ∧
      ∃ t3, s3.trans[0]? = some t3 ∧ t3.status = TRANS_ABORTED :=
  store_put_anachronistic laterWriter laterFound laterCollected 0 laterKey (some 3) (2, 0)
    { key := { hash := 225266, blob := some 0 },
      versions := [{ creator := 1, blob := some 1, freed := false }] }
    (cell 0 1 TRANS_PENDING [])
    (by decide) (by decide) (by decide) (by decide) (by decide) (by decide) (by decide)
    (by decide) (by decide) (by decide)

/-- Counterexample to C3 as stated: transaction 0 of `laterWriter` is pending
and the list of "k" holds a version of transaction 1, whose id is greater, yet
`store_get` returns `TRANS_ABORTED` and leaves transaction 0 aborted. -/
theorem store_get_anachronistic_counterexample :
    (laterWriter.trans[0]?).map (fun t => (t.id, t.status)) = some (0, TRANS_PENDING) ∧
    (laterWriter.trans[1]?).map (fun t => t.id) = some 1 ∧
    versionsAt laterWriter (2, 0) = [{ creator := 1, blob := some 1, freed := false }] ∧
    ∃ s5, store_get laterWriter 0 laterKey = .ok (TRANS_ABORTED, some 1, s5) ∧
      (s5.trans[0]?).map (fun t => t.status) = some TRANS_ABORTED :=
  ⟨by decide, by decide, by decide,
   (Res.getD (TRANS_PENDING, none, State.init) (store_get laterWriter 0 laterKey)).2.2,
   by decide, by decide⟩

/-- Witness for C3 as amended, on the same input. -/
theorem store_get_anachronistic_witness :
    ∃ s5, store_get laterWriter 0 laterKey = .ok (TRANS_ABORTED, some 1, s5) ∧
      s5.table = laterCollected.table ∧
      versionsAt s5 (2, 0) = [{ creator := 1, blob := some 1, freed := false }] ∧
      ∃ t5, s5.trans[0]? = some t5 ∧ t5.status = TRANS_ABORTED := by
  obtain ⟨last, s5, hl, h⟩ := store_get_anachronistic laterWriter laterFound laterCollected 0
    laterKey (2, 0)
    { key := { hash := 225266, blob := some 0 },
      versions := [{ creator := 1, blob := some 1, freed := false }] }
    (cell 0 1 TRANS_PENDING [])
    (by decide) (by decide) (by decide) (by decide) (by decide) (by decide) (by decide)
    (by decide) (by decide) (by decide)
  cases hl
  exact ⟨s5, h⟩

/-- Witness for C10: transaction 1 puts "k" after the pending transaction 0
has, and depends on it afterwards. -/
theorem store_dependencies_witness :
    ∃ s3, store_put earlierWriter 1 laterKey (some 3) = .ok (TRANS_PENDING, s3) ∧
      ∃ t3, s3.trans[1]? = some t3 ∧ t3.depends = [0] :=
  ⟨(Res.getD (TRANS_PENDING, State.init) (store_put earlierWriter 1 laterKey (some 3))).2,
   by decide,
   (store_dependencies earlierWriter earlierFound earlierCollected 1 laterKey (2, 0)
    { key := { hash := 225266, blob := some 0 },
      versions := [{ creator := 0, blob := some 1, freed := false }] }
    (cell 1 1 TRANS_PENDING [])
    (by decide) (by decide) (by decide) (by decide) (by decide) (by decide) (by decide)).1
    (some 3) TRANS_PENDING _ (by decide)⟩

/-! ## Runs on which the code departs from the specification -/

/-- C1 (code defect).  Transaction 1 puts "k" = "c" after transaction 0 and
itself have each put "k"; the put returns `TRANS_PENDING`, yet it released the
version of transaction 0 without unlinking it and linked no version for "c",
so the following `store_get` by transaction 1 reads released storage. -/
theorem store_get_after_overwrite :
    versionsAt twoWriters (2, 0) =
      [{ creator := 0, blob := some 1, freed := false },
       { creator := 1, blob := some 3, freed := false }] ∧
    ∃ s, service_put twoWriters 1 [107] [99] = .ok (TRANS_PENDING, s) ∧
      versionsAt s (2, 0) = [{ creator := 0, blob := some 1, freed := true }] ∧
      service_get s 1 [107] = .fault .useAfterFree :=
  ⟨by decide,
   (Res.getD (TRANS_PENDING, State.init) (service_put twoWriters 1 [107] [99])).2,
   by decide, by decide, by decide⟩

/-- C4 (code defect).  Transaction 0 has put "k" and has aborted; the
`store_get` of transaction 1 writes the blob of that version (blob 1) to its
output: `garbageCollect` skips the earliest aborted version. -/
theorem store_get_reads_aborted_write :
    (abortedWriter.trans[0]?).map (fun t => t.status) = some TRANS_ABORTED ∧
    versionsAt abortedWriter (2, 0) = [{ creator := 0, blob := some 1, freed := false }] ∧
    ∃ s, service_get abortedWriter 1 [107] = .ok (TRANS_PENDING, some 1, s) :=
  ⟨by decide, by decide,
   (Res.getD (TRANS_PENDING, none, State.init) (service_get abortedWriter 1 [107])).2.2,
   by decide⟩

/-- C7 (code defect).  Transaction 0 is aborted by a conflicting put;
`trans_commit` on it then returns `TRANS_COMMITTED` and has written the status
committed. -/
theorem trans_commit_after_abort :
    ∃ s1 s2, store_put laterWriter 0 laterKey (some 3) = .ok (TRANS_ABORTED, s1) ∧
      (s1.trans[0]?).map (fun t => t.status) = some TRANS_ABORTED ∧
      trans_commit s1 0 = .ok (TRANS_COMMITTED, s2) ∧
      (s2.trans[0]?).map (fun t => t.status) = some TRANS_COMMITTED :=
  ⟨(Res.getD (TRANS_PENDING, State.init) (store_put laterWriter 0 laterKey (some 3))).2,
   (Res.getD (TRANS_PENDING, State.init) (trans_commit
     (Res.getD (TRANS_PENDING, State.init) (store_put laterWriter 0 laterKey (some 3))).2 0)).2,
   by decide, by decide, by decide, by decide⟩

/-! ### The recursion bounds of the model are sufficient -/

theorem noFuel_ok {α : Type} (a : α) : (Res.ok a).noFuel := by
  intro h; cases h

theorem noFuel_bind {α β : Type} {x : Res α} {f : α → Res β} (hx : x.noFuel)
    (hf : ∀ a, x = .ok a → (f a).noFuel) : (x >>= f).noFuel := by
  cases x with
  | ok a => exact hf a rfl
  | fault e =>
    intro h
    exact hx (by simpa using h)

theorem derefT_noFuel (s : State) (tp : Nat) : (derefT s tp).noFuel := by
  unfold derefT Res.noFuel
  split
  · simp
  · split <;> simp

theorem derefB_noFuel (s : State) (bp : Nat) : (derefB s bp).noFuel := by
  unfold derefB Res.noFuel
  split
  · simp
  · split <;> simp

theorem readV_noFuel (vs : List VERSION) (i : Nat) : (readV vs i).noFuel := by
  unfold readV Res.noFuel
  split
  · simp
  · split <;> simp

theorem trans_get_status_noFuel (s : State) (tp : Nat) : (trans_get_status s tp).noFuel :=
  noFuel_bind (derefT_noFuel s tp) (fun _ _ => noFuel_ok _)

theorem trans_ref_noFuel (s : State) (tp : Nat) : (trans_ref s tp).noFuel :=
  noFuel_bind (derefT_noFuel s tp) (fun _ _ => noFuel_ok _)

theorem postAll_noFuel (s : State) (tp : Nat) : (postAll s tp).noFuel :=
  noFuel_bind (derefT_noFuel s tp) (fun _ _ => noFuel_ok _)

theorem blob_ref_noFuel (s : State) (bp : Option Nat) : (blob_ref s bp).noFuel := by
  unfold blob_ref
  split
  · exact noFuel_ok _
  · exact noFuel_bind (derefB_noFuel _ _) (fun _ _ => noFuel_ok _)

theorem blob_unref_noFuel (s : State) (bp : Option Nat) : (blob_unref s bp).noFuel := by
  unfold blob_unref
  split
  · exact noFuel_ok _
  · refine noFuel_bind (derefB_noFuel _ _) (fun _ _ => ?_)
    split <;> exact noFuel_ok _

theorem unlinkTrans_noFuel (s : State) (tp : Nat) : ∀ (l : List Nat),
    (unlinkTrans s tp l).noFuel := by
  intro l
  induction l with
  | nil => exact noFuel_ok _
  | cons c rest ih =>
    unfold unlinkTrans
    split
    · split
      · exact noFuel_ok _
      · exact noFuel_bind (derefT_noFuel _ _) (fun _ _ => noFuel_ok _)
    · exact noFuel_bind (derefT_noFuel _ _) (fun _ _ =>
        noFuel_bind ih (fun _ _ => noFuel_ok _))

theorem countP_set_le {α : Type} (p : α → Bool) : ∀ (l : List α) (i : Nat) (a b : α),
    l[i]? = some a → (p b = true → p a = true) → (l.set i b).countP p ≤ l.countP p := by
  intro l
  induction l with
  | nil => intro i a b h; simp at h
  | cons x rest ih =>
    intro i a b h hp
    cases i with
    | zero =>
      simp at h
      subst h
      simp only [List.set_cons_zero, List.countP_cons]
      by_cases hb : p b = true
      · simp [hb, hp hb]
      · simp [hb]
    | succ i =>
      simp at h
      simp only [List.set_cons_succ, List.countP_cons]
      have := ih i a b h hp
      omega

theorem countP_set_lt {α : Type} (p : α → Bool) : ∀ (l : List α) (i : Nat) (a b : α),
    l[i]? = some a → p a = true → p b = false → (l.set i b).countP p < l.countP p := by
  intro l
  induction l with
  | nil => intro i a b h; simp at h
  | cons x rest ih =>
    intro i a b h ha hb
    cases i with
    | zero =>
      simp at h
      subst h
      simp [List.countP_cons, ha, hb]
    | succ i =>
      simp at h
      simp only [List.set_cons_succ, List.countP_cons]
      have := ih i a b h ha hb
      omega

theorem heldCount_writeT_le {s : State} {tp : Nat} {t0 t : TRANSACTION}
    (h0 : s.trans[tp]? = some t0)
    (h : (!t.freed && decide (1 ≤ t.refcnt)) = true →
      (!t0.freed && decide (1 ≤ t0.refcnt)) = true) :
    heldCount (writeT s tp t) ≤ heldCount s :=
  countP_set_le _ _ _ _ _ h0 h

theorem foldlM_heldCount (f : State → Nat → Res State)
    (hf : ∀ s d s2, f s d = .ok s2 → heldCount s2 ≤ heldCount s) :
    ∀ (ds : List Nat) (s s2 : State), ds.foldlM f s = .ok s2 → heldCount s2 ≤ heldCount s := by
  intro ds
  induction ds with
  | nil =>
    intro s s2 h
    simp at h
    subst h
    exact Nat.le_refl _
  | cons d rest ih =>
    intro s s2 h
    simp only [List.foldlM_cons] at h
    obtain ⟨s1, h1, h2⟩ := Res.bind_eq_ok.mp h
    exact Nat.le_trans (ih _ _ h2) (hf _ _ _ h1)

theorem trans_unrefAux_heldCount : ∀ (n : Nat) (s s2 : State) (tp : Nat),
    trans_unrefAux n s tp = .ok s2 → heldCount s2 ≤ heldCount s := by
  intro n
  induction n with
  | zero => intro s s2 tp h; simp [trans_unrefAux] at h
  | succ n ih =>
    intro s s2 tp h
    unfold trans_unrefAux at h
    obtain ⟨t, ht, h⟩ := Res.bind_eq_ok.mp h
    have hw : heldCount (writeT s tp { t with refcnt := t.refcnt - 1 }) ≤ heldCount s := by
      apply heldCount_writeT_le (derefT_eq_ok.mp ht).1
      simp only [Bool.and_eq_true, decide_eq_true_eq]
      intro hh
      exact ⟨hh.1, by omega⟩
    simp only at h
    split at h
    · obtain ⟨s3, h3, h⟩ := Res.bind_eq_ok.mp h
      obtain ⟨t2, ht2, h⟩ := Res.bind_eq_ok.mp h
      obtain ⟨l, _, h⟩ := Res.bind_eq_ok.mp h
      simp at h
      subst h
      have h13 := foldlM_heldCount _ (fun a d b => ih a b d) _ _ _ h3
      have h34 : heldCount (writeT s3 tp { t2 with freed := true }) ≤ heldCount s3 := by
        apply heldCount_writeT_le (derefT_eq_ok.mp ht2).1
        simp
      exact Nat.le_trans h34 (Nat.le_trans h13 hw)
    · simp at h
      subst h
      exact hw

theorem foldlM_noFuel (f : State → Nat → Res State) (k : Nat)
    (hcount : ∀ s d s2, f s d = .ok s2 → heldCount s2 ≤ heldCount s)
    (hf : ∀ s d, heldCount s < k → (f s d).noFuel) :
    ∀ (ds : List Nat) (s : State), heldCount s < k → (ds.foldlM f s).noFuel := by
  intro ds
  induction ds with
  | nil => intro s _; exact noFuel_ok _
  | cons d rest ih =>
    intro s hs
    simp only [List.foldlM_cons]
    refine noFuel_bind (hf s d hs) (fun s1 h1 => ih s1 ?_)
    exact Nat.lt_of_le_of_lt (hcount _ _ _ h1) hs

theorem trans_unrefAux_noFuel : ∀ (n : Nat) (s : State) (tp : Nat),
    heldCount s < n → (trans_unrefAux n s tp).noFuel := by
  intro n
  induction n with
  | zero => intro s tp h; omega
  | succ n ih =>
    intro s tp hlt
    unfold trans_unrefAux
    refine noFuel_bind (derefT_noFuel _ _) (fun t ht => ?_)
    simp only
    split
    · rename_i hz
      have hget := (derefT_eq_ok.mp ht).1
      have hfr := (derefT_eq_ok.mp ht).2
      have hdec : heldCount (writeT s tp { t with refcnt := t.refcnt - 1 }) < heldCount s := by
        apply countP_set_lt _ _ _ _ _ hget
        · simp [hfr]; omega
        · simp; intro _; omega
      have hlt1 : heldCount (writeT s tp { t with refcnt := t.refcnt - 1 }) < n := by omega
      refine noFuel_bind (foldlM_noFuel _ n (fun a d b => trans_unrefAux_heldCount n a b d)
        (fun a d ha => ih a d ha) _ _ hlt1) (fun s2 _ => ?_)
      refine noFuel_bind (derefT_noFuel _ _) (fun t2 _ => ?_)
      exact noFuel_bind (unlinkTrans_noFuel _ _ _) (fun _ _ => noFuel_ok _)
    · exact noFuel_ok _

theorem trans_unref_noFuel (s : State) (tp : Nat) : (trans_unref s tp).noFuel := by
  apply trans_unrefAux_noFuel
  unfold heldCount
  exact Nat.lt_succ_of_le (List.countP_le_length _)

theorem version_dispose_noFuel (s : State) (v : VERSION) : (version_dispose s v).noFuel :=
  noFuel_bind (trans_unref_noFuel _ _) (fun _ _ => blob_unref_noFuel _ _)

theorem trans_abort_noFuel (s : State) (tp : Nat) : (trans_abort s tp).noFuel := by
  unfold trans_abort
  refine noFuel_bind (trans_get_status_noFuel _ _) (fun st _ => ?_)
  split
  · intro h; cases h
  · split
    · exact noFuel_bind (postAll_noFuel _ _) (fun _ _ =>
        noFuel_bind (trans_unref_noFuel _ _) (fun _ _ => noFuel_ok _))
    · refine noFuel_bind (derefT_noFuel _ _) (fun _ _ => ?_)
      exact noFuel_bind (postAll_noFuel _ _) (fun _ _ =>
        noFuel_bind (trans_unref_noFuel _ _) (fun _ _ => noFuel_ok _))

theorem trans_add_dependency_noFuel (s : State) (tp dtp : Nat) :
    (trans_add_dependency s tp dtp).noFuel :=
  noFuel_bind (derefT_noFuel _ _) (fun _ _ => trans_ref_noFuel _ _)

theorem commitWait_noFuel : ∀ (ds : List Nat) (s : State), (commitWait s ds).noFuel := by
  intro ds
  induction ds with
  | nil => intro s; exact noFuel_ok _
  | cons d rest ih =>
    intro s
    unfold commitWait
    refine noFuel_bind (trans_get_status_noFuel _ _) (fun st _ => ?_)
    split
    · exact ih _
    · refine noFuel_bind (derefT_noFuel _ _) (fun _ _ => ?_)
      split
      · intro h; cases h
      · exact ih _

theorem commitCheck_noFuel (s : State) : ∀ (ds : List Nat), (commitCheck s ds).noFuel := by
  intro ds
  induction ds with
  | nil => exact noFuel_ok _
  | cons d rest ih =>
    unfold commitCheck
    refine noFuel_bind (trans_get_status_noFuel _ _) (fun st _ => ?_)
    split
    · exact noFuel_ok _
    · exact ih

theorem trans_commit_noFuel (s : State) (tp : Nat) : (trans_commit s tp).noFuel := by
  unfold trans_commit
  refine noFuel_bind (derefT_noFuel _ _) (fun _ _ => ?_)
  refine noFuel_bind (commitWait_noFuel _ _) (fun _ _ => ?_)
  refine noFuel_bind (derefT_noFuel _ _) (fun _ _ => ?_)
  refine noFuel_bind (commitCheck_noFuel _ _) (fun ab _ => ?_)
  split
  · exact trans_abort_noFuel _ _
  · refine noFuel_bind (derefT_noFuel _ _) (fun _ _ => ?_)
    exact noFuel_bind (postAll_noFuel _ _) (fun _ _ =>
      noFuel_bind (trans_unref_noFuel _ _) (fun _ _ => noFuel_ok _))

theorem trans_create_noFuel (s : State) : (trans_create s).noFuel := by
  unfold trans_create
  refine noFuel_bind ?_ (fun _ _ => noFuel_bind (trans_ref_noFuel _ _) (fun _ _ => noFuel_ok _))
  unfold linkLast
  split
  · exact noFuel_ok _
  · exact noFuel_bind (derefT_noFuel _ _) (fun _ _ => noFuel_ok _)

theorem memcmpV_noFuel (vs : List VERSION) (p : Option Nat) (q : VPtr) :
    (memcmpV vs p q).noFuel := by
  unfold memcmpV
  split
  · intro h; cases h
  · refine noFuel_bind (readV_noFuel _ _) (fun _ _ => ?_)
    split
    · intro h; cases h
    · intro h; cases h
    · exact noFuel_bind (readV_noFuel _ _) (fun _ _ => noFuel_ok _)

theorem gcScan_noFuel (s : State) : ∀ (vs : List VERSION) (i : Nat) (lc ea : VPtr) (flag : Bool),
    (gcScan s vs i lc ea flag).noFuel := by
  intro vs
  induction vs with
  | nil => intro i lc ea flag; exact noFuel_ok _
  | cons v rest ih =>
    intro i lc ea flag
    unfold gcScan
    split
    · intro h; cases h
    · refine noFuel_bind (trans_get_status_noFuel _ _) (fun st _ => ?_)
      split
      · exact ih _ _ _ _
      · split
        · exact ih _ _ _ _
        · exact ih _ _ _ _

theorem readV_lt {vs : List VERSION} {i : Nat} {v : VERSION} (h : readV vs i = .ok v) :
    i < vs.length := by
  unfold readV at h
  split at h
  · simp at h
  · rename_i w hw
    exact (List.getElem?_eq_some_iff.mp hw).1

theorem freeV_length (vs : List VERSION) (i : Nat) : (freeV vs i).length = vs.length := by
  unfold freeV
  split <;> simp

theorem advance_spec {vs : List VERSION} {cur p1 c1 : Option Nat}
    (h : advance vs cur = .ok (p1, c1)) :
    needV vs p1 c1 ≤ remV vs cur + 1 ∧ linked vs p1 c1 := by
  unfold advance at h
  cases cur with
  | none =>
    simp at h
    obtain ⟨rfl, rfl⟩ := h
    simp [needV, remV, linked]
  | some c =>
    simp only at h
    obtain ⟨v, hv, h⟩ := Res.bind_eq_ok.mp h
    simp at h
    obtain ⟨rfl, rfl⟩ := h
    have hlt := readV_lt hv
    refine ⟨?_, rfl⟩
    by_cases h1 : c + 1 < vs.length
    · simp only [needV, remV, nextV, h1, if_true]
      omega
    · simp only [needV, remV, nextV, h1, if_false]
      omega

theorem advance_noFuel (vs : List VERSION) (cur : Option Nat) : (advance vs cur).noFuel := by
  unfold advance
  split
  · exact noFuel_ok _
  · exact noFuel_bind (readV_noFuel _ _) (fun _ _ => noFuel_ok _)

theorem needV_freeV (vs : List VERSION) (i : Nat) (prev cur : Option Nat) :
    needV (freeV vs i) prev cur = needV vs prev cur := by
  unfold needV remV
  rw [freeV_length]

theorem remV_freeV (vs : List VERSION) (i : Nat) (cur : Option Nat) :
    remV (freeV vs i) cur = remV vs cur := by
  unfold remV
  rw [freeV_length]

theorem linked_freeV {vs : List VERSION} (i : Nat) {prev cur : Option Nat}
    (h : linked vs prev cur) : linked (freeV vs i) prev cur := by
  unfold linked nextV at h ⊢
  rw [freeV_length]
  exact h

theorem gcLoop2_noFuel : ∀ (n : Nat) (s : State) (vs : List VERSION) (prev cur : Option Nat)
    (lc : VPtr) (flag : Bool), needV vs prev cur ≤ n →
    (gcLoop2 n s vs prev cur lc flag).noFuel := by
  intro n
  induction n with
  | zero =>
    intro s vs prev cur lc flag h
    cases prev <;> simp [needV] at h
  | succ n ih =>
    intro s vs prev cur lc flag hn
    cases prev with
    | none => simp [gcLoop2]; exact noFuel_ok _
    | some p =>
      have hrem : remV vs cur + 1 ≤ n := by simp [needV] at hn; omega
      have step : ∀ (s1 : State) (lc1 : VPtr) (f1 : Bool) (x : Option Nat × Option Nat),
          advance vs cur = .ok x →
          (match x with | (prev1, cur1) => gcLoop2 n s1 vs prev1 cur1 lc1 f1).noFuel := by
        intro s1 lc1 f1 x hx
        obtain ⟨p1, c1⟩ := x
        exact ih _ _ _ _ _ _ (Nat.le_trans (advance_spec hx).1 hrem)
      unfold gcLoop2
      refine noFuel_bind (readV_noFuel _ _) (fun vp _ => ?_)
      refine noFuel_bind (trans_get_status_noFuel _ _) (fun st _ => ?_)
      split
      · exact noFuel_bind (advance_noFuel _ _) (step _ _ _)
      · split
        · refine noFuel_bind (memcmpV_noFuel _ _ _) (fun d _ => ?_)
          split
          · refine noFuel_bind (version_dispose_noFuel _ _) (fun s1 _ => ?_)
            refine noFuel_bind (advance_noFuel _ _) ?_
            intro x hx
            obtain ⟨p1, c1⟩ := x
            apply ih
            have := (advance_spec hx).1
            rw [remV_freeV] at this
            exact Nat.le_trans this hrem
          · refine noFuel_bind (memcmpV_noFuel _ _ _) (fun d2 _ => ?_)
            split
            · exact noFuel_ok _
            · exact noFuel_bind (advance_noFuel _ _) (step _ _ _)
        · exact noFuel_bind (advance_noFuel _ _) (step _ _ _)

theorem gcLoop2_linked : ∀ (n : Nat) (s : State) (vs : List VERSION) (prev cur : Option Nat)
    (lc : VPtr) (flag : Bool) (r : State × List VERSION × Option Nat × Option Nat × Bool),
    linked vs prev cur → gcLoop2 n s vs prev cur lc flag = .ok r →
    linked r.2.1 r.2.2.1 r.2.2.2.1 := by
  intro n
  induction n with
  | zero => intro s vs prev cur lc flag r _ h; simp [gcLoop2] at h
  | succ n ih =>
    intro s vs prev cur lc flag r hl h
    cases prev with
    | none =>
      simp [gcLoop2] at h
      subst h
      exact hl
    | some p =>
      unfold gcLoop2 at h
      obtain ⟨vp, _, h⟩ := Res.bind_eq_ok.mp h
      obtain ⟨status, _, h⟩ := Res.bind_eq_ok.mp h
      split at h
      · obtain ⟨⟨p1, c1⟩, ha, h⟩ := Res.bind_eq_ok.mp h
        exact ih _ _ _ _ _ _ _ (advance_spec ha).2 h
      · split at h
        · obtain ⟨differs, _, h⟩ := Res.bind_eq_ok.mp h
          split at h
          · obtain ⟨s1, h1, h⟩ := Res.bind_eq_ok.mp h
            obtain ⟨⟨p1, c1⟩, ha, h⟩ := Res.bind_eq_ok.mp h
            exact ih _ _ _ _ _ _ _ (advance_spec ha).2 h
          · obtain ⟨differs2, _, h⟩ := Res.bind_eq_ok.mp h
            split at h
            · simp at h
              subst h
              exact hl
            · obtain ⟨⟨p1, c1⟩, ha, h⟩ := Res.bind_eq_ok.mp h
              exact ih _ _ _ _ _ _ _ (advance_spec ha).2 h
        · obtain ⟨⟨p1, c1⟩, ha, h⟩ := Res.bind_eq_ok.mp h
          exact ih _ _ _ _ _ _ _ (advance_spec ha).2 h

theorem advance2_noFuel (vs : List VERSION) (prev : Option Nat) : (advance2 vs prev).noFuel := by
  unfold advance2
  split
  · intro h; cases h
  · refine noFuel_bind (readV_noFuel _ _) (fun _ _ => ?_)
    split
    · intro h; cases h
    · exact noFuel_bind (readV_noFuel _ _) (fun _ _ => noFuel_ok _)

theorem advance2_spec {vs : List VERSION} {prev p1 c1 : Option Nat}
    (h : advance2 vs prev = .ok (p1, c1)) :
    ∃ p q, prev = some p ∧ p1 = some q ∧ q = p + 1 ∧ q < vs.length ∧ c1 = nextV vs q := by
  unfold advance2 at h
  cases prev with
  | none => simp at h
  | some p =>
    simp only at h
    obtain ⟨_, _, h⟩ := Res.bind_eq_ok.mp h
    by_cases h1 : p + 1 < vs.length
    · simp only [nextV, h1, if_true] at h
      obtain ⟨_, _, h⟩ := Res.bind_eq_ok.mp h
      simp at h
      obtain ⟨rfl, rfl⟩ := h
      exact ⟨p, p + 1, rfl, rfl, rfl, h1, by simp [nextV]⟩
    · simp [nextV, h1] at h

theorem needC_next (vs : List VERSION) (q : Nat) (hq : q < vs.length) :
    needC vs (nextV vs q) ≤ vs.length - q := by
  unfold needC nextV
  split
  · rename_i h
    split at h <;> simp at h
    omega
  · rename_i c h
    split at h
    · simp at h
      omega
    · simp at h

theorem gcLoop2b_noFuel : ∀ (n : Nat) (s : State) (vs : List VERSION) (prev cur : Option Nat)
    (lc ea : VPtr), linked vs prev cur → needC vs cur ≤ n →
    (gcLoop2b n s vs prev cur lc ea).noFuel := by
  intro n
  induction n with
  | zero =>
    intro s vs prev cur lc ea _ h
    cases cur <;> simp [needC] at h
  | succ n ih =>
    intro s vs prev cur lc ea hl hn
    cases cur with
    | none => simp [gcLoop2b]; exact noFuel_ok _
    | some c =>
      have hpc : ∃ p, prev = some p ∧ c = p + 1 ∧ p + 1 < vs.length := by
        cases prev with
        | none => simp [linked] at hl
        | some p =>
          simp only [linked, nextV] at hl
          split at hl
          · simp at hl
            exact ⟨p, rfl, hl, by omega⟩
          · simp at hl
      obtain ⟨p, rfl, rfl, hplt⟩ := hpc
      have hn' : vs.length - (p + 1) ≤ n := by simp [needC] at hn; omega
      unfold gcLoop2b
      refine noFuel_bind (readV_noFuel _ _) (fun vc _ => ?_)
      refine noFuel_bind (trans_get_status_noFuel _ _) (fun st _ => ?_)
      split
      · refine noFuel_bind (memcmpV_noFuel _ _ _) (fun d _ => ?_)
        split
        · simp only
          refine noFuel_bind (readV_noFuel _ _) (fun _ _ => ?_)
          refine noFuel_bind (version_dispose_noFuel _ _) (fun s1 _ => ?_)
          refine noFuel_bind (advance2_noFuel _ _) ?_
          intro x hx
          obtain ⟨p1, c1⟩ := x
          obtain ⟨p', q, hp', rfl, rfl, hq, rfl⟩ := advance2_spec hx
          cases hp'
          apply ih
          · rfl
          · refine Nat.le_trans (needC_next _ _ hq) ?_
            simp only [List.length_append, List.length_take, List.length_drop]
            omega
        · exact noFuel_ok _
      · refine noFuel_bind (advance2_noFuel _ _) ?_
        intro x hx
        obtain ⟨p1, c1⟩ := x
        obtain ⟨p', q, hp', rfl, rfl, hq, rfl⟩ := advance2_spec hx
        cases hp'
        apply ih
        · rfl
        · exact Nat.le_trans (needC_next _ _ hq) hn'

theorem gcCascade_noFuel : ∀ (n : Nat) (s : State) (vs : List VERSION) (prev cur : Option Nat),
    needV vs prev cur ≤ n → (gcCascade n s vs prev cur).noFuel := by
  intro n
  induction n with
  | zero =>
    intro s vs prev cur h
    cases prev <;> simp [needV] at h
  | succ n ih =>
    intro s vs prev cur hn
    cases prev with
    | none => simp [gcCascade]; exact noFuel_ok _
    | some p =>
      have hrem : remV vs cur + 1 ≤ n := by simp [needV] at hn; omega
      unfold gcCascade
      refine noFuel_bind (readV_noFuel _ _) (fun vp _ => ?_)
      refine noFuel_bind (trans_abort_noFuel _ _) (fun x _ => ?_)
      obtain ⟨st, s1⟩ := x
      refine noFuel_bind (version_dispose_noFuel _ _) (fun s2 _ => ?_)
      refine noFuel_bind (advance_noFuel _ _) ?_
      intro x hx
      obtain ⟨p1, c1⟩ := x
      apply ih
      have := (advance_spec hx).1
      rw [remV_freeV] at this
      exact Nat.le_trans this hrem

theorem gcLoop3_noFuel : ∀ (n : Nat) (s : State) (vs : List VERSION) (prev cur : Option Nat)
    (ea : VPtr), linked vs prev cur → needV vs prev cur ≤ n →
    (gcLoop3 n s vs prev cur ea).noFuel := by
  intro n
  induction n with
  | zero =>
    intro s vs prev cur ea _ h
    cases prev <;> simp [needV] at h
  | succ n ih =>
    intro s vs prev cur ea hl hn
    cases prev with
    | none => simp [gcLoop3]; exact noFuel_ok _
    | some p =>
      have hrem : remV vs cur + 1 ≤ n := by simp [needV] at hn; omega
      have step : ∀ (x : Option Nat × Option Nat), advance vs cur = .ok x →
          (match x with | (prev1, cur1) => gcLoop3 n s vs prev1 cur1 ea).noFuel := by
        intro x hx
        obtain ⟨p1, c1⟩ := x
        exact ih _ _ _ _ _ (advance_spec hx).2 (Nat.le_trans (advance_spec hx).1 hrem)
      unfold gcLoop3
      refine noFuel_bind (readV_noFuel _ _) (fun vp hvp => ?_)
      refine noFuel_bind (trans_get_status_noFuel _ _) (fun st _ => ?_)
      split
      · refine noFuel_bind (memcmpV_noFuel _ _ _) (fun d _ => ?_)
        split
        · apply gcCascade_noFuel
          have hp := readV_lt hvp
          simp only [linked] at hl
          subst hl
          simp only [needV, remV, nextV]
          split
          · rename_i h
            split at h <;> simp at h
            omega
          · rename_i c h
            split at h
            · simp at h
              omega
            · simp at h
        · exact noFuel_bind (advance_noFuel _ _) step
      · exact noFuel_bind (advance_noFuel _ _) step

theorem needV_head (vs : List VERSION) (h : 0 < vs.length) :
    needV vs (some 0) (nextV vs 0) ≤ vs.length + 1 := by
  simp only [needV, remV, nextV]
  split
  · omega
  · rename_i c hc
    split at hc
    · simp at hc
      omega
    · simp at hc

theorem garbageCollectList_noFuel (s : State) (vs : List VERSION) :
    (garbageCollectList s vs).noFuel := by
  unfold garbageCollectList
  split
  · exact noFuel_ok _
  · rename_i v rest
    refine noFuel_bind (gcScan_noFuel _ _ _ _ _ _) (fun x _ => ?_)
    obtain ⟨lc, ea⟩ := x
    refine noFuel_bind (readV_noFuel _ _) (fun _ _ => ?_)
    refine noFuel_bind (gcLoop2_noFuel _ _ _ _ _ _ _ (needV_head _ (by simp))) ?_
    intro x hx
    obtain ⟨s1, vs1, prev1, cur1, flag1⟩ := x
    have hl0 : linked (v :: rest) (some 0) (nextV (v :: rest) 0) := rfl
    have hl1 : linked vs1 prev1 cur1 := gcLoop2_linked _ _ _ _ _ _ _ _ hl0 hx
    refine noFuel_bind ?_ ?_
    · unfold gcUnlink
      split
      · apply gcLoop2b_noFuel _ _ _ _ _ _ _ hl1
        unfold needC
        split <;> omega
      · exact noFuel_ok _
    · intro y _
      obtain ⟨s2, vs2, ea2⟩ := y
      refine noFuel_bind (readV_noFuel _ _) (fun _ hr => ?_)
      have hl2 : linked vs2 (some 0) (nextV vs2 0) := rfl
      exact gcLoop3_noFuel _ _ _ _ _ _ hl2 (needV_head _ (by have := readV_lt hr; omega))

theorem garbageCollect_noFuel (s : State) (loc : Loc) : (garbageCollect s loc).noFuel := by
  unfold garbageCollect
  split
  · intro h; cases h
  · exact noFuel_bind (garbageCollectList_noFuel _ _) (fun _ _ => noFuel_ok _)

theorem key_compare_noFuel (s : State) (k1 k2 : KEY) : (key_compare s k1 k2).noFuel := by
  unfold key_compare
  split
  · unfold blob_compare
    split
    · refine noFuel_bind (derefB_noFuel _ _) (fun _ _ => ?_)
      refine noFuel_bind (derefB_noFuel _ _) (fun _ _ => ?_)
      split <;> exact noFuel_ok _
    · intro h; cases h
  · exact noFuel_ok _

theorem findInChain_noFuel (s : State) (key : KEY) : ∀ (chain : List MAP_ENTRY) (j : Nat),
    (findInChain s key chain j).noFuel := by
  intro chain
  induction chain with
  | nil => intro j; exact noFuel_ok _
  | cons e rest ih =>
    intro j
    unfold findInChain
    refine noFuel_bind (key_compare_noFuel _ _ _) (fun _ _ => ?_)
    split
    · exact noFuel_ok _
    · exact ih _

theorem findInTable_noFuel (s : State) (key : KEY) : ∀ (table : List (List MAP_ENTRY)) (i : Nat),
    (findInTable s key table i).noFuel := by
  intro table
  induction table with
  | nil => intro i; exact noFuel_ok _
  | cons chain rest ih =>
    intro i
    unfold findInTable
    refine noFuel_bind (findInChain_noFuel _ _ _ _) (fun r _ => ?_)
    split
    · exact noFuel_ok _
    · exact ih _

theorem findMapEntry_noFuel (s : State) (key : KEY) : (findMapEntry s key).noFuel := by
  unfold findMapEntry
  refine noFuel_bind (findInTable_noFuel _ _ _ _) (fun r _ => ?_)
  split
  · exact noFuel_bind (blob_unref_noFuel _ _) (fun _ _ => noFuel_ok _)
  · simp only
    split
    · intro h; cases h
    · exact noFuel_ok _

theorem avScan_noFuel (s : State) (tp : Nat) : ∀ (vs : List VERSION), (avScan s tp vs).noFuel := by
  intro vs
  induction vs with
  | nil => exact noFuel_ok _
  | cons v rest ih =>
    unfold avScan
    split
    · intro h; cases h
    · refine noFuel_bind (derefT_noFuel _ _) (fun _ _ => ?_)
      refine noFuel_bind (derefT_noFuel _ _) (fun _ _ => ?_)
      split
      · exact noFuel_ok _
      · exact ih

theorem avWalk_noFuel (tp : Nat) : ∀ (vs : List VERSION) (i : Nat) (s : State),
    (avWalk s tp vs i).noFuel := by
  intro vs
  induction vs with
  | nil => intro i s; exact noFuel_ok _
  | cons v rest ih =>
    intro i s
    unfold avWalk
    split
    · intro h; cases h
    · refine noFuel_bind (derefT_noFuel _ _) (fun _ _ => ?_)
      refine noFuel_bind (derefT_noFuel _ _) (fun _ _ => ?_)
      split
      · exact noFuel_ok _
      · refine noFuel_bind (trans_get_status_noFuel _ _) (fun _ _ => ?_)
        split
        · exact noFuel_bind (trans_add_dependency_noFuel _ _ _) (fun _ _ => ih _ _)
        · exact ih _ _

theorem addVersionList_noFuel (s : State) (vs : List VERSION) (tp : Nat) (bp : Option Nat) :
    (addVersionList s vs tp bp).noFuel := by
  unfold addVersionList
  refine noFuel_bind (avScan_noFuel _ _ _) (fun _ _ => ?_)
  split
  · refine noFuel_bind (trans_ref_noFuel _ _) (fun _ _ => ?_)
    refine noFuel_bind (trans_abort_noFuel _ _) (fun x _ => ?_)
    obtain ⟨st, s2⟩ := x
    exact noFuel_bind (blob_unref_noFuel _ _) (fun _ _ => noFuel_ok _)
  · refine noFuel_bind (noFuel_bind (trans_ref_noFuel _ _) (fun _ _ => noFuel_ok _)) ?_
    intro x _
    obtain ⟨version, s1⟩ := x
    simp only
    split
    · exact noFuel_ok _
    · refine noFuel_bind (readV_noFuel _ _) (fun _ _ => ?_)
      refine noFuel_bind (derefT_noFuel _ _) (fun _ _ => ?_)
      refine noFuel_bind (derefT_noFuel _ _) (fun _ _ => ?_)
      split
      · exact noFuel_bind (version_dispose_noFuel _ _) (fun _ _ => noFuel_ok _)
      · refine noFuel_bind (avWalk_noFuel _ _ _ _) (fun y _ => ?_)
        obtain ⟨s2, temp⟩ := y
        simp only
        split
        · exact noFuel_ok _
        · refine noFuel_bind (readV_noFuel _ _) (fun _ _ => ?_)
          exact noFuel_bind (version_dispose_noFuel _ _) (fun _ _ => noFuel_ok _)

theorem addVersion_noFuel (s : State) (loc : Loc) (tp : Nat) (bp : Option Nat) :
    (addVersion s loc tp bp).noFuel := by
  unfold addVersion
  split
  · intro h; cases h
  · exact noFuel_bind (addVersionList_noFuel _ _ _ _) (fun _ _ => noFuel_ok _)

theorem tailBlob_noFuel : ∀ (vs : List VERSION), (tailBlob vs).noFuel := by
  intro vs
  induction vs with
  | nil => exact noFuel_ok _
  | cons v rest ih =>
    cases rest with
    | nil =>
      unfold tailBlob
      split
      · intro h; cases h
      · exact noFuel_ok _
    | cons w rest2 =>
      unfold tailBlob
      split
      · intro h; cases h
      · exact ih

theorem store_put_noFuel (s : State) (tp : Nat) (key : KEY) (value : Option Nat) :
    (store_put s tp key value).noFuel := by
  unfold store_put
  refine noFuel_bind (findMapEntry_noFuel _ _) (fun x _ => ?_)
  obtain ⟨loc, s1⟩ := x
  refine noFuel_bind (garbageCollect_noFuel _ _) (fun _ _ => ?_)
  refine noFuel_bind (addVersion_noFuel _ _ _ _) (fun _ _ => ?_)
  exact noFuel_bind (trans_get_status_noFuel _ _) (fun _ _ => noFuel_ok _)

theorem store_get_noFuel (s : State) (tp : Nat) (key : KEY) : (store_get s tp key).noFuel := by
  unfold store_get
  refine noFuel_bind (findMapEntry_noFuel _ _) (fun x _ => ?_)
  obtain ⟨loc, s1⟩ := x
  refine noFuel_bind (garbageCollect_noFuel _ _) (fun _ _ => ?_)
  refine noFuel_bind (tailBlob_noFuel _) (fun _ _ => ?_)
  refine noFuel_bind (blob_ref_noFuel _ _) (fun _ _ => ?_)
  refine noFuel_bind (addVersion_noFuel _ _ _ _) (fun _ _ => ?_)
  refine noFuel_bind (blob_ref_noFuel _ _) (fun _ _ => ?_)
  exact noFuel_bind (trans_get_status_noFuel _ _) (fun _ _ => noFuel_ok _)

/-- The recursion bounds of the model are never exhausted: no operation of the
transaction manager or of the store has the outcome `Fault.fuel`, so every
outcome of the model is a return or a fault of the C code. -/
theorem bounds_suffice (s : State) (tp : Nat) (key : KEY) (value : Option Nat) :
    (trans_create s).noFuel ∧ (trans_unref s tp).noFuel ∧ (trans_abort s tp).noFuel ∧
    (trans_commit s tp).noFuel ∧ (store_put s tp key value).noFuel ∧
    (store_get s tp key).noFuel :=
  ⟨trans_create_noFuel s, trans_unref_noFuel s tp, trans_abort_noFuel s tp,
   trans_commit_noFuel s tp, store_put_noFuel s tp key value, store_get_noFuel s tp key⟩

/-! ## Whatever the statements of garbageCollect keep -/

theorem gcLoop2_lift {G : State × List VERSION → State × List VERSION → Prop} (hG : GcClosed G) :
    ∀ (n : Nat) (s : State) (vs : List VERSION) (prev cur : Option Nat)
    (lc : VPtr) (flag : Bool) (r : State × List VERSION × Option Nat × Option Nat × Bool),
    gcLoop2 n s vs prev cur lc flag = .ok r → G (s, vs) (r.1, r.2.1) := by
  intro n
  induction n with
  | zero => intro s vs prev cur lc flag r h; simp [gcLoop2] at h
  | succ n ih =>
    intro s vs prev cur lc flag r h
    cases prev with
    | none =>
      simp [gcLoop2] at h
      subst h
      exact hG.same _
    | some p =>
      unfold gcLoop2 at h
      obtain ⟨vp, hvp, h⟩ := Res.bind_eq_ok.mp h
      obtain ⟨status, _, h⟩ := Res.bind_eq_ok.mp h
      split at h
      · obtain ⟨⟨p1, c1⟩, _, h⟩ := Res.bind_eq_ok.mp h
        exact ih _ _ _ _ _ _ _ h
      · split at h
        · obtain ⟨differs, _, h⟩ := Res.bind_eq_ok.mp h
          split at h
          · obtain ⟨s1, h1, h⟩ := Res.bind_eq_ok.mp h
            obtain ⟨⟨p1, c1⟩, _, h⟩ := Res.bind_eq_ok.mp h
            exact hG.chain _ _ _ (hG.release _ _ _ _ _ hvp h1) (ih _ _ _ _ _ _ _ h)
          · obtain ⟨differs2, _, h⟩ := Res.bind_eq_ok.mp h
            split at h
            · simp at h
              subst h
              exact hG.same _
            · obtain ⟨⟨p1, c1⟩, _, h⟩ := Res.bind_eq_ok.mp h
              exact ih _ _ _ _ _ _ _ h
        · obtain ⟨⟨p1, c1⟩, _, h⟩ := Res.bind_eq_ok.mp h
          exact ih _ _ _ _ _ _ _ h

theorem linked_some {vs : List VERSION} {prev : Option Nat} {c : Nat}
    (hl : linked vs prev (some c)) : ∃ p, prev = some p ∧ c = p + 1 ∧ p + 1 < vs.length := by
  cases prev with
  | none => simp [linked] at hl
  | some p =>
    simp only [linked, nextV] at hl
    split at hl
    · simp at hl
      exact ⟨p, rfl, hl, by omega⟩
    · simp at hl

theorem gcLoop2b_lift {G : State × List VERSION → State × List VERSION → Prop} (hG : GcClosed G) :
    ∀ (n : Nat) (s : State) (vs : List VERSION) (prev cur : Option Nat)
    (lc ea : VPtr) (r : State × List VERSION × VPtr), linked vs prev cur →
    gcLoop2b n s vs prev cur lc ea = .ok r → G (s, vs) (r.1, r.2.1) := by
  intro n
  induction n with
  | zero => intro s vs prev cur lc ea r _ h; simp [gcLoop2b] at h
  | succ n ih =>
    intro s vs prev cur lc ea r hl h
    cases cur with
    | none =>
      simp [gcLoop2b] at h
      subst h
      exact hG.same _
    | some c =>
      obtain ⟨p, rfl, rfl, hplt⟩ := linked_some hl
      unfold gcLoop2b at h
      obtain ⟨vc, hvc, h⟩ := Res.bind_eq_ok.mp h
      obtain ⟨status, _, h⟩ := Res.bind_eq_ok.mp h
      split at h
      · obtain ⟨differs, _, h⟩ := Res.bind_eq_ok.mp h
        split at h
        · simp only at h
          obtain ⟨_, _, h⟩ := Res.bind_eq_ok.mp h
          obtain ⟨s1, h1, h⟩ := Res.bind_eq_ok.mp h
          obtain ⟨⟨p1, c1⟩, ha, h⟩ := Res.bind_eq_ok.mp h
          obtain ⟨p', q, hp', rfl, rfl, hq, rfl⟩ := advance2_spec ha
          cases hp'
          exact hG.chain _ _ _ (hG.unlink _ _ _ _ _ hvc h1) (ih _ _ _ _ _ _ _ (by rfl) h)
        · simp at h
          subst h
          exact hG.same _
      · obtain ⟨⟨p1, c1⟩, ha, h⟩ := Res.bind_eq_ok.mp h
        obtain ⟨p', q, hp', rfl, rfl, hq, rfl⟩ := advance2_spec ha
        cases hp'
        exact ih _ _ _ _ _ _ _ (by rfl) h

theorem gcCascade_lift {G : State × List VERSION → State × List VERSION → Prop} (hG : GcClosed G) :
    ∀ (n : Nat) (s : State) (vs : List VERSION) (prev cur : Option Nat)
    (r : State × List VERSION), gcCascade n s vs prev cur = .ok r → G (s, vs) r := by
  intro n
  induction n with
  | zero => intro s vs prev cur r h; simp [gcCascade] at h
  | succ n ih =>
    intro s vs prev cur r h
    cases prev with
    | none =>
      simp [gcCascade] at h
      subst h
      exact hG.same _
    | some p =>
      unfold gcCascade at h
      obtain ⟨vp, hvp, h⟩ := Res.bind_eq_ok.mp h
      obtain ⟨⟨st, s1⟩, h1, h⟩ := Res.bind_eq_ok.mp h
      obtain ⟨s2, h2, h⟩ := Res.bind_eq_ok.mp h
      obtain ⟨⟨p1, c1⟩, _, h⟩ := Res.bind_eq_ok.mp h
      exact hG.chain _ _ _ (hG.abort _ _ _ _ _ _ hvp h1)
        (hG.chain _ _ _ (hG.release _ _ _ _ _ hvp h2) (ih _ _ _ _ _ h))

theorem gcLoop3_lift {G : State × List VERSION → State × List VERSION → Prop} (hG : GcClosed G) :
    ∀ (n : Nat) (s : State) (vs : List VERSION) (prev cur : Option Nat)
    (ea : VPtr) (r : State × List VERSION), gcLoop3 n s vs prev cur ea = .ok r →
    G (s, vs) r := by
  intro n
  induction n with
  | zero => intro s vs prev cur ea r h; simp [gcLoop3] at h
  | succ n ih =>
    intro s vs prev cur ea r h
    cases prev with
    | none =>
      simp [gcLoop3] at h
      subst h
      exact hG.same _
    | some p =>
      unfold gcLoop3 at h
      obtain ⟨vp, _, h⟩ := Res.bind_eq_ok.mp h
      obtain ⟨status, _, h⟩ := Res.bind_eq_ok.mp h
      split at h
      · obtain ⟨differs, _, h⟩ := Res.bind_eq_ok.mp h
        split at h
        · exact gcCascade_lift hG _ _ _ _ _ _ h
        · obtain ⟨⟨p1, c1⟩, _, h⟩ := Res.bind_eq_ok.mp h
          exact ih _ _ _ _ _ _ h
      · obtain ⟨⟨p1, c1⟩, _, h⟩ := Res.bind_eq_ok.mp h
        exact ih _ _ _ _ _ _ h

/-- Whatever the statements of `garbageCollect` keep, `garbageCollect` keeps. -/
theorem garbageCollectList_lift {G : State × List VERSION → State × List VERSION → Prop}
    (hG : GcClosed G) {s : State} {vs : List VERSION} {r : State × List VERSION}
    (h : garbageCollectList s vs = .ok r) : G (s, vs) r := by
  unfold garbageCollectList at h
  cases vs with
  | nil =>
    simp at h
    subst h
    exact hG.same _
  | cons v rest =>
    simp only at h
    obtain ⟨⟨lc, ea⟩, _, h⟩ := Res.bind_eq_ok.mp h
    obtain ⟨_, _, h⟩ := Res.bind_eq_ok.mp h
    obtain ⟨⟨s1, vs1, prev1, cur1, flag1⟩, h1, h⟩ := Res.bind_eq_ok.mp h
    obtain ⟨⟨s2, vs2, ea2⟩, h2, h⟩ := Res.bind_eq_ok.mp h
    obtain ⟨_, _, h⟩ := Res.bind_eq_ok.mp h
    have hl0 : linked (v :: rest) (some 0) (nextV (v :: rest) 0) := rfl
    have hl1 : linked vs1 prev1 cur1 := gcLoop2_linked _ _ _ _ _ _ _ _ hl0 h1
    have h01 : G (s, v :: rest) (s1, vs1) := gcLoop2_lift hG _ _ _ _ _ _ _ _ h1
    have h12 : G (s1, vs1) (s2, vs2) := by
      unfold gcUnlink at h2
      split at h2
      · exact gcLoop2b_lift hG _ _ _ _ _ _ _ _ hl1 h2
      · simp at h2
        obtain ⟨rfl, rfl, _⟩ := h2
        exact hG.same _
    exact hG.chain _ _ _ h01 (hG.chain _ _ _ h12 (gcLoop3_lift hG _ _ _ _ _ _ _ h))

/-! ## Dependencies point to older transactions -/

theorem Rel.cell_back {r : TRANSACTION → TRANSACTION → Prop} {s s2 : State}
    (hl : s2.trans.length = s.trans.length) (h : Rel r s s2) {a : Nat} {t2 : TRANSACTION}
    (h2 : s2.trans[a]? = some t2) : ∃ t, s.trans[a]? = some t ∧ r t t2 := by
  have hlt : a < s.trans.length := by
    rw [← hl]
    exact (List.getElem?_eq_some_iff.mp h2).1
  obtain ⟨t2', h2', hr⟩ := h a _ (List.getElem?_eq_getElem hlt)
  rw [h2] at h2'
  cases h2'
  exact ⟨_, List.getElem?_eq_getElem hlt, hr⟩

theorem growsOlder.grow_refl (s : State) (t : TRANSACTION) : growsOlder s t t :=
  ⟨rfl, [], rfl, fun _ h => nomatch h⟩

theorem GrowsOlder.go_refl (s : State) : GrowsOlder s s :=
  ⟨rfl, Rel.rel_refl (growsOlder.grow_refl s) s⟩

theorem GrowsOlder.older_iff {s s2 : State} (h : GrowsOlder s s2) (d : Nat) (i : Int) :
    olderThan s2 d i ↔ olderThan s d i := by
  constructor
  · rintro ⟨td2, h2, hlt⟩
    obtain ⟨td, h1, hr⟩ := Rel.cell_back h.1 h.2 h2
    exact ⟨td, h1, by rw [← hr.1]; exact hlt⟩
  · rintro ⟨td, h1, hlt⟩
    obtain ⟨td2, h2, hr⟩ := h.2 d td h1
    exact ⟨td2, h2, by rw [hr.1]; exact hlt⟩

theorem GrowsOlder.go_trans {s1 s2 s3 : State} (h12 : GrowsOlder s1 s2) (h23 : GrowsOlder s2 s3) :
    GrowsOlder s1 s3 := by
  refine ⟨h23.1.trans h12.1, ?_⟩
  intro a t ht
  obtain ⟨t2, ht2, hid2, add2, hd2, hold2⟩ := h12.2 a t ht
  obtain ⟨t3, ht3, hid3, add3, hd3, hold3⟩ := h23.2 a t2 ht2
  refine ⟨t3, ht3, hid3.trans hid2, add3 ++ add2, by rw [hd3, hd2, List.append_assoc], ?_⟩
  intro d hd
  rcases List.mem_append.mp hd with hd | hd
  · have := (h12.older_iff d t2.id).mp (hold3 d hd)
    rw [hid2] at this
    exact this
  · exact hold2 d hd

theorem GrowsOlder.go_of_same {s s2 : State} (hl : s2.trans.length = s.trans.length)
    (h : Rel sameIdDeps s s2) : GrowsOlder s s2 :=
  ⟨hl, Rel.rel_mono (fun _ _ hr => ⟨hr.1, [], by simpa using hr.2, fun _ hd => nomatch hd⟩) h⟩

theorem GrowsOlder.of_trans_eq {s s2 : State} (h : s2.trans = s.trans) : GrowsOlder s s2 :=
  ⟨by rw [h], Rel.rel_of_trans_eq (growsOlder.grow_refl s) h⟩

theorem GrowsOlder.keeps {s s2 : State} (h : GrowsOlder s s2) (hinv : DepsOlder s) :
    DepsOlder s2 := by
  intro t2 ht2 d hd
  obtain ⟨a, ha⟩ := List.mem_iff_getElem?.mp ht2
  obtain ⟨t, ht, hid, added, hdeps, hold⟩ := Rel.cell_back h.1 h.2 ha
  rw [h.older_iff, hid]
  rw [hdeps] at hd
  rcases List.mem_append.mp hd with hd | hd
  · exact hold d hd
  · exact hinv t (List.mem_iff_getElem?.mpr ⟨a, ht⟩) d hd

theorem sameButRef.to_sameIdDeps (a b : TRANSACTION) (h : sameButRef a b) : sameIdDeps a b :=
  ⟨h.1, h.2.2.1⟩

theorem sameIdDeps.sid_refl (t : TRANSACTION) : sameIdDeps t t := ⟨rfl, rfl⟩

theorem sameIdDeps.sid_trans (a b c : TRANSACTION) (h1 : sameIdDeps a b) (h2 : sameIdDeps b c) :
    sameIdDeps a c := ⟨h2.1.trans h1.1, h2.2.trans h1.2⟩

theorem postAll_same {s s2 : State} {tp : Nat} (h : postAll s tp = .ok s2) :
    Rel sameIdDeps s s2 := by
  obtain ⟨t, ht, rfl⟩ := postAll_eq_ok h
  exact Rel.rel_writeT sameIdDeps.sid_refl (derefT_eq_ok.mp ht).1 ⟨rfl, rfl⟩

/-- `trans_abort` changes neither an id nor a dependency list. -/
theorem trans_abort_same {s s2 : State} {tp : Nat} {st : TRANS_STATUS}
    (h : trans_abort s tp = .ok (st, s2)) : Rel sameIdDeps s s2 := by
  unfold trans_abort at h
  obtain ⟨st0, hst0, h⟩ := Res.bind_eq_ok.mp h
  split at h
  · simp at h
  · split at h
    · obtain ⟨s1, h1, h⟩ := Res.bind_eq_ok.mp h
      obtain ⟨s3, h3, h⟩ := Res.bind_eq_ok.mp h
      simp at h
      obtain ⟨_, rfl⟩ := h
      exact Rel.rel_trans sameIdDeps.sid_trans (postAll_same h1)
        (Rel.rel_mono sameButRef.to_sameIdDeps (trans_unref_rel h3))
    · obtain ⟨t0, ht0, h⟩ := Res.bind_eq_ok.mp h
      obtain ⟨s1, h1, h⟩ := Res.bind_eq_ok.mp h
      obtain ⟨s3, h3, h⟩ := Res.bind_eq_ok.mp h
      simp at h
      obtain ⟨_, rfl⟩ := h
      have hw : Rel sameIdDeps s (writeT s tp { t0 with status := TRANS_ABORTED }) :=
        Rel.rel_writeT sameIdDeps.sid_refl (derefT_eq_ok.mp ht0).1 ⟨rfl, rfl⟩
      exact Rel.rel_trans sameIdDeps.sid_trans hw
        (Rel.rel_trans sameIdDeps.sid_trans (postAll_same h1)
          (Rel.rel_mono sameButRef.to_sameIdDeps (trans_unref_rel h3)))

theorem trans_abort_grows {s s2 : State} {tp : Nat} {st : TRANS_STATUS}
    (h : trans_abort s tp = .ok (st, s2)) : GrowsOlder s s2 :=
  GrowsOlder.go_of_same (trans_abort_ok h).2.1.1 (trans_abort_same h)

theorem version_dispose_grows {s s2 : State} {v : VERSION}
    (h : version_dispose s v = .ok s2) : GrowsOlder s s2 :=
  GrowsOlder.go_of_same (version_dispose_length h)
    (Rel.rel_mono sameButRef.to_sameIdDeps (version_dispose_rel h))

theorem trans_ref_grows {s s2 : State} {tp : Nat} (h : trans_ref s tp = .ok s2) :
    GrowsOlder s s2 :=
  GrowsOlder.go_of_same (trans_ref_length h) (Rel.rel_mono sameButRef.to_sameIdDeps (trans_ref_rel h))

theorem gcClosed_grows : GcClosed (fun x y => GrowsOlder x.1 y.1) where
  same := fun x => GrowsOlder.go_refl x.1
  chain := fun _ _ _ h1 h2 => h1.go_trans h2
  release := fun _ _ _ _ _ _ h => version_dispose_grows h
  unlink := fun _ _ _ _ _ _ h => version_dispose_grows h
  abort := fun _ _ _ _ _ _ _ h => trans_abort_grows h

theorem garbageCollect_grows {s s2 : State} {loc : Loc}
    (h : garbageCollect s loc = .ok s2) : GrowsOlder s s2 := by
  unfold garbageCollect at h
  split at h
  · simp at h
  · obtain ⟨⟨s1, vs1⟩, h1, h⟩ := Res.bind_eq_ok.mp h
    simp at h
    subst h
    exact (garbageCollectList_lift gcClosed_grows h1).go_trans
      (GrowsOlder.of_trans_eq (setVersions_trans _ _ _))

theorem trans_add_dependency_grows {s s2 : State} {tp dtp : Nat} {t c : TRANSACTION}
    (ht : derefT s tp = .ok t) (hc : s.trans[dtp]? = some c) (hlt : c.id < t.id)
    (h : trans_add_dependency s tp dtp = .ok s2) : GrowsOlder s s2 := by
  unfold trans_add_dependency at h
  obtain ⟨t', ht', h⟩ := Res.bind_eq_ok.mp h
  rw [ht] at ht'
  cases ht'
  have hget := (derefT_eq_ok.mp ht).1
  have hw : GrowsOlder s (writeT s tp { t with depends := dtp :: t.depends }) := by
    refine ⟨by simp [writeT], Rel.rel_writeT (growsOlder.grow_refl s) hget ?_⟩
    refine ⟨rfl, [dtp], rfl, ?_⟩
    intro d hd
    simp at hd
    subst hd
    exact ⟨c, hc, hlt⟩
  exact hw.go_trans (trans_ref_grows h)

/-- The walk of `addVersion` only adds dependencies on older transactions, when
no version of the list has a creator with a greater id than `tp`. -/
theorem avWalk_grows (s0 : State) {tp : Nat} {t0 : TRANSACTION} (ht0 : s0.trans[tp]? = some t0) :
    ∀ (vs : List VERSION) (i : Nat) (s : State) (r : State × Option Nat),
    GrowsOlder s0 s →
    (∀ v ∈ vs, ∃ c0, s0.trans[v.creator]? = some c0 ∧ c0.id ≤ t0.id) →
    avWalk s tp vs i = .ok r → GrowsOlder s0 r.1 := by
  intro vs
  induction vs with
  | nil =>
    intro i s r hg _ h
    simp [avWalk] at h
    subst h
    exact hg
  | cons v rest ih =>
    intro i s r hg hle h
    have hle' : ∀ w ∈ rest, ∃ c0, s0.trans[w.creator]? = some c0 ∧ c0.id ≤ t0.id :=
      fun w hw => hle w (List.mem_cons_of_mem _ hw)
    unfold avWalk at h
    split at h
    · simp at h
    · obtain ⟨c, hc, h⟩ := Res.bind_eq_ok.mp h
      obtain ⟨t, ht, h⟩ := Res.bind_eq_ok.mp h
      split at h
      · simp at h
        subst h
        exact hg
      · rename_i hne
        obtain ⟨status, _, h⟩ := Res.bind_eq_ok.mp h
        split at h
        · obtain ⟨s1, h1, h⟩ := Res.bind_eq_ok.mp h
          obtain ⟨c0, hc0, hcle⟩ := hle v (List.mem_cons_self _ _)
          obtain ⟨c', hc', hrc⟩ := hg.2 _ _ hc0
          obtain ⟨t', ht', hrt⟩ := hg.2 _ _ ht0
          have ec : c' = c := by
            have := (derefT_eq_ok.mp hc).1
            rw [hc'] at this
            cases this
            rfl
          have et : t' = t := by
            have := (derefT_eq_ok.mp ht).1
            rw [ht'] at this
            cases this
            rfl
          rw [ec] at hrc hc'
          rw [et] at hrt
          have hlt : c.id < t.id := by
            have e1 := hrc.1
            have e2 := hrt.1
            omega
          exact ih _ _ _ (hg.go_trans (trans_add_dependency_grows ht hc' hlt h1)) hle' h
        · exact ih _ _ _ hg hle' h

theorem addVersionList_grows {s : State} {vs : List VERSION} {tp : Nat} {bp : Option Nat}
    {r : State × List VERSION} (h : addVersionList s vs tp bp = .ok r) : GrowsOlder s r.1 := by
  unfold addVersionList at h
  obtain ⟨ana, hscan, h⟩ := Res.bind_eq_ok.mp h
  split at h
  · obtain ⟨s1, h1, h⟩ := Res.bind_eq_ok.mp h
    obtain ⟨⟨st, s2⟩, h2, h⟩ := Res.bind_eq_ok.mp h
    obtain ⟨s3, h3, h⟩ := Res.bind_eq_ok.mp h
    simp at h
    subst h
    exact (trans_ref_grows h1).go_trans ((trans_abort_grows h2).go_trans
      (GrowsOlder.of_trans_eq (blob_unref_frame h3).1))
  · rename_i hana
    have hfalse : ana = false := by simpa using hana
    subst hfalse
    obtain ⟨⟨version, s1⟩, h1, h⟩ := Res.bind_eq_ok.mp h
    have h01 : GrowsOlder s s1 := by
      unfold version_create at h1
      obtain ⟨s0, h0, h1⟩ := Res.bind_eq_ok.mp h1
      simp at h1
      obtain ⟨_, rfl⟩ := h1
      exact trans_ref_grows h0
    cases vs with
    | nil =>
      simp at h
      subst h
      exact h01
    | cons head rest =>
      simp only at h
      obtain ⟨_, _, h⟩ := Res.bind_eq_ok.mp h
      obtain ⟨c, _, h⟩ := Res.bind_eq_ok.mp h
      obtain ⟨t, _, h⟩ := Res.bind_eq_ok.mp h
      split at h
      · obtain ⟨s2, h2, h⟩ := Res.bind_eq_ok.mp h
        simp at h
        subst h
        exact h01.go_trans (version_dispose_grows h2)
      · obtain ⟨⟨s2, temp⟩, h2, h⟩ := Res.bind_eq_ok.mp h
        have hinfo := avScan_false (head :: rest) hscan
        obtain ⟨_, _, t0, _, ht0, _⟩ := hinfo head (List.mem_cons_self _ _)
        have hget0 := (derefT_eq_ok.mp ht0).1
        have hle : ∀ v ∈ head :: rest, ∃ c0, s.trans[v.creator]? = some c0 ∧ c0.id ≤ t0.id := by
          intro v hv
          obtain ⟨_, c0, t', hc0, ht', hcle⟩ := hinfo v hv
          rw [ht0] at ht'
          cases ht'
          exact ⟨c0, hc0, hcle⟩
        have h02 : GrowsOlder s s2 := avWalk_grows s hget0 _ _ _ _ h01 hle h2
        cases temp with
        | none =>
          simp at h
          subst h
          exact h02
        | some j =>
          simp only at h
          obtain ⟨prev, _, h⟩ := Res.bind_eq_ok.mp h
          obtain ⟨s3, h3, h⟩ := Res.bind_eq_ok.mp h
          simp at h
          subst h
          exact h02.go_trans (version_dispose_grows h3)

theorem addVersion_grows {s s2 : State} {loc : Loc} {tp : Nat} {bp : Option Nat}
    (h : addVersion s loc tp bp = .ok s2) : GrowsOlder s s2 := by
  unfold addVersion at h
  split at h
  · simp at h
  · obtain ⟨⟨s1, vs1⟩, h1, h⟩ := Res.bind_eq_ok.mp h
    simp at h
    subst h
    exact (addVersionList_grows h1).go_trans (GrowsOlder.of_trans_eq (setVersions_trans _ _ _))

theorem store_put_grows {s s2 : State} {tp : Nat} {key : KEY} {value : Option Nat}
    {st : TRANS_STATUS} (h : store_put s tp key value = .ok (st, s2)) : GrowsOlder s s2 := by
  unfold store_put at h
  obtain ⟨⟨loc, s1⟩, h1, h⟩ := Res.bind_eq_ok.mp h
  obtain ⟨sg, hg, h⟩ := Res.bind_eq_ok.mp h
  obtain ⟨s3, h3, h⟩ := Res.bind_eq_ok.mp h
  obtain ⟨status, _, h⟩ := Res.bind_eq_ok.mp h
  simp at h
  obtain ⟨_, rfl⟩ := h
  exact (GrowsOlder.of_trans_eq (findMapEntry_trans h1)).go_trans
    ((garbageCollect_grows hg).go_trans (addVersion_grows h3))

theorem store_get_grows {s s2 : State} {tp : Nat} {key : KEY} {value : Option Nat}
    {st : TRANS_STATUS} (h : store_get s tp key = .ok (st, value, s2)) : GrowsOlder s s2 := by
  unfold store_get at h
  obtain ⟨⟨loc, s1⟩, h1, h⟩ := Res.bind_eq_ok.mp h
  obtain ⟨sg, hg, h⟩ := Res.bind_eq_ok.mp h
  obtain ⟨v, _, h⟩ := Res.bind_eq_ok.mp h
  obtain ⟨s3, h3, h⟩ := Res.bind_eq_ok.mp h
  obtain ⟨s4, h4, h⟩ := Res.bind_eq_ok.mp h
  obtain ⟨s5, h5, h⟩ := Res.bind_eq_ok.mp h
  obtain ⟨status, _, h⟩ := Res.bind_eq_ok.mp h
  simp at h
  obtain ⟨_, _, rfl⟩ := h
  exact (GrowsOlder.of_trans_eq (findMapEntry_trans h1)).go_trans
    ((garbageCollect_grows hg).go_trans ((GrowsOlder.of_trans_eq (blob_ref_frame h3).1).go_trans
      ((addVersion_grows h4).go_trans (GrowsOlder.of_trans_eq (blob_ref_frame h5).1))))

/-- Along a chain of dependency edges the id strictly decreases. -/
theorem DepsOlder.chain_lt {s : State} (hinv : DepsOlder s) {a b : Nat}
    (h : Relation.TransGen (dependsOn s) a b) :
    ∃ ta tb, s.trans[a]? = some ta ∧ s.trans[b]? = some tb ∧ tb.id < ta.id := by
  induction h with
  | single hab =>
    obtain ⟨ta, hta, hb⟩ := hab
    obtain ⟨tb, htb, hlt⟩ := hinv ta (List.mem_iff_getElem?.mpr ⟨_, hta⟩) _ hb
    exact ⟨ta, tb, hta, htb, hlt⟩
  | tail _ hbc ih =>
    obtain ⟨ta, tb, hta, htb, hlt⟩ := ih
    obtain ⟨tb', htb', hc⟩ := hbc
    rw [htb] at htb'
    cases htb'
    obtain ⟨tc, htc, hlt2⟩ := hinv tb (List.mem_iff_getElem?.mpr ⟨_, htb⟩) _ hc
    exact ⟨ta, tc, hta, htc, by omega⟩

theorem DepsOlder.acyclic {s : State} (hinv : DepsOlder s) : Acyclic s := by
  intro a h
  obtain ⟨ta, tb, hta, htb, hlt⟩ := hinv.chain_lt h
  rw [hta] at htb
  cases htb
  omega

/-- C11.  Whenever `store_put` or `store_get` returns, no transaction was
allocated, every transaction has kept its id, and the dependency list of every
transaction is its old list with only transactions of strictly smaller id
pushed in front (`GrowsOlder`).  Hence, if before the call every dependency of
every transaction had a smaller id than the transaction (`DepsOlder`), the same
holds after the call, and no chain of dependency edges is a cycle. -/
theorem store_dependencies_older (s : State) (tp : Nat) (key : KEY) (hinv : DepsOlder s) :
    (∀ value st s2, store_put s tp key value = .ok (st, s2) →
      GrowsOlder s s2 ∧ DepsOlder s2 ∧ Acyclic s2) ∧
    (∀ st value s2, store_get s tp key = .ok (st, value, s2) →
      GrowsOlder s s2 ∧ DepsOlder s2 ∧ Acyclic s2) :=
  ⟨fun _ _ _ h => ⟨store_put_grows h, (store_put_grows h).keeps hinv,
      ((store_put_grows h).keeps hinv).acyclic⟩,
   fun _ _ _ h => ⟨store_get_grows h, (store_get_grows h).keeps hinv,
      ((store_get_grows h).keeps hinv).acyclic⟩⟩

/-- Witness for C11: transaction 1 puts "k" after the pending transaction 0
has; its new dependency on transaction 0 points to a smaller id. -/
theorem store_dependencies_older_witness :
    DepsOlder earlierWriter ∧
    ∃ s2, store_put earlierWriter 1 laterKey (some 3) = .ok (TRANS_PENDING, s2) ∧
      (s2.trans[1]?).map (fun t => t.depends) = some [0] ∧
      GrowsOlder earlierWriter s2 ∧ DepsOlder s2 ∧ Acyclic s2 :=
  ⟨by decide,
   (Res.getD (TRANS_PENDING, State.init) (store_put earlierWriter 1 laterKey (some 3))).2,
   by decide, by decide,
   (store_dependencies_older earlierWriter 1 laterKey (by decide)).1 (some 3) TRANS_PENDING _
     (by decide)⟩

/-! ## Version lists stay ascending by creator id -/

theorem creatorId_eq_idAt (s : State) (v : VERSION) : creatorId s v = idAt s v.creator := rfl

theorem idAt_eq_getD (s : State) (a : Nat) : idAt s a = ((idsOf s)[a]?).getD 0 := by
  unfold idAt idsOf
  rw [List.getElem?_map]
  cases s.trans[a]? <;> rfl

theorem idAt_congr {s s2 : State} (h : idsOf s2 = idsOf s) (a : Nat) : idAt s2 a = idAt s a := by
  rw [idAt_eq_getD, idAt_eq_getD, h]

theorem idsOf_of_rel {r : TRANSACTION → TRANSACTION → Prop} {s s2 : State}
    (hl : s2.trans.length = s.trans.length) (h : Rel r s s2)
    (hr : ∀ a b, r a b → b.id = a.id) : idsOf s2 = idsOf s := by
  apply List.ext_getElem?
  intro a
  unfold idsOf
  rw [List.getElem?_map, List.getElem?_map]
  cases h1 : s.trans[a]? with
  | none =>
    have : s2.trans[a]? = none := by
      rw [List.getElem?_eq_none_iff] at h1 ⊢
      omega
    rw [this]
  | some t =>
    obtain ⟨t2, h2, hrel⟩ := h a t h1
    rw [h2]
    simp [hr _ _ hrel]

theorem GrowsOlder.ids {s s2 : State} (h : GrowsOlder s s2) : idsOf s2 = idsOf s :=
  idsOf_of_rel h.1 h.2 (fun _ _ hr => hr.1)

theorem ascending_iff_map (s : State) (vs : List VERSION) :
    AscendingIds s vs ↔
      (vs.map (fun v => v.creator)).Pairwise (fun a b => idAt s a < idAt s b) := by
  unfold AscendingIds
  rw [List.pairwise_map]
  rfl

/-- A list whose creators are a sublist of the creators of an ascending list
is ascending, also in a state with the same ids. -/
theorem AscendingIds.thin {s s2 : State} {vs vs2 : List VERSION} (h : AscendingIds s vs)
    (hids : idsOf s2 = idsOf s)
    (hsub : (vs2.map (fun v => v.creator)).Sublist (vs.map (fun v => v.creator))) :
    AscendingIds s2 vs2 := by
  rw [ascending_iff_map] at h ⊢
  have := h.sublist hsub
  refine this.imp ?_
  intro a b hab
  rw [idAt_congr hids, idAt_congr hids]
  exact hab

theorem AscendingIds.nodup {s : State} {vs : List VERSION} (h : AscendingIds s vs) :
    (vs.map (fun v => v.creator)).Nodup := by
  rw [ascending_iff_map] at h
  refine h.imp ?_
  intro a b hab heq
  rw [heq] at hab
  omega

theorem freeV_creators (vs : List VERSION) (i : Nat) :
    (freeV vs i).map (fun v => v.creator) = vs.map (fun v => v.creator) := by
  unfold freeV
  cases h : vs[i]? with
  | none => rfl
  | some v =>
    simp only
    rw [List.map_set]
    apply List.ext_getElem?
    intro j
    rw [List.getElem?_set]
    split
    · rename_i hij
      subst hij
      split
      · rw [List.getElem?_map, h]; rfl
      · rename_i hlt
        rw [List.length_map] at hlt
        rw [List.getElem?_eq_none_iff.mpr (by rw [List.length_map]; omega)]
    · rfl

theorem unlink_creators (vs : List VERSION) (p q : Nat) (hpq : p ≤ q) :
    ((vs.take p ++ vs.drop q).map (fun v => v.creator)).Sublist
      (vs.map (fun v => v.creator)) := by
  apply List.Sublist.map
  have h1 : (vs.take p ++ vs.drop q).Sublist (vs.take p ++ vs.drop p) :=
    List.Sublist.append (List.Sublist.refl _) (List.drop_sublist_drop_left vs hpq)
  rwa [List.take_append_drop] at h1

theorem foldlM_table (f : State → Nat → Res State)
    (hf : ∀ s d s2, f s d = .ok s2 → s2.table = s.table) :
    ∀ (ds : List Nat) (s s2 : State), ds.foldlM f s = .ok s2 → s2.table = s.table := by
  intro ds
  induction ds with
  | nil =>
    intro s s2 h
    simp [List.foldlM] at h
    subst h
    rfl
  | cons d rest ih =>
    intro s s2 h
    simp only [List.foldlM] at h
    obtain ⟨s1, h1, h⟩ := Res.bind_eq_ok.mp h
    exact (ih _ _ h).trans (hf _ _ _ h1)

theorem trans_unrefAux_table : ∀ (n : Nat) (s s2 : State) (tp : Nat),
    trans_unrefAux n s tp = .ok s2 → s2.table = s.table := by
  intro n
  induction n with
  | zero => intro s s2 tp h; simp [trans_unrefAux] at h
  | succ n ih =>
    intro s s2 tp h
    unfold trans_unrefAux at h
    obtain ⟨t, _, h⟩ := Res.bind_eq_ok.mp h
    split at h
    · obtain ⟨sa, ha, h⟩ := Res.bind_eq_ok.mp h
      obtain ⟨t2, _, h⟩ := Res.bind_eq_ok.mp h
      obtain ⟨l, _, h⟩ := Res.bind_eq_ok.mp h
      simp at h
      subst h
      have := foldlM_table _ (fun s d s2 hh => ih s s2 d hh) _ _ _ ha
      exact this
    · simp at h
      subst h
      rfl

theorem trans_unref_table {s s2 : State} {tp : Nat} (h : trans_unref s tp = .ok s2) :
    s2.table = s.table := trans_unrefAux_table _ _ _ _ h

theorem version_dispose_table {s s2 : State} {v : VERSION}
    (h : version_dispose s v = .ok s2) : s2.table = s.table := by
  unfold version_dispose at h
  obtain ⟨s1, h1, h⟩ := Res.bind_eq_ok.mp h
  exact (blob_unref_frame h).2.trans (trans_unref_table h1)

theorem trans_ref_table {s s2 : State} {tp : Nat} (h : trans_ref s tp = .ok s2) :
    s2.table = s.table := by
  unfold trans_ref at h
  obtain ⟨t, _, h⟩ := Res.bind_eq_ok.mp h
  simp at h
  subst h
  rfl

theorem trans_abort_table {s s2 : State} {tp : Nat} {st : TRANS_STATUS}
    (h : trans_abort s tp = .ok (st, s2)) : s2.table = s.table := by
  unfold trans_abort at h
  obtain ⟨st0, hst0, h⟩ := Res.bind_eq_ok.mp h
  split at h
  · simp at h
  · split at h
    · obtain ⟨s1, h1, h⟩ := Res.bind_eq_ok.mp h
      obtain ⟨s3, h3, h⟩ := Res.bind_eq_ok.mp h
      simp at h
      obtain ⟨_, rfl⟩ := h
      obtain ⟨t, _, rfl⟩ := postAll_eq_ok h1
      exact (trans_unref_table h3).trans rfl
    · obtain ⟨t0, ht0, h⟩ := Res.bind_eq_ok.mp h
      obtain ⟨s1, h1, h⟩ := Res.bind_eq_ok.mp h
      obtain ⟨s3, h3, h⟩ := Res.bind_eq_ok.mp h
      simp at h
      obtain ⟨_, rfl⟩ := h
      obtain ⟨t, _, rfl⟩ := postAll_eq_ok h1
      exact (trans_unref_table h3).trans rfl

theorem trans_add_dependency_table {s s2 : State} {tp dtp : Nat}
    (h : trans_add_dependency s tp dtp = .ok s2) : s2.table = s.table := by
  unfold trans_add_dependency at h
  obtain ⟨t, _, h⟩ := Res.bind_eq_ok.mp h
  exact (trans_ref_table h).trans rfl

theorem gcClosed_thins : GcClosed Thins where
  same := fun x => ⟨GrowsOlder.go_refl x.1, rfl, List.Sublist.refl _⟩
  chain := fun _ _ _ h1 h2 => ⟨h1.1.go_trans h2.1, h2.2.1.trans h1.2.1, h2.2.2.trans h1.2.2⟩
  release := fun _ _ vs p _ _ h =>
    ⟨version_dispose_grows h, version_dispose_table h, by
      show ((freeV vs p).map _).Sublist _
      rw [freeV_creators]⟩
  unlink := fun _ _ vs p _ _ h =>
    ⟨version_dispose_grows h, version_dispose_table h, unlink_creators vs (p + 1) (p + 2) (by omega)⟩
  abort := fun _ _ _ _ _ _ _ h => ⟨trans_abort_grows h, trans_abort_table h, List.Sublist.refl _⟩

theorem entry_mem_iff (s : State) (e : MAP_ENTRY) :
    (∃ chain ∈ s.table, e ∈ chain) ↔ ∃ loc : Loc, entryAt s loc = some e := by
  constructor
  · rintro ⟨chain, hc, he⟩
    obtain ⟨i, hi⟩ := List.mem_iff_getElem?.mp hc
    obtain ⟨j, hj⟩ := List.mem_iff_getElem?.mp he
    exact ⟨(i, j), by simp [entryAt, hi, hj]⟩
  · rintro ⟨loc, h⟩
    unfold entryAt at h
    cases hc : s.table[loc.1]? with
    | none => simp [hc] at h
    | some chain =>
      simp only [hc] at h
      exact ⟨chain, List.mem_iff_getElem?.mpr ⟨_, hc⟩, List.mem_iff_getElem?.mpr ⟨_, h⟩⟩

theorem storeAscending_iff (s : State) :
    StoreAscending s ↔ ∀ (loc : Loc) (e : MAP_ENTRY), entryAt s loc = some e →
      AscendingIds s e.versions := by
  constructor
  · intro h loc e he
    obtain ⟨chain, hc, hm⟩ := (entry_mem_iff s e).mpr ⟨loc, he⟩
    exact h chain hc e hm
  · intro h chain hc e he
    obtain ⟨loc, hl⟩ := (entry_mem_iff s e).mp ⟨chain, hc, he⟩
    exact h loc e hl

theorem StoreAscending.one_each {s : State} (h : StoreAscending s) : OneVersionEach s :=
  fun chain hc e he => (h chain hc e he).nodup

theorem entryAt_setVersions_same {s : State} {loc : Loc} {e : MAP_ENTRY} (vs : List VERSION)
    (h : entryAt s loc = some e) :
    entryAt (setVersions s loc vs) loc = some { e with versions := vs } := by
  unfold entryAt at h
  unfold setVersions
  cases hc : s.table[loc.1]? with
  | none => simp [hc] at h
  | some chain =>
    simp only [hc] at h
    have h1 : loc.1 < s.table.length := (List.getElem?_eq_some_iff.mp hc).1
    have h2 : loc.2 < chain.length := (List.getElem?_eq_some_iff.mp h).1
    simp [h, entryAt, List.getElem?_set, h1, h2]

theorem entryAt_setVersions_ne {s : State} {loc loc' : Loc} (vs : List VERSION)
    (hne : loc' ≠ loc) : entryAt (setVersions s loc vs) loc' = entryAt s loc' := by
  unfold setVersions
  cases hc : s.table[loc.1]? with
  | none => rfl
  | some chain =>
    simp only
    cases he : chain[loc.2]? with
    | none => rfl
    | some e =>
      simp only
      unfold entryAt
      simp only [List.getElem?_set]
      by_cases h1 : loc.1 = loc'.1
      · have hlt : loc.1 < s.table.length := (List.getElem?_eq_some_iff.mp hc).1
        have h2 : loc.2 ≠ loc'.2 := by
          intro h2
          exact hne (Prod.ext h1.symm h2.symm)
        simp only [h1, if_true]
        rw [← h1]
        simp [hlt, hc, List.getElem?_set, h2]
      · simp [h1]

theorem entryAt_setVersions_missing {s : State} {loc : Loc} (vs : List VERSION)
    (h : entryAt s loc = none) : setVersions s loc vs = s := by
  unfold entryAt at h
  unfold setVersions
  cases hc : s.table[loc.1]? with
  | none => rfl
  | some chain =>
    simp only [hc] at h
    simp [h]

theorem AscendingIds.of_frame {s s2 : State} {vs : List VERSION} (h : AscendingIds s vs)
    (hids : idsOf s2 = idsOf s) : AscendingIds s2 vs := h.thin hids (List.Sublist.refl _)

/-- Storing an ascending list in one entry keeps all lists ascending. -/
theorem StoreAscending.set {s s1 : State} (loc : Loc) {vs : List VERSION}
    (hinv : StoreAscending s) (hids : idsOf s1 = idsOf s) (htab : s1.table = s.table)
    (hvs : AscendingIds s1 vs) : StoreAscending (setVersions s1 loc vs) := by
  rw [storeAscending_iff] at hinv ⊢
  have hids2 : idsOf (setVersions s1 loc vs) = idsOf s1 := by
    unfold idsOf
    rw [setVersions_trans]
  intro loc' e' he'
  by_cases hl : loc' = loc
  · subst hl
    cases h1 : entryAt s1 loc' with
    | none =>
      rw [entryAt_setVersions_missing vs h1, h1] at he'
      cases he'
    | some e =>
      rw [entryAt_setVersions_same vs h1] at he'
      cases he'
      exact hvs.of_frame hids2
  · rw [entryAt_setVersions_ne vs hl, entryAt_of_table htab] at he'
    exact (hinv loc' e' he').of_frame (hids2.trans hids)

theorem StoreAscending.frame {s s2 : State} (hinv : StoreAscending s)
    (ht : s2.trans = s.trans) (htab : s2.table = s.table) : StoreAscending s2 := by
  intro chain hc e he
  rw [htab] at hc
  exact (hinv chain hc e he).of_frame (by unfold idsOf; rw [ht])

theorem garbageCollect_ascending {s s2 : State} {loc : Loc} (hinv : StoreAscending s)
    (h : garbageCollect s loc = .ok s2) : StoreAscending s2 := by
  unfold garbageCollect at h
  cases he : entryAt s loc with
  | none => simp [he] at h
  | some e =>
    simp only [he] at h
    obtain ⟨⟨s1, vs1⟩, h1, h⟩ := Res.bind_eq_ok.mp h
    simp at h
    subst h
    obtain ⟨hg, htab, hsub⟩ := garbageCollectList_lift gcClosed_thins h1
    exact hinv.set loc hg.ids htab
      ((((storeAscending_iff s).mp hinv) loc e he).thin hg.ids hsub)

theorem findMapEntry_entries {s s1 : State} {key : KEY} {loc : Loc}
    (h : findMapEntry s key = .ok (loc, s1)) :
    ∀ chain ∈ s1.table, ∀ e ∈ chain, (∃ chain0 ∈ s.table, e ∈ chain0) ∨ e.versions = [] := by
  unfold findMapEntry at h
  obtain ⟨r, _, h⟩ := Res.bind_eq_ok.mp h
  cases r with
  | some l =>
    simp only at h
    obtain ⟨s2, h2, h⟩ := Res.bind_eq_ok.mp h
    simp at h
    obtain ⟨_, rfl⟩ := h
    intro chain hc e he
    rw [(blob_unref_frame h2).2] at hc
    exact Or.inl ⟨chain, hc, he⟩
  | none =>
    simp only at h
    cases hb : s.table[bucketOf key]? with
    | none => simp [hb] at h
    | some chain0 =>
      simp only [hb] at h
      simp at h
      obtain ⟨_, rfl⟩ := h
      intro chain hc e he
      simp only at hc
      rcases List.mem_or_eq_of_mem_set hc with hc | rfl
      · exact Or.inl ⟨chain, hc, he⟩
      · rcases List.mem_append.mp he with he | he
        · exact Or.inl ⟨chain0, List.mem_iff_getElem?.mpr ⟨_, hb⟩, he⟩
        · simp at he
          subst he
          exact Or.inr rfl

theorem findMapEntry_ascending {s s1 : State} {key : KEY} {loc : Loc} (hinv : StoreAscending s)
    (h : findMapEntry s key = .ok (loc, s1)) : StoreAscending s1 := by
  intro chain hc e he
  rcases findMapEntry_entries h chain hc e he with ⟨chain0, hc0, he0⟩ | hnil
  · exact (hinv chain0 hc0 e he0).of_frame (by unfold idsOf; rw [findMapEntry_trans h])
  · rw [hnil]
    exact List.Pairwise.nil

theorem idAt_of_get {s : State} {a : Nat} {c : TRANSACTION} (h : s.trans[a]? = some c) :
    idAt s a = c.id := by
  simp [idAt, h]

theorem trans_add_dependency_ids {s s2 : State} {tp dtp : Nat}
    (h : trans_add_dependency s tp dtp = .ok s2) : idsOf s2 = idsOf s :=
  idsOf_of_rel (trans_add_dependency_steady h).1 (trans_add_dependency_spec h).1
    (fun _ _ hr => hr.1)

/-- When the walk of `addVersion` reaches the end of the list, no version of
the list has a creator with the id of `tp`. -/
theorem avWalk_none {tp : Nat} : ∀ (vs : List VERSION) (i : Nat) (s : State)
    (r : State × Option Nat), avWalk s tp vs i = .ok r → r.2 = none →
    ∀ v ∈ vs, idAt s v.creator ≠ idAt s tp := by
  intro vs
  induction vs with
  | nil => intro i s r _ _ v hv; simp at hv
  | cons v rest ih =>
    intro i s r h hr w hw
    unfold avWalk at h
    split at h
    · simp at h
    · obtain ⟨c, hc, h⟩ := Res.bind_eq_ok.mp h
      obtain ⟨t, ht, h⟩ := Res.bind_eq_ok.mp h
      split at h
      · simp at h
        subst h
        simp at hr
      · rename_i hne
        obtain ⟨status, _, h⟩ := Res.bind_eq_ok.mp h
        rcases List.mem_cons.mp hw with rfl | hw
        · rw [idAt_of_get (derefT_eq_ok.mp hc).1, idAt_of_get (derefT_eq_ok.mp ht).1]
          exact hne
        · split at h
          · obtain ⟨s1, h1, h⟩ := Res.bind_eq_ok.mp h
            have hids := trans_add_dependency_ids h1
            have := ih _ _ _ h hr w hw
            rw [idAt_congr hids, idAt_congr hids] at this
            exact this
          · exact ih _ _ _ h hr w hw

theorem avWalk_table {tp : Nat} : ∀ (vs : List VERSION) (i : Nat) (s : State)
    (r : State × Option Nat), avWalk s tp vs i = .ok r → r.1.table = s.table := by
  intro vs
  induction vs with
  | nil =>
    intro i s r h
    simp [avWalk] at h
    subst h
    rfl
  | cons v rest ih =>
    intro i s r h
    unfold avWalk at h
    split at h
    · simp at h
    · obtain ⟨c, _, h⟩ := Res.bind_eq_ok.mp h
      obtain ⟨t, _, h⟩ := Res.bind_eq_ok.mp h
      split at h
      · simp at h
        subst h
        rfl
      · obtain ⟨status, _, h⟩ := Res.bind_eq_ok.mp h
        split at h
        · obtain ⟨s1, h1, h⟩ := Res.bind_eq_ok.mp h
          exact (ih _ _ _ h).trans (trans_add_dependency_table h1)
        · exact ih _ _ _ h

theorem version_create_ok {s s1 : State} {tp : Nat} {bp : Option Nat} {version : VERSION}
    (h : version_create s tp bp = .ok (version, s1)) :
    version = { creator := tp, blob := bp, freed := false } ∧ trans_ref s tp = .ok s1 := by
  unfold version_create at h
  obtain ⟨s0, h0, h⟩ := Res.bind_eq_ok.mp h
  simp at h
  obtain ⟨rfl, rfl⟩ := h
  exact ⟨rfl, h0⟩

theorem addVersionList_table {s : State} {vs : List VERSION} {tp : Nat} {bp : Option Nat}
    {r : State × List VERSION} (h : addVersionList s vs tp bp = .ok r) :
    r.1.table = s.table := by
  unfold addVersionList at h
  obtain ⟨ana, hscan, h⟩ := Res.bind_eq_ok.mp h
  split at h
  · obtain ⟨s1, h1, h⟩ := Res.bind_eq_ok.mp h
    obtain ⟨⟨st, s2⟩, h2, h⟩ := Res.bind_eq_ok.mp h
    obtain ⟨s3, h3, h⟩ := Res.bind_eq_ok.mp h
    simp at h
    subst h
    exact (blob_unref_frame h3).2.trans ((trans_abort_table h2).trans (trans_ref_table h1))
  · obtain ⟨⟨version, s1⟩, h1, h⟩ := Res.bind_eq_ok.mp h
    have h01 : s1.table = s.table := trans_ref_table (version_create_ok h1).2
    cases vs with
    | nil =>
      simp at h
      subst h
      exact h01
    | cons head rest =>
      simp only at h
      obtain ⟨_, _, h⟩ := Res.bind_eq_ok.mp h
      obtain ⟨c, _, h⟩ := Res.bind_eq_ok.mp h
      obtain ⟨t, _, h⟩ := Res.bind_eq_ok.mp h
      split at h
      · obtain ⟨s2, h2, h⟩ := Res.bind_eq_ok.mp h
        simp at h
        subst h
        exact (version_dispose_table h2).trans h01
      · obtain ⟨⟨s2, temp⟩, h2, h⟩ := Res.bind_eq_ok.mp h
        have h12 : s2.table = s1.table := avWalk_table _ _ _ _ h2
        cases temp with
        | none =>
          simp at h
          subst h
          exact h12.trans h01
        | some j =>
          simp only at h
          obtain ⟨prev, _, h⟩ := Res.bind_eq_ok.mp h
          obtain ⟨s3, h3, h⟩ := Res.bind_eq_ok.mp h
          simp at h
          subst h
          exact (version_dispose_table h3).trans (h12.trans h01)

/-- `addVersion` turns an ascending list into an ascending list. -/
theorem addVersionList_ascending {s : State} {vs : List VERSION} {tp : Nat} {bp : Option Nat}
    {r : State × List VERSION} (hasc : AscendingIds s vs)
    (h : addVersionList s vs tp bp = .ok r) : AscendingIds r.1 r.2 := by
  have hids : idsOf r.1 = idsOf s := (addVersionList_grows h).ids
  unfold addVersionList at h
  obtain ⟨ana, hscan, h⟩ := Res.bind_eq_ok.mp h
  split at h
  · obtain ⟨s1, h1, h⟩ := Res.bind_eq_ok.mp h
    obtain ⟨⟨st, s2⟩, h2, h⟩ := Res.bind_eq_ok.mp h
    obtain ⟨s3, h3, h⟩ := Res.bind_eq_ok.mp h
    simp at h
    subst h
    exact hasc.of_frame hids
  · rename_i hana
    have hfalse : ana = false := by simpa using hana
    subst hfalse
    obtain ⟨⟨version, s1⟩, h1, h⟩ := Res.bind_eq_ok.mp h
    obtain ⟨hver, href⟩ := version_create_ok h1
    have hids1 : idsOf s1 = idsOf s := (trans_ref_grows href).ids
    cases vs with
    | nil =>
      simp at h
      subst h
      exact List.pairwise_singleton _ _
    | cons head rest =>
      simp only at h
      obtain ⟨_, _, h⟩ := Res.bind_eq_ok.mp h
      obtain ⟨c, _, h⟩ := Res.bind_eq_ok.mp h
      obtain ⟨t, _, h⟩ := Res.bind_eq_ok.mp h
      split at h
      · obtain ⟨s2, h2, h⟩ := Res.bind_eq_ok.mp h
        simp at h
        subst h
        exact List.pairwise_singleton _ _
      · obtain ⟨⟨s2, temp⟩, h2, h⟩ := Res.bind_eq_ok.mp h
        cases temp with
        | none =>
          simp at h
          subst h
          have hno := avWalk_none _ _ _ _ h2 rfl
          have hinfo := avScan_false (head :: rest) hscan
          show AscendingIds s2 (head :: rest ++ [version])
          unfold AscendingIds
          rw [List.pairwise_append]
          refine ⟨hasc.of_frame hids, List.pairwise_singleton _ _, ?_⟩
          intro v hv w hw
          simp at hw
          subst hw
          rw [creatorId_eq_idAt, creatorId_eq_idAt, hver, idAt_congr hids, idAt_congr hids]
          obtain ⟨_, c0, t0, hc0, ht0, hle⟩ := hinfo v hv
          have hn := hno v hv
          rw [idAt_congr hids1, idAt_congr hids1] at hn
          rw [idAt_of_get hc0, idAt_of_get (derefT_eq_ok.mp ht0).1] at hn ⊢
          omega
        | some j =>
          simp only at h
          obtain ⟨prev, _, h⟩ := Res.bind_eq_ok.mp h
          obtain ⟨s3, h3, h⟩ := Res.bind_eq_ok.mp h
          simp at h
          subst h
          refine hasc.thin hids ?_
          show ((freeV _ _).map _).Sublist _
          rw [freeV_creators]
          exact unlink_creators _ j (j + 1) (by omega)

theorem addVersion_ascending {s s2 : State} {loc : Loc} {tp : Nat} {bp : Option Nat}
    (hinv : StoreAscending s) (h : addVersion s loc tp bp = .ok s2) : StoreAscending s2 := by
  unfold addVersion at h
  cases he : entryAt s loc with
  | none => simp [he] at h
  | some e =>
    simp only [he] at h
    obtain ⟨⟨s1, vs1⟩, h1, h⟩ := Res.bind_eq_ok.mp h
    simp at h
    subst h
    exact hinv.set loc (addVersionList_grows h1).ids (addVersionList_table h1)
      (addVersionList_ascending (((storeAscending_iff s).mp hinv) loc e he) h1)

theorem store_put_ascending {s s2 : State} {tp : Nat} {key : KEY} {value : Option Nat}
    {st : TRANS_STATUS} (hinv : StoreAscending s)
    (h : store_put s tp key value = .ok (st, s2)) : StoreAscending s2 := by
  unfold store_put at h
  obtain ⟨⟨loc, s1⟩, h1, h⟩ := Res.bind_eq_ok.mp h
  obtain ⟨sg, hg, h⟩ := Res.bind_eq_ok.mp h
  obtain ⟨s3, h3, h⟩ := Res.bind_eq_ok.mp h
  obtain ⟨status, _, h⟩ := Res.bind_eq_ok.mp h
  simp at h
  obtain ⟨_, rfl⟩ := h
  exact addVersion_ascending (garbageCollect_ascending (findMapEntry_ascending hinv h1) hg) h3

theorem store_get_ascending {s s2 : State} {tp : Nat} {key : KEY} {value : Option Nat}
    {st : TRANS_STATUS} (hinv : StoreAscending s)
    (h : store_get s tp key = .ok (st, value, s2)) : StoreAscending s2 := by
  unfold store_get at h
  obtain ⟨⟨loc, s1⟩, h1, h⟩ := Res.bind_eq_ok.mp h
  obtain ⟨sg, hg, h⟩ := Res.bind_eq_ok.mp h
  obtain ⟨v, _, h⟩ := Res.bind_eq_ok.mp h
  obtain ⟨s3, h3, h⟩ := Res.bind_eq_ok.mp h
  obtain ⟨s4, h4, h⟩ := Res.bind_eq_ok.mp h
  obtain ⟨s5, h5, h⟩ := Res.bind_eq_ok.mp h
  obtain ⟨status, _, h⟩ := Res.bind_eq_ok.mp h
  simp at h
  obtain ⟨_, _, rfl⟩ := h
  have hg' := garbageCollect_ascending (findMapEntry_ascending hinv h1) hg
  have h3' := hg'.frame (blob_ref_frame h3).1 (blob_ref_frame h3).2
  exact (addVersion_ascending h3' h4).frame (blob_ref_frame h5).1 (blob_ref_frame h5).2

/-- C12.  If every version list of the store is strictly ascending by creator
id before a `store_put` or a `store_get`, then whenever the call returns every
version list is strictly ascending by creator id, and so no list holds two
versions of the same creator. -/
theorem version_lists_ascending (s : State) (tp : Nat) (key : KEY) (hinv : StoreAscending s) :
    (∀ value st s2, store_put s tp key value = .ok (st, s2) →
      StoreAscending s2 ∧ OneVersionEach s2) ∧
    (∀ st value s2, store_get s tp key = .ok (st, value, s2) →
      StoreAscending s2 ∧ OneVersionEach s2) :=
  ⟨fun _ _ _ h => ⟨store_put_ascending hinv h, (store_put_ascending hinv h).one_each⟩,
   fun _ _ _ h => ⟨store_get_ascending hinv h, (store_get_ascending hinv h).one_each⟩⟩

/-- Witness for C12: transaction 1 puts "k" after transaction 0 has; the list
of "k" then holds the versions of transactions 0 and 1, in this order. -/
theorem version_lists_ascending_witness :
    StoreAscending earlierWriter ∧
    ∃ s2, store_put earlierWriter 1 laterKey (some 3) = .ok (TRANS_PENDING, s2) ∧
      (versionsAt s2 (2, 0)).map (fun v => v.creator) = [0, 1] ∧
      StoreAscending s2 ∧ OneVersionEach s2 :=
  ⟨by decide,
   (Res.getD (TRANS_PENDING, State.init) (store_put earlierWriter 1 laterKey (some 3))).2,
   by decide, by decide,
   (version_lists_ascending earlierWriter 1 laterKey (by decide)).1 (some 3) TRANS_PENDING _
     (by decide)⟩

/-! ## store_get reads the last version -/

theorem keepsLife.kl_refl (t : TRANSACTION) : keepsLife t t := ⟨rfl, rfl, rfl⟩

theorem keepsLife.kl_trans (a b c : TRANSACTION) (h1 : keepsLife a b) (h2 : keepsLife b c) :
    keepsLife a c := ⟨h2.1.trans h1.1, h2.2.1.trans h1.2.1, h2.2.2.trans h1.2.2⟩

theorem trans_ref_of_live {s : State} {tp : Nat} {t : TRANSACTION} (ht : derefT s tp = .ok t) :
    trans_ref s tp = .ok (writeT s tp { t with refcnt := t.refcnt + 1 }) := by
  simp [trans_ref, ht]

theorem trans_ref_life {s : State} {tp : Nat} {t : TRANSACTION} (ht : derefT s tp = .ok t) :
    Rel keepsLife s (writeT s tp { t with refcnt := t.refcnt + 1 }) :=
  Rel.rel_writeT keepsLife.kl_refl (derefT_eq_ok.mp ht).1 ⟨rfl, rfl, rfl⟩

theorem Rel.deref_life {s s2 : State} (h : Rel keepsLife s s2) {a : Nat} {t : TRANSACTION}
    (ht : derefT s a = .ok t) : ∃ t2, derefT s2 a = .ok t2 ∧ keepsLife t t2 := by
  obtain ⟨hget, hlive⟩ := derefT_eq_ok.mp ht
  obtain ⟨t2, h2, hr⟩ := h a t hget
  exact ⟨t2, derefT_of_get h2 (hr.2.2.trans hlive), hr⟩

/-- `trans_add_dependency` returns when both transactions are live. -/
theorem trans_add_dependency_live {s : State} {tp dtp : Nat} {t c : TRANSACTION}
    (ht : derefT s tp = .ok t) (hc : derefT s dtp = .ok c) :
    ∃ s1, trans_add_dependency s tp dtp = .ok s1 ∧ Rel keepsLife s s1 ∧
      s1.blobs = s.blobs ∧ s1.table = s.table := by
  have hw : Rel keepsLife s (writeT s tp { t with depends := dtp :: t.depends }) :=
    Rel.rel_writeT keepsLife.kl_refl (derefT_eq_ok.mp ht).1 ⟨rfl, rfl, rfl⟩
  obtain ⟨c1, hc1, _⟩ := hw.deref_life hc
  refine ⟨_, ?_, Rel.rel_trans keepsLife.kl_trans hw (trans_ref_life hc1), rfl, rfl⟩
  unfold trans_add_dependency
  simp only [ht, Res.ok_bind]
  exact trans_ref_of_live hc1

/-- The walk of `addVersion` reaches the end of a list of live versions whose
creators are live and have another id than `tp`. -/
theorem avWalk_through {tp : Nat} (tid : Int) : ∀ (vs : List VERSION) (i : Nat) (s : State),
    (∃ t, derefT s tp = .ok t ∧ t.id = tid) →
    (∀ v ∈ vs, v.freed = false ∧ ∃ c, derefT s v.creator = .ok c ∧ c.id ≠ tid) →
    ∃ s2, avWalk s tp vs i = .ok (s2, none) ∧ Rel keepsLife s s2 ∧
      s2.blobs = s.blobs ∧ s2.table = s.table := by
  intro vs
  induction vs with
  | nil =>
    intro i s _ _
    exact ⟨s, rfl, Rel.rel_refl keepsLife.kl_refl s, rfl, rfl⟩
  | cons v rest ih =>
    intro i s htp hall
    obtain ⟨t, ht, hid⟩ := htp
    obtain ⟨hvf, c, hc, hne⟩ := hall v (List.mem_cons_self _ _)
    have hcne : ¬ c.id = t.id := by rw [hid]; exact hne
    unfold avWalk
    simp only [hvf, Bool.false_eq_true, if_false, hc, ht, Res.ok_bind, hcne, trans_get_status,
      Res.pure_eq]
    by_cases hp : c.status = TRANS_PENDING
    · simp only [hp, if_true]
      obtain ⟨s1, h1, hr1, hb1, htab1⟩ := trans_add_dependency_live ht hc
      simp only [h1, Res.ok_bind]
      have htp1 : ∃ t1, derefT s1 tp = .ok t1 ∧ t1.id = tid := by
        obtain ⟨t1, ht1, hk⟩ := hr1.deref_life ht
        exact ⟨t1, ht1, hk.1.trans hid⟩
      have hall1 : ∀ w ∈ rest, w.freed = false ∧ ∃ c, derefT s1 w.creator = .ok c ∧ c.id ≠ tid := by
        intro w hw
        obtain ⟨hwf, cw, hcw, hnw⟩ := hall w (List.mem_cons_of_mem _ hw)
        obtain ⟨c1, hc1, hk⟩ := hr1.deref_life hcw
        exact ⟨hwf, c1, hc1, by rw [hk.1]; exact hnw⟩
      obtain ⟨s2, h2, hr2, hb2, htab2⟩ := ih (i + 1) s1 htp1 hall1
      exact ⟨s2, h2, Rel.rel_trans keepsLife.kl_trans hr1 hr2, hb2.trans hb1, htab2.trans htab1⟩
    · simp only [hp, if_false]
      exact ih (i + 1) s ⟨t, ht, hid⟩ (fun w hw => hall w (List.mem_cons_of_mem _ hw))

/-- `addVersion` appends the new version at the tail when `tp` is live and the
list holds live versions whose creators are live and have a smaller id. -/
theorem addVersionList_append {s : State} {vs : List VERSION} {tp : Nat} {t : TRANSACTION}
    (bp : Option Nat) (ht : derefT s tp = .ok t)
    (hall : ∀ v ∈ vs, v.freed = false ∧ ∃ c, derefT s v.creator = .ok c ∧ c.id < t.id) :
    ∃ s2, addVersionList s vs tp bp =
        .ok (s2, vs ++ [{ creator := tp, blob := bp, freed := false }]) ∧
      Rel keepsLife s s2 ∧ s2.blobs = s.blobs ∧ s2.table = s.table := by
  have hscan : avScan s tp vs = .ok false := by
    apply avScan_passes ht
    intro v hv
    obtain ⟨hvf, c, hc, hlt⟩ := hall v hv
    exact ⟨hvf, c, (derefT_eq_ok.mp hc).1, (derefT_eq_ok.mp hc).2, by omega⟩
  have hr1 := trans_ref_life ht
  unfold addVersionList
  simp only [hscan, Res.ok_bind, Bool.false_eq_true, if_false, version_create,
    trans_ref_of_live ht, Res.pure_eq]
  cases vs with
  | nil => exact ⟨_, rfl, hr1, rfl, rfl⟩
  | cons head rest =>
    obtain ⟨hhf, c, hc, hlt⟩ := hall head (List.mem_cons_self _ _)
    obtain ⟨c1, hc1, hkc⟩ := hr1.deref_life hc
    obtain ⟨t1, ht1, hkt⟩ := hr1.deref_life ht
    have hne : ¬ c1.id = t1.id := by
      rw [hkc.1, hkt.1]
      omega
    have hread : readV (head :: rest) 0 = .ok head := by simp [readV, hhf]
    have hall1 : ∀ v ∈ head :: rest, v.freed = false ∧
        ∃ c, derefT (writeT s tp { t with refcnt := t.refcnt + 1 }) v.creator = .ok c ∧
          c.id ≠ t.id := by
      intro v hv
      obtain ⟨hvf, cv, hcv, hltv⟩ := hall v hv
      obtain ⟨c2, hc2, hk⟩ := hr1.deref_life hcv
      exact ⟨hvf, c2, hc2, by rw [hk.1]; omega⟩
    obtain ⟨s2, h2, hr2, hb2, htab2⟩ := avWalk_through t.id (head :: rest) 0 _
      ⟨t1, ht1, hkt.1⟩ hall1
    simp only [hread, Res.ok_bind, hc1, ht1, hne, if_false, h2]
    exact ⟨s2, rfl, Rel.rel_trans keepsLife.kl_trans hr1 hr2, hb2, htab2⟩

theorem setVersions_blobs (s : State) (loc : Loc) (vs : List VERSION) :
    (setVersions s loc vs).blobs = s.blobs := by
  unfold setVersions
  split
  · rfl
  · split <;> rfl

theorem versionsAt_setVersions {s : State} {loc : Loc} {e : MAP_ENTRY} (vs : List VERSION)
    (h : entryAt s loc = some e) : versionsAt (setVersions s loc vs) loc = vs := by
  unfold versionsAt
  rw [entryAt_setVersions_same vs h]

theorem blob_ref_live {s : State} {bp : Option Nat}
    (h : ∀ p, bp = some p → ∃ b, s.blobs[p]? = some b ∧ b.freed = false) :
    ∃ s2, blob_ref s bp = .ok s2 ∧ s2.trans = s.trans ∧ s2.table = s.table ∧
      ∀ p, bp = some p → ∃ b, s2.blobs[p]? = some b ∧ b.freed = false := by
  cases bp with
  | none => exact ⟨s, rfl, rfl, rfl, fun p hp => nomatch hp⟩
  | some p =>
    obtain ⟨b, hb, hlive⟩ := h p rfl
    refine ⟨writeB s p { b with refcnt := b.refcnt + 1 }, ?_, rfl, rfl, ?_⟩
    · simp [blob_ref, derefB_eq_ok.mpr ⟨hb, hlive⟩]
    · intro q hq
      cases hq
      exact ⟨_, writeB_get_same hb, hlive⟩

/-- C14.  Let `s2` be the state after `store_get` has found the entry of the
key and collected its garbage, and let the version list of the entry be
non-empty with live versions, `last` being the last one.  Then whenever
`store_get` returns, the pointer it has written to its output is the blob of
`last`.  And it does return, with the status of `tp` and the read-through
version appended to the list, when `tp` is live, the creator of every version
is live with a smaller id than `tp` (whatever its status), and the blob of
`last` is live. -/
theorem store_get_reads_latest (s s1 s2 : State) (tp : Nat) (key : KEY) (loc : Loc)
    (e : MAP_ENTRY) (last : VERSION)
    (hfind : findMapEntry s key = .ok (loc, s1))
    (hgc : garbageCollect s1 loc = .ok s2)
    (he : entryAt s2 loc = some e)
    (hlast : e.versions.getLast? = some last)
    (hlive : ∀ v ∈ e.versions, v.freed = false) :
    (∀ st value s5, store_get s tp key = .ok (st, value, s5) → value = last.blob) ∧
    (∀ t, s2.trans[tp]? = some t → t.freed = false →
      (∀ v ∈ e.versions, ∃ c, s2.trans[v.creator]? = some c ∧ c.freed = false ∧ c.id < t.id) →
      (∀ p, last.blob = some p → ∃ b, s2.blobs[p]? = some b ∧ b.freed = false) →
      ∃ s5, store_get s tp key = .ok (t.status, last.blob, s5) ∧
        versionsAt s5 loc =
          e.versions ++ [{ creator := tp, blob := last.blob, freed := false }]) := by
  have htail : tailBlob (versionsAt s2 loc) = .ok last.blob := by
    rw [versionsAt_of_entry he]
    exact tailBlob_last _ _ hlive hlast
  constructor
  · intro st value s5 h
    unfold store_get at h
    simp only [hfind, Res.ok_bind, hgc, htail] at h
    obtain ⟨s3, _, h⟩ := Res.bind_eq_ok.mp h
    obtain ⟨s4, _, h⟩ := Res.bind_eq_ok.mp h
    obtain ⟨s5', _, h⟩ := Res.bind_eq_ok.mp h
    obtain ⟨status, _, h⟩ := Res.bind_eq_ok.mp h
    simp at h
    exact h.2.1.symm
  · intro t ht htl hcre hblob
    obtain ⟨s3, h3, h3t, h3tab, h3b⟩ := blob_ref_live hblob
    have hd3 : derefT s3 tp = .ok t := derefT_of_get (by rw [h3t]; exact ht) htl
    have hall3 : ∀ v ∈ e.versions, v.freed = false ∧
        ∃ c, derefT s3 v.creator = .ok c ∧ c.id < t.id := by
      intro v hv
      obtain ⟨c, hc, hcl, hlt⟩ := hcre v hv
      exact ⟨hlive v hv, c, derefT_of_get (by rw [h3t]; exact hc) hcl, hlt⟩
    obtain ⟨s4, h4, hr4, hb4, htab4⟩ := addVersionList_append last.blob hd3 hall3
    have he3 : entryAt s3 loc = some e := (entryAt_of_table h3tab loc).trans he
    have he4 : entryAt s4 loc = some e := (entryAt_of_table htab4 loc).trans he3
    have hblob4 : ∀ p, last.blob = some p →
        ∃ b, (setVersions s4 loc
          (e.versions ++ [{ creator := tp, blob := last.blob, freed := false }])).blobs[p]? =
            some b ∧ b.freed = false := by
      intro p hp
      rw [setVersions_blobs, hb4]
      exact h3b p hp
    obtain ⟨s5, h5, h5t, h5tab, _⟩ := blob_ref_live hblob4
    obtain ⟨t4, ht4, hk4⟩ := hr4.deref_life hd3
    have hd5 : derefT s5 tp = .ok t4 := by
      obtain ⟨hg4, hl4⟩ := derefT_eq_ok.mp ht4
      exact derefT_of_get (by rw [h5t, setVersions_trans]; exact hg4) hl4
    refine ⟨s5, ?_, ?_⟩
    · unfold store_get
      simp only [hfind, Res.ok_bind, hgc, htail, h3, addVersion, he3, h4, Res.pure_eq, h5,
        trans_get_status, hd5, hk4.2.1]
    · unfold versionsAt
      rw [entryAt_of_table h5tab, entryAt_setVersions_same _ he4]

/-- C15.  Let `findMapEntry` return an entry whose version list is empty, and
let `tp` be live.  Then `store_get` returns the status of `tp` and writes
`NULL` to its output; afterwards the cell of `tp` differs only by the reference
the read-through version holds (same status, same dependencies), and that
version, with a `NULL` blob, is the list of the entry.  A key that the search
does not find gets such an entry, at the end of the chain of its bucket. -/
theorem store_get_empty (s : State) (tp : Nat) (key : KEY) (t : TRANSACTION)
    (ht : s.trans[tp]? = some t) (hlive : t.freed = false) :
    (∀ loc s1 e, findMapEntry s key = .ok (loc, s1) → entryAt s1 loc = some e →
      e.versions = [] →
      ∃ s5, store_get s tp key = .ok (t.status, none, s5) ∧
        s5.trans = s.trans.set tp { t with refcnt := t.refcnt + 1 } ∧
        versionsAt s5 loc = [{ creator := tp, blob := none, freed := false }]) ∧
    (∀ chain, findInTable s key (s.table.take NUM_BUCKETS) 0 = .ok none →
      s.table[bucketOf key]? = some chain →
      ∃ s1 e, findMapEntry s key = .ok ((bucketOf key, chain.length), s1) ∧
        entryAt s1 (bucketOf key, chain.length) = some e ∧ e.versions = []) := by
  constructor
  · intro loc s1 e hfind he hnil
    have ht1 : derefT s1 tp = .ok t := derefT_of_get (by rw [findMapEntry_trans hfind]; exact ht) hlive
    have hgc : garbageCollect s1 loc = .ok s1 := by
      unfold garbageCollect
      simp only [he, hnil, garbageCollectList, Res.pure_eq, Res.ok_bind]
      rw [← hnil, setVersions_self he]
    have hw : entryAt (writeT s1 tp { t with refcnt := t.refcnt + 1 }) loc = some e := he
    refine ⟨setVersions (writeT s1 tp { t with refcnt := t.refcnt + 1 }) loc
      [{ creator := tp, blob := none, freed := false }], ?_, ?_, ?_⟩
    · have hd5 : derefT (setVersions (writeT s1 tp { t with refcnt := t.refcnt + 1 }) loc
          [{ creator := tp, blob := none, freed := false }]) tp =
          .ok { t with refcnt := t.refcnt + 1 } :=
        derefT_of_get (by
          rw [setVersions_trans]
          exact writeT_get_same (derefT_eq_ok.mp ht1).1) hlive
      unfold store_get
      simp only [hfind, Res.ok_bind, hgc, versionsAt, he, hnil, tailBlob, Res.pure_eq, blob_ref,
        addVersion, addVersionList, avScan, Bool.false_eq_true, if_false, version_create,
        trans_ref_of_live ht1, trans_get_status, hd5]
    · rw [setVersions_trans]
      show s1.trans.set tp _ = _
      rw [findMapEntry_trans hfind]
    · exact versionsAt_setVersions _ hw
  · intro chain hsearch hbucket
    have hlt : bucketOf key < s.table.length := (List.getElem?_eq_some_iff.mp hbucket).1
    have hf : findMapEntry s key = .ok ((bucketOf key, chain.length),
        { s with
          table := s.table.set (bucketOf key) (chain ++ [{ key := key, versions := [] }]) }) := by
      unfold findMapEntry
      simp only [hsearch, Res.ok_bind, hbucket, Res.pure_eq]
    refine ⟨_, { key := key, versions := [] }, hf, ?_, rfl⟩
    simp [entryAt, List.getElem?_set, hlt]

/-- Witness for C14: transaction 1 gets "k", which the pending transaction 0
has put; it reads the blob of that version (blob 1). -/
theorem store_get_reads_latest_witness :
    (∀ st value s5, store_get earlierWriter 1 laterKey = .ok (st, value, s5) →
      value = some 1) ∧
    ∃ s5, store_get earlierWriter 1 laterKey = .ok (TRANS_PENDING, some 1, s5) ∧
      versionsAt s5 (2, 0) =
        [{ creator := 0, blob := some 1, freed := false },
         { creator := 1, blob := some 1, freed := false }] :=
  have h := store_get_reads_latest earlierWriter earlierFound earlierCollected 1 laterKey (2, 0)
    { key := { hash := 225266, blob := some 0 },
      versions := [{ creator := 0, blob := some 1, freed := false }] }
    { creator := 0, blob := some 1, freed := false }
    (by decide) (by decide) (by decide) (by decide) (by decide)
  ⟨h.1, h.2 (cell 1 1 TRANS_PENDING []) (by decide) (by decide) (by decide) (by decide)⟩

/-- Witness for C15: transaction 0 gets "k" from the empty store. -/
theorem store_get_empty_witness :
    (∃ s5, store_get emptyRead 0 firstKey = .ok (TRANS_PENDING, none, s5) ∧
      s5.trans = [cell 0 2 TRANS_PENDING [], cell 1 1 TRANS_PENDING []] ∧
      versionsAt s5 (2, 0) = [{ creator := 0, blob := none, freed := false }]) ∧
    ∃ s1 e, findMapEntry emptyRead firstKey = .ok ((2, 0), s1) ∧
      entryAt s1 (2, 0) = some e ∧ e.versions = [] :=
  have h := store_get_empty emptyRead 0 firstKey (cell 0 1 TRANS_PENDING []) (by decide)
    (by decide)
  ⟨h.1 (2, 0) emptyFound { key := firstKey, versions := [] } (by decide) (by decide) rfl,
   h.2 [] (by decide) (by decide)⟩

/-! ## Further runs on which the code departs from the specification -/

/-- C13 (code defect).  The list of "k" holds the versions of transactions 0
and 1, in this order, with no creator id above 1.  `addVersion` for transaction
1 with the new blob 4 returns a list of length 1 that holds only the released
version of transaction 0: the old version of transaction 1 is unlinked, the new
version is linked nowhere. -/
theorem addVersion_overwrite_loses :
    versionsAt overwriteReady (2, 0) =
      [{ creator := 0, blob := some 1, freed := false },
       { creator := 1, blob := some 3, freed := false }] ∧
    overwriteReady.trans.map (fun t => t.id) = [0, 1] ∧
    ∃ s, addVersion overwriteReady (2, 0) 1 (some 4) = .ok s ∧
      versionsAt s (2, 0) = [{ creator := 0, blob := some 1, freed := true }] :=
  ⟨by decide, by decide,
   Res.getD State.init (addVersion overwriteReady (2, 0) 1 (some 4)),
   by decide, by decide⟩

/-- C16 (code defect).  The list of "k" holds the versions of the committed
transactions 0 and 1.  `garbageCollect` on it changes nothing: both versions
stay, none is released. -/
theorem garbageCollect_keeps_superseded :
    twoCommits.trans.map (fun t => t.status) =
      [TRANS_COMMITTED, TRANS_COMMITTED, TRANS_PENDING] ∧
    versionsAt twoCommits (2, 0) =
      [{ creator := 0, blob := some 1, freed := false },
       { creator := 1, blob := some 3, freed := false }] ∧
    garbageCollect twoCommits (2, 0) = .ok twoCommits ∧
    ∃ s, service_get twoCommits 2 [107] = .ok (TRANS_PENDING, some 3, s) ∧
      versionsAt s (2, 0) =
        [{ creator := 0, blob := some 1, freed := false },
         { creator := 1, blob := some 3, freed := false },
         { creator := 2, blob := some 3, freed := false }] :=
  ⟨by decide, by decide, by decide,
   (Res.getD (TRANS_PENDING, none, State.init) (service_get twoCommits 2 [107])).2.2,
   by decide, by decide⟩

/-- C17 (code defect).  The list of "k" holds the version of the committed
transaction 0 followed by the version of the pending transaction 1.  The
first loop of `garbageCollect` finds the version of transaction 0 as the latest
commit, the second loop releases this very version and leaves it linked, and
the last loop then reads it. -/
theorem garbageCollect_releases_latest_commit :
    committedThenPending.trans.map (fun t => t.status) =
      [TRANS_COMMITTED, TRANS_PENDING, TRANS_PENDING] ∧
    versionsAt committedThenPending (2, 0) =
      [{ creator := 0, blob := some 1, freed := false },
       { creator := 1, blob := some 3, freed := false }] ∧
    gcScan committedThenPending (versionsAt committedThenPending (2, 0)) 0 .uninit .uninit true =
      .ok (.node 0, .uninit) ∧
    (∃ s, gcLoop2 3 committedThenPending (versionsAt committedThenPending (2, 0)) (some 0)
        (some 1) (.node 0) true =
      .ok (s, [{ creator := 0, blob := some 1, freed := true },
               { creator := 1, blob := some 3, freed := false }], none, none, true)) ∧
    garbageCollect committedThenPending (2, 0) = .fault .useAfterFree :=
  ⟨by decide, by decide, by decide,
   ⟨(Res.getD (State.init, [], none, none, true)
      (gcLoop2 3 committedThenPending (versionsAt committedThenPending (2, 0)) (some 0)
        (some 1) (.node 0) true)).1, by decide⟩,
   by decide⟩

/-- C18 (code defect).  The list of "k" holds the version of the aborted
transaction 0 followed by the version of the pending transaction 1.
`garbageCollect` changes nothing: both versions stay and transaction 1 stays
pending. -/
theorem garbageCollect_skips_cascade :
    abortedThenPending.trans.map (fun t => t.status) =
      [TRANS_ABORTED, TRANS_PENDING, TRANS_PENDING] ∧
    versionsAt abortedThenPending (2, 0) =
      [{ creator := 0, blob := some 1, freed := false },
       { creator := 1, blob := some 3, freed := false }] ∧
    garbageCollect abortedThenPending (2, 0) = .ok abortedThenPending :=
  ⟨by decide, by decide, by decide⟩

/-- C19 (code defect).  In `cascadeRipe` the list of "k" holds the versions of
the aborted transactions 1 and 2, and the list of "j" the version of
transaction 2, which holds one reference for each.  The PUT of transaction 0 on
"k" returns; its `garbageCollect` has released transaction 2 twice for the one
version in "k", so the version of "j", still linked and live, has a creator
with reference count 0 that has been freed. -/
theorem creator_released_under_version :
    cascadeRipe.trans.map (fun t => (t.status, t.refcnt)) =
      [(TRANS_PENDING, 1), (TRANS_ABORTED, 2), (TRANS_ABORTED, 2)] ∧
    versionsAt cascadeRipe (2, 0) =
      [{ creator := 1, blob := some 1, freed := false },
       { creator := 2, blob := some 3, freed := false }] ∧
    versionsAt cascadeRipe (1, 0) = [{ creator := 2, blob := some 5, freed := false }] ∧
    ∃ s, service_put cascadeRipe 0 [107] [100] = .ok (TRANS_ABORTED, s) ∧
      versionsAt s (1, 0) = [{ creator := 2, blob := some 5, freed := false }] ∧
      (s.trans[2]?).map (fun t => (t.refcnt, t.freed)) = some (0, true) :=
  ⟨by decide, by decide, by decide,
   (Res.getD (TRANS_PENDING, State.init) (service_put cascadeRipe 0 [107] [100])).2,
   by decide, by decide, by decide⟩

/-! ## findMapEntry reuses the entry of an equal key -/

theorem memcmpBytes_eq_zero : ∀ (l1 l2 : List Byte), l1.length = l2.length →
    (memcmpBytes l1 l2 = 0 ↔ l1 = l2) := by
  intro l1
  induction l1 with
  | nil =>
    intro l2 h
    cases l2 with
    | nil => simp [memcmpBytes]
    | cons b bs => simp at h
  | cons a as ih =>
    intro l2 h
    cases l2 with
    | nil => simp at h
    | cons b bs =>
      simp at h
      unfold memcmpBytes
      by_cases hab : a = b
      · subst hab
        simp [ih bs h]
      · have hv : (a.val : Int) - (b.val : Int) ≠ 0 := by
          intro h0
          apply hab
          apply Fin.ext
          omega
        simp [hab, hv]

theorem KeyLive.unpack {s : State} {k : KEY} (h : KeyLive s k) :
    ∃ p b, k.blob = some p ∧ s.blobs[p]? = some b ∧ b.freed = false ∧
      b.size ≤ b.content.length := by
  unfold KeyLive at h
  split at h
  · exact h.elim
  · rename_i p hp
    split at h
    · exact h.elim
    · rename_i b hb
      exact ⟨p, b, hp, hb, h.1, h.2⟩

/-- `key_compare` returns zero exactly on equal keys, when both key blobs are
live. -/
theorem key_compare_spec {s : State} {k1 k2 : KEY} (h1 : KeyLive s k1) (h2 : KeyLive s k2) :
    ∃ c, key_compare s k1 k2 = .ok c ∧ (c = 0 ↔ KeyEq s k1 k2) := by
  obtain ⟨p1, b1, hp1, hb1, hl1, hs1⟩ := h1.unpack
  obtain ⟨p2, b2, hp2, hb2, hl2, hs2⟩ := h2.unpack
  have hd1 : derefB s p1 = .ok b1 := derefB_eq_ok.mpr ⟨hb1, hl1⟩
  have hd2 : derefB s p2 = .ok b2 := derefB_eq_ok.mpr ⟨hb2, hl2⟩
  unfold key_compare KeyEq
  simp only [hp1, hp2, hb1, hb2]
  by_cases hh : k1.hash = k2.hash
  · simp only [hh, if_true, blob_compare, hd1, hd2, Res.ok_bind, true_and]
    by_cases hsz : b1.size = b2.size
    · simp only [hsz, if_true, Res.pure_eq, true_and]
      refine ⟨_, rfl, ?_⟩
      apply memcmpBytes_eq_zero
      simp only [List.length_take]
      omega
    · simp only [hsz, if_false, Res.pure_eq, false_and]
      exact ⟨1, rfl, by simp⟩
  · simp only [hh, if_false, Res.pure_eq, false_and]
    exact ⟨1, rfl, by simp⟩

theorem findInChain_spec {s : State} {key : KEY} (hk : KeyLive s key) :
    ∀ (chain : List MAP_ENTRY) (j : Nat), (∀ e ∈ chain, KeyLive s e.key) →
    ∃ r, findInChain s key chain j = .ok r ∧
      match r with
      | none => ∀ e ∈ chain, ¬ KeyEq s key e.key
      | some k => ∃ i e, k = j + i ∧ chain[i]? = some e ∧ KeyEq s key e.key := by
  intro chain
  induction chain with
  | nil =>
    intro j _
    exact ⟨none, rfl, fun e he => nomatch he⟩
  | cons e rest ih =>
    intro j hall
    obtain ⟨c, hc, hiff⟩ := key_compare_spec hk (hall e (List.mem_cons_self _ _))
    unfold findInChain
    simp only [hc, Res.ok_bind]
    by_cases h0 : c = 0
    · simp only [h0, if_true, Res.pure_eq]
      exact ⟨some j, rfl, 0, e, rfl, by simp, hiff.mp h0⟩
    · simp only [h0, if_false]
      obtain ⟨r, hr, hspec⟩ := ih (j + 1) (fun w hw => hall w (List.mem_cons_of_mem _ hw))
      refine ⟨r, hr, ?_⟩
      cases r with
      | none =>
        intro w hw
        rcases List.mem_cons.mp hw with rfl | hw
        · exact fun hq => h0 (hiff.mpr hq)
        · exact hspec w hw
      | some k =>
        obtain ⟨i, w, hki, hw, hq⟩ := hspec
        exact ⟨i + 1, w, by omega, by simpa using hw, hq⟩

theorem findInTable_spec {s : State} {key : KEY} (hk : KeyLive s key) :
    ∀ (table : List (List MAP_ENTRY)) (i : Nat),
    (∀ chain ∈ table, ∀ e ∈ chain, KeyLive s e.key) →
    ∃ r, findInTable s key table i = .ok r ∧
      match r with
      | none => ∀ chain ∈ table, ∀ e ∈ chain, ¬ KeyEq s key e.key
      | some loc => ∃ a chain e, loc.1 = i + a ∧ table[a]? = some chain ∧
          chain[loc.2]? = some e ∧ KeyEq s key e.key := by
  intro table
  induction table with
  | nil =>
    intro i _
    exact ⟨none, rfl, fun c hc => nomatch hc⟩
  | cons chain rest ih =>
    intro i hall
    obtain ⟨r, hr, hspec⟩ := findInChain_spec hk chain 0 (hall chain (List.mem_cons_self _ _))
    unfold findInTable
    simp only [hr, Res.ok_bind]
    cases r with
    | some j =>
      obtain ⟨k, e, hjk, he, hq⟩ := hspec
      have : j = k := by omega
      subst this
      exact ⟨some (i, j), rfl, 0, chain, e, rfl, by simp, he, hq⟩
    | none =>
      simp only
      obtain ⟨r2, hr2, hspec2⟩ := ih (i + 1) (fun c hc => hall c (List.mem_cons_of_mem _ hc))
      refine ⟨r2, hr2, ?_⟩
      cases r2 with
      | none =>
        intro c hc
        rcases List.mem_cons.mp hc with rfl | hc
        · exact hspec
        · exact hspec2 c hc
      | some loc =>
        obtain ⟨a, c, e, hla, hc, he, hq⟩ := hspec2
        exact ⟨a + 1, c, e, by omega, by simpa using hc, he, hq⟩

theorem getElem?_take_bucket {table : List (List MAP_ENTRY)} {a : Nat} {chain : List MAP_ENTRY}
    (h : (table.take NUM_BUCKETS)[a]? = some chain) : a < NUM_BUCKETS ∧ table[a]? = some chain := by
  have hlt : a < (table.take NUM_BUCKETS).length := (List.getElem?_eq_some_iff.mp h).1
  have ha : a < NUM_BUCKETS := by
    rw [List.length_take] at hlt
    omega
  refine ⟨ha, ?_⟩
  rw [List.getElem?_take] at h
  simpa [ha] using h

/-- C20.  Let the key passed in have a live blob, let every key of the table
have a live blob, and let the entry `e0` at `loc0` have a key equal to it (equal
hash, blobs of equal size and bytes).  Then `findMapEntry` returns the position
of an entry of the table whose key equals the key passed in, which is `loc0`
when no other entry has an equal key; the table and the transactions are
unchanged; and the blob of the key passed in has lost one reference, being
freed when that was its last. -/
theorem findMapEntry_reuse (s : State) (key : KEY) (p : Nat) (b : BLOB) (loc0 : Loc)
    (e0 : MAP_ENTRY)
    (hkey : key.blob = some p) (hb : s.blobs[p]? = some b) (hlive : b.freed = false)
    (hsize : b.size ≤ b.content.length)
    (hkeys : ∀ chain ∈ s.table, ∀ e ∈ chain, KeyLive s e.key)
    (hb0 : loc0.1 < NUM_BUCKETS) (he0 : entryAt s loc0 = some e0)
    (heq : KeyEq s key e0.key) :
    ∃ loc e s1, findMapEntry s key = .ok (loc, s1) ∧ loc.1 < NUM_BUCKETS ∧
      entryAt s loc = some e ∧ KeyEq s key e.key ∧
      s1.table = s.table ∧ s1.trans = s.trans ∧
      s1.blobs = s.blobs.set p
        { b with refcnt := b.refcnt - 1, freed := decide (b.refcnt - 1 = 0) } ∧
      ((∀ loc' e', loc'.1 < NUM_BUCKETS → entryAt s loc' = some e' →
          KeyEq s key e'.key → loc' = loc0) → loc = loc0) := by
  have hk : KeyLive s key := by
    unfold KeyLive
    simp [hkey, hb, hlive, hsize]
  obtain ⟨r, hr, hspec⟩ := findInTable_spec hk (s.table.take NUM_BUCKETS) 0
    (fun chain hc => hkeys chain (List.mem_of_mem_take hc))
  have hd : derefB s p = .ok b := derefB_eq_ok.mpr ⟨hb, hlive⟩
  cases r with
  | none =>
    exfalso
    unfold entryAt at he0
    cases hc0 : s.table[loc0.1]? with
    | none => simp [hc0] at he0
    | some chain0 =>
      simp only [hc0] at he0
      have hmem : chain0 ∈ s.table.take NUM_BUCKETS := by
        apply List.mem_iff_getElem?.mpr
        refine ⟨loc0.1, ?_⟩
        rw [List.getElem?_take]
        simpa [hb0] using hc0
      exact hspec chain0 hmem e0 (List.mem_iff_getElem?.mpr ⟨_, he0⟩) heq
  | some loc =>
    obtain ⟨a, chain, e, hla, hca, he, hq⟩ := hspec
    obtain ⟨halt, hca'⟩ := getElem?_take_bucket hca
    have hl1 : loc.1 = a := by omega
    have hent : entryAt s loc = some e := by
      unfold entryAt
      rw [hl1, hca']
      exact he
    have hlt : loc.1 < NUM_BUCKETS := by omega
    by_cases hz : b.refcnt - 1 = 0
    · refine ⟨loc, e, writeB s p { b with refcnt := b.refcnt - 1, freed := true }, ?_, hlt, hent,
        hq, rfl, rfl, ?_, fun hu => hu loc e hlt hent hq⟩
      · unfold findMapEntry
        simp only [hr, Res.ok_bind, key_dispose, hkey, blob_unref, hd, hz, if_true, Res.pure_eq]
      · simp [writeB, hz]
    · refine ⟨loc, e, writeB s p { b with refcnt := b.refcnt - 1 }, ?_, hlt, hent,
        hq, rfl, rfl, ?_, fun hu => hu loc e hlt hent hq⟩
      · unfold findMapEntry
        simp only [hr, Res.ok_bind, key_dispose, hkey, blob_unref, hd, hz, if_false, Res.pure_eq]
      · simp [writeB, hz, hlive]

/-- Witness for C20: in `earlierWriter` the store holds an entry for "k" (key
blob 0); `findMapEntry` for a second key "k" (blob 2, one reference) returns
that entry and frees blob 2. -/
theorem findMapEntry_reuse_witness :
    ∃ loc e s1, findMapEntry earlierWriter laterKey = .ok (loc, s1) ∧ loc.1 < NUM_BUCKETS ∧
      entryAt earlierWriter loc = some e ∧ KeyEq earlierWriter laterKey e.key ∧
      s1.table = earlierWriter.table ∧ s1.trans = earlierWriter.trans ∧
      s1.blobs = earlierWriter.blobs.set 2
        { refcnt := 0, size := 1, content := [107], freed := true } ∧
      ((∀ loc' e', loc'.1 < NUM_BUCKETS → entryAt earlierWriter loc' = some e' →
          KeyEq earlierWriter laterKey e'.key → loc' = (2, 0)) → loc = (2, 0)) :=
  findMapEntry_reuse earlierWriter laterKey 2
    { refcnt := 1, size := 1, content := [107], freed := false } (2, 0)
    { key := { hash := 225266, blob := some 0 },
      versions := [{ creator := 0, blob := some 1, freed := false }] }
    (by decide) (by decide) (by decide) (by decide) (by decide) (by decide) (by decide)
    (by decide)

/-! ## Bucket placement, key and blob equality, and the hash -/

theorem bucketOf_eq (key : KEY) :
    bucketOf key = asUnsignedLong key.hash % 8 ∧ bucketOf key < NUM_BUCKETS ∧
      (bucketOf key : Int) = Int.emod key.hash 8 := by
  unfold bucketOf asUnsignedLong NUM_BUCKETS
  have h0 : 0 ≤ key.hash % 8 := Int.emod_nonneg _ (by decide)
  have h1 : key.hash % 8 < 8 := Int.emod_lt_of_pos _ (by decide)
  have h2 : 0 ≤ key.hash % 18446744073709551616 := Int.emod_nonneg _ (by decide)
  refine ⟨?_, by omega, ?_⟩
  · omega
  · show ((key.hash % 8).toNat : Int) = key.hash % 8
    omega

/-- C21.  Let the table have its 8 buckets and let the search of
`findMapEntry` find no entry for the key.  Then, whatever the hash (negative
ones included), `findMapEntry` returns the position at the end of the chain of
bucket `bucketOf key`, having appended there a new entry with the key and no
versions; the bucket number is `(unsigned long) hash % 8`, which is the
non-negative remainder of the hash by 8 and below 8; every other bucket, and
the rest of the state, is unchanged. -/
theorem findMapEntry_bucket (s : State) (key : KEY)
    (hsize : s.table.length = NUM_BUCKETS)
    (hnew : findInTable s key (s.table.take NUM_BUCKETS) 0 = .ok none) :
    bucketOf key = asUnsignedLong key.hash % 8 ∧ bucketOf key < NUM_BUCKETS ∧
    (bucketOf key : Int) = Int.emod key.hash 8 ∧
    ∃ chain s1, s.table[bucketOf key]? = some chain ∧
      findMapEntry s key = .ok ((bucketOf key, chain.length), s1) ∧
      s1.table[bucketOf key]? = some (chain ++ [{ key := key, versions := [] }]) ∧
      (∀ i, i ≠ bucketOf key → s1.table[i]? = s.table[i]?) ∧
      s1.trans = s.trans ∧ s1.blobs = s.blobs ∧ s1.trans_list = s.trans_list ∧
      s1.trans_ID = s.trans_ID := by
  obtain ⟨h1, h2, h3⟩ := bucketOf_eq key
  refine ⟨h1, h2, h3, ?_⟩
  have hlt : bucketOf key < s.table.length := by rw [hsize]; exact h2
  have hget : s.table[bucketOf key]? = some s.table[bucketOf key] := List.getElem?_eq_getElem hlt
  have hf : findMapEntry s key = .ok ((bucketOf key, s.table[bucketOf key].length),
      { s with
        table := s.table.set (bucketOf key)
          (s.table[bucketOf key] ++ [{ key := key, versions := [] }]) }) := by
    unfold findMapEntry
    simp only [hnew, Res.ok_bind, hget, Res.pure_eq]
  refine ⟨s.table[bucketOf key], _, hget, hf, ?_, ?_, rfl, rfl, rfl, rfl⟩
  · simp [List.getElem?_set, hlt]
  · intro i hi
    simp [List.getElem?_set, Ne.symm hi]

/-- Witness for C21: a key with hash -3 goes to bucket 5 of the empty store. -/
theorem findMapEntry_bucket_witness :
    bucketOf { hash := -3, blob := some 0 } = 5 ∧
    ∃ chain s1, emptyRead.table[5]? = some chain ∧
      findMapEntry emptyRead { hash := -3, blob := some 0 } = .ok ((5, chain.length), s1) ∧
      s1.table[5]? = some (chain ++ [{ key := { hash := -3, blob := some 0 }, versions := [] }]) :=
  have h := findMapEntry_bucket emptyRead { hash := -3, blob := some 0 } (by decide) (by decide)
  ⟨by decide, h.2.2.2.imp fun _ hc => hc.imp fun _ hs => ⟨hs.1, hs.2.1, hs.2.2.1⟩⟩

/-- C24.  For two live blobs that hold their `size` bytes, `blob_compare`
returns, and it returns 0 exactly when the sizes are equal and the bytes agree
over that size. -/
theorem blob_compare_spec (s : State) (p1 p2 : Nat) (b1 b2 : BLOB)
    (h1 : s.blobs[p1]? = some b1) (hl1 : b1.freed = false) (hs1 : b1.size ≤ b1.content.length)
    (h2 : s.blobs[p2]? = some b2) (hl2 : b2.freed = false) (hs2 : b2.size ≤ b2.content.length) :
    ∃ c, blob_compare s (some p1) (some p2) = .ok c ∧
      (c = 0 ↔ b1.size = b2.size ∧ bytesOf b1 = bytesOf b2) := by
  have hd1 : derefB s p1 = .ok b1 := derefB_eq_ok.mpr ⟨h1, hl1⟩
  have hd2 : derefB s p2 = .ok b2 := derefB_eq_ok.mpr ⟨h2, hl2⟩
  unfold blob_compare bytesOf
  simp only [hd1, hd2, Res.ok_bind]
  by_cases hsz : b1.size = b2.size
  · simp only [hsz, if_true, Res.pure_eq, true_and]
    refine ⟨_, rfl, ?_⟩
    apply memcmpBytes_eq_zero
    simp only [List.length_take]
    omega
  · simp only [hsz, if_false, Res.pure_eq, false_and]
    exact ⟨1, rfl, by simp⟩

/-- Witness for C24: blobs 2 and 4 of `hashedBlobs` both hold "k"; blobs 4 and
5 differ in size. -/
theorem blob_compare_spec_witness :
    (∃ c, blob_compare hashedBlobs (some 2) (some 4) = .ok c ∧
      (c = 0 ↔ (1 : Nat) = 1 ∧ ([107] : List Byte) = [107])) ∧
    blob_compare hashedBlobs (some 2) (some 4) = .ok 0 ∧
    blob_compare hashedBlobs (some 4) (some 5) = .ok 1 :=
  ⟨blob_compare_spec hashedBlobs 2 4
    { refcnt := 1, size := 1, content := [107], freed := false }
    { refcnt := 1, size := 1, content := [107], freed := false }
    (by decide) (by decide) (by decide) (by decide) (by decide) (by decide),
   by decide, by decide⟩

/-- C23.  `blob_hash` of a live blob is a function of its bytes alone
(`hashLoop 6823` of the first `size` bytes of the content), so two live blobs
with the same bytes, in whatever states, have the same hash. -/
theorem blob_hash_equal_blobs (s s2 : State) (p1 p2 : Nat) (b1 b2 : BLOB)
    (h1 : derefB s p1 = .ok b1) (h2 : derefB s2 p2 = .ok b2)
    (hbytes : bytesOf b1 = bytesOf b2) :
    blob_hash s (some p1) = .ok (hashLoop 6823 (bytesOf b1)) ∧
    blob_hash s2 (some p2) = .ok (hashLoop 6823 (bytesOf b2)) ∧
    blob_hash s (some p1) = blob_hash s2 (some p2) := by
  have e1 : blob_hash s (some p1) = .ok (hashLoop 6823 (bytesOf b1)) := by
    simp [blob_hash, h1, bytesOf]
  have e2 : blob_hash s2 (some p2) = .ok (hashLoop 6823 (bytesOf b2)) := by
    simp [blob_hash, h2, bytesOf]
  exact ⟨e1, e2, by rw [e1, e2, hbytes]⟩

/-- Witness for C23: blob 0 of `earlierWriter` and blob 4 of `hashedBlobs` both
hold "k" and hash to 225266. -/
theorem blob_hash_equal_blobs_witness :
    blob_hash earlierWriter (some 0) = .ok 225266 ∧
    blob_hash earlierWriter (some 0) = blob_hash hashedBlobs (some 4) :=
  have h := blob_hash_equal_blobs earlierWriter hashedBlobs 0 4
    { refcnt := 1, size := 1, content := [107], freed := false }
    { refcnt := 1, size := 1, content := [107], freed := false }
    (by decide) (by decide) (by decide)
  ⟨h.1, h.2.2⟩

/-- C22.  Two keys built by `key_create` from live blobs that hold their `size`
bytes: `key_compare` returns, and it returns 0 exactly when the blobs have the
same size and the same bytes.  In particular the comparison of the cached
hashes never separates two keys of equal blobs. -/
theorem key_compare_created (s : State) (p1 p2 : Nat) (b1 b2 : BLOB) (k1 k2 : KEY)
    (h1 : s.blobs[p1]? = some b1) (hl1 : b1.freed = false) (hs1 : b1.size ≤ b1.content.length)
    (h2 : s.blobs[p2]? = some b2) (hl2 : b2.freed = false) (hs2 : b2.size ≤ b2.content.length)
    (hk1 : key_create s (some p1) = .ok k1) (hk2 : key_create s (some p2) = .ok k2) :
    ∃ c, key_compare s k1 k2 = .ok c ∧
      (c = 0 ↔ b1.size = b2.size ∧ bytesOf b1 = bytesOf b2) := by
  have hd1 : derefB s p1 = .ok b1 := derefB_eq_ok.mpr ⟨h1, hl1⟩
  have hd2 : derefB s p2 = .ok b2 := derefB_eq_ok.mpr ⟨h2, hl2⟩
  have e1 : k1 = { hash := hashLoop 6823 (bytesOf b1), blob := some p1 } := by
    simp [key_create, blob_hash, hd1] at hk1
    exact hk1.symm
  have e2 : k2 = { hash := hashLoop 6823 (bytesOf b2), blob := some p2 } := by
    simp [key_create, blob_hash, hd2] at hk2
    exact hk2.symm
  have hlive1 : KeyLive s k1 := by
    unfold KeyLive
    simp [e1, h1, hl1, hs1]
  have hlive2 : KeyLive s k2 := by
    unfold KeyLive
    simp [e2, h2, hl2, hs2]
  obtain ⟨c, hc, hiff⟩ := key_compare_spec hlive1 hlive2
  refine ⟨c, hc, hiff.trans ?_⟩
  unfold KeyEq
  simp only [e1, e2, h1, h2]
  constructor
  · intro h
    exact h.2
  · intro h
    refine ⟨?_, h⟩
    show hashLoop 6823 (bytesOf b1) = hashLoop 6823 (bytesOf b2)
    rw [h.2]

/-- Witness for C22: the keys built from blobs 2 and 4 of `hashedBlobs`, which
both hold "k", compare equal. -/
theorem key_compare_created_witness :
    ∃ c, key_compare hashedBlobs { hash := 225266, blob := some 2 }
        { hash := 225266, blob := some 4 } = .ok c ∧
      (c = 0 ↔ (1 : Nat) = 1 ∧ ([107] : List Byte) = [107]) :=
  key_compare_created hashedBlobs 2 4
    { refcnt := 1, size := 1, content := [107], freed := false }
    { refcnt := 1, size := 1, content := [107], freed := false }
    { hash := 225266, blob := some 2 } { hash := 225266, blob := some 4 }
    (by decide) (by decide) (by decide) (by decide) (by decide) (by decide)
    (by decide) (by decide)

theorem hashLoop_beforeZero : ∀ (l : List Byte) (h : Int),
    hashLoop h l = hashLoop h (beforeZero l) := by
  intro l
  induction l with
  | nil => intro h; rfl
  | cons b rest ih =>
    intro h
    by_cases hb : b.val = 0
    · simp [beforeZero, List.takeWhile, hashLoop, hb]
    · have : beforeZero (b :: rest) = b :: beforeZero rest := by
        simp [beforeZero, List.takeWhile, hb]
      rw [this]
      unfold hashLoop
      simp only [hb, if_false]
      exact ih _

theorem wrap32_idem (x : Int) : wrap32 (wrap32 x) = wrap32 x := by
  unfold wrap32
  omega

theorem wrap32_congr {x y : Int} (h : (x - y) % 4294967296 = 0) : wrap32 x = wrap32 y := by
  unfold wrap32
  omega

theorem hashFold_congr : ∀ (cs : List Int) (a b : Int), (a - b) % 4294967296 = 0 →
    (hashFold a cs - hashFold b cs) % 4294967296 = 0 := by
  intro cs
  induction cs with
  | nil => intro a b h; exact h
  | cons c rest ih =>
    intro a b h
    unfold hashFold
    simp only [List.foldl]
    apply ih
    omega

/-- The loop of `blob_hash`, which wraps at every step, computes the recurrence
modulo 2^32. -/
theorem hashLoop_eq_fold : ∀ (l : List Byte) (h h2 : Int), (h - h2) % 4294967296 = 0 →
    wrap32 h = h → hashLoop h l = wrap32 (hashFold h2 ((beforeZero l).map charVal)) := by
  intro l
  induction l with
  | nil =>
    intro h h2 hc hw
    simp only [hashLoop, beforeZero, List.takeWhile, List.map, hashFold, List.foldl]
    rw [← wrap32_congr hc, hw]
  | cons b rest ih =>
    intro h h2 hc hw
    by_cases hb : b.val = 0
    · simp only [hashLoop, hb, if_true, beforeZero, List.takeWhile, ne_eq, not_true_eq_false,
        decide_False, List.map, hashFold, List.foldl]
      rw [← wrap32_congr hc, hw]
    · have e : beforeZero (b :: rest) = b :: beforeZero rest := by
        simp [beforeZero, List.takeWhile, hb]
      rw [e]
      unfold hashLoop
      simp only [hb, if_false, List.map, hashFold, List.foldl]
      apply ih
      · unfold wrap32
        omega
      · exact wrap32_idem _

theorem blob_hash_eq {s : State} {p : Nat} {b : BLOB} (h : derefB s p = .ok b) :
    blob_hash s (some p) = .ok (hashLoop 6823 (bytesOf b)) := by
  simp [blob_hash, h, bytesOf]

/-- C25 as amended.  For every live blob, `blob_hash` is the value obtained by
starting from 6823 and applying `h <- (h + (h << 5)) + c` once for each byte
before the first zero byte among the `size` bytes of the blob, in order, `c`
being the byte read as a signed `char`, computed modulo 2^32 and read as a
signed 32-bit integer. -/
theorem blob_hash_definition (s : State) (p : Nat) (b : BLOB) (h : derefB s p = .ok b) :
    blob_hash s (some p) = .ok (hashOfString (bytesOf b)) := by
  rw [blob_hash_eq h]
  unfold hashOfString
  rw [hashLoop_eq_fold (bytesOf b) 6823 6823 (by decide) (by decide)]

/-- Witness for the amended C25 on blob 5 of `hashedBlobs`, which holds the
bytes 107, 0, 33: its hash is that of "k". -/
theorem blob_hash_definition_witness :
    blob_hash hashedBlobs (some 5) = .ok (hashOfString [107, 0, 33]) ∧
    hashOfString [107, 0, 33] = 225266 :=
  ⟨blob_hash_definition hashedBlobs 5
    { refcnt := 1, size := 3, content := [107, 0, 33], freed := false } (by decide),
   by decide⟩

/-- Counterexample to C25 as stated: the blob with the bytes 107, 0, 33 hashes
to 225266, the hash of its first byte alone, and not to the value of the
recurrence over its three bytes; and the blob with the one byte 200 hashes to
the value of the recurrence with -56 added, not 200. -/
theorem blob_hash_definition_counterexample :
    blob_hash hashedBlobs (some 5) = .ok 225266 ∧
    hashClaimed [107, 0, 33] = 245314707 ∧
    blob_hash hashedBlobs (some 5) ≠ .ok (hashClaimed [107, 0, 33]) ∧
    blob_hash hashedBlobs (some 6) = .ok 225103 ∧
    hashClaimed [200] = 225359 ∧
    blob_hash hashedBlobs (some 6) ≠ .ok (hashClaimed [200]) := by
  decide

/-- C30.  `blob_hash` of a live blob depends only on the bytes before the
first zero byte among its `size` bytes: two live blobs that agree on these
bytes have the same hash, whatever follows; a blob whose first byte is zero
and a blob of size 0 hash to 6823; and `blob_hash(NULL)` is -1. -/
theorem blob_hash_before_zero (s s2 : State) (p1 p2 : Nat) (b1 b2 : BLOB)
    (h1 : derefB s p1 = .ok b1) (h2 : derefB s2 p2 = .ok b2) :
    (beforeZero (bytesOf b1) = beforeZero (bytesOf b2) →
      blob_hash s (some p1) = blob_hash s2 (some p2)) ∧
    ((bytesOf b1).head? = some 0 → blob_hash s (some p1) = .ok 6823) ∧
    (b1.size = 0 → blob_hash s (some p1) = .ok 6823) ∧
    blob_hash s none = .ok (-1) := by
  refine ⟨?_, ?_, ?_, rfl⟩
  · intro hpre
    rw [blob_hash_eq h1, blob_hash_eq h2, hashLoop_beforeZero (bytesOf b1),
      hashLoop_beforeZero (bytesOf b2), hpre]
  · intro hz
    rw [blob_hash_eq h1]
    cases hb : bytesOf b1 with
    | nil => rfl
    | cons x rest =>
      rw [hb] at hz
      simp at hz
      subst hz
      simp [hashLoop]
  · intro hz
    rw [blob_hash_eq h1]
    simp [bytesOf, hz, hashLoop]

/-- Witness for C30: blob 4 of `hashedBlobs` holds 107, blob 5 holds
107, 0, 33; both hash to 225266. -/
theorem blob_hash_before_zero_witness :
    blob_hash hashedBlobs (some 4) = blob_hash hashedBlobs (some 5) ∧
    blob_hash hashedBlobs (some 4) = .ok 225266 :=
  ⟨(blob_hash_before_zero hashedBlobs hashedBlobs 4 5
    { refcnt := 1, size := 1, content := [107], freed := false }
    { refcnt := 1, size := 3, content := [107, 0, 33], freed := false }
    (by decide) (by decide)).1 (by decide), by decide⟩

/-! ## trans_create and the order of the ids -/

theorem IdsKept.ik_refl (s : State) : IdsKept s s := ⟨rfl, rfl⟩

theorem IdsKept.ik_trans {s1 s2 s3 : State} (h12 : IdsKept s1 s2) (h23 : IdsKept s2 s3) :
    IdsKept s1 s3 := ⟨h23.1.trans h12.1, h23.2.trans h12.2⟩

theorem IdsKept.ik_of_writeT {s : State} {tp : Nat} {t0 t : TRANSACTION}
    (h : s.trans[tp]? = some t0) (hid : t.id = t0.id) : IdsKept s (writeT s tp t) := by
  refine ⟨?_, rfl⟩
  unfold idsOf writeT
  simp only
  rw [List.map_set]
  apply list_set_self
  rw [List.getElem?_map, h, hid]
  rfl

theorem IdsKept.ik_of_frame {s s2 : State} (ht : s2.trans = s.trans)
    (hc : s2.trans_ID = s.trans_ID) : IdsKept s s2 :=
  ⟨by unfold idsOf; rw [ht], hc⟩

theorem IdsKept.keeps_order {s s2 : State} (h : IdsKept s s2) (hinv : IdsOrdered s) :
    IdsOrdered s2 := by
  unfold IdsOrdered
  rw [h.1, h.2]
  exact hinv

theorem trans_ref_kept {s s2 : State} {tp : Nat} (h : trans_ref s tp = .ok s2) :
    IdsKept s s2 := by
  unfold trans_ref at h
  obtain ⟨t, ht, h⟩ := Res.bind_eq_ok.mp h
  simp at h
  subst h
  exact IdsKept.ik_of_writeT (derefT_eq_ok.mp ht).1 rfl

theorem foldlM_kept (f : State → Nat → Res State)
    (hf : ∀ s d s2, f s d = .ok s2 → IdsKept s s2) :
    ∀ (ds : List Nat) (s s2 : State), ds.foldlM f s = .ok s2 → IdsKept s s2 := by
  intro ds
  induction ds with
  | nil =>
    intro s s2 h
    simp [List.foldlM] at h
    subst h
    exact IdsKept.ik_refl s
  | cons d rest ih =>
    intro s s2 h
    simp only [List.foldlM] at h
    obtain ⟨s1, h1, h⟩ := Res.bind_eq_ok.mp h
    exact (hf _ _ _ h1).ik_trans (ih _ _ h)

theorem trans_unrefAux_kept : ∀ (n : Nat) (s s2 : State) (tp : Nat),
    trans_unrefAux n s tp = .ok s2 → IdsKept s s2 := by
  intro n
  induction n with
  | zero => intro s s2 tp h; simp [trans_unrefAux] at h
  | succ n ih =>
    intro s s2 tp h
    unfold trans_unrefAux at h
    obtain ⟨t, ht, h⟩ := Res.bind_eq_ok.mp h
    have hw : IdsKept s (writeT s tp { t with refcnt := t.refcnt - 1 }) :=
      IdsKept.ik_of_writeT (derefT_eq_ok.mp ht).1 rfl
    split at h
    · obtain ⟨sa, ha, h⟩ := Res.bind_eq_ok.mp h
      obtain ⟨t2, ht2, h⟩ := Res.bind_eq_ok.mp h
      obtain ⟨l, _, h⟩ := Res.bind_eq_ok.mp h
      simp at h
      subst h
      have hfold : IdsKept (writeT s tp { t with refcnt := t.refcnt - 1 }) sa :=
        foldlM_kept _ (fun s d s2 hh => ih s s2 d hh) _ _ _ ha
      have hfree : IdsKept sa (writeT sa tp { t2 with freed := true }) :=
        IdsKept.ik_of_writeT (derefT_eq_ok.mp ht2).1 rfl
      exact hw.ik_trans (hfold.ik_trans ⟨hfree.1, hfree.2⟩)
    · simp at h
      subst h
      exact hw

theorem trans_unref_kept {s s2 : State} {tp : Nat} (h : trans_unref s tp = .ok s2) :
    IdsKept s s2 := trans_unrefAux_kept _ _ _ _ h

theorem postAll_kept {s s2 : State} {tp : Nat} (h : postAll s tp = .ok s2) : IdsKept s s2 := by
  obtain ⟨t, ht, rfl⟩ := postAll_eq_ok h
  exact IdsKept.ik_of_writeT (derefT_eq_ok.mp ht).1 rfl

theorem trans_abort_kept {s s2 : State} {tp : Nat} {st : TRANS_STATUS}
    (h : trans_abort s tp = .ok (st, s2)) : IdsKept s s2 := by
  unfold trans_abort at h
  obtain ⟨st0, hst0, h⟩ := Res.bind_eq_ok.mp h
  split at h
  · simp at h
  · split at h
    · obtain ⟨s1, h1, h⟩ := Res.bind_eq_ok.mp h
      obtain ⟨s3, h3, h⟩ := Res.bind_eq_ok.mp h
      simp at h
      obtain ⟨_, rfl⟩ := h
      exact (postAll_kept h1).ik_trans (trans_unref_kept h3)
    · obtain ⟨t0, ht0, h⟩ := Res.bind_eq_ok.mp h
      obtain ⟨s1, h1, h⟩ := Res.bind_eq_ok.mp h
      obtain ⟨s3, h3, h⟩ := Res.bind_eq_ok.mp h
      simp at h
      obtain ⟨_, rfl⟩ := h
      have hw : IdsKept s (writeT s tp { t0 with status := TRANS_ABORTED }) :=
        IdsKept.ik_of_writeT (derefT_eq_ok.mp ht0).1 rfl
      exact hw.ik_trans ((postAll_kept h1).ik_trans (trans_unref_kept h3))

theorem commitWait_kept : ∀ (ds : List Nat) (s s1 : State),
    commitWait s ds = .ok s1 → IdsKept s s1 := by
  intro ds
  induction ds with
  | nil =>
    intro s s1 h
    simp [commitWait] at h
    subst h
    exact IdsKept.ik_refl s
  | cons d rest ih =>
    intro s s1 h
    unfold commitWait at h
    obtain ⟨st, _, h⟩ := Res.bind_eq_ok.mp h
    split at h
    · exact ih _ _ h
    · obtain ⟨t, ht, h⟩ := Res.bind_eq_ok.mp h
      split at h
      · simp at h
      · have hw : IdsKept s (writeT s d { t with waitcnt := t.waitcnt + 1, sem := t.sem - 1 }) :=
          IdsKept.ik_of_writeT (derefT_eq_ok.mp ht).1 rfl
        exact hw.ik_trans (ih _ _ h)

theorem trans_commit_kept {s s2 : State} {tp : Nat} {st : TRANS_STATUS}
    (h : trans_commit s tp = .ok (st, s2)) : IdsKept s s2 := by
  unfold trans_commit at h
  obtain ⟨t, _, h⟩ := Res.bind_eq_ok.mp h
  obtain ⟨s1, h1, h⟩ := Res.bind_eq_ok.mp h
  obtain ⟨t1, _, h⟩ := Res.bind_eq_ok.mp h
  obtain ⟨ab, _, h⟩ := Res.bind_eq_ok.mp h
  split at h
  · exact (commitWait_kept _ _ _ h1).ik_trans (trans_abort_kept h)
  · obtain ⟨t2, ht2, h⟩ := Res.bind_eq_ok.mp h
    obtain ⟨s3, h3, h⟩ := Res.bind_eq_ok.mp h
    obtain ⟨s4, h4, h⟩ := Res.bind_eq_ok.mp h
    simp at h
    obtain ⟨_, rfl⟩ := h
    have hw : IdsKept s1 (writeT s1 tp { t2 with status := TRANS_COMMITTED }) :=
      IdsKept.ik_of_writeT (derefT_eq_ok.mp ht2).1 rfl
    exact (commitWait_kept _ _ _ h1).ik_trans
      (hw.ik_trans ((postAll_kept h3).ik_trans (trans_unref_kept h4)))

theorem blob_ref_kept {s s2 : State} {bp : Option Nat} (h : blob_ref s bp = .ok s2) :
    IdsKept s s2 := by
  unfold blob_ref at h
  cases bp with
  | none => simp at h; subst h; exact IdsKept.ik_refl s
  | some p =>
    obtain ⟨b, _, h⟩ := Res.bind_eq_ok.mp h
    simp at h
    subst h
    exact ⟨rfl, rfl⟩

theorem blob_unref_kept_ids {s s2 : State} {bp : Option Nat} (h : blob_unref s bp = .ok s2) :
    IdsKept s s2 := by
  unfold blob_unref at h
  cases bp with
  | none => simp at h; subst h; exact IdsKept.ik_refl s
  | some p =>
    obtain ⟨b, _, h⟩ := Res.bind_eq_ok.mp h
    split at h <;> (simp at h; subst h; exact ⟨rfl, rfl⟩)

theorem version_dispose_kept {s s2 : State} {v : VERSION}
    (h : version_dispose s v = .ok s2) : IdsKept s s2 := by
  unfold version_dispose at h
  obtain ⟨s1, h1, h⟩ := Res.bind_eq_ok.mp h
  exact (trans_unref_kept h1).ik_trans (blob_unref_kept_ids h)

theorem setVersions_kept (s : State) (loc : Loc) (vs : List VERSION) :
    IdsKept s (setVersions s loc vs) := by
  unfold setVersions
  split
  · exact IdsKept.ik_refl s
  · split
    · exact IdsKept.ik_refl s
    · exact ⟨rfl, rfl⟩

theorem findMapEntry_kept {s s2 : State} {key : KEY} {loc : Loc}
    (h : findMapEntry s key = .ok (loc, s2)) : IdsKept s s2 := by
  unfold findMapEntry at h
  obtain ⟨r, _, h⟩ := Res.bind_eq_ok.mp h
  cases r with
  | some l =>
    obtain ⟨s1, h1, h⟩ := Res.bind_eq_ok.mp h
    simp at h
    obtain ⟨_, rfl⟩ := h
    exact blob_unref_kept_ids h1
  | none =>
    simp only at h
    split at h
    · simp at h
    · simp at h
      obtain ⟨_, rfl⟩ := h
      exact ⟨rfl, rfl⟩

theorem gcClosed_kept : GcClosed (fun x y => IdsKept x.1 y.1) where
  same := fun x => IdsKept.ik_refl x.1
  chain := fun _ _ _ h1 h2 => h1.ik_trans h2
  release := fun _ _ _ _ _ _ h => version_dispose_kept h
  unlink := fun _ _ _ _ _ _ h => version_dispose_kept h
  abort := fun _ _ _ _ _ _ _ h => trans_abort_kept h

theorem garbageCollect_kept {s s2 : State} {loc : Loc}
    (h : garbageCollect s loc = .ok s2) : IdsKept s s2 := by
  unfold garbageCollect at h
  split at h
  · simp at h
  · obtain ⟨⟨s1, vs1⟩, h1, h⟩ := Res.bind_eq_ok.mp h
    simp at h
    subst h
    exact (garbageCollectList_lift gcClosed_kept h1).ik_trans (setVersions_kept _ _ _)

theorem trans_add_dependency_kept {s s2 : State} {tp dtp : Nat}
    (h : trans_add_dependency s tp dtp = .ok s2) : IdsKept s s2 := by
  unfold trans_add_dependency at h
  obtain ⟨t, ht, h⟩ := Res.bind_eq_ok.mp h
  have hw : IdsKept s (writeT s tp { t with depends := dtp :: t.depends }) :=
    IdsKept.ik_of_writeT (derefT_eq_ok.mp ht).1 rfl
  exact hw.ik_trans (trans_ref_kept h)

theorem avWalk_kept {tp : Nat} : ∀ (vs : List VERSION) (i : Nat) (s : State)
    (r : State × Option Nat), avWalk s tp vs i = .ok r → IdsKept s r.1 := by
  intro vs
  induction vs with
  | nil =>
    intro i s r h
    simp [avWalk] at h
    subst h
    exact IdsKept.ik_refl s
  | cons v rest ih =>
    intro i s r h
    unfold avWalk at h
    split at h
    · simp at h
    · obtain ⟨c, _, h⟩ := Res.bind_eq_ok.mp h
      obtain ⟨t, _, h⟩ := Res.bind_eq_ok.mp h
      split at h
      · simp at h
        subst h
        exact IdsKept.ik_refl s
      · obtain ⟨status, _, h⟩ := Res.bind_eq_ok.mp h
        split at h
        · obtain ⟨s1, h1, h⟩ := Res.bind_eq_ok.mp h
          exact (trans_add_dependency_kept h1).ik_trans (ih _ _ _ h)
        · exact ih _ _ _ h

theorem addVersionList_kept {s : State} {vs : List VERSION} {tp : Nat} {bp : Option Nat}
    {r : State × List VERSION} (h : addVersionList s vs tp bp = .ok r) : IdsKept s r.1 := by
  unfold addVersionList at h
  obtain ⟨ana, _, h⟩ := Res.bind_eq_ok.mp h
  split at h
  · obtain ⟨s1, h1, h⟩ := Res.bind_eq_ok.mp h
    obtain ⟨⟨st, s2⟩, h2, h⟩ := Res.bind_eq_ok.mp h
    obtain ⟨s3, h3, h⟩ := Res.bind_eq_ok.mp h
    simp at h
    subst h
    exact (trans_ref_kept h1).ik_trans ((trans_abort_kept h2).ik_trans (blob_unref_kept_ids h3))
  · obtain ⟨⟨version, s1⟩, h1, h⟩ := Res.bind_eq_ok.mp h
    have h01 : IdsKept s s1 := trans_ref_kept (version_create_ok h1).2
    cases vs with
    | nil =>
      simp at h
      subst h
      exact h01
    | cons head rest =>
      simp only at h
      obtain ⟨_, _, h⟩ := Res.bind_eq_ok.mp h
      obtain ⟨c, _, h⟩ := Res.bind_eq_ok.mp h
      obtain ⟨t, _, h⟩ := Res.bind_eq_ok.mp h
      split at h
      · obtain ⟨s2, h2, h⟩ := Res.bind_eq_ok.mp h
        simp at h
        subst h
        exact h01.ik_trans (version_dispose_kept h2)
      · obtain ⟨⟨s2, temp⟩, h2, h⟩ := Res.bind_eq_ok.mp h
        have h12 : IdsKept s1 s2 := avWalk_kept _ _ _ _ h2
        cases temp with
        | none =>
          simp at h
          subst h
          exact h01.ik_trans h12
        | some j =>
          simp only at h
          obtain ⟨prev, _, h⟩ := Res.bind_eq_ok.mp h
          obtain ⟨s3, h3, h⟩ := Res.bind_eq_ok.mp h
          simp at h
          subst h
          exact h01.ik_trans (h12.ik_trans (version_dispose_kept h3))

theorem addVersion_kept {s s2 : State} {loc : Loc} {tp : Nat} {bp : Option Nat}
    (h : addVersion s loc tp bp = .ok s2) : IdsKept s s2 := by
  unfold addVersion at h
  split at h
  · simp at h
  · obtain ⟨⟨s1, vs1⟩, h1, h⟩ := Res.bind_eq_ok.mp h
    simp at h
    subst h
    exact (addVersionList_kept h1).ik_trans (setVersions_kept _ _ _)

theorem store_put_kept {s s2 : State} {tp : Nat} {key : KEY} {value : Option Nat}
    {st : TRANS_STATUS} (h : store_put s tp key value = .ok (st, s2)) : IdsKept s s2 := by
  unfold store_put at h
  obtain ⟨⟨loc, s1⟩, h1, h⟩ := Res.bind_eq_ok.mp h
  obtain ⟨sg, hg, h⟩ := Res.bind_eq_ok.mp h
  obtain ⟨s3, h3, h⟩ := Res.bind_eq_ok.mp h
  obtain ⟨status, _, h⟩ := Res.bind_eq_ok.mp h
  simp at h
  obtain ⟨_, rfl⟩ := h
  exact (findMapEntry_kept h1).ik_trans ((garbageCollect_kept hg).ik_trans (addVersion_kept h3))

theorem store_get_kept {s s2 : State} {tp : Nat} {key : KEY} {value : Option Nat}
    {st : TRANS_STATUS} (h : store_get s tp key = .ok (st, value, s2)) : IdsKept s s2 := by
  unfold store_get at h
  obtain ⟨⟨loc, s1⟩, h1, h⟩ := Res.bind_eq_ok.mp h
  obtain ⟨sg, hg, h⟩ := Res.bind_eq_ok.mp h
  obtain ⟨v, _, h⟩ := Res.bind_eq_ok.mp h
  obtain ⟨s3, h3, h⟩ := Res.bind_eq_ok.mp h
  obtain ⟨s4, h4, h⟩ := Res.bind_eq_ok.mp h
  obtain ⟨s5, h5, h⟩ := Res.bind_eq_ok.mp h
  obtain ⟨status, _, h⟩ := Res.bind_eq_ok.mp h
  simp at h
  obtain ⟨_, _, rfl⟩ := h
  exact (findMapEntry_kept h1).ik_trans ((garbageCollect_kept hg).ik_trans
    ((blob_ref_kept h3).ik_trans ((addVersion_kept h4).ik_trans (blob_ref_kept h5))))

theorem trans_create_eq (s : State) (hlast : LastLive s) :
    trans_create s = .ok (s.trans.length, { s with
      trans := s.trans ++ [{ id := s.trans_ID, refcnt := 1, status := TRANS_PENDING,
                             depends := [], waitcnt := 0, sem := 0, freed := false }],
      trans_ID := wrap32 (s.trans_ID + 1),
      trans_list := s.trans_list ++ [s.trans.length] }) := by
  have hlink : linkLast s = .ok () := by
    unfold linkLast
    cases hl : s.trans_list.getLast? with
    | none => rfl
    | some last =>
      obtain ⟨t, ht, hf⟩ := hlast last (by rw [hl]; rfl)
      simp [derefT_of_get ht hf]
  unfold trans_create
  simp only [hlink, Res.ok_bind, trans_ref, derefT, List.getElem?_append_right (le_refl _),
    Nat.sub_self, List.getElem?_cons_zero, Bool.false_eq_true, if_false, Res.pure_eq, writeT]
  simp

theorem createdState_lastLive (n : Nat) : LastLive (createdState n) := by
  intro l hl
  cases n with
  | zero => simp [createdState] at hl
  | succ m =>
    have : l = m := by
      simp [createdState, List.range_succ] at hl
      exact hl.symm
    subst this
    exact ⟨createdCell l, by simp [createdState, List.getElem?_range], rfl⟩

theorem createMany_init (n : Nat) : createMany n State.init = .ok (createdState n) := by
  induction n with
  | zero => rfl
  | succ n ih =>
    unfold createMany
    rw [ih]
    simp only [Res.ok_bind, trans_create_eq _ (createdState_lastLive n), Res.pure_eq]
    have hw : wrap32 (wrap32 (n : Int) + 1) = wrap32 ((n : Int) + 1) :=
      wrap32_congr (by unfold wrap32; omega)
    simp [createdState, createdCell, List.range_succ, hw]

/-- C27, as amended.  Let the ids be ascending in creation order and below the
counter, a value of `int`, and let the last node of the global list be live.
Then `trans_create` returns a new address; the new cell has the id of the
counter, which is greater than the id of every cell, status pending, reference
count 1, no dependencies, wait count 0 and semaphore 0; the address is appended
to the global list.  While the counter is below 2147483647 it is incremented
and the ids are again ascending and below the counter; at 2147483647 the
counter continues at -2147483648 and the order of the ids is lost.  The same
order of the ids holds initially and after every returning `trans_abort`,
`trans_commit`, `store_put` and `store_get`, which change neither an id nor the
counter. -/
theorem trans_create_spec (s : State) (tp : Nat) (hinv : IdsOrdered s) (hlast : LastLive s) :
    (∃ s2, trans_create s = .ok (s.trans.length, s2) ∧
      s.trans[s.trans.length]? = none ∧
      s2.trans = s.trans ++ [{ id := s.trans_ID, refcnt := 1, status := TRANS_PENDING,
                               depends := [], waitcnt := 0, sem := 0, freed := false }] ∧
      s2.trans_list = s.trans_list ++ [s.trans.length] ∧
      s2.trans_ID = wrap32 (s.trans_ID + 1) ∧
      (∀ t ∈ s.trans, t.id < s.trans_ID) ∧
      (s.trans_ID < 2147483647 → s2.trans_ID = s.trans_ID + 1 ∧ IdsOrdered s2) ∧
      (s.trans_ID = 2147483647 → s2.trans_ID = -2147483648 ∧ ¬ IdsOrdered s2) ∧
      s2.blobs = s.blobs ∧ s2.table = s.table) ∧
    IdsOrdered State.init ∧
    (∀ st s2, trans_abort s tp = .ok (st, s2) → IdsOrdered s2) ∧
    (∀ st s2, trans_commit s tp = .ok (st, s2) → IdsOrdered s2) ∧
    (∀ key value st s2, store_put s tp key value = .ok (st, s2) → IdsOrdered s2) ∧
    (∀ key st value s2, store_get s tp key = .ok (st, value, s2) → IdsOrdered s2) := by
  refine ⟨?_, by decide, fun _ _ h => (trans_abort_kept h).keeps_order hinv,
    fun _ _ h => (trans_commit_kept h).keeps_order hinv,
    fun _ _ _ _ h => (store_put_kept h).keeps_order hinv,
    fun _ _ _ _ h => (store_get_kept h).keeps_order hinv⟩
  have hbelow : ∀ t ∈ s.trans, t.id < s.trans_ID := by
    intro t ht
    exact hinv.2.1 t.id (List.mem_map.mpr ⟨t, ht, rfl⟩)
  refine ⟨_, trans_create_eq s hlast, by simp, rfl, rfl, rfl, hbelow, ?_, ?_, rfl, rfl⟩
  · intro hlt
    have hw : wrap32 (s.trans_ID + 1) = s.trans_ID + 1 := by
      have := hinv.2.2.1
      unfold wrap32
      omega
    refine ⟨hw, ?_⟩
    unfold IdsOrdered idsOf
    simp only [List.map_append, List.map_cons, List.map_nil, hw]
    refine ⟨?_, ?_, ?_, ?_⟩
    · rw [List.pairwise_append]
      refine ⟨hinv.1, List.pairwise_singleton _ _, ?_⟩
      intro a ha b hb
      simp at hb
      subst hb
      exact hinv.2.1 a ha
    · intro i hi
      rcases List.mem_append.mp hi with hi | hi
      · have := hinv.2.1 i hi
        omega
      · simp at hi
        subst hi
        omega
    · have := hinv.2.2.1
      omega
    · omega
  · intro heq
    have hw : wrap32 (s.trans_ID + 1) = -2147483648 := by
      rw [heq]
      decide
    refine ⟨hw, ?_⟩
    intro hord
    have := hord.2.1 s.trans_ID (by simp [idsOf])
    simp only [hw] at this
    omega

/-- Witness for C27: the third transaction created, in `twoClients`. -/
theorem trans_create_spec_witness :
    ∃ s2, trans_create twoClients = .ok (2, s2) ∧
      s2.trans = [cell 0 1 TRANS_PENDING [], cell 1 1 TRANS_PENDING [],
        cell 2 1 TRANS_PENDING []] ∧
      s2.trans_list = [0, 1, 2] ∧ s2.trans_ID = 3 ∧ IdsOrdered s2 :=
  (trans_create_spec twoClients 0 (by decide) (by decide)).1.imp
    fun _ h => ⟨h.1, h.2.2.1, h.2.2.2.1, (h.2.2.2.2.2.2.1 (by decide)).1,
      (h.2.2.2.2.2.2.1 (by decide)).2⟩

/-- Counterexample to C27 as stated: after 2147483649 calls of `trans_create`
from the initial state, the transaction created last has the id -2147483648,
which is smaller than the id 2147483647 of the one created before it, and
smaller than the id 0 of the first. -/
theorem trans_create_spec_counterexample :
    ∃ s, createMany 2147483649 State.init = .ok s ∧
      (s.trans[0]?).map (fun t => t.id) = some 0 ∧
      (s.trans[2147483647]?).map (fun t => t.id) = some 2147483647 ∧
      (s.trans[2147483648]?).map (fun t => t.id) = some (-2147483648) ∧
      s.trans.length = 2147483649 := by
  refine ⟨createdState 2147483649, createMany_init _, ?_, ?_, ?_, ?_⟩
  · simp only [createdState, List.getElem?_map, List.getElem?_range (by omega : 0 < 2147483649),
      Option.map_some', createdCell]
    decide
  · simp only [createdState, List.getElem?_map,
      List.getElem?_range (by omega : 2147483647 < 2147483649), Option.map_some', createdCell]
    decide
  · simp only [createdState, List.getElem?_map,
      List.getElem?_range (by omega : 2147483648 < 2147483649), Option.map_some', createdCell]
    decide
  · simp only [createdState, List.length_map, List.length_range]

/-! ## The packets on the wire -/

theorem ofBe32_be32 {x : Nat} (h : x < 4294967296) : ofBe32 (be32 x) = x := by
  simp only [ofBe32, be32, List.getD, List.get?, Option.getD]
  omega

theorem be32_of_bytes (a b c d : Byte) :
    be32 (a.val * 16777216 + b.val * 65536 + c.val * 256 + d.val) = [a, b, c, d] := by
  have ha := a.isLt
  have hb := b.isLt
  have hc := c.isLt
  have hd := d.isLt
  simp only [be32, List.cons.injEq, and_true]
  refine ⟨Fin.ext ?_, Fin.ext ?_, Fin.ext ?_, Fin.ext ?_⟩ <;> simp only <;> omega

theorem le32_ofLe32 (a b c d : Byte) : le32 (ofLe32 [a, b, c, d]) = [a, b, c, d] := by
  have : ofLe32 [a, b, c, d] = d.val * 16777216 + c.val * 65536 + b.val * 256 + a.val := by
    simp [ofLe32, ofBe32, List.getD]
  rw [this, le32, be32_of_bytes]
  rfl

theorem store32_htonl (little : Bool) {x : Nat} (h : x < 4294967296) :
    store32 little (htonl little x) = be32 x := by
  cases little with
  | false =>
    simp only [store32, htonl, Bool.false_eq_true, if_false]
    rw [Nat.mod_eq_of_lt h]
  | true =>
    simp only [store32, htonl, if_true]
    exact le32_ofLe32 _ _ _ _

theorem ntohl_load32 (little : Bool) {x : Nat} (h : x < 4294967296) :
    ntohl little (load32 little (be32 x)) = x := by
  cases little with
  | false =>
    simp only [ntohl, load32, Bool.false_eq_true, if_false, ofBe32_be32 h]
    exact Nat.mod_eq_of_lt h
  | true =>
    have := store32_htonl true h
    simp only [store32, htonl, if_true] at this
    simp only [ntohl, load32, if_true, this]
    exact ofBe32_be32 h

theorem htonl_eq_zero (little : Bool) {x : Nat} (h : x < 4294967296) :
    htonl little x = 0 ↔ x = 0 := by
  constructor
  · intro hz
    have h1 := store32_htonl little h
    rw [hz] at h1
    have h2 : ofBe32 (be32 x) = ofBe32 (store32 little 0) := by rw [h1]
    rw [ofBe32_be32 h] at h2
    rw [h2]
    cases little <;> rfl
  · intro hz
    subst hz
    cases little <;> rfl

theorem be32_length (x : Nat) : (be32 x).length = 4 := rfl

theorem proto_send_wire (little : Bool) (pkt : XACTO_PACKET) (payload : List Byte)
    (hsize : pkt.size < 4294967296) (hsec : pkt.timestamp_sec < 4294967296)
    (hnsec : pkt.timestamp_nsec < 4294967296) (hlen : payload.length = pkt.size) :
    proto_send_packet little pkt (some payload) =
      .ok (0, { pkt with size := htonl little pkt.size,
                         timestamp_sec := htonl little pkt.timestamp_sec,
                         timestamp_nsec := htonl little pkt.timestamp_nsec },
        wireOf pkt payload) := by
  obtain ⟨ty, st, nu, pa, sz, sec, nsec⟩ := pkt
  simp only at hsize hsec hnsec hlen
  unfold proto_send_packet
  simp only [ne_eq, htonl_eq_zero little hsize]
  by_cases hz : sz = 0
  · subst hz
    simp only [not_true_eq_false, if_false, Res.pure_eq, imageOf, store32_htonl little hsec,
      store32_htonl little hnsec, store32_htonl little hsize, wireOf, if_true, List.append_nil]
  · simp only [hz, not_false_eq_true, if_true, hlen, lt_self_iff_false, if_false, Res.pure_eq,
      imageOf, store32_htonl little hsize, store32_htonl little hsec,
      store32_htonl little hnsec, wireOf]
    rw [← hlen, List.take_length]

theorem proto_recv_wire (little : Bool) (pkt pkt0 : XACTO_PACKET) (payload more : List Byte)
    (datap0 : Option (List Byte))
    (hsize : pkt.size < 4294967296) (hsec : pkt.timestamp_sec < 4294967296)
    (hnsec : pkt.timestamp_nsec < 4294967296) (hlen : payload.length = pkt.size) :
    proto_recv_packet little (wireOf pkt payload ++ more) pkt0 datap0 =
      (0, pkt, if pkt.size = 0 then datap0 else some payload, more) := by
  obtain ⟨ty, st, nu, pa, sz, sec, nsec⟩ := pkt
  simp only at hsize hsec hnsec hlen
  have hl1 := ntohl_load32 little hsize
  have hl2 := ntohl_load32 little hsec
  have hl3 := ntohl_load32 little hnsec
  unfold proto_recv_packet
  have hwire : wireOf
      { type := ty, status := st, null := nu, padding := pa, size := sz,
        timestamp_sec := sec, timestamp_nsec := nsec } payload ++ more =
      ([ty, st, nu, pa] ++ be32 sz ++ be32 sec ++ be32 nsec) ++
        ((if sz = 0 then [] else payload) ++ more) := by
    simp [wireOf]
  have hlen16 : ([ty, st, nu, pa] ++ be32 sz ++ be32 sec ++ be32 nsec).length = 16 := rfl
  rw [hwire]
  have htake : (([ty, st, nu, pa] ++ be32 sz ++ be32 sec ++ be32 nsec) ++
        ((if sz = 0 then [] else payload) ++ more)).take 16 =
      [ty, st, nu, pa] ++ be32 sz ++ be32 sec ++ be32 nsec := by
    rw [List.take_append_of_le_length (by rw [hlen16]), List.take_of_length_le
      (by rw [hlen16])]
  have hdrop : (([ty, st, nu, pa] ++ be32 sz ++ be32 sec ++ be32 nsec) ++
        ((if sz = 0 then [] else payload) ++ more)).drop 16 =
      (if sz = 0 then [] else payload) ++ more := by
    rw [List.drop_append_of_le_length (by rw [hlen16]), List.drop_of_length_le
      (by rw [hlen16]), List.nil_append]
  have hwl : 16 ≤ (([ty, st, nu, pa] ++ be32 sz ++ be32 sec ++ be32 nsec) ++
        ((if sz = 0 then [] else payload) ++ more)).length := by
    rw [List.length_append, hlen16]
    omega
  have himg0 : (imageOf little pkt0).drop (([ty, st, nu, pa] ++ be32 sz ++ be32 sec ++
        be32 nsec) ++ ((if sz = 0 then [] else payload) ++ more)).length = [] := by
    apply List.drop_of_length_le
    have : (imageOf little pkt0).length = 16 := by
      cases little <;> rfl
    omega
  have hne : ¬ (([ty, st, nu, pa] ++ be32 sz ++ be32 sec ++ be32 nsec) ++
        ((if sz = 0 then [] else payload) ++ more)).length = 0 := by omega
  simp only [hne, if_false, htake, hdrop, himg0, List.append_nil]
  have hdec : ofImage little ([ty, st, nu, pa] ++ be32 sz ++ be32 sec ++ be32 nsec) =
      { type := ty, status := st, null := nu, padding := pa,
        size := load32 little (be32 sz),
        timestamp_sec := load32 little (be32 sec),
        timestamp_nsec := load32 little (be32 nsec) } := by
    simp [ofImage, be32]
  simp only [hdec, hl1, hl2, hl3, ne_eq]
  by_cases hz : sz = 0
  · subst hz
    simp
  · have hpl : payload.length ≠ 0 := by omega
    simp only [hz, not_false_eq_true, if_true, if_false]
    rw [← hlen, List.take_append_of_le_length (le_refl _), List.take_length,
      List.drop_append_of_le_length (le_refl _), List.drop_length, List.nil_append]
    simp [hpl]

/-- C29.  For every header whose three integers are 32-bit values and every
payload of `size` bytes, on a little-endian or a big-endian host:
`proto_send_packet` returns 0 and writes the four single bytes of the header,
then `size`, `timestamp_sec` and `timestamp_nsec` most significant byte first,
then the payload exactly when `size` is not zero; and `proto_recv_packet`
reading these bytes (whatever follows them, whatever the caller's header held)
returns 0 with the same field values in the header, the payload in a new
buffer when `size` is not zero and `*datap` untouched otherwise, and leaves the
following bytes unread. -/
theorem proto_round_trip (little : Bool) (pkt pkt0 : XACTO_PACKET) (payload more : List Byte)
    (datap0 : Option (List Byte))
    (hsize : pkt.size < 4294967296) (hsec : pkt.timestamp_sec < 4294967296)
    (hnsec : pkt.timestamp_nsec < 4294967296) (hlen : payload.length = pkt.size) :
    proto_send_packet little pkt (some payload) =
      .ok (0, { pkt with size := htonl little pkt.size,
                         timestamp_sec := htonl little pkt.timestamp_sec,
                         timestamp_nsec := htonl little pkt.timestamp_nsec },
        wireOf pkt payload) ∧
    proto_recv_packet little (wireOf pkt payload ++ more) pkt0 datap0 =
      (0, pkt, if pkt.size = 0 then datap0 else some payload, more) :=
  ⟨proto_send_wire little pkt payload hsize hsec hnsec hlen,
   proto_recv_wire little pkt pkt0 payload more datap0 hsize hsec hnsec hlen⟩

/-- Witness for C29: a VALUE header with size 2 and its two payload bytes, on
a little-endian host. -/
theorem proto_round_trip_witness :
    proto_send_packet true
        { zeroPacket with type := 4, size := 2, timestamp_sec := 258 } (some [1, 2]) =
      .ok (0, { zeroPacket with type := 4, size := 33554432, timestamp_sec := 33619968 },
        [4, 0, 0, 0, 0, 0, 0, 2, 0, 0, 1, 2, 0, 0, 0, 0, 1, 2]) ∧
    proto_recv_packet true ([4, 0, 0, 0, 0, 0, 0, 2, 0, 0, 1, 2, 0, 0, 0, 0, 1, 2] ++ [9])
        zeroPacket none =
      (0, { zeroPacket with type := 4, size := 2, timestamp_sec := 258 }, some [1, 2], [9]) :=
  proto_round_trip true { zeroPacket with type := 4, size := 2, timestamp_sec := 258 }
    zeroPacket [1, 2] [9] none (by decide) (by decide) (by decide) (by decide)

/-- C26 as amended.  When a received KEY or VALUE packet has size 0,
`proto_recv_packet` reads no payload and leaves `*datap` as it was, `NULL` in
the service; `blob_create` returns `NULL` for a `NULL` content pointer; so the
blob the service builds from the packet is `NULL`, and a PUT with an empty
value payload is `store_put` with a `NULL` value.  `blob_create` on a buffer
that is not `NULL` with size 0 does return a new blob of size 0 with one
reference. -/
theorem zero_length_payload (little : Bool) (s : State) (hdr : XACTO_PACKET)
    (payload more : List Byte)
    (hz : hdr.size = 0) (hsec : hdr.timestamp_sec < 4294967296)
    (hnsec : hdr.timestamp_nsec < 4294967296) :
    proto_recv_packet little (wireOf hdr payload ++ more) zeroPacket none =
      (0, hdr, none, more) ∧
    blob_create s none 0 = .ok (none, s) ∧
    service_blob little s (wireOf hdr payload ++ more) = .ok (none, s, more) ∧
    (∀ tp k, service_put s tp k [] = service_key s k >>= fun r => store_put r.2 tp r.1 none) ∧
    (∀ bytes, blob_create s (some bytes) 0 =
      .ok (some s.blobs.length,
        { s with blobs := s.blobs ++ [{ refcnt := 1, size := 0, content := [], freed := false }] })) := by
  have hrecv : proto_recv_packet little (wireOf hdr payload ++ more) zeroPacket none =
      (0, hdr, none, more) := by
    have hw : wireOf hdr payload = wireOf hdr [] := by simp [wireOf, hz]
    rw [hw]
    have := proto_recv_wire little hdr zeroPacket [] more none (by omega) hsec hnsec
      (by simp [hz])
    simpa [hz] using this
  refine ⟨hrecv, rfl, ?_, ?_, ?_⟩
  · unfold service_blob
    simp only [hrecv, hz]
    rfl
  · intro tp k
    unfold service_put
    cases service_key s k with
    | fault e => rfl
    | ok r =>
      obtain ⟨key, s1⟩ := r
      rfl
  · intro bytes
    simp [blob_create, blob_ref, derefB, writeB]

/-- Witness for the amended C26: a VALUE header with size 0 on a little-endian
host. -/
theorem zero_length_payload_witness :
    proto_recv_packet true ([4, 0, 0, 0, 0, 0, 0, 0, 0, 0, 0, 7, 0, 0, 0, 9] ++ [])
        zeroPacket none =
      (0, { zeroPacket with type := 4, timestamp_sec := 7, timestamp_nsec := 9 }, none, []) ∧
    service_blob true twoClients ([4, 0, 0, 0, 0, 0, 0, 0, 0, 0, 0, 7, 0, 0, 0, 9] ++ []) =
      .ok (none, twoClients, []) :=
  have h := zero_length_payload true twoClients
    { zeroPacket with type := 4, timestamp_sec := 7, timestamp_nsec := 9 } [] []
    (by decide) (by decide) (by decide)
  ⟨h.1, h.2.2.1⟩

/-- Counterexample to C26 as stated: from a VALUE packet of size 0 the service
builds no blob at all (`NULL`, and no blob is allocated), and the PUT of
transaction 0 with the key "k" and this value links a version whose blob is
`NULL`. -/
theorem zero_length_payload_counterexample :
    (proto_recv_packet true [4, 0, 0, 0, 0, 0, 0, 0, 0, 0, 0, 7, 0, 0, 0, 9] zeroPacket
      none).2.1.size = 0 ∧
    service_blob true twoClients [4, 0, 0, 0, 0, 0, 0, 0, 0, 0, 0, 7, 0, 0, 0, 9] =
      .ok (none, twoClients, []) ∧
    service_put twoClients 0 [107] [] = .ok (TRANS_PENDING, emptyValuePut) ∧
    versionsAt emptyValuePut (2, 0) = [{ creator := 0, blob := none, freed := false }] ∧
    emptyValuePut.blobs.length = 1 := by
  decide

/-! ## No lost wakeup -/

/-- C28 (code defect).  Transaction 1 depends on the pending transaction 0.
When the waiter registers before the ender reads the wait count, the ender
posts once and the waiter passes.  But when the ender runs between the status
test of the waiter and its increment of the wait count, it reads the wait
count 0 and posts nothing; the waiter then registers and stands before `P` on
a semaphore of value 0 that belongs to a committed transaction, and no thread
can take a step. -/
theorem lost_wakeup :
    (readerWaits.trans.map (fun t => (t.status, t.depends, t.waitcnt, t.sem))) =
      [(TRANS_PENDING, [], 0, 0), (TRANS_PENDING, [0], 0, 0)] ∧
    (∃ r, runRace 0 TRANS_COMMITTED [true, true, false, false, false, false, true] raceStart =
        .ok r ∧ r.waiter = .passed ∧ r.ender = .posted) ∧
    (∃ r, runRace 0 TRANS_COMMITTED [true, false, false, false, true] raceStart = .ok r ∧
      r.waiter = .wait ∧ r.ender = .posted ∧
      (r.state.trans[0]?).map (fun t => (t.status, t.waitcnt, t.sem)) =
        some (TRANS_COMMITTED, 1, 0) ∧
      waiterStep 0 r = .fault .blocked ∧ enderStep 0 TRANS_COMMITTED r = .ok r) :=
  ⟨by decide,
   ⟨Res.getD raceStart
      (runRace 0 TRANS_COMMITTED [true, true, false, false, false, false, true] raceStart),
    by decide, by decide, by decide⟩,
   ⟨Res.getD raceStart (runRace 0 TRANS_COMMITTED [true, false, false, false, true] raceStart),
    by decide, by decide, by decide, by decide, by decide, by decide⟩⟩

/-! ## Garbage collection leaves pending versions alone -/

theorem AllPending.readV_at {s : State} {vs : List VERSION} (h : AllPending s vs) {p : Nat}
    (hp : p < vs.length) :
    ∃ v, readV vs p = .ok v ∧ trans_get_status s v.creator = .ok TRANS_PENDING := by
  have hm : vs[p] ∈ vs := List.getElem_mem hp
  obtain ⟨hf, hs⟩ := h _ hm
  refine ⟨vs[p], ?_, hs⟩
  unfold readV
  simp [List.getElem?_eq_getElem hp, hf]

theorem gcScan_pending (s : State) (vs : List VERSION) (h : AllPending s vs) (i : Nat)
    (lc ea : VPtr) (flag : Bool) : gcScan s vs i lc ea flag = .ok (lc, ea) := by
  induction vs generalizing i with
  | nil => rfl
  | cons v rest ih =>
    obtain ⟨hf, hs⟩ := h v (List.mem_cons_self _ _)
    have hr : AllPending s rest := fun w hw => h w (List.mem_cons_of_mem _ hw)
    unfold gcScan
    simp only [hf, hs, Res.ok_bind]
    simpa using ih hr (i + 1)

theorem advance_pending {s : State} {vs : List VERSION} (h : AllPending s vs) (p : Nat) :
    advance vs (nextV vs p) =
      .ok (if p + 1 < vs.length then (some (p + 1), nextV vs (p + 1)) else (none, none)) := by
  unfold nextV
  by_cases hp : p + 1 < vs.length
  · obtain ⟨v, hv, _⟩ := h.readV_at hp
    simp only [hp, if_true]
    unfold advance
    simp only [hv, Res.ok_bind, Res.pure_eq, nextV]
  · simp only [hp, if_false]
    rfl

theorem gcLoop2_pending (s : State) (vs : List VERSION) (h : AllPending s vs) (lc : VPtr)
    (flag : Bool) (n p : Nat) (hp : p < vs.length) (hn : vs.length - p + 1 ≤ n) :
    gcLoop2 n s vs (some p) (nextV vs p) lc flag = .ok (s, vs, none, none, flag) := by
  induction n generalizing p with
  | zero => omega
  | succ n ih =>
    obtain ⟨v, hv, hs⟩ := h.readV_at hp
    unfold gcLoop2
    simp only [hv, hs, Res.ok_bind, advance_pending h p]
    by_cases hq : p + 1 < vs.length
    · simpa [hq] using ih (p + 1) hq (by omega)
    · have hn1 : n = (n - 1) + 1 := by omega
      rw [hn1]
      simp [hq, gcLoop2]

theorem gcLoop3_pending (s : State) (vs : List VERSION) (h : AllPending s vs) (ea : VPtr)
    (n p : Nat) (hp : p < vs.length) (hn : vs.length - p + 1 ≤ n) :
    gcLoop3 n s vs (some p) (nextV vs p) ea = .ok (s, vs) := by
  induction n generalizing p with
  | zero => omega
  | succ n ih =>
    obtain ⟨v, hv, hs⟩ := h.readV_at hp
    unfold gcLoop3
    simp only [hv, hs, Res.ok_bind, advance_pending h p]
    by_cases hq : p + 1 < vs.length
    · simpa [hq] using ih (p + 1) hq (by omega)
    · have hn1 : n = (n - 1) + 1 := by omega
      rw [hn1]
      simp [hq, gcLoop3]

theorem garbageCollectList_pending (s : State) (vs : List VERSION) (h : AllPending s vs) :
    garbageCollectList s vs = .ok (s, vs) := by
  cases hvs : vs with
  | nil => rfl
  | cons v rest =>
    rw [hvs] at h
    have hlen : 0 < (v :: rest).length := by simp
    obtain ⟨v0, hv0, _⟩ := h.readV_at hlen
    have h2 := gcLoop2_pending s _ h .uninit true ((v :: rest).length + 1) 0 hlen (by omega)
    have h3 := gcLoop3_pending s _ h .uninit ((v :: rest).length + 1) 0 hlen (by omega)
    unfold garbageCollectList
    simp only [gcScan_pending s _ h, Res.ok_bind, hv0, h2, gcUnlink, Res.pure_eq, h3]
    simp only [Bool.true_eq_false, if_false, Res.ok_bind, hv0, h3]

theorem memcmpV_unset (vs : List VERSION) (p : Option Nat) (b : Bool) :
    memcmpV vs p .uninit ≠ .ok b := by
  unfold memcmpV
  cases p with
  | none => simp
  | some i =>
    simp only
    cases hr : readV vs i with
    | ok v => simp [Res.ok_bind]
    | fault f => simp [Res.fault_bind]

/-- C31.  When every version of the entry at `loc` is live and its creator is a
pending transaction (the empty list included), `garbageCollect` returns and
leaves the whole state as it was: no version is disposed, no transaction is
aborted, the version list is the same.  The first loop leaves both markers
unset, and a comparison against an unset marker never returns in this model, so
the run, which returns, reaches none. -/
theorem garbageCollect_pending (s : State) (loc : Loc) (e : MAP_ENTRY)
    (he : entryAt s loc = some e) (hpend : AllPending s e.versions) :
    garbageCollect s loc = .ok s ∧
    garbageCollectList s e.versions = .ok (s, e.versions) ∧
    gcScan s e.versions 0 .uninit .uninit true = .ok (.uninit, .uninit) ∧
    ∀ p b, memcmpV e.versions p .uninit ≠ .ok b := by
  have hl := garbageCollectList_pending s e.versions hpend
  refine ⟨?_, hl, gcScan_pending s _ hpend 0 _ _ _, memcmpV_unset _⟩
  unfold garbageCollect
  simp only [he, hl, Res.ok_bind, Res.pure_eq, setVersions_self he]

/-- In `twoWriters` the list of key "k" holds the versions of the two pending
transactions 0 and 1; `garbageCollect` leaves the state as it is. -/
theorem garbageCollect_pending_witness :
    (entryAt twoWriters (2, 0)).map (fun e => e.versions.map (fun v => v.creator)) =
      some [0, 1] ∧
    garbageCollect twoWriters (2, 0) = .ok twoWriters :=
  ⟨by decide,
   (garbageCollect_pending twoWriters (2, 0) ((entryAt twoWriters (2, 0)).getD { key := { hash := 0, blob := none }, versions := [] })
      (by decide) (by decide)).1⟩

/-! ## Release of a handle under sound reference counts -/

theorem count_flatMap_set {α : Type} (f : α → List Nat) (d : Nat) :
    ∀ (l : List α) (i : Nat) (a b : α), l[i]? = some a →
      ((l.set i b).flatMap f).count d + (f a).count d =
        (l.flatMap f).count d + (f b).count d := by
  intro l
  induction l with
  | nil => intro i a b h; simp at h
  | cons x xs ih =>
    intro i a b h
    cases i with
    | zero =>
      simp at h
      subst h
      simp only [List.set_cons_zero, List.flatMap_cons, List.count_append]
      omega
    | succ i =>
      simp at h
      have := ih i a b h
      simp only [List.set_cons_succ, List.flatMap_cons, List.count_append]
      omega

theorem refsOf_writeT {s : State} {tp : Nat} {t : TRANSACTION} (t2 : TRANSACTION)
    (ht : s.trans[tp]? = some t) (ext : List Nat) (d : Nat) :
    (refsOf (writeT s tp t2) ext).count d + (heldDeps t).count d =
      (refsOf s ext).count d + (heldDeps t2).count d := by
  have := count_flatMap_set heldDeps d s.trans tp t t2 ht
  simp only [refsOf, writeT, List.count_append]
  omega

theorem RefsSound.at_ref {s : State} {ext : List Nat} (h : RefsSound s ext) {d : Nat}
    (hd : 0 < (refsOf s ext).count d) :
    ∃ t, s.trans[d]? = some t ∧ t.freed = false ∧ ((refsOf s ext).count d : Int) ≤ t.refcnt :=
  h.1 d (List.count_pos_iff.mp hd)

theorem Shrinks.sh_refl {s : State} {p : List Nat} (h : RefsSound s p) : Shrinks s p s p :=
  ⟨h, fun _ => le_refl _, fun _ _ => rfl⟩

theorem Shrinks.sh_trans {s s1 s2 : State} {q q1 q2 : List Nat} (h1 : Shrinks s q s1 q1)
    (h2 : Shrinks s1 q1 s2 q2) : Shrinks s q s2 q2 := by
  refine ⟨h2.1, fun c => le_trans (h2.2.1 c) (h1.2.1 c), ?_⟩
  intro c hc
  have h0 : (refsOf s1 q1).count c = 0 := by
    have := h1.2.1 c
    omega
  rw [h2.2.2 c h0, h1.2.2 c hc]

theorem unlinkTrans_ok (s : State) (tp : Nat) : ∀ (l : List Nat),
    (∀ c ∈ l, ∃ t, s.trans[c]? = some t ∧ t.freed = false) →
    unlinkTrans s tp l = .ok (l.erase tp) := by
  intro l
  induction l with
  | nil => intro _; rfl
  | cons c rest ih =>
    intro h
    unfold unlinkTrans
    by_cases hc : c = tp
    · subst hc
      simp only [if_true, List.erase_cons_head]
      cases rest with
      | nil => rfl
      | cons n r =>
        obtain ⟨t, ht, hf⟩ := h n (by simp)
        simp only [derefT_of_get ht hf, Res.ok_bind, Res.pure_eq]
    · obtain ⟨t, ht, hf⟩ := h c (by simp)
      have hne : (c == tp) = false := by simpa using hc
      simp only [hc, if_false, derefT_of_get ht hf, Res.ok_bind,
        ih (fun e he => h e (List.mem_cons_of_mem _ he)), Res.pure_eq, List.erase_cons, hne]
      rfl

theorem heldDeps_of_held {t : TRANSACTION} (hf : t.freed = false) (hr : t.refcnt ≠ 0) :
    heldDeps t = t.depends := by
  simp [heldDeps, hf, hr]

theorem heldDeps_of_zero {t : TRANSACTION} (hr : t.refcnt = 0) : heldDeps t = [] := by
  simp [heldDeps, hr]

theorem heldDeps_of_freed {t : TRANSACTION} (hf : t.freed = true) : heldDeps t = [] := by
  simp [heldDeps, hf]

theorem refsOf_cons_count (s : State) (tp : Nat) (p : List Nat) (c : Nat) :
    (refsOf s (tp :: p)).count c = (refsOf s p).count c + if tp = c then 1 else 0 := by
  simp only [refsOf, List.cons_append, List.count_cons, beq_iff_eq]

theorem refsOf_append_count (s : State) (l p : List Nat) (c : Nat) :
    (refsOf s (l ++ p)).count c = l.count c + (refsOf s p).count c := by
  simp only [refsOf, List.append_assoc, List.count_append]

/-- Decrementing a count that does not reach zero. -/
theorem shrinks_decrement {s : State} {tp : Nat} {p : List Nat} {t : TRANSACTION}
    (h : RefsSound s (tp :: p)) (ht : s.trans[tp]? = some t) (hf : t.freed = false)
    (h0 : ¬ (t.refcnt - 1 = 0)) :
    Shrinks s (tp :: p) (writeT s tp { t with refcnt := t.refcnt - 1 }) p := by
  have hpos : 0 < (refsOf s (tp :: p)).count tp := by
    rw [refsOf_cons_count]
    simp
  obtain ⟨t0, ht0, _, hcnt⟩ := h.at_ref hpos
  rw [ht] at ht0
  cases ht0
  have hr : t.refcnt ≠ 0 := by omega
  have hd1 : heldDeps t = t.depends := heldDeps_of_held hf hr
  have hd2 : heldDeps { t with refcnt := t.refcnt - 1 } = t.depends :=
    heldDeps_of_held (t := { t with refcnt := t.refcnt - 1 }) hf h0
  have hsame : ∀ (x : List Nat) (c : Nat),
      (refsOf (writeT s tp { t with refcnt := t.refcnt - 1 }) x).count c =
        (refsOf s x).count c := by
    intro x c
    have := refsOf_writeT { t with refcnt := t.refcnt - 1 } ht x c
    rw [hd1, hd2] at this
    omega
  refine ⟨⟨?_, h.2.1, ?_⟩, ?_, ?_⟩
  · intro d hd
    have hdpos : 0 < (refsOf (writeT s tp { t with refcnt := t.refcnt - 1 }) p).count d :=
      List.count_pos_iff.mpr hd
    rw [hsame] at hdpos
    have hc := refsOf_cons_count s tp p d
    obtain ⟨td, htd, hfd, hcd⟩ := h.at_ref (d := d) (by omega)
    by_cases hdt : tp = d
    · subst hdt
      rw [ht] at htd
      cases htd
      refine ⟨_, writeT_get_same ht, hf, ?_⟩
      rw [hsame]
      simp only [if_true] at hc
      simp only
      omega
    · refine ⟨td, (writeT_get_ne hdt).trans htd, hfd, ?_⟩
      rw [hsame]
      simp only [hdt, if_false] at hc
      omega
  · intro c hc
    obtain ⟨tc, htc, hfc⟩ := h.2.2 c hc
    by_cases hct : tp = c
    · subst hct
      rw [ht] at htc
      cases htc
      exact ⟨_, writeT_get_same ht, hf⟩
    · exact ⟨tc, (writeT_get_ne hct).trans htc, hfc⟩
  · intro c
    rw [hsame, refsOf_cons_count]
    omega
  · intro c hc
    have hne : tp ≠ c := by
      rintro rfl
      omega
    exact writeT_get_ne hne

/-- Taking a cell from count 1 to count 0 turns its dependency list into
handles that are still to be released. -/
theorem shrinks_to_zero {s : State} {tp : Nat} {p : List Nat} {t : TRANSACTION}
    (h : RefsSound s (tp :: p)) (ht : s.trans[tp]? = some t) (hf : t.freed = false)
    (h0 : t.refcnt - 1 = 0) :
    Shrinks s (tp :: p) (writeT s tp { t with refcnt := t.refcnt - 1 }) (t.depends ++ p) ∧
    (refsOf (writeT s tp { t with refcnt := t.refcnt - 1 }) (t.depends ++ p)).count tp = 0 := by
  have hpos : 0 < (refsOf s (tp :: p)).count tp := by
    rw [refsOf_cons_count]
    simp
  obtain ⟨t0, ht0, _, hcnt⟩ := h.at_ref hpos
  rw [ht] at ht0
  cases ht0
  have hr : t.refcnt ≠ 0 := by omega
  have hd1 : heldDeps t = t.depends := heldDeps_of_held hf hr
  have hd2 : heldDeps { t with refcnt := t.refcnt - 1 } = [] :=
    heldDeps_of_zero (t := { t with refcnt := t.refcnt - 1 }) h0
  have hcount : ∀ (c : Nat),
      (refsOf (writeT s tp { t with refcnt := t.refcnt - 1 }) (t.depends ++ p)).count c +
        (if tp = c then 1 else 0) = (refsOf s (tp :: p)).count c := by
    intro c
    have := refsOf_writeT { t with refcnt := t.refcnt - 1 } ht p c
    rw [hd1, hd2] at this
    rw [refsOf_append_count, refsOf_cons_count]
    simp only [List.count_nil] at this
    omega
  have htp0 : (refsOf (writeT s tp { t with refcnt := t.refcnt - 1 })
      (t.depends ++ p)).count tp = 0 := by
    have := hcount tp
    simp only [if_true] at this
    omega
  refine ⟨⟨⟨?_, h.2.1, ?_⟩, ?_, ?_⟩, htp0⟩
  · intro d hd
    have hdpos := List.count_pos_iff.mpr hd
    have hc := hcount d
    have hdt : tp ≠ d := by
      rintro rfl
      omega
    simp only [hdt, if_false] at hc
    obtain ⟨td, htd, hfd, hcd⟩ := h.at_ref (d := d) (by omega)
    refine ⟨td, (writeT_get_ne hdt).trans htd, hfd, ?_⟩
    omega
  · intro c hc
    obtain ⟨tc, htc, hfc⟩ := h.2.2 c hc
    by_cases hct : tp = c
    · subst hct
      rw [ht] at htc
      cases htc
      exact ⟨_, writeT_get_same ht, hf⟩
    · exact ⟨tc, (writeT_get_ne hct).trans htc, hfc⟩
  · intro c
    have := hcount c
    omega
  · intro c hc
    have hne : tp ≠ c := by
      rintro rfl
      omega
    exact writeT_get_ne hne

/-- Freeing a cell of count 0 that nobody refers to and taking it from the
global list. -/
theorem shrinks_free {s : State} {tp : Nat} {p : List Nat} {t : TRANSACTION}
    (h : RefsSound s p) (ht : s.trans[tp]? = some t) (hr : t.refcnt = 0)
    (hnone : (refsOf s p).count tp = 0) :
    RefsSound { writeT s tp { t with freed := true } with
                trans_list := s.trans_list.erase tp } p ∧
    (∀ c, (refsOf { writeT s tp { t with freed := true } with
                    trans_list := s.trans_list.erase tp } p).count c = (refsOf s p).count c) ∧
    (∀ c, tp ≠ c → ({ writeT s tp { t with freed := true } with
                      trans_list := s.trans_list.erase tp } : State).trans[c]? =
                    s.trans[c]?) := by
  have hd1 : heldDeps t = [] := heldDeps_of_zero hr
  have hd2 : heldDeps { t with freed := true } = [] :=
    heldDeps_of_freed (t := { t with freed := true }) rfl
  have hsame : ∀ (c : Nat),
      (refsOf { writeT s tp { t with freed := true } with
                trans_list := s.trans_list.erase tp } p).count c = (refsOf s p).count c := by
    intro c
    have := refsOf_writeT { t with freed := true } ht p c
    rw [hd1, hd2] at this
    have e : refsOf { writeT s tp { t with freed := true } with
        trans_list := s.trans_list.erase tp } p = refsOf (writeT s tp { t with freed := true }) p :=
      rfl
    rw [e]
    omega
  refine ⟨⟨?_, h.2.1.erase tp, ?_⟩, hsame, ?_⟩
  · intro d hd
    have hdpos := List.count_pos_iff.mpr hd
    rw [hsame] at hdpos
    have hdt : tp ≠ d := by
      rintro rfl
      omega
    obtain ⟨td, htd, hfd, hcd⟩ := h.at_ref hdpos
    refine ⟨td, ?_, hfd, ?_⟩
    · exact (writeT_get_ne (s := s) hdt).trans htd
    · rw [hsame]
      exact hcd
  · intro c hc
    obtain ⟨hne, hmem⟩ := (h.2.1.mem_erase_iff).mp hc
    obtain ⟨tc, htc, hfc⟩ := h.2.2 c hmem
    exact ⟨tc, (writeT_get_ne (s := s) (Ne.symm hne)).trans htc, hfc⟩
  · intro c hne
    exact writeT_get_ne (s := s) hne

theorem foldlM_sound (f : State → Nat → Res State)
    (hf : ∀ s d p, RefsSound s (d :: p) →
      f s d = .fault .fuel ∨ ∃ s2, f s d = .ok s2 ∧ Shrinks s (d :: p) s2 p) :
    ∀ (l : List Nat) (s : State) (p : List Nat), RefsSound s (l ++ p) →
      l.foldlM f s = .fault .fuel ∨ ∃ s2, l.foldlM f s = .ok s2 ∧ Shrinks s (l ++ p) s2 p := by
  intro l
  induction l with
  | nil =>
    intro s p h
    exact Or.inr ⟨s, rfl, Shrinks.sh_refl h⟩
  | cons d rest ih =>
    intro s p h
    simp only [List.foldlM_cons]
    rcases hf s d (rest ++ p) h with hfu | ⟨s1, h1, hs1⟩
    · left
      rw [hfu]
      rfl
    · rw [h1]
      simp only [Res.ok_bind]
      rcases ih s1 p hs1.1 with hfu | ⟨s2, h2, hs2⟩
      · exact Or.inl hfu
      · exact Or.inr ⟨s2, h2, hs1.sh_trans hs2⟩

/-- With sound reference counts `trans_unref` of a handle returns (or the bound
of the model is reached, which `trans_unref_noFuel` excludes), and the counts
are sound for the remaining handles. -/
theorem trans_unrefAux_sound : ∀ (n : Nat) (s : State) (tp : Nat) (p : List Nat),
    RefsSound s (tp :: p) →
    trans_unrefAux n s tp = .fault .fuel ∨
      ∃ s2, trans_unrefAux n s tp = .ok s2 ∧ Shrinks s (tp :: p) s2 p := by
  intro n
  induction n with
  | zero => intro s tp p _; exact Or.inl rfl
  | succ n ih =>
    intro s tp p h
    have hpos : 0 < (refsOf s (tp :: p)).count tp := by
      rw [refsOf_cons_count]
      simp
    obtain ⟨t, ht, hf, hcnt⟩ := h.at_ref hpos
    have hd : derefT s tp = .ok t := derefT_of_get ht hf
    unfold trans_unrefAux
    simp only [hd, Res.ok_bind]
    by_cases h0 : t.refcnt - 1 = 0
    · rw [if_pos h0]
      obtain ⟨hsh, htp0⟩ := shrinks_to_zero h ht hf h0
      rcases foldlM_sound _ (fun a d q => ih a d q) t.depends _ p hsh.1 with hfu | ⟨s2, h2, hs2⟩
      · left
        rw [hfu]
        rfl
      · right
        have hcell : s2.trans[tp]? = some { t with refcnt := t.refcnt - 1 } :=
          (hs2.2.2 tp htp0).trans (writeT_get_same ht)
        have hd2 : derefT s2 tp = .ok { t with refcnt := t.refcnt - 1 } :=
          derefT_of_get hcell hf
        have hnone2 : (refsOf s2 p).count tp = 0 := by
          have := hs2.2.1 tp
          omega
        obtain ⟨hr3, hc3, hcell3⟩ :=
          shrinks_free (t := { t with refcnt := t.refcnt - 1 }) hs2.1 hcell h0 hnone2
        rw [h2]
        simp only [Res.ok_bind, hd2, unlinkTrans_ok s2 tp _ hs2.1.2.2, Res.pure_eq]
        refine ⟨_, rfl, hr3, ?_, ?_⟩
        · intro c
          rw [hc3 c]
          exact le_trans (hs2.2.1 c) (hsh.2.1 c)
        · intro c hc
          have hne : tp ≠ c := by
            rintro rfl
            omega
          have h1 : (refsOf (writeT s tp { t with refcnt := t.refcnt - 1 })
              (t.depends ++ p)).count c = 0 := by
            have := hsh.2.1 c
            omega
          rw [hcell3 c hne, hs2.2.2 c h1, hsh.2.2 c hc]
    · rw [if_neg h0]
      exact Or.inr ⟨_, rfl, shrinks_decrement h ht hf h0⟩

/-- `trans_unref` of a handle returns when the reference counts are sound. -/
theorem trans_unref_sound {s : State} {tp : Nat} {p : List Nat} (h : RefsSound s (tp :: p)) :
    ∃ s2, trans_unref s tp = .ok s2 ∧ Shrinks s (tp :: p) s2 p := by
  rcases trans_unrefAux_sound (s.trans.length + 1) s tp p h with hfu | hok
  · exact absurd hfu (trans_unref_noFuel s tp)
  · exact hok

theorem RefsSound.of_perm {s : State} {p q : List Nat} (hpq : p.Perm q) (h : RefsSound s p) :
    RefsSound s q := by
  have hperm : (refsOf s p).Perm (refsOf s q) := List.Perm.append_right _ hpq
  refine ⟨?_, h.2⟩
  intro d hd
  obtain ⟨t, ht, hf, hc⟩ := h.1 d (hperm.mem_iff.mpr hd)
  exact ⟨t, ht, hf, by rw [← hperm.count_eq]; exact hc⟩

/-- A write that changes neither the count, nor the dependencies, nor the
ghost flag of a cell keeps the counts sound. -/
theorem RefsSound.of_write {s : State} {tp : Nat} {p : List Nat} {t t2 : TRANSACTION}
    (h : RefsSound s p) (ht : s.trans[tp]? = some t) (hfr : t2.freed = t.freed)
    (hrc : t2.refcnt = t.refcnt) (hdep : t2.depends = t.depends) :
    RefsSound (writeT s tp t2) p := by
  have hd : heldDeps t2 = heldDeps t := by simp [heldDeps, hfr, hrc, hdep]
  have hsame : ∀ c, (refsOf (writeT s tp t2) p).count c = (refsOf s p).count c := by
    intro c
    have := refsOf_writeT t2 ht p c
    rw [hd] at this
    omega
  refine ⟨?_, h.2.1, ?_⟩
  · intro d hdm
    have hpos := List.count_pos_iff.mpr hdm
    rw [hsame] at hpos
    obtain ⟨td, htd, hfd, hcd⟩ := h.at_ref hpos
    by_cases hdt : tp = d
    · subst hdt
      rw [ht] at htd
      cases htd
      exact ⟨t2, writeT_get_same ht, hfr.trans hfd, by rw [hsame, hrc]; exact hcd⟩
    · exact ⟨td, (writeT_get_ne hdt).trans htd, hfd, by rw [hsame]; exact hcd⟩
  · intro c hc
    obtain ⟨tc, htc, hfc⟩ := h.2.2 c hc
    by_cases hct : tp = c
    · subst hct
      rw [ht] at htc
      cases htc
      exact ⟨t2, writeT_get_same ht, hfr.trans hfc⟩
    · exact ⟨tc, (writeT_get_ne hct).trans htc, hfc⟩

/-- `trans_unref` frees a cell whose count is 1. -/
theorem trans_unref_frees {s s2 : State} {tp : Nat} {t : TRANSACTION}
    (ht : derefT s tp = .ok t) (h1 : t.refcnt = 1) (h : trans_unref s tp = .ok s2) :
    ∃ t2, s2.trans[tp]? = some t2 ∧ t2.freed = true := by
  unfold trans_unref trans_unrefAux at h
  simp only [ht, Res.ok_bind] at h
  have h0 : t.refcnt - 1 = 0 := by omega
  rw [if_pos h0] at h
  obtain ⟨s3, _, h⟩ := Res.bind_eq_ok.mp h
  obtain ⟨t3, ht3, h⟩ := Res.bind_eq_ok.mp h
  obtain ⟨l, _, h⟩ := Res.bind_eq_ok.mp h
  simp at h
  subst h
  exact ⟨_, writeT_get_same (derefT_eq_ok.mp ht3).1, rfl⟩

/-- `trans_unref` on a live cell returns when either the cell is not released
or the reference counts are sound; the cell keeps its status. -/
theorem trans_unref_total {s : State} {tp : Nat} {t : TRANSACTION} {p : List Nat}
    (ht : derefT s tp = .ok t) (hsound : t.refcnt = 1 → RefsSound s (tp :: p)) :
    ∃ s2 t2, trans_unref s tp = .ok s2 ∧ s2.trans[tp]? = some t2 ∧ t2.status = t.status ∧
      (t.refcnt = 1 → t2.freed = true ∧ RefsSound s2 p) ∧
      (t.refcnt ≠ 1 → s2 = writeT s tp { t with refcnt := t.refcnt - 1 }) := by
  by_cases h1 : t.refcnt = 1
  · obtain ⟨s2, h2, hsh⟩ := trans_unref_sound (hsound h1)
    obtain ⟨t2, ht2, hr⟩ := trans_unref_rel h2 _ _ (derefT_eq_ok.mp ht).1
    obtain ⟨t3, ht3, hf3⟩ := trans_unref_frees ht h1 h2
    rw [ht2] at ht3
    cases ht3
    exact ⟨s2, t2, h2, ht2, hr.2.1, fun _ => ⟨hf3, hsh.1⟩, fun hne => absurd h1 hne⟩
  · exact ⟨_, _, trans_unref_of_ne_one ht h1, writeT_get_same (derefT_eq_ok.mp ht).1, rfl,
      fun h => absurd h h1, fun _ => rfl⟩

/-- `trans_abort` on a live transaction that is not committed returns
`TRANS_ABORTED` and leaves the status aborted, when either the transaction is
not released or the reference counts are sound. -/
theorem trans_abort_total {s : State} {tp : Nat} {t : TRANSACTION} {p : List Nat}
    (ht : derefT s tp = .ok t) (hst : t.status ≠ TRANS_COMMITTED)
    (hsound : t.refcnt = 1 → RefsSound s (tp :: p)) :
    ∃ s2 t2, trans_abort s tp = .ok (TRANS_ABORTED, s2) ∧ s2.trans[tp]? = some t2 ∧
      t2.status = TRANS_ABORTED ∧
      (t.refcnt = 1 → t2.freed = true ∧ RefsSound s2 p) ∧
      (t.refcnt ≠ 1 →
        s2 = writeT s tp { t with status := TRANS_ABORTED, sem := t.sem + t.waitcnt.toNat,
                                  refcnt := t.refcnt - 1 }) := by
  have hget := (derefT_eq_ok.mp ht).1
  have hfr := (derefT_eq_ok.mp ht).2
  have hs : trans_get_status s tp = .ok t.status := trans_get_status_eq_ok.mpr ⟨t, ht, rfl⟩
  let t1 : TRANSACTION := { t with status := TRANS_ABORTED, sem := t.sem + t.waitcnt.toNat }
  have hd1 : derefT (writeT s tp t1) tp = .ok t1 := derefT_of_get (writeT_get_same hget) hfr
  have hs1 : t1.refcnt = 1 → RefsSound (writeT s tp t1) (tp :: p) :=
    fun h => (hsound h).of_write hget rfl rfl rfl
  obtain ⟨s2, t2, h2, ht2, hst2, hfreed, hkeep⟩ := trans_unref_total hd1 hs1
  refine ⟨s2, t2, ?_, ht2, hst2, hfreed, ?_⟩
  · unfold trans_abort
    rw [hs]
    simp only [Res.ok_bind, hst, if_false]
    by_cases hab : t.status = TRANS_ABORTED
    · have e : writeT s tp { t with sem := t.sem + t.waitcnt.toNat } = writeT s tp t1 := by
        simp only [t1, ← hab]
      simp only [hab, if_true, postAll, ht, Res.ok_bind, Res.pure_eq]
      rw [← hab, e, h2]
      rfl
    · have hd0 : derefT (writeT s tp { t with status := TRANS_ABORTED }) tp
          = .ok { t with status := TRANS_ABORTED } :=
        derefT_of_get (writeT_get_same hget) hfr
      have e : writeT (writeT s tp { t with status := TRANS_ABORTED }) tp
          { t with status := TRANS_ABORTED, sem := t.sem + t.waitcnt.toNat } =
          writeT s tp t1 := by
        simp [writeT, t1]
      simp only [hab, if_false, ht, Res.ok_bind, postAll, hd0, Res.pure_eq]
      rw [e, h2]
      rfl
  · intro hne
    rw [hkeep hne]
    simp [writeT, t1]

/-- `trans_abort` of a handle on a transaction that is not committed, with
sound reference counts: the call returns `TRANS_ABORTED`, the status is
aborted, and the counts are sound for the remaining handles. -/
theorem trans_abort_sound {s : State} {tp : Nat} {t : TRANSACTION} {p : List Nat}
    (h : RefsSound s (tp :: p)) (ht : s.trans[tp]? = some t)
    (hst : t.status ≠ TRANS_COMMITTED) :
    ∃ s2 t2, trans_abort s tp = .ok (TRANS_ABORTED, s2) ∧ s2.trans[tp]? = some t2 ∧
      t2.status = TRANS_ABORTED ∧ RefsSound s2 p ∧ (t.refcnt = 1 → t2.freed = true) := by
  have hpos : 0 < (refsOf s (tp :: p)).count tp := by
    rw [refsOf_cons_count]
    simp
  obtain ⟨t0, ht0, hf, _⟩ := h.at_ref hpos
  rw [ht] at ht0
  cases ht0
  obtain ⟨s2, t2, h2, ht2, hst2, hfreed, hkeep⟩ :=
    trans_abort_total (p := p) (derefT_of_get ht hf) hst (fun _ => h)
  refine ⟨s2, t2, h2, ht2, hst2, ?_, fun h1 => (hfreed h1).1⟩
  by_cases h1 : t.refcnt = 1
  · exact (hfreed h1).2
  · rw [hkeep h1]
    have hw : RefsSound (writeT s tp
        { t with status := TRANS_ABORTED, sem := t.sem + t.waitcnt.toNat }) (tp :: p) :=
      h.of_write ht rfl rfl rfl
    have h0 : ¬ (t.refcnt - 1 = 0) := by omega
    let t1 : TRANSACTION := { t with status := TRANS_ABORTED, sem := t.sem + t.waitcnt.toNat }
    have := (shrinks_decrement (t := t1) hw (writeT_get_same ht) hf h0).1
    simpa [writeT, t1] using this

/-- C6.  Let `T` be live and not yet committed, with every dependency live and
no longer pending; and when the reference count of `T` is 1, so that the call
releases `T`, let the reference counts be sound.  Then `trans_commit(T)`
returns; it returns `TRANS_ABORTED` exactly when some dependency has status
aborted, and then the status of `T` is aborted; otherwise it returns
`TRANS_COMMITTED` and the status of `T` is committed. -/
theorem trans_commit_cascade (s : State) (tp : Nat) (t : TRANSACTION) (ext : List Nat)
    (ht : s.trans[tp]? = some t) (hlive : t.freed = false)
    (hnc : t.status ≠ TRANS_COMMITTED)
    (hterm : ∀ d ∈ t.depends, ∃ td, s.trans[d]? = some td ∧ td.freed = false ∧
      td.status ≠ TRANS_PENDING)
    (hsound : t.refcnt = 1 → RefsSound s (tp :: ext)) :
    ∃ st s2 t2, trans_commit s tp = .ok (st, s2) ∧ s2.trans[tp]? = some t2 ∧
      (st = TRANS_ABORTED ↔
        ∃ d ∈ t.depends, ∃ td, s.trans[d]? = some td ∧ td.status = TRANS_ABORTED) ∧
      (st = TRANS_ABORTED → t2.status = TRANS_ABORTED) ∧
      (st ≠ TRANS_ABORTED → st = TRANS_COMMITTED ∧ t2.status = TRANS_COMMITTED) := by
  have hd : derefT s tp = .ok t := derefT_of_get ht hlive
  have hterm' : ∀ d ∈ t.depends, ∃ td, derefT s d = .ok td ∧ td.status ≠ TRANS_PENDING := by
    intro d hdm
    obtain ⟨td, h1, h2, h3⟩ := hterm d hdm
    exact ⟨td, derefT_of_get h1 h2, h3⟩
  have hw : commitWait s t.depends = .ok s := commitWait_terminal _ hterm'
  obtain ⟨b, hb⟩ := commitCheck_of_live (s := s) t.depends
    (fun e he => (hterm' e he).imp fun _ h => h.1)
  cases b with
  | true =>
    obtain ⟨d, hdm, td, htd, hstd⟩ := commitCheck_true _ hb
    obtain ⟨s2, t2, h2, ht2, hst2, _, _⟩ := trans_abort_total (p := ext) hd hnc hsound
    refine ⟨TRANS_ABORTED, s2, t2, ?_, ht2, ?_, fun _ => hst2, fun h => absurd rfl h⟩
    · unfold trans_commit
      simp only [hd, Res.ok_bind, hw, hb, if_true]
      exact h2
    · exact ⟨fun _ => ⟨d, hdm, td, (derefT_eq_ok.mp htd).1, hstd⟩, fun _ => rfl⟩
  | false =>
    have hnone := commitCheck_false _ hb
    let tc : TRANSACTION := { t with status := TRANS_COMMITTED, sem := t.sem + t.waitcnt.toNat }
    have hdc : derefT (writeT s tp tc) tp = .ok tc := derefT_of_get (writeT_get_same ht) hlive
    have hsc : tc.refcnt = 1 → RefsSound (writeT s tp tc) (tp :: ext) :=
      fun h => (hsound h).of_write ht rfl rfl rfl
    obtain ⟨s2, t2, h2, ht2, hst2, _, _⟩ := trans_unref_total hdc hsc
    refine ⟨TRANS_COMMITTED, s2, t2, ?_, ht2, ?_, (fun h => by cases h), fun _ => ⟨rfl, hst2⟩⟩
    · have hd0 : derefT (writeT s tp { t with status := TRANS_COMMITTED }) tp
          = .ok { t with status := TRANS_COMMITTED } :=
        derefT_of_get (writeT_get_same ht) hlive
      have e : writeT (writeT s tp { t with status := TRANS_COMMITTED }) tp
          { t with status := TRANS_COMMITTED, sem := t.sem + t.waitcnt.toNat } =
          writeT s tp tc := by
        simp [writeT, tc]
      unfold trans_commit
      simp only [hd, Res.ok_bind, hw, hb, Bool.false_eq_true, if_false, postAll, hd0,
        Res.pure_eq]
      rw [e, h2]
      rfl
    · constructor
      · intro h
        cases h
      · rintro ⟨d, hdm, td, htd, hstd⟩
        obtain ⟨td2, htd2, hna⟩ := hnone d hdm
        have := (derefT_eq_ok.mp htd2).1
        rw [htd] at this
        cases this
        exact absurd hstd hna

/-- Witness for C6: transaction 1 of `cascadeLast` has one reference and an
aborted dependency; `trans_commit` returns `TRANS_ABORTED`, transaction 1 is
aborted and released, and its reference on transaction 0 is given back. -/
theorem trans_commit_cascade_witness :
    trans_commit cascadeLast 1 = .ok (TRANS_ABORTED,
      { stateOf [cell 0 1 TRANS_ABORTED [],
          { cell 1 0 TRANS_ABORTED [0] with freed := true }] with trans_list := [0] }) ∧
    ∃ st s2 t2, trans_commit cascadeLast 1 = .ok (st, s2) ∧ s2.trans[1]? = some t2 ∧
      (st = TRANS_ABORTED ↔
        ∃ d ∈ [0], ∃ td, cascadeLast.trans[d]? = some td ∧ td.status = TRANS_ABORTED) ∧
      (st = TRANS_ABORTED → t2.status = TRANS_ABORTED) ∧
      (st ≠ TRANS_ABORTED → st = TRANS_COMMITTED ∧ t2.status = TRANS_COMMITTED) :=
  ⟨by decide,
   trans_commit_cascade cascadeLast 1 (cell 1 1 TRANS_PENDING [0]) [0] (by decide) (by decide)
    (by decide) (by decide) (fun _ => by decide)⟩

/-! ## The transaction manager keeps the reference counts sound -/

theorem RefsSound.lt_length {s : State} {p : List Nat} (h : RefsSound s p) {d : Nat}
    (hd : d ∈ refsOf s p) : d < s.trans.length := by
  obtain ⟨t, ht, _⟩ := h.1 d hd
  exact (List.getElem?_eq_some_iff.mp ht).1

theorem RefsSound.lastLive {s : State} {p : List Nat} (h : RefsSound s p) : LastLive s :=
  fun l hl => h.2.2 l (List.mem_of_mem_getLast? hl)

/-- `trans_create` with sound counts: the caller gets a handle on the new
transaction. -/
theorem trans_create_sound {s : State} {p : List Nat} (h : RefsSound s p) :
    ∃ s2, trans_create s = .ok (s.trans.length, s2) ∧ RefsSound s2 (s.trans.length :: p) := by
  refine ⟨_, trans_create_eq s h.lastLive, ?_⟩
  have hnew : s.trans.length ∉ refsOf s p := fun hm => absurd (h.lt_length hm) (lt_irrefl _)
  have hrefs : ∀ q, refsOf { s with
      trans := s.trans ++ [{ id := s.trans_ID, refcnt := 1, status := TRANS_PENDING,
                             depends := [], waitcnt := 0, sem := 0, freed := false }],
      trans_ID := wrap32 (s.trans_ID + 1),
      trans_list := s.trans_list ++ [s.trans.length] } q = refsOf s q := by
    intro q
    simp [refsOf, heldDeps]
  refine ⟨?_, ?_, ?_⟩
  · intro d hd
    rw [hrefs] at hd ⊢
    rw [refsOf_cons_count]
    by_cases hdn : s.trans.length = d
    · subst hdn
      refine ⟨cell s.trans_ID 1 TRANS_PENDING [], by simp [cell], rfl, ?_⟩
      rw [List.count_eq_zero.mpr hnew]
      simp [cell]
    · have hd' : d ∈ refsOf s p := by
        simp only [refsOf, List.cons_append, List.mem_cons] at hd
        rcases hd with hd | hd
        · exact absurd hd.symm hdn
        · exact hd
      obtain ⟨t, ht, hf, hc⟩ := h.1 d hd'
      refine ⟨t, ?_, hf, ?_⟩
      · simp only
        rw [List.getElem?_append_left (h.lt_length hd')]
        exact ht
      · simp only [hdn, if_false, Nat.add_zero]
        exact hc
  · simp only
    rw [List.nodup_append]
    refine ⟨h.2.1, List.nodup_singleton _, ?_⟩
    intro a ha hb
    simp at hb
    subst hb
    obtain ⟨t, ht, _⟩ := h.2.2 _ ha
    exact absurd (List.getElem?_eq_some_iff.mp ht).1 (lt_irrefl _)
  · intro c hc
    simp only [List.mem_append, List.mem_singleton] at hc
    rcases hc with hc | hc
    · obtain ⟨t, ht, hf⟩ := h.2.2 c hc
      refine ⟨t, ?_, hf⟩
      simp only
      rw [List.getElem?_append_left (List.getElem?_eq_some_iff.mp ht).1]
      exact ht
    · subst hc
      exact ⟨cell s.trans_ID 1 TRANS_PENDING [], by simp [cell], rfl⟩

/-- `trans_ref` on a referenced transaction: one more handle. -/
theorem trans_ref_sound {s : State} {tp : Nat} {p : List Nat} (h : RefsSound s p)
    (hmem : tp ∈ refsOf s p) :
    ∃ s2, trans_ref s tp = .ok s2 ∧ RefsSound s2 (tp :: p) := by
  obtain ⟨t, ht, hf, hc⟩ := h.1 tp hmem
  have hpos : 0 < (refsOf s p).count tp := List.count_pos_iff.mpr hmem
  have hd : derefT s tp = .ok t := derefT_of_get ht hf
  refine ⟨writeT s tp { t with refcnt := t.refcnt + 1 }, by simp [trans_ref, hd], ?_⟩
  have hd1 : heldDeps t = t.depends := heldDeps_of_held hf (by omega)
  have hd2 : heldDeps { t with refcnt := t.refcnt + 1 } = t.depends :=
    heldDeps_of_held (t := { t with refcnt := t.refcnt + 1 }) hf (by simp only; omega)
  have hsame : ∀ (x : List Nat) (c : Nat),
      (refsOf (writeT s tp { t with refcnt := t.refcnt + 1 }) x).count c =
        (refsOf s x).count c := by
    intro x c
    have := refsOf_writeT { t with refcnt := t.refcnt + 1 } ht x c
    rw [hd1, hd2] at this
    omega
  refine ⟨?_, h.2.1, ?_⟩
  · intro d hdm
    have hdpos := List.count_pos_iff.mpr hdm
    rw [hsame, refsOf_cons_count] at hdpos
    rw [hsame, refsOf_cons_count]
    by_cases hdt : tp = d
    · subst hdt
      refine ⟨_, writeT_get_same ht, hf, ?_⟩
      simp only [if_true]
      push_cast
      omega
    · simp only [hdt, if_false, Nat.add_zero] at hdpos ⊢
      obtain ⟨td, htd, hfd, hcd⟩ := h.at_ref hdpos
      exact ⟨td, (writeT_get_ne hdt).trans htd, hfd, hcd⟩
  · intro c hc
    obtain ⟨tc, htc, hfc⟩ := h.2.2 c hc
    by_cases hct : tp = c
    · subst hct
      rw [ht] at htc
      cases htc
      exact ⟨_, writeT_get_same ht, hf⟩
    · exact ⟨tc, (writeT_get_ne hct).trans htc, hfc⟩

/-- `trans_add_dependency` on a referenced dependency keeps the counts sound:
the new entry of the dependency list is paid for by the increment. -/
theorem trans_add_dependency_sound {s s2 : State} {tp dtp : Nat} {p : List Nat}
    (h : RefsSound s p) (hmem : dtp ∈ refsOf s p)
    (hr : trans_add_dependency s tp dtp = .ok s2) : RefsSound s2 p := by
  unfold trans_add_dependency at hr
  obtain ⟨t, ht, hr⟩ := Res.bind_eq_ok.mp hr
  have hget := (derefT_eq_ok.mp ht).1
  have hfr := (derefT_eq_ok.mp ht).2
  unfold trans_ref at hr
  obtain ⟨td, htd, hr⟩ := Res.bind_eq_ok.mp hr
  simp only [Res.pure_eq, Res.ok.injEq] at hr
  subst hr
  have hgetd := (derefT_eq_ok.mp htd).1
  have hfrd := (derefT_eq_ok.mp htd).2
  obtain ⟨tdo, htdo, hfdo, hcdo⟩ := h.1 dtp hmem
  have hposd : 0 < (refsOf s p).count dtp := List.count_pos_iff.mpr hmem
  have hrcd : td.refcnt = tdo.refcnt := by
    by_cases he : tp = dtp
    · subst he
      rw [writeT_get_same hget] at hgetd
      rw [hget] at htdo
      cases hgetd
      cases htdo
      rfl
    · rw [writeT_get_ne he, htdo] at hgetd
      cases hgetd
      rfl
  have hheld : ∀ c, (heldDeps { t with depends := dtp :: t.depends }).count c =
      (heldDeps t).count c + if t.refcnt ≠ 0 ∧ dtp = c then 1 else 0 := by
    intro c
    by_cases h0 : t.refcnt = 0
    · simp [heldDeps, h0]
    · simp [heldDeps, hfr, h0, List.count_cons]
  have hd2 : heldDeps { td with refcnt := td.refcnt + 1 } = heldDeps td := by
    have e1 : td.refcnt ≠ 0 := by omega
    have e2 : td.refcnt + 1 ≠ 0 := by omega
    simp [heldDeps, e1, e2]
  have hcount : ∀ c, (refsOf (writeT (writeT s tp { t with depends := dtp :: t.depends }) dtp
      { td with refcnt := td.refcnt + 1 }) p).count c =
      (refsOf s p).count c + if t.refcnt ≠ 0 ∧ dtp = c then 1 else 0 := by
    intro c
    have h1 := refsOf_writeT { t with depends := dtp :: t.depends } hget p c
    have h2 := refsOf_writeT { td with refcnt := td.refcnt + 1 } hgetd p c
    rw [hd2] at h2
    rw [hheld] at h1
    omega
  have hcell : ∀ a ta, s.trans[a]? = some ta →
      ∃ t2, (writeT (writeT s tp { t with depends := dtp :: t.depends }) dtp
          { td with refcnt := td.refcnt + 1 }).trans[a]? = some t2 ∧ t2.freed = ta.freed ∧
        t2.refcnt = ta.refcnt + if dtp = a then 1 else 0 := by
    intro a ta hta
    by_cases ha : dtp = a
    · subst ha
      rw [htdo] at hta
      cases hta
      refine ⟨_, writeT_get_same hgetd, hfrd.trans hfdo.symm, ?_⟩
      simp only [if_true]
      omega
    · rw [writeT_get_ne ha]
      by_cases hb : tp = a
      · subst hb
        rw [hget] at hta
        cases hta
        exact ⟨_, writeT_get_same hget, rfl, by simp [ha]⟩
      · rw [writeT_get_ne hb]
        exact ⟨ta, hta, rfl, by simp [ha]⟩
  refine ⟨?_, h.2.1, ?_⟩
  · intro d hd
    have hdpos := List.count_pos_iff.mpr hd
    have hc := hcount d
    have hin : 0 < (refsOf s p).count d := by
      by_cases he : dtp = d
      · subst he
        exact hposd
      · simp only [he, and_false, if_false] at hc
        omega
    obtain ⟨ta, hta, hfa, hca⟩ := h.at_ref hin
    obtain ⟨t2, ht2, hf2, hr2⟩ := hcell d ta hta
    refine ⟨t2, ht2, hf2.trans hfa, ?_⟩
    rw [hc, hr2]
    by_cases he : dtp = d
    · simp only [he, if_true]
      split <;> push_cast <;> omega
    · simp only [he, and_false, if_false]
      push_cast
      omega
  · intro c hc
    obtain ⟨tc, htc, hfc⟩ := h.2.2 c hc
    obtain ⟨t2, ht2, hf2, _⟩ := hcell c tc htc
    exact ⟨t2, ht2, hf2.trans hfc⟩

theorem commitWait_sound {p : List Nat} : ∀ (ds : List Nat) (s s1 : State),
    commitWait s ds = .ok s1 → RefsSound s p → RefsSound s1 p := by
  intro ds
  induction ds with
  | nil =>
    intro s s1 h hs
    simp [commitWait] at h
    subst h
    exact hs
  | cons d rest ih =>
    intro s s1 h hs
    unfold commitWait at h
    obtain ⟨st, _, h⟩ := Res.bind_eq_ok.mp h
    split at h
    · exact ih _ _ h hs
    · obtain ⟨t, ht, h⟩ := Res.bind_eq_ok.mp h
      split at h
      · cases h
      · exact ih _ _ h (hs.of_write (derefT_eq_ok.mp ht).1 rfl rfl rfl)

/-- A returning `trans_abort` of a handle keeps the counts sound. -/
theorem trans_abort_keeps {s s2 : State} {tp : Nat} {p : List Nat} {st : TRANS_STATUS}
    (h : RefsSound s (tp :: p)) (hr : trans_abort s tp = .ok (st, s2)) : RefsSound s2 p := by
  have hpos : 0 < (refsOf s (tp :: p)).count tp := by
    rw [refsOf_cons_count]
    simp
  obtain ⟨t, ht, hf, _⟩ := h.at_ref hpos
  by_cases hst : t.status = TRANS_COMMITTED
  · have := trans_abort_committed
      (trans_get_status_eq_ok.mpr ⟨t, derefT_of_get ht hf, hst⟩ : trans_get_status s tp = _)
    rw [this] at hr
    cases hr
  · obtain ⟨s3, _, h3, _, _, hs3, _⟩ := trans_abort_sound h ht hst
    rw [h3] at hr
    cases hr
    exact hs3

/-- A returning `trans_commit` of a handle keeps the counts sound. -/
theorem trans_commit_keeps {s s2 : State} {tp : Nat} {p : List Nat} {st : TRANS_STATUS}
    (h : RefsSound s (tp :: p)) (hr : trans_commit s tp = .ok (st, s2)) : RefsSound s2 p := by
  obtain ⟨t, s1, _, hw, t1, ht1, hcase⟩ := trans_commit_ok hr
  have hs1 : RefsSound s1 (tp :: p) := commitWait_sound _ _ _ hw h
  rcases hcase with ⟨_, hab⟩ | ⟨_, _, s3, h3, h4⟩
  · exact trans_abort_keeps hs1 hab
  · obtain ⟨t3, ht3, rfl⟩ := postAll_eq_ok h3
    have hget1 := (derefT_eq_ok.mp ht1).1
    have hsa : RefsSound (writeT s1 tp { t1 with status := TRANS_COMMITTED }) (tp :: p) :=
      hs1.of_write hget1 rfl rfl rfl
    have hsb : RefsSound (writeT (writeT s1 tp { t1 with status := TRANS_COMMITTED }) tp
        { t3 with sem := t3.sem + t3.waitcnt.toNat }) (tp :: p) :=
      hsa.of_write (derefT_eq_ok.mp ht3).1 rfl rfl rfl
    obtain ⟨s5, h5, hsh⟩ := trans_unref_sound hsb
    rw [h5] at h4
    cases h4
    exact hsh.1

/-- The reference counts are sound initially and stay sound through the
operations of the transaction manager, when the handles are kept in step:
`trans_create` and `trans_ref` hand out a handle, `trans_unref`, `trans_abort`
and `trans_commit` use one up, and `trans_add_dependency` stores its reference
in the dependency list.  With sound counts `trans_create`, `trans_ref` and
`trans_unref` return. -/
theorem refsSound_preserved (s : State) (tp dtp : Nat) (ext : List Nat)
    (hs : RefsSound s ext) :
    RefsSound State.init [] ∧
    (∃ s2, trans_create s = .ok (s.trans.length, s2) ∧ RefsSound s2 (s.trans.length :: ext)) ∧
    (tp ∈ refsOf s ext → ∃ s2, trans_ref s tp = .ok s2 ∧ RefsSound s2 (tp :: ext)) ∧
    (dtp ∈ refsOf s ext → ∀ s2, trans_add_dependency s tp dtp = .ok s2 → RefsSound s2 ext) ∧
    (tp ∈ ext → ∃ s2, trans_unref s tp = .ok s2 ∧ RefsSound s2 (ext.erase tp)) ∧
    (tp ∈ ext → ∀ st s2, trans_abort s tp = .ok (st, s2) → RefsSound s2 (ext.erase tp)) ∧
    (tp ∈ ext → ∀ st s2, trans_commit s tp = .ok (st, s2) → RefsSound s2 (ext.erase tp)) := by
  refine ⟨by decide, trans_create_sound hs, trans_ref_sound hs,
    fun hm _ h => trans_add_dependency_sound hs hm h, ?_, ?_, ?_⟩
  · intro hm
    obtain ⟨s2, h2, hsh⟩ := trans_unref_sound (hs.of_perm (List.perm_cons_erase hm))
    exact ⟨s2, h2, hsh.1⟩
  · intro hm _ _ h
    exact trans_abort_keeps (hs.of_perm (List.perm_cons_erase hm)) h
  · intro hm _ _ h
    exact trans_commit_keeps (hs.of_perm (List.perm_cons_erase hm)) h

/-- Witness: in `heldTwice` the caller holds two handles on transaction 0;
`trans_unref` returns and leaves one. -/
theorem refsSound_preserved_witness :
    ∃ s2, trans_unref heldTwice 0 = .ok s2 ∧ RefsSound s2 [0] :=
  (refsSound_preserved heldTwice 0 0 [0, 0] (by decide)).2.2.2.2.1 (by decide)

end Xacto
